import Mathlib

/-!
# SCOAP analyzer: a shallow embedding of `Circuit.cpp` and its properties

The development follows the C++ sources `DataStructures.h` and `Circuit.cpp`,
and the instantiation branch of the netlist reader in `FileUtils.h`.

* `std::map<std::string, Net>` is a finite map: the list of its keys in
  iteration order together with the record stored under each key.
  `nets.count(k)` is `k ∈ keys`; `nets.at(k)` is `get k` when `k` is a key and
  raises `std::out_of_range` (here `Fault.outOfRange`) otherwise.
* `int` values are integers; every `+` of the metric code goes through the
  parameter `w : Int → Int`, which is `id` for exact arithmetic and `wrap32`
  for two's-complement 32-bit arithmetic.
* `std::sort` is a stable insertion sort by the comparator.
* `while`/`do-while` loops take a fuel argument; running out of fuel is
  `Fault.fuel`.
-/

namespace Scoap

/-! ## Data model (`DataStructures.h`) -/

/-- The constant `INF`, that is `std::numeric_limits<int>::max() / 2`. -/
def INF : Int := 1073741823

/-- Two's-complement reduction of an integer to the range of a 32-bit `int`. -/
def wrap32 (x : Int) : Int := (x + 2147483648) % 4294967296 - 2147483648

/-- The record `struct Gate`. -/
structure Gate where
  name : String
  type : String
  inputs : List String
  output : String
  level : Int := -1

/-- The record `struct FlipFlop`. -/
structure FlipFlop where
  type : String
  name : String
  clk : String := ""
  q : String := ""
  d : String := ""
  t : String := ""
  j : String := ""
  k : String := ""
  s : String := ""
  r : String := ""

/-- The record `struct Net`. -/
structure Net where
  name : String
  type : String := ""
  drivers : List String := []
  loads : List String := []
  level : Int := -1
  cc0 : Int := INF
  cc1 : Int := INF
  sc0 : Int := INF
  sc1 : Int := INF
  co : Int := INF
  so : Int := INF
  drivenByFlipFlop : Bool := false

/-- The table `std::map<std::string, Net>`: keys in iteration order and the
record stored under each key. -/
structure NetMap where
  keys : List String
  get : String → Net

/-- The data members of `class Circuit`. -/
structure Circuit where
  gates : List Gate
  flipflops : List FlipFlop
  nets : NetMap
  primaryInputs : List String
  primaryOutputs : List String

/-- What makes a run leave the normal path. -/
inductive Fault where
  | outOfRange
  | badIndex
  | fuel
  deriving DecidableEq

/-- Replace the record under key `k` by `f` of it. -/
def NetMap.modify (m : NetMap) (k : String) (f : Net → Net) : NetMap :=
  { m with get := Function.update m.get k (f (m.get k)) }

/-- One pass `for (auto& pair : nets)` that rewrites every stored record by `f`. -/
def NetMap.mapValues (m : NetMap) (f : Net → Net) : NetMap :=
  { m with get := fun k => if k ∈ m.keys then f (m.get k) else m.get k }

/-- The test `net.type == "P" || net.drivenByFlipFlop`. -/
def isSource (n : Net) : Bool := n.type == "P" || n.drivenByFlipFlop

/-! ## `Circuit::findGateByName` and `Circuit::calculateNetLevels` -/

/-- The value of `Gate()`. -/
def emptyGate : Gate := { name := "", type := "", inputs := [], output := "" }

/-- The function `Circuit::findGateByName`: the first gate with the given name, or `Gate()`. -/
def findGateByName (gates : List Gate) (name : String) : Gate :=
  match gates.find? (fun g => g.name == name) with
  | some g => g
  | none => emptyGate

/-- The local state of `calculateNetLevels`: the net table, `bfsQueue` and
`gateInputCounts` (an absent entry reads as `0`, as `operator[]` creates it). -/
structure LevelState where
  nets : NetMap
  queue : List String
  counts : String → Int

/-- The loop `for (const auto& gate : gates) gateInputCounts[gate.name] = gate.inputs.size();`. -/
def initCounts (gates : List Gate) : String → Int :=
  gates.foldl (fun cnt g => Function.update cnt g.name (g.inputs.length : Int)) (fun _ => 0)

/-- The accumulation of `maxInLevel` over the inputs of a gate. -/
def maxInLevel (m : NetMap) (inputs : List String) : Int :=
  inputs.foldl (fun acc inp => if inp ∈ m.keys then max acc (m.get inp).level else acc) 0

/-- The body of `for (const auto& gateName : nets.at(currentNetName).loads)`. -/
def levelVisit (gates : List Gate) (s : LevelState) (gateName : String) : LevelState :=
  let counts := Function.update s.counts gateName (s.counts gateName - 1)
  if counts gateName = 0 then
    let g := findGateByName gates gateName
    if g.name = "" then { s with counts := counts }
    else if g.output ∈ s.nets.keys then
      { nets := s.nets.modify g.output (fun n => { n with level := maxInLevel s.nets g.inputs + 1 })
        queue := s.queue ++ [g.output]
        counts := counts }
    else { s with counts := counts }
  else { s with counts := counts }

/-- The loop `while (!bfsQueue.empty())`. -/
def levelLoop (gates : List Gate) : Nat → LevelState → Except Fault NetMap
  | 0, s => if s.queue = [] then .ok s.nets else .error .fuel
  | fuel + 1, s =>
    match s.queue with
    | [] => .ok s.nets
    | cur :: rest =>
      if cur ∈ s.nets.keys then
        levelLoop gates fuel
          ((s.nets.get cur).loads.foldl (levelVisit gates) { s with queue := rest })
      else .error .outOfRange

/-- The state on entry to the `while` loop of `calculateNetLevels`. -/
def levelInit (c : Circuit) : LevelState :=
  { nets := c.nets.mapValues (fun n => if isSource n then { n with level := 0 } else n)
    queue := (c.nets.keys.filter (fun k => isSource (c.nets.get k))).map
      (fun k => (c.nets.get k).name)
    counts := initCounts c.gates }

/-- The function `Circuit::calculateNetLevels`. -/
def calculateNetLevels (fuel : Nat) (c : Circuit) : Except Fault Circuit :=
  match levelLoop c.gates fuel (levelInit c) with
  | .ok m => .ok { c with nets := m }
  | .error e => .error e

/-! ## Sorting gates by the level of their output net -/

/-- The comparator of the ascending sorts. -/
def levelLess (m : NetMap) (a b : Gate) : Bool :=
  if a.output ∉ m.keys ∨ b.output ∉ m.keys then false
  else decide ((m.get a.output).level < (m.get b.output).level)

/-- The comparator of the descending sorts. -/
def levelGreater (m : NetMap) (a b : Gate) : Bool :=
  if a.output ∉ m.keys ∨ b.output ∉ m.keys then false
  else decide ((m.get a.output).level > (m.get b.output).level)

/-- The call `std::sort(v.begin(), v.end(), comp)`: a stable insertion sort. -/
def stdSort (comp : Gate → Gate → Bool) (v : List Gate) : List Gate :=
  v.insertionSort (fun a b => comp b a = false)

/-- A `for` loop over a sequence whose body may fault: the state is threaded
through and the first fault ends the loop. -/
def sweep {σ α : Type} (step : σ → α → Except Fault σ) : σ → List α → Except Fault σ
  | s, [] => .ok s
  | s, a :: as =>
    match step s a with
    | .ok s' => sweep step s' as
    | .error e => .error e

/-! ## `Circuit::calculateCombinationalControllability` -/

/-- The value `*std::min_element(v.begin(), v.end())` of a non-empty vector. -/
def minElement : List Int → Int
  | [] => 0
  | x :: xs => xs.foldl min x

/-- The value `std::accumulate(v.begin(), v.end(), 0)`. -/
def accumulate (w : Int → Int) (v : List Int) : Int :=
  v.foldl (fun acc x => w (acc + x)) 0

/-- The `if`/`else if` chain on `g.type` of the controllability sweep: the pair
`(out0, out1)` written, `none` when no branch matches, a fault when a vector is
indexed beyond its size. -/
def ccRule (w : Int → Int) (ty : String) (inCC0 inCC1 : List Int) :
    Except Fault (Option (Int × Int)) :=
  if ty = "and" then
    .ok (some (w (1 + minElement inCC0), w (1 + accumulate w inCC1)))
  else if ty = "nand" then
    .ok (some (w (1 + accumulate w inCC1), w (1 + minElement inCC0)))
  else if ty = "or" then
    .ok (some (w (1 + accumulate w inCC0), w (1 + minElement inCC1)))
  else if ty = "nor" then
    .ok (some (w (1 + minElement inCC1), w (1 + accumulate w inCC0)))
  else if ty = "xor" then
    match inCC0, inCC1 with
    | a0 :: b0 :: _, a1 :: b1 :: _ =>
      .ok (some (w (1 + min (w (a0 + b0)) (w (a1 + b1))),
                 w (1 + min (w (a0 + b1)) (w (a1 + b0)))))
    | _, _ => .error .badIndex
  else if ty = "xnor" then
    match inCC0, inCC1 with
    | a0 :: b0 :: _, a1 :: b1 :: _ =>
      .ok (some (w (1 + min (w (a0 + b1)) (w (a1 + b0))),
                 w (1 + min (w (a0 + b0)) (w (a1 + b1)))))
    | _, _ => .error .badIndex
  else if ty = "not" then
    match inCC0, inCC1 with
    | a0 :: _, a1 :: _ => .ok (some (w (1 + a1), w (1 + a0)))
    | _, _ => .error .badIndex
  else if ty = "buf" then
    match inCC0, inCC1 with
    | a0 :: _, a1 :: _ => .ok (some (w (1 + a0), w (1 + a1)))
    | _, _ => .error .badIndex
  else .ok none

/-- The input nets of a gate that are keys of the table. -/
def presentInputs (m : NetMap) (g : Gate) : List String :=
  g.inputs.filter (fun inp => inp ∈ m.keys)

/-- The body of `for (const auto& g : topoGates)` in the controllability sweep. -/
def ccGate (w : Int → Int) (m : NetMap) (g : Gate) : Except Fault NetMap :=
  if g.output ∉ m.keys then .ok m
  else
    let inCC0 := (presentInputs m g).map (fun inp => (m.get inp).cc0)
    let inCC1 := (presentInputs m g).map (fun inp => (m.get inp).cc1)
    if inCC0 = [] ∨ inCC1 = [] then .ok m
    else
      match ccRule w g.type inCC0 inCC1 with
      | .ok (some (out0, out1)) =>
        .ok (m.modify g.output (fun n => { n with cc0 := out0, cc1 := out1 }))
      | .ok none => .ok m
      | .error e => .error e

/-- The first loop of `calculateCombinationalControllability`. -/
def ccInit (m : NetMap) : NetMap :=
  m.mapValues (fun n => if isSource n then { n with cc0 := 1, cc1 := 1 } else n)

/-- The function `Circuit::calculateCombinationalControllability`. -/
def calculateCombinationalControllability (w : Int → Int) (c : Circuit) :
    Except Fault Circuit :=
  let m := ccInit c.nets
  match sweep (ccGate w) m (stdSort (levelLess m) c.gates) with
  | .ok m' => .ok { c with nets := m' }
  | .error e => .error e

/-! ## `Circuit::calculateSequentialControllability` -/

/-- The `if`/`else if` chain on `g.type` of the sequential sweep: the pair
`(new_sc0, new_sc1)`, both `INF` when no branch matches.  The vectors are
non-empty where the code reaches this chain. -/
def scRule (w : Int → Int) (ty : String) (inSC0 inSC1 : List Int) : Int × Int :=
  if ty = "and" then (minElement inSC0, accumulate w inSC1)
  else if ty = "nand" then (accumulate w inSC1, minElement inSC0)
  else if ty = "or" then (accumulate w inSC0, minElement inSC1)
  else if ty = "nor" then (minElement inSC1, accumulate w inSC0)
  else if ty = "not" then
    match inSC0, inSC1 with
    | a0 :: _, a1 :: _ => (a1, a0)
    | _, _ => (INF, INF)
  else if ty = "buf" then
    match inSC0, inSC1 with
    | a0 :: _, a1 :: _ => (a0, a1)
    | _, _ => (INF, INF)
  else (INF, INF)

/-- The guarded store `if (v < nets.at(k).sc0) { nets.at(k).sc0 = v; changed = true; }`. -/
def lowerSc0 (s : NetMap × Bool) (k : String) (v : Int) : NetMap × Bool :=
  if v < (s.1.get k).sc0 then (s.1.modify k (fun n => { n with sc0 := v }), true) else s

/-- The guarded store on `sc1`. -/
def lowerSc1 (s : NetMap × Bool) (k : String) (v : Int) : NetMap × Bool :=
  if v < (s.1.get k).sc1 then (s.1.modify k (fun n => { n with sc1 := v }), true) else s

/-- The body of `for (const auto& g : topoGates)` in the sequential sweep; the
state is the net table and the flag `changed`. -/
def scGate (w : Int → Int) (s : NetMap × Bool) (g : Gate) : NetMap × Bool :=
  if g.output ∉ s.1.keys then s
  else
    let inSC0 := (presentInputs s.1 g).map (fun inp => (s.1.get inp).sc0)
    let inSC1 := (presentInputs s.1 g).map (fun inp => (s.1.get inp).sc1)
    if inSC0 = [] ∨ inSC1 = [] then s
    else
      let new := scRule w g.type inSC0 inSC1
      lowerSc1 (lowerSc0 s g.output new.1) g.output new.2

/-- The body of `for (const auto& ff : flipflops)` in the sequential sweep. -/
def scFlipFlop (w : Int → Int) (s : NetMap × Bool) (ff : FlipFlop) : NetMap × Bool :=
  if ff.q ∉ s.1.keys ∨ ff.d ∉ s.1.keys ∨ ff.clk ∉ s.1.keys then s
  else if ff.type = "dff" then
    let d_sc0 := (s.1.get ff.d).sc0
    let d_sc1 := (s.1.get ff.d).sc1
    let clk_sc0 := (s.1.get ff.clk).sc0
    let clk_sc1 := (s.1.get ff.clk).sc1
    let new_q_sc0 := w (w (w (d_sc0 + clk_sc0) + clk_sc1) + 1)
    let new_q_sc1 := w (w (w (d_sc1 + clk_sc0) + clk_sc1) + 1)
    lowerSc1 (lowerSc0 s ff.q new_q_sc0) ff.q new_q_sc1
  else s

/-- One execution of the body of the `do { ... } while (changed);` loop of
`calculateSequentialControllability`, with the final value of `changed`. -/
def scBody (w : Int → Int) (c : Circuit) (m : NetMap) : NetMap × Bool :=
  c.flipflops.foldl (scFlipFlop w)
    ((stdSort (levelLess m) c.gates).foldl (scGate w) (m, false))

/-- The `do { ... } while (changed);` loop of `calculateSequentialControllability`. -/
def scLoop (w : Int → Int) (c : Circuit) : Nat → NetMap → Except Fault NetMap
  | 0, _ => .error .fuel
  | fuel + 1, m =>
    if (scBody w c m).2 then scLoop w c fuel (scBody w c m).1 else .ok (scBody w c m).1

/-- The first loop of `calculateSequentialControllability`. -/
def scInit (m : NetMap) : NetMap :=
  m.mapValues (fun n => if n.type = "P" then { n with sc0 := 0, sc1 := 0 } else n)

/-- The function `Circuit::calculateSequentialControllability`. -/
def calculateSequentialControllability (w : Int → Int) (fuel : Nat) (c : Circuit) :
    Except Fault Circuit :=
  match scLoop w c fuel (scInit c.nets) with
  | .ok m => .ok { c with nets := m }
  | .error e => .error e

/-! ## `Circuit::calculateCombinationalObservability` -/

/-- The inner loop `for (j ...) { if (i == j) continue; sum += nets.at(g.inputs[j]).f; }`:
the sum of `f` over the input positions other than `i`; `nets.at` raises on an
absent net. -/
def sumOthers (w : Int → Int) (m : NetMap) (f : Net → Int) (inputs : List String) (i : Nat) :
    Except Fault Int :=
  if ∀ x ∈ inputs.eraseIdx i, x ∈ m.keys then
    .ok (accumulate w ((inputs.eraseIdx i).map (fun x => f (m.get x))))
  else .error .outOfRange

/-- The value of `newCO` for input position `i` of gate `g`, with `coY` the
observability read from the output of `g`. -/
def coNew (w : Int → Int) (m : NetMap) (g : Gate) (coY : Int) (i : Nat) : Except Fault Int :=
  if g.type = "and" ∨ g.type = "nand" then
    match sumOthers w m Net.cc1 g.inputs i with
    | .ok sumCC1 => .ok (w (w (coY + sumCC1) + 1))
    | .error e => .error e
  else if g.type = "or" ∨ g.type = "nor" then
    match sumOthers w m Net.cc0 g.inputs i with
    | .ok sumCC0 => .ok (w (w (coY + sumCC0) + 1))
    | .error e => .error e
  else if g.type = "not" ∨ g.type = "buf" then .ok (w (coY + 1))
  else if g.type = "xor" ∨ g.type = "xnor" then
    if g.inputs.length = 2 then
      let other := g.inputs.getD (if i = 0 then 1 else 0) ""
      if other ∈ m.keys then
        .ok (w (w (coY + min (m.get other).cc0 (m.get other).cc1) + 1))
      else .error .outOfRange
    else .ok INF
  else .ok INF

/-- The body of `for (size_t i = 0; i < g.inputs.size(); ++i)` in the
observability sweep. -/
def coVisit (w : Int → Int) (g : Gate) (coY : Int) (m : NetMap) (i : Nat) :
    Except Fault NetMap :=
  let inputNetName := g.inputs.getD i ""
  if inputNetName ∉ m.keys then .ok m
  else
    match coNew w m g coY i with
    | .ok newCO =>
      if newCO < (m.get inputNetName).co then
        .ok (m.modify inputNetName (fun n => { n with co := newCO }))
      else .ok m
    | .error e => .error e

/-- The body of `for (const auto& g : revGates)` in the observability sweep. -/
def coGate (w : Int → Int) (m : NetMap) (g : Gate) : Except Fault NetMap :=
  if g.output ∉ m.keys then .ok m
  else if (m.get g.output).co = INF then .ok m
  else sweep (coVisit w g (m.get g.output).co) m (List.range g.inputs.length)

/-- The function `Circuit::calculateCombinationalObservability`. -/
def calculateCombinationalObservability (w : Int → Int) (c : Circuit) :
    Except Fault Circuit :=
  match sweep (coGate w) c.nets (stdSort (levelGreater c.nets) c.gates) with
  | .ok m => .ok { c with nets := m }
  | .error e => .error e

/-! ## `Circuit::calculateSequentialObservability` -/

/-- The guarded store `if (v < nets.at(k).so) { nets.at(k).so = v; changed = true; }`. -/
def lowerSo (s : NetMap × Bool) (k : String) (v : Int) : NetMap × Bool :=
  if v < (s.1.get k).so then (s.1.modify k (fun n => { n with so := v }), true) else s

/-- The body of `for (const auto& ff : flipflops)` in the sequential
observability loop. -/
def soFlipFlop (w : Int → Int) (s : NetMap × Bool) (ff : FlipFlop) : NetMap × Bool :=
  if ff.q ∉ s.1.keys ∨ ff.d ∉ s.1.keys ∨ ff.clk ∉ s.1.keys then s
  else if (s.1.get ff.q).so = INF then s
  else if ff.type = "dff" then
    let q_so := (s.1.get ff.q).so
    let clk_sc0 := (s.1.get ff.clk).sc0
    let clk_sc1 := (s.1.get ff.clk).sc1
    lowerSo s ff.d (w (w (w (q_so + clk_sc0) + clk_sc1) + 1))
  else s

/-- The value of `newSO` for input position `i` of gate `g`. -/
def soNew (w : Int → Int) (m : NetMap) (g : Gate) (soY : Int) (i : Nat) : Except Fault Int :=
  if g.type = "and" ∨ g.type = "nand" then
    match sumOthers w m Net.sc1 g.inputs i with
    | .ok sumSC1 => .ok (w (soY + sumSC1))
    | .error e => .error e
  else if g.type = "or" ∨ g.type = "nor" then
    match sumOthers w m Net.sc0 g.inputs i with
    | .ok sumSC0 => .ok (w (soY + sumSC0))
    | .error e => .error e
  else if g.type = "not" ∨ g.type = "buf" then .ok soY
  else .ok INF

/-- The body of `for (size_t i = 0; i < g.inputs.size(); ++i)` in the
sequential observability sweep. -/
def soVisit (w : Int → Int) (g : Gate) (soY : Int) (s : NetMap × Bool) (i : Nat) :
    Except Fault (NetMap × Bool) :=
  let inputNetName := g.inputs.getD i ""
  if inputNetName ∉ s.1.keys then .ok s
  else
    match soNew w s.1 g soY i with
    | .ok newSO => .ok (lowerSo s inputNetName newSO)
    | .error e => .error e

/-- The body of `for (const auto& g : revGates)` in the sequential
observability sweep. -/
def soGate (w : Int → Int) (s : NetMap × Bool) (g : Gate) : Except Fault (NetMap × Bool) :=
  if g.output ∉ s.1.keys then .ok s
  else if (s.1.get g.output).so = INF then .ok s
  else sweep (soVisit w g (s.1.get g.output).so) s (List.range g.inputs.length)

/-- One execution of the body of the `do { ... } while (changed);` loop of
`calculateSequentialObservability`, with the final value of `changed`. -/
def soBody (w : Int → Int) (c : Circuit) (m : NetMap) : Except Fault (NetMap × Bool) :=
  let s := c.flipflops.foldl (soFlipFlop w) (m, false)
  sweep (soGate w) s (stdSort (levelGreater s.1) c.gates)

/-- The `do { ... } while (changed);` loop of `calculateSequentialObservability`. -/
def soLoop (w : Int → Int) (c : Circuit) : Nat → NetMap → Except Fault NetMap
  | 0, _ => .error .fuel
  | fuel + 1, m =>
    match soBody w c m with
    | .ok s => if s.2 then soLoop w c fuel s.1 else .ok s.1
    | .error e => .error e

/-- The function `Circuit::calculateSequentialObservability`. -/
def calculateSequentialObservability (w : Int → Int) (fuel : Nat) (c : Circuit) :
    Except Fault Circuit :=
  match soLoop w c fuel c.nets with
  | .ok m => .ok { c with nets := m }
  | .error e => .error e

/-! ## `Circuit::calculateAllScoapMetrics` and `Circuit::detectFeedbackLoops` -/

/-- The loop `for (poName : primaryOutputs) if (nets.count(poName)) nets.at(poName).co = 0;`. -/
def initOutputsCo (c : Circuit) : Circuit :=
  let nets := c.primaryOutputs.foldl
    (fun m po => if po ∈ m.keys then m.modify po (fun n => { n with co := 0 }) else m) c.nets
  { c with nets := nets }

/-- The loop `for (poName : primaryOutputs) if (nets.count(poName)) nets.at(poName).so = 0;`. -/
def initOutputsSo (c : Circuit) : Circuit :=
  let nets := c.primaryOutputs.foldl
    (fun m po => if po ∈ m.keys then m.modify po (fun n => { n with so := 0 }) else m) c.nets
  { c with nets := nets }

/-- The function `Circuit::calculateAllScoapMetrics`. -/
def calculateAllScoapMetrics (w : Int → Int) (fuel : Nat) (c : Circuit) : Except Fault Circuit := do
  let c1 ← calculateNetLevels fuel c
  let c2 ← calculateCombinationalControllability w c1
  let c3 ← calculateSequentialControllability w fuel c2
  let c4 ← calculateCombinationalObservability w (initOutputsCo c3)
  calculateSequentialObservability w fuel (initOutputsSo c4)

/-- The function `Circuit::detectFeedbackLoops`: the value of `feedbackCount` returned. -/
def detectFeedbackLoops (c : Circuit) : Int :=
  c.gates.foldl (fun feedbackCount g =>
    if g.output ∉ c.nets.keys then feedbackCount
    else if (c.nets.get g.output).level = -1 then feedbackCount
    else if g.inputs.any (fun inp =>
        decide (inp ∈ c.nets.keys ∧ (c.nets.get inp).level > (c.nets.get g.output).level))
      then feedbackCount + 1
    else feedbackCount) 0

/-! ## `VerilogParser::parseFile`: declarations and instantiations

A declaration is taken after tokenisation, as its keyword and its list of
names. An instantiation is modelled twice: from its type, instance name and
list of connections (`instantiate`), and from the text of its line, already
stripped of comments and trimmed as the top of the loop of `parseFile` leaves
it (`parseInstantiation`). -/

/-- The exception type `ParsingException`. -/
structure ParsingException where
  message : String

/-- The order `operator<` of `std::string` on the characters of two strings:
lexicographic, a proper initial segment first. -/
def charsLess : List Char → List Char → Bool
  | _, [] => false
  | [], _ :: _ => true
  | a :: as, b :: bs =>
    decide (a.toNat < b.toNat) || (decide (a.toNat = b.toNat) && charsLess as bs)

/-- The place of a new key in the ordered key sequence of a `std::map`. -/
def insertKey (k : String) : List String → List String
  | [] => [k]
  | x :: xs => if charsLess k.data x.data then k :: x :: xs else x :: insertKey k xs

/-- The value of `Net()`: every member with a default initialiser takes it. -/
def defaultNet : Net := { name := "" }

/-- The access `nets[k]`, which inserts `Net()` under `k` when `k` is not a key. -/
def NetMap.index (m : NetMap) (k : String) : NetMap :=
  if k ∈ m.keys then m
  else { keys := insertKey k m.keys, get := Function.update m.get k defaultNet }

/-- The lambda `ensureNet` of `parseFile`. -/
def ensureNet (m : NetMap) (netName : String) : NetMap :=
  if netName = "" then m
  else if netName ∈ m.keys then m
  else (m.index netName).modify netName (fun _ =>
    { name := netName, type := "", drivers := [], loads := [], level := -1, cc0 := INF,
      cc1 := INF, sc0 := INF, sc1 := INF, co := INF, so := INF, drivenByFlipFlop := false })

/-- The circuit before the first line of the netlist is read. -/
def emptyCircuit : Circuit :=
  { gates := [], flipflops := [], nets := { keys := [], get := fun _ => defaultNet },
    primaryInputs := [], primaryOutputs := [] }

/-- The branch of `parseFile` for a declaration `input`, `output` or `wire`
with the names `names`. -/
def declare (declaration_type : String) (names : List String) (c : Circuit) : Circuit :=
  names.foldl (fun c n =>
    let nets := ensureNet c.nets n
    if declaration_type = "input" then
      { c with nets := (nets.index n).modify n (fun r => { r with type := "P" })
               primaryInputs := c.primaryInputs ++ [n] }
    else if declaration_type = "output" then
      { c with nets := (nets.index n).modify n (fun r => { r with type := "O" })
               primaryOutputs := c.primaryOutputs ++ [n] }
    else { c with nets := nets }) c

/-- The flip-flop branch of an instantiation. -/
def addFlipFlop (type name : String) (connections : List String) (c : Circuit) : Circuit :=
  let ff : FlipFlop :=
    if type = "dff" ∧ 3 ≤ connections.length then
      { type := type, name := name, clk := connections.getD 0 "", q := connections.getD 1 "",
        d := connections.getD 2 "" }
    else { type := type, name := name }
  let nets := ensureNet (ensureNet (ensureNet c.nets ff.clk) ff.q) ff.d
  { c with nets := (nets.index ff.q).modify ff.q (fun r => { r with drivenByFlipFlop := true })
           flipflops := c.flipflops ++ [ff] }

/-- The combinational-gate branch of an instantiation. -/
def addGate (type name : String) (connections : List String) (c : Circuit) : Circuit :=
  match connections with
  | [] => c
  | output :: inputs =>
    let gate : Gate := { name := name, type := type, inputs := inputs, output := output }
    let nets := ((ensureNet c.nets output).index output).modify output
      (fun r => { r with drivers := r.drivers ++ [name] })
    let nets := inputs.foldl (fun m inp =>
      ((ensureNet m inp).index inp).modify inp (fun r => { r with loads := r.loads ++ [name] }))
      nets
    { c with nets := nets, gates := c.gates ++ [gate] }

/-- The branch of `parseFile` for an instantiation `type name (connections);`.
It contains no `throw`. -/
def instantiate (type name : String) (connections : List String) (c : Circuit) :
    Except ParsingException Circuit :=
  if type = "dff" ∨ type = "tff" ∨ type = "jkff" ∨ type = "srff" then
    .ok (addFlipFlop type name connections c)
  else .ok (addGate type name connections c)

/-- The characters `std::isspace` accepts in the default locale: space and
the control characters 9 to 13. -/
def isSpace (ch : Char) : Bool := ch.toNat = 32 || (9 ≤ ch.toNat && ch.toNat ≤ 13)

/-- The characters `trim` strips: space, tab, line feed, carriage return. -/
def isTrimmed (ch : Char) : Bool :=
  ch.toNat = 32 || ch.toNat = 9 || ch.toNat = 10 || ch.toNat = 13

/-- The function `trim` of `FileUtils.h`. -/
def trim (s : List Char) : List Char :=
  ((s.dropWhile isTrimmed).reverse.dropWhile isTrimmed).reverse

/-- The pieces `getline(ss, item, ',')` reads one after the other; `cur` holds
the piece being read, in reverse. -/
def commaPieces : List Char → List Char → List (List Char)
  | cur, [] => [cur.reverse]
  | cur, ch :: rest =>
    if ch.toNat = 44 then cur.reverse :: commaPieces [] rest else commaPieces (ch :: cur) rest

/-- The function `splitCommaList` of `FileUtils.h`: the trimmed, non-empty
pieces between commas. -/
def splitCommaList (s : List Char) : List String :=
  (((commaPieces [] s).map trim).filter (fun item => item ≠ [])).map String.mk

/-- One extraction `line_ss >> word`: white space is skipped, then the
characters up to the next white space are read; the rest of the stream is
returned with the word. -/
def extractWord (s : List Char) : List Char × List Char :=
  ((s.dropWhile isSpace).takeWhile (fun ch => !isSpace ch),
    (s.dropWhile isSpace).dropWhile (fun ch => !isSpace ch))

/-- The position `line.rfind(ch)`, when there is one. -/
def rfind (s : List Char) (ch : Char) : Option Nat :=
  if ch ∈ s then some (s.length - 1 - s.reverse.indexOf ch) else none

/-- The instantiation branch of `parseFile` on a line that is not a
declaration: the guard `line.find('(') != npos && line.back() == ';'`, the
extraction of type and name, the connection list between the first `(` and the
last `)`, and the dispatch on the type. A line that fails the guard is passed
over. -/
def parseInstantiation (line : String) (c : Circuit) : Except ParsingException Circuit :=
  let s := line.data
  if Char.ofNat 40 ∈ s ∧ s.getLast? = some (Char.ofNat 59) then
    let type := (extractWord s).1
    let name := (extractWord (extractWord s).2).1
    let paren_start := s.indexOf (Char.ofNat 40)
    match rfind s (Char.ofNat 41) with
    | none => .ok c
    | some paren_end =>
      let connections_str :=
        if paren_start < paren_end then (s.drop (paren_start + 1)).take (paren_end - paren_start - 1)
        else s.drop (paren_start + 1)
      instantiate (String.mk type) (String.mk name) (splitCommaList connections_str) c
  else .ok c

/-! ## Circuits of the data model -/

/-- The net table is keyed uniquely by net name: no key occurs twice and the
record under a key carries that key as its `name`. -/
def Keyed (m : NetMap) : Prop :=
  m.keys.Nodup ∧ ∀ k ∈ m.keys, (m.get k).name = k

/-- A well-formed circuit: nets keyed by their names, unique gate names, every
net named by a gate exists, each net's `loads` holds a gate once per occurrence
of the net among the gate's inputs, every net is the output of at most one
gate, and no gate output is a primary input or a flip-flop `q` net. -/
structure WellFormed (c : Circuit) : Prop where
  keyed : Keyed c.nets
  uniqueNames : (c.gates.map Gate.name).Nodup
  refs : ∀ g ∈ c.gates, g.output ∈ c.nets.keys ∧ ∀ x ∈ g.inputs, x ∈ c.nets.keys
  loads : ∀ k ∈ c.nets.keys, ∀ g ∈ c.gates, (c.nets.get k).loads.count g.name = g.inputs.count k
  singleDriver : (c.gates.map Gate.output).Nodup
  noDrivenSource : ∀ g ∈ c.gates, isSource (c.nets.get g.output) = false

/-- Every gate has the input count its type needs: two for `xor`/`xnor`, one
for `not`/`buf`, at least one for `and`/`nand`/`or`/`nor`. -/
def ArityOk (g : Gate) : Prop :=
  ((g.type = "xor" ∨ g.type = "xnor") → g.inputs.length = 2) ∧
  ((g.type = "not" ∨ g.type = "buf") → g.inputs.length = 1) ∧
  ((g.type = "and" ∨ g.type = "nand" ∨ g.type = "or" ∨ g.type = "nor") → 1 ≤ g.inputs.length)

/-- The closed set of gate types. -/
def knownTypes : List String := ["and", "nand", "or", "nor", "xor", "xnor", "not", "buf"]

/-- Every input net named by a gate is a key of the table. -/
def InputsExist (gates : List Gate) (m : NetMap) : Prop :=
  ∀ g ∈ gates, ∀ x ∈ g.inputs, x ∈ m.keys

/-- Every level of the table is `-1`, as the netlist reader leaves it. -/
def FreshLevels (m : NetMap) : Prop := ∀ k ∈ m.keys, (m.get k).level = -1

/-- Every metric of the table is `INF`, as the netlist reader leaves it. -/
def FreshMetrics (m : NetMap) : Prop :=
  ∀ k ∈ m.keys, (m.get k).cc0 = INF ∧ (m.get k).cc1 = INF ∧ (m.get k).sc0 = INF ∧
    (m.get k).sc1 = INF ∧ (m.get k).co = INF ∧ (m.get k).so = INF

/-- No sequential controllability and no observability stored in the table
exceeds `INF`, the value every such field starts with. -/
def Capped (m : NetMap) : Prop :=
  ∀ k ∈ m.keys, (m.get k).sc0 ≤ INF ∧ (m.get k).sc1 ≤ INF ∧ (m.get k).co ≤ INF ∧
    (m.get k).so ≤ INF

/-- The arithmetic `w` keeps sums of values `≥ B` at `≥ B`, with `B ≤ 0`.  Exact
arithmetic does so for `B = 0`, 32-bit wrapping for `B = -2^31`. -/
def ArithLB (w : Int → Int) (B : Int) : Prop :=
  B ≤ 0 ∧ ∀ x y, B ≤ x → B ≤ y → B ≤ w (x + y)

/-- The arithmetic `w` returns the plain result wherever a 32-bit `int` holds it
without overflow.  Exact arithmetic and 32-bit wrapping both do. -/
def ExactInRange (w : Int → Int) : Prop :=
  ∀ x, -2147483648 ≤ x → x ≤ 2147483647 → w x = x

/-- Every metric stored in the table is at least `B`. -/
def MetricsLB (B : Int) (m : NetMap) : Prop :=
  ∀ k ∈ m.keys, B ≤ (m.get k).cc0 ∧ B ≤ (m.get k).cc1 ∧ B ≤ (m.get k).sc0 ∧
    B ≤ (m.get k).sc1 ∧ B ≤ (m.get k).co ∧ B ≤ (m.get k).so

/-! ## The tables of the specification -/

/-- The smallest element of a non-empty list of integers. -/
def listMin : List Int → Int
  | [] => 0
  | [x] => x
  | x :: y :: l => min x (listMin (y :: l))

/-- The largest element of a non-empty list of integers. -/
def listMax : List Int → Int
  | [] => 0
  | [x] => x
  | x :: y :: l => max x (listMax (y :: l))

/-- The fan-in recurrence at gate `g`: every input has a defined level below the
level of the output, and the output level is one more than some input level. -/
def LevelRec (m : NetMap) (g : Gate) : Prop :=
  (∀ x ∈ g.inputs, 0 ≤ (m.get x).level ∧ (m.get x).level < (m.get g.output).level) ∧
  ∃ x ∈ g.inputs, (m.get g.output).level = 1 + (m.get x).level

/-- The controllability table of the specification, in exact arithmetic: the
pair `(CC0(out), CC1(out))` for a gate type and the lists of its inputs' `CC0`
and `CC1`. -/
def ccTable (ty : String) (cc0s cc1s : List Int) : Option (Int × Int) :=
  if ty = "and" then some (1 + listMin cc0s, 1 + cc1s.sum)
  else if ty = "nand" then some (1 + cc1s.sum, 1 + listMin cc0s)
  else if ty = "or" then some (1 + cc0s.sum, 1 + listMin cc1s)
  else if ty = "nor" then some (1 + listMin cc1s, 1 + cc0s.sum)
  else if ty = "xor" then
    match cc0s, cc1s with
    | [a0, b0], [a1, b1] => some (1 + min (a0 + b0) (a1 + b1), 1 + min (a0 + b1) (a1 + b0))
    | _, _ => none
  else if ty = "xnor" then
    match cc0s, cc1s with
    | [a0, b0], [a1, b1] => some (1 + min (a0 + b1) (a1 + b0), 1 + min (a0 + b0) (a1 + b1))
    | _, _ => none
  else if ty = "not" then
    match cc0s, cc1s with
    | [a0], [a1] => some (1 + a1, 1 + a0)
    | _, _ => none
  else if ty = "buf" then
    match cc0s, cc1s with
    | [a0], [a1] => some (1 + a0, 1 + a1)
    | _, _ => none
  else none

/-- The sequential table of the specification, in exact arithmetic: the rows of
the controllability table without the `+1`, read on the inputs' `SC0` and `SC1`. -/
def scTable (ty : String) (sc0s sc1s : List Int) : Option (Int × Int) :=
  if ty = "and" then some (listMin sc0s, sc1s.sum)
  else if ty = "nand" then some (sc1s.sum, listMin sc0s)
  else if ty = "or" then some (sc0s.sum, listMin sc1s)
  else if ty = "nor" then some (listMin sc1s, sc0s.sum)
  else if ty = "xor" then
    match sc0s, sc1s with
    | [a0, b0], [a1, b1] => some (min (a0 + b0) (a1 + b1), min (a0 + b1) (a1 + b0))
    | _, _ => none
  else if ty = "xnor" then
    match sc0s, sc1s with
    | [a0, b0], [a1, b1] => some (min (a0 + b1) (a1 + b0), min (a0 + b0) (a1 + b1))
    | _, _ => none
  else if ty = "not" then
    match sc0s, sc1s with
    | [a0], [a1] => some (a1, a0)
    | _, _ => none
  else if ty = "buf" then
    match sc0s, sc1s with
    | [a0], [a1] => some (a0, a1)
    | _, _ => none
  else none

/-- The contribution of input position `i` of gate `g` to the observability of
the net at that position, in exact arithmetic: `CO(Y) + 1 + Σ_{j≠i} CC1` for
`and`/`nand`, `CO(Y) + 1 + Σ_{j≠i} CC0` for `or`/`nor`, `CO(Y) + 1` for
`not`/`buf`, `CO(Y) + 1 + min(CC0(other), CC1(other))` for a 2-input
`xor`/`xnor`; `INF`, which is neutral for the minimum with `INF`, where the
table has no row. -/
def coContribution (m : NetMap) (g : Gate) (i : Nat) : Int :=
  if g.type = "and" ∨ g.type = "nand" then
    (m.get g.output).co + 1 + ((g.inputs.eraseIdx i).map (fun x => (m.get x).cc1)).sum
  else if g.type = "or" ∨ g.type = "nor" then
    (m.get g.output).co + 1 + ((g.inputs.eraseIdx i).map (fun x => (m.get x).cc0)).sum
  else if g.type = "not" ∨ g.type = "buf" then (m.get g.output).co + 1
  else if (g.type = "xor" ∨ g.type = "xnor") ∧ g.inputs.length = 2 then
    (m.get g.output).co + 1 +
      min (m.get (g.inputs.getD (1 - i) "")).cc0 (m.get (g.inputs.getD (1 - i) "")).cc1
  else INF

/-- The contributions to net `x`: one for every gate `g` with `co(output(g)) ≠ INF`
and every input position `i` of `g` that holds `x`. -/
def coCandidates (c : Circuit) (x : String) : List Int :=
  c.gates.flatMap (fun g =>
    if (c.nets.get g.output).co = INF then []
    else ((List.range g.inputs.length).filter (fun i => g.inputs.getD i "" = x)).map
      (coContribution c.nets g))

/-- The value `min(INF, minimum of the contributions to x)`. -/
def coSpec (c : Circuit) (x : String) : Int :=
  (coCandidates c x).foldl min INF

/-- Net `n` is reached from a primary input or a flip-flop output by a chain of
gates, each step going from one of a gate's input nets to its output net. -/
inductive Reachable (c : Circuit) : String → Prop
  | source {k : String} : k ∈ c.nets.keys → isSource (c.nets.get k) = true → Reachable c k
  | step {g : Gate} {x : String} : g ∈ c.gates → x ∈ g.inputs → Reachable c x →
      Reachable c g.output

/-- Net `n` is a primary input or a flip-flop output, or the output of a named
gate with at least one input all of whose input nets are grounded in turn. -/
inductive Grounded (c : Circuit) : String → Prop
  | source {k : String} : k ∈ c.nets.keys → isSource (c.nets.get k) = true → Grounded c k
  | gate {g : Gate} : g ∈ c.gates → g.inputs ≠ [] → g.name ≠ "" →
      (∀ x ∈ g.inputs, Grounded c x) → Grounded c g.output

/-! ## What a pass leaves unchanged -/

/-- Table `m'` differs from `m` at most in the `level` fields. -/
def SameButLevel (m m' : NetMap) : Prop :=
  m'.keys = m.keys ∧ ∀ k, m'.get k = { m.get k with level := (m'.get k).level }

/-- Table `m'` differs from `m` at most in the `cc0` and `cc1` fields. -/
def SameButCC (m m' : NetMap) : Prop :=
  m'.keys = m.keys ∧
  ∀ k, m'.get k = { m.get k with cc0 := (m'.get k).cc0, cc1 := (m'.get k).cc1 }

/-- Table `m'` differs from `m` at most in the `sc0` and `sc1` fields. -/
def SameButSC (m m' : NetMap) : Prop :=
  m'.keys = m.keys ∧
  ∀ k, m'.get k = { m.get k with sc0 := (m'.get k).sc0, sc1 := (m'.get k).sc1 }

/-- Table `m'` differs from `m` at most in the `co` fields. -/
def SameButCO (m m' : NetMap) : Prop :=
  m'.keys = m.keys ∧ ∀ k, m'.get k = { m.get k with co := (m'.get k).co }

/-- Table `m'` differs from `m` at most in the `so` fields. -/
def SameButSO (m m' : NetMap) : Prop :=
  m'.keys = m.keys ∧ ∀ k, m'.get k = { m.get k with so := (m'.get k).so }

/-- The sequential controllabilities of the running state `s` are those of the
table `m0` the loop body started from, possibly lowered; nothing else differs. -/
structure ScMono (m0 : NetMap) (s : NetMap × Bool) : Prop where
  frame : SameButSC m0 s.1
  le0 : ∀ k, (s.1.get k).sc0 ≤ (m0.get k).sc0
  le1 : ∀ k, (s.1.get k).sc1 ≤ (m0.get k).sc1

/-- The combinational observabilities of `m` are those of `m0`, possibly
lowered; nothing else differs. -/
structure CoMono (m0 m : NetMap) : Prop where
  frame : SameButCO m0 m
  le : ∀ k, (m.get k).co ≤ (m0.get k).co

/-- The sequential observabilities of the running state `s` are those of `m0`,
possibly lowered; nothing else differs. -/
structure SoMono (m0 : NetMap) (s : NetMap × Bool) : Prop where
  frame : SameButSO m0 s.1
  le : ∀ k, (s.1.get k).so ≤ (m0.get k).so

/-! ## Loop invariants and measures -/

/-- The number of input positions of `g` whose net is still without a level or
waits in `pend`. -/
def pendingInputs (m : NetMap) (pend : List String) (g : Gate) : Nat :=
  g.inputs.countP (fun x => decide ((m.get x).level < 0 ∨ x ∈ pend))

/-- The loop invariant of `calculateNetLevels` on a well-formed circuit `c`:
`pre` is the net being expanded (or nothing), `seen` the part of its loads
already visited. -/
structure LevelInv (c : Circuit) (pre seen : List String) (s : LevelState) : Prop where
  keys : s.nets.keys = c.nets.keys
  frame : ∀ k, s.nets.get k = { c.nets.get k with level := (s.nets.get k).level }
  pendKeys : ∀ x ∈ pre ++ s.queue, x ∈ c.nets.keys ∧ 0 ≤ (s.nets.get x).level
  pendNodup : (pre ++ s.queue).Nodup
  counts : ∀ g ∈ c.gates,
    s.counts g.name = (pendingInputs s.nets (pre ++ s.queue) g : Int) - (seen.count g.name : Int)
  fired : ∀ g ∈ c.gates,
    (0 ≤ (s.nets.get g.output).level ↔ (s.counts g.name = 0 ∧ g.inputs ≠ [] ∧ g.name ≠ ""))
  recur : ∀ g ∈ c.gates, 0 ≤ (s.nets.get g.output).level → LevelRec s.nets g

/-- The number of gate names whose remaining-input counter is still positive. -/
def openCounters (gates : List Gate) (counts : String → Int) : Nat :=
  ((gates.map Gate.name).toFinset.filter (fun n => 1 ≤ counts n)).card

/-- The total distance of the sequential controllabilities from the bound `B`. -/
def scMeasure (B : Int) (m : NetMap) : Nat :=
  (m.keys.map (fun k => ((m.get k).sc0 - B).toNat + ((m.get k).sc1 - B).toNat)).sum

/-- The total distance of the sequential observabilities from the bound `B`. -/
def soMeasure (B : Int) (m : NetMap) : Nat :=
  (m.keys.map (fun k => ((m.get k).so - B).toNat)).sum

/-- The running state keeps the lower bound `B`, and a set flag `changed` means
the measure has dropped below that of the start `m0`. -/
structure ScProg (B : Int) (m0 : NetMap) (s : NetMap × Bool) : Prop where
  lb : MetricsLB B s.1
  dec : s.2 = true → scMeasure B s.1 < scMeasure B m0

/-- The running state keeps the lower bound `B`, and a set flag `changed` means
the measure has dropped below that of the start `m0`. -/
structure SoProg (B : Int) (m0 : NetMap) (s : NetMap × Bool) : Prop where
  lb : MetricsLB B s.1
  dec : s.2 = true → soMeasure B s.1 < soMeasure B m0

/-- The pair `(new_sc0, new_sc1)` of gate `g` on table `m`, in exact
arithmetic, when every input of `g` is in the table. -/
def scNew (m : NetMap) (g : Gate) : Int × Int :=
  scRule id g.type (g.inputs.map (fun x => (m.get x).sc0)) (g.inputs.map (fun x => (m.get x).sc1))

/-- The invariant of the inner loop of the observability sweep at gate `g`
started from table `m`: `seen` are the input positions already visited. -/
structure CoVisitInv (m : NetMap) (g : Gate) (seen : List Nat) (t : NetMap) : Prop where
  mono : CoMono m t
  others : ∀ k, k ∉ g.inputs → t.get k = m.get k
  upper : ∀ i ∈ seen, (t.get (g.inputs.getD i "")).co ≤ coContribution t g i
  attained : ∀ x, (t.get x).co = (m.get x).co ∨
    ∃ i ∈ seen, g.inputs.getD i "" = x ∧ (t.get x).co = coContribution t g i

/-- The invariant of the observability sweep started from table `m0`: `done`
are the gates already swept. -/
structure CoInv (m0 : NetMap) (done : List Gate) (m : NetMap) : Prop where
  mono : CoMono m0 m
  upper : ∀ g ∈ done, ∀ i, i < g.inputs.length → (m.get g.output).co ≠ INF →
    (m.get (g.inputs.getD i "")).co ≤ coContribution m g i
  attained : ∀ x, (m.get x).co = (m0.get x).co ∨
    ∃ g ∈ done, ∃ i, i < g.inputs.length ∧ g.inputs.getD i "" = x ∧
      (m.get g.output).co ≠ INF ∧ (m.get x).co = coContribution m g i

/-! ## Scenario circuits -/

/-- A net as the netlist reader creates it: level `-1`, all metrics `INF`. -/
def freshNet (name type : String) (loads drivers : List String) (ff : Bool) : Net :=
  { name := name, type := type, drivers := drivers, loads := loads, drivenByFlipFlop := ff }

/-- A net table from a list of nets keyed by their names. -/
def netTable (l : List Net) : NetMap :=
  { keys := l.map Net.name
    get := fun k => match l.find? (fun n => n.name == k) with
      | some n => n
      | none => { name := "" } }

/-- Scenario S1: `input p, q; output y; and g1(y, p, q);`. -/
def s1 : Circuit :=
  { gates := [{ name := "g1", type := "and", inputs := ["p", "q"], output := "y" }]
    flipflops := []
    nets := netTable [freshNet "p" "P" ["g1"] [] false, freshNet "q" "P" ["g1"] [] false,
      freshNet "y" "O" [] ["g1"] false]
    primaryInputs := ["p", "q"]
    primaryOutputs := ["y"] }

/-- Scenario S3: `input a, b; output y; xor g1(y, a, b);`. -/
def s3 : Circuit :=
  { gates := [{ name := "g1", type := "xor", inputs := ["a", "b"], output := "y" }]
    flipflops := []
    nets := netTable [freshNet "a" "P" ["g1"] [] false, freshNet "b" "P" ["g1"] [] false,
      freshNet "y" "O" [] ["g1"] false]
    primaryInputs := ["a", "b"]
    primaryOutputs := ["y"] }

/-- Scenario S4: `input clk; output y; dff ff1(clk, x, y); not g1(y, x);`. -/
def s4 : Circuit :=
  { gates := [{ name := "g1", type := "not", inputs := ["x"], output := "y" }]
    flipflops := [{ type := "dff", name := "ff1", clk := "clk", q := "x", d := "y" }]
    nets := netTable [freshNet "clk" "P" [] [] false, freshNet "x" "" ["g1"] [] true,
      freshNet "y" "O" [] ["g1"] false]
    primaryInputs := ["clk"]
    primaryOutputs := ["y"] }

/-- A primary input driven by a gate: `input p, a; buf g1(p, a);`. -/
def drivenInput : Circuit :=
  { gates := [{ name := "g1", type := "buf", inputs := ["a"], output := "p" }]
    flipflops := []
    nets := netTable [freshNet "a" "P" ["g1"] [] false, freshNet "p" "P" [] ["g1"] false]
    primaryInputs := ["p", "a"]
    primaryOutputs := [] }

/-- An AND gate with a floating input: `input p; output y; wire a; and g1(y, p, a);`. -/
def floatingAnd : Circuit :=
  { gates := [{ name := "g1", type := "and", inputs := ["p", "a"], output := "y" }]
    flipflops := []
    nets := netTable [freshNet "a" "" ["g1"] [] false, freshNet "p" "P" ["g1"] [] false,
      freshNet "y" "O" [] ["g1"] false]
    primaryInputs := ["p"]
    primaryOutputs := ["y"] }

/-- Scenario S5: `input a; and g1(y, a, y);`, a gate that reads its own output. -/
def s5 : Circuit :=
  { gates := [{ name := "g1", type := "and", inputs := ["a", "y"], output := "y" }]
    flipflops := []
    nets := netTable [freshNet "a" "P" ["g1"] [] false, freshNet "y" "" ["g1"] ["g1"] false]
    primaryInputs := ["a"]
    primaryOutputs := [] }

/-- Net `i` of an inverter chain of `k` gates: `nm 0` is the primary input,
`nm k` the primary output, net `i` is driven by gate `i - 1` and loads gate `i`. -/
def chainNet (nm gn : Nat → String) (k i : Nat) : Net :=
  { name := nm i
    type := if i = 0 then "P" else if i = k then "O" else ""
    drivers := if i = 0 then [] else [gn (i - 1)]
    loads := if i < k then [gn i] else [] }

/-- Gate `i` of an inverter chain: `not (nm (i + 1), nm i)` under the name `gn i`. -/
def chainGate (nm gn : Nat → String) (i : Nat) : Gate :=
  { name := gn i, type := "not", inputs := [nm i], output := nm (i + 1) }

/-- The inverter chain of `k` gates over the net names `nm 0, …, nm k` and the
gate names `gn 0, …, gn (k - 1)`, with the keys of the table in the order of a
`std::map`. -/
def chain (nm gn : Nat → String) (k : Nat) : Circuit :=
  { gates := (List.range k).map (chainGate nm gn)
    flipflops := []
    nets :=
      { keys := ((List.range (k + 1)).map nm).foldr insertKey []
        get := (netTable ((List.range (k + 1)).map (chainNet nm gn k))).get }
    primaryInputs := [nm 0]
    primaryOutputs := [nm k] }

/-- The net names of scenario S2: `p`, `n1`, `n2`, `n3`. -/
def s2Nets (i : Nat) : String := ["p", "n1", "n2", "n3"].getD i ""

/-- Gate names for scenario S2: `g1`, `g2`, `g3`. -/
def s2Gates (i : Nat) : String := ["g1", "g2", "g3"].getD i ""

/-- The name made of `i + 1` copies of the character `ch`. -/
def unary (ch : Char) (i : Nat) : String := String.mk (List.replicate (i + 1) ch)

/-- A circuit whose gate output and whose flip-flop clock and data nets are not
in the table: gate `and g1(y, a, b)` and flip-flop `dff ff1` with `clk = c`,
`q = x`, `d = z`, over a table that holds `a`, `b` and `x` only. -/
def missingOutput : Circuit :=
  { gates := [{ name := "g1", type := "and", inputs := ["a", "b"], output := "y" }]
    flipflops := [{ type := "dff", name := "ff1", clk := "c", q := "x", d := "z" }]
    nets := netTable [freshNet "a" "P" ["g1"] [] false, freshNet "b" "P" ["g1"] [] false,
      freshNet "x" "O" [] [] true]
    primaryInputs := ["a", "b"]
    primaryOutputs := ["x"] }

/-- An inverter on a floating wire: `output y; wire a; not g1(y, a);`. -/
def floatingNot : Circuit :=
  { gates := [{ name := "g1", type := "not", inputs := ["a"], output := "y" }]
    flipflops := []
    nets := netTable [freshNet "a" "" ["g1"] [] false, freshNet "y" "O" [] ["g1"] false]
    primaryInputs := []
    primaryOutputs := ["y"] }

/-- An AND gate of a primary input and two floating wires:
`input p; output y; wire a, b; and g1(y, p, a, b);`. -/
def overflowAnd : Circuit :=
  { gates := [{ name := "g1", type := "and", inputs := ["p", "a", "b"], output := "y" }]
    flipflops := []
    nets := netTable [freshNet "a" "" ["g1"] [] false, freshNet "b" "" ["g1"] [] false,
      freshNet "p" "P" ["g1"] [] false, freshNet "y" "O" [] ["g1"] false]
    primaryInputs := ["p"]
    primaryOutputs := ["y"] }

/-- A flip-flop whose clock and data nets are floating wires:
`output x; wire c, z; dff ff1(c, x, z);`. -/
def floatingDff : Circuit :=
  { gates := []
    flipflops := [{ type := "dff", name := "ff1", clk := "c", q := "x", d := "z" }]
    nets := netTable [freshNet "c" "" [] [] false, freshNet "x" "O" [] [] true,
      freshNet "z" "" [] [] false]
    primaryInputs := []
    primaryOutputs := ["x"] }

/-- A flip-flop clocked by the output of a flip-flop on floating wires:
`output q; wire c0, z0, d; dff ffA(c0, clk, z0); dff ffB(clk, q, d);`. -/
def clockedByFloating : Circuit :=
  { gates := []
    flipflops := [{ type := "dff", name := "ffA", clk := "c0", q := "clk", d := "z0" },
      { type := "dff", name := "ffB", clk := "clk", q := "q", d := "d" }]
    nets := netTable [freshNet "c0" "" [] [] false, freshNet "clk" "" [] [] true,
      freshNet "d" "" [] [] false, freshNet "q" "O" [] [] true, freshNet "z0" "" [] [] false]
    primaryInputs := []
    primaryOutputs := ["q"] }

/-! ## Basic facts about the net table -/

theorem modify_keys (m : NetMap) (k : String) (f : Net → Net) : (m.modify k f).keys = m.keys := rfl

theorem modify_get_same (m : NetMap) (k : String) (f : Net → Net) :
    (m.modify k f).get k = f (m.get k) := by
  simp [NetMap.modify]

theorem modify_get_ne (m : NetMap) {k k' : String} (f : Net → Net) (h : k' ≠ k) :
    (m.modify k f).get k' = m.get k' := by
  simp [NetMap.modify, h]

theorem mapValues_keys (m : NetMap) (f : Net → Net) : (m.mapValues f).keys = m.keys := rfl

theorem mapValues_get_mem (m : NetMap) (f : Net → Net) {k : String} (h : k ∈ m.keys) :
    (m.mapValues f).get k = f (m.get k) := by
  simp [NetMap.mapValues, h]

theorem mapValues_get_not_mem (m : NetMap) (f : Net → Net) {k : String} (h : k ∉ m.keys) :
    (m.mapValues f).get k = m.get k := by
  simp [NetMap.mapValues, h]

/-! ## `findGateByName` and `initCounts` -/

theorem findGateByName_cases (gates : List Gate) (n : String) :
    findGateByName gates n = emptyGate ∨
      (findGateByName gates n ∈ gates ∧ (findGateByName gates n).name = n) := by
  unfold findGateByName
  cases h : gates.find? (fun g => g.name == n) with
  | none => exact Or.inl rfl
  | some g =>
    right
    refine ⟨List.mem_of_find?_eq_some h, ?_⟩
    have := List.find?_some h
    simpa using this

theorem findGateByName_of_mem {gates : List Gate} (hn : (gates.map Gate.name).Nodup)
    {g : Gate} (hg : g ∈ gates) : findGateByName gates g.name = g := by
  induction gates with
  | nil => cases hg
  | cons a l ih =>
    rw [List.map_cons, List.nodup_cons] at hn
    unfold findGateByName
    by_cases ha : a.name = g.name
    · have hag : a = g := by
        rcases List.mem_cons.1 hg with h | h
        · exact h.symm
        · exact absurd (ha ▸ List.mem_map_of_mem Gate.name h) hn.1
      simp [List.find?_cons, hag]
    · have hg' : g ∈ l := by
        rcases List.mem_cons.1 hg with h | h
        · exact absurd (h ▸ rfl) ha
        · exact h
      have := ih hn.2 hg'
      unfold findGateByName at this
      have hb : (a.name == g.name) = false := by simpa using ha
      simpa [List.find?_cons, hb] using this

theorem initCounts_foldl_not_mem (gates : List Gate) (cnt : String → Int) (n : String)
    (h : n ∉ gates.map Gate.name) :
    gates.foldl (fun cnt g => Function.update cnt g.name (g.inputs.length : Int)) cnt n = cnt n := by
  induction gates generalizing cnt with
  | nil => rfl
  | cons a l ih =>
    simp only [List.map_cons, List.mem_cons, not_or] at h
    rw [List.foldl_cons, ih _ h.2]
    exact Function.update_noteq h.1 _ _

theorem initCounts_of_mem {gates : List Gate} (hn : (gates.map Gate.name).Nodup)
    {g : Gate} (hg : g ∈ gates) : initCounts gates g.name = (g.inputs.length : Int) := by
  unfold initCounts
  generalize (fun _ => (0 : Int)) = cnt
  induction gates generalizing cnt with
  | nil => cases hg
  | cons a l ih =>
    rw [List.map_cons, List.nodup_cons] at hn
    rw [List.foldl_cons]
    rcases List.mem_cons.1 hg with h | h
    · subst h
      rw [initCounts_foldl_not_mem _ _ _ hn.1]
      exact Function.update_same _ _ _
    · exact ih hn.2 h _

/-! ## `maxInLevel` -/

theorem maxInLevel_foldl_ge (m : NetMap) (inputs : List String) (a : Int) :
    a ≤ inputs.foldl (fun acc inp => if inp ∈ m.keys then max acc (m.get inp).level else acc) a := by
  induction inputs generalizing a with
  | nil => exact le_refl _
  | cons x l ih =>
    rw [List.foldl_cons]
    refine le_trans ?_ (ih _)
    split
    · exact le_max_left _ _
    · exact le_refl _

theorem maxInLevel_foldl_bound (m : NetMap) (inputs : List String) (a : Int)
    (hk : ∀ x ∈ inputs, x ∈ m.keys) :
    ∀ x ∈ inputs, (m.get x).level ≤
      inputs.foldl (fun acc inp => if inp ∈ m.keys then max acc (m.get inp).level else acc) a := by
  induction inputs generalizing a with
  | nil => intro x hx; cases hx
  | cons y l ih =>
    intro x hx
    rw [List.foldl_cons]
    rcases List.mem_cons.1 hx with h | h
    · subst h
      refine le_trans ?_ (maxInLevel_foldl_ge m l _)
      rw [if_pos (hk x (List.mem_cons_self _ _))]
      exact le_max_right _ _
    · exact ih _ (fun z hz => hk z (List.mem_cons_of_mem _ hz)) x h

theorem maxInLevel_foldl_attained (m : NetMap) (inputs : List String) (a : Int) :
    inputs.foldl (fun acc inp => if inp ∈ m.keys then max acc (m.get inp).level else acc) a = a ∨
    ∃ x ∈ inputs, inputs.foldl
      (fun acc inp => if inp ∈ m.keys then max acc (m.get inp).level else acc) a = (m.get x).level := by
  induction inputs generalizing a with
  | nil => exact Or.inl rfl
  | cons y l ih =>
    rw [List.foldl_cons]
    rcases ih (if y ∈ m.keys then max a (m.get y).level else a) with h | ⟨x, hx, h⟩
    · rw [h]
      split
      · rcases max_choice a (m.get y).level with h' | h'
        · exact Or.inl h'
        · exact Or.inr ⟨y, List.mem_cons_self _ _, h'⟩
      · exact Or.inl rfl
    · exact Or.inr ⟨x, List.mem_cons_of_mem _ hx, h⟩

/-- With all inputs present and levelled, `maxInLevel` is the largest input level. -/
theorem maxInLevel_spec (m : NetMap) (inputs : List String) (hne : inputs ≠ [])
    (hk : ∀ x ∈ inputs, x ∈ m.keys) (h0 : ∀ x ∈ inputs, 0 ≤ (m.get x).level) :
    (∀ x ∈ inputs, (m.get x).level ≤ maxInLevel m inputs) ∧
    ∃ x ∈ inputs, maxInLevel m inputs = (m.get x).level := by
  refine ⟨maxInLevel_foldl_bound m inputs 0 hk, ?_⟩
  rcases maxInLevel_foldl_attained m inputs 0 with h | h
  · obtain ⟨y, l, rfl⟩ := List.exists_cons_of_ne_nil hne
    refine ⟨y, List.mem_cons_self _ _, ?_⟩
    have h1 := maxInLevel_foldl_bound m (y :: l) 0 hk y (List.mem_cons_self _ _)
    have h2 := h0 y (List.mem_cons_self _ _)
    unfold maxInLevel
    rw [h] at h1 ⊢
    omega
  · exact h

/-! ## The levelization invariant -/

theorem countP_imp_of_le {α : Type} (p q : α → Bool) (l : List α)
    (hqp : ∀ x ∈ l, q x = true → p x = true) (hle : l.countP p ≤ l.countP q) :
    ∀ x ∈ l, p x = true → q x = true := by
  induction l with
  | nil => intro x hx; cases hx
  | cons a l ih =>
    have hmono : l.countP q ≤ l.countP p :=
      List.countP_mono_left (fun x hx => hqp x (List.mem_cons_of_mem _ hx))
    have hqp' : ∀ x ∈ l, q x = true → p x = true :=
      fun x hx => hqp x (List.mem_cons_of_mem _ hx)
    rw [List.countP_cons, List.countP_cons] at hle
    intro x hx hpx
    rcases List.mem_cons.1 hx with h | h
    · subst h
      by_contra hq
      simp only [hpx, hq] at hle
      simp at hle
      omega
    · refine ih hqp' ?_ x h hpx
      by_cases hpa : p a = true <;> by_cases hqa : q a = true
      · simp only [hpa, hqa] at hle; simpa using hle
      · simp only [hpa, hqa] at hle; simp at hle; omega
      · exact absurd (hqp a (List.mem_cons_self _ _) hqa) hpa
      · simp only [hpa, hqa] at hle; simpa using hle

theorem count_le_pendingInputs (m : NetMap) (pend : List String) (g : Gate) (cur : String)
    (hc : cur ∈ pend) : g.inputs.count cur ≤ pendingInputs m pend g := by
  unfold pendingInputs List.count
  apply List.countP_mono_left
  intro x _ hx
  have : x = cur := by simpa using hx
  subst this
  simp [hc]

theorem gate_eq_of_name {c : Circuit} (wf : WellFormed c) {g h : Gate}
    (hg : g ∈ c.gates) (hh : h ∈ c.gates) (e : g.name = h.name) : g = h :=
  List.inj_on_of_nodup_map wf.uniqueNames hg hh e

theorem gate_eq_of_output {c : Circuit} (wf : WellFormed c) {g h : Gate}
    (hg : g ∈ c.gates) (hh : h ∈ c.gates) (e : g.output = h.output) : g = h :=
  List.inj_on_of_nodup_map wf.singleDriver hg hh e

theorem frame_set_level {n n0 : Net} (h : n = { n0 with level := n.level }) (L : Int) :
    ({ n with level := L } : Net) = { n0 with level := ({ n with level := L } : Net).level } := by
  rw [h]

theorem count_snoc (seen : List String) (gn n : String) :
    ((seen ++ [gn]).count n : Int) = (seen.count n : Int) + (if gn = n then 1 else 0) := by
  rw [List.count_append]
  by_cases h : gn = n
  · subst h; simp
  · have : List.count n [gn] = 0 := by
      rw [List.count_eq_zero]
      simpa using fun e => h e.symm
    simp [h, this]

/-- A visit that only decrements a counter keeps the invariant, provided the
gate of that name (if any) does not reach zero with a non-empty name. -/
theorem levelInv_decrement {c : Circuit} (wf : WellFormed c) {cur : String}
    {seen rest : List String} {gn : String}
    (hloads : (c.nets.get cur).loads = seen ++ gn :: rest)
    {s : LevelState} (inv : LevelInv c [cur] seen s)
    (hno : ∀ g ∈ c.gates, g.name = gn → ¬ (s.counts gn - 1 = 0 ∧ g.name ≠ "")) :
    LevelInv c [cur] (seen ++ [gn])
      { s with counts := Function.update s.counts gn (s.counts gn - 1) } := by
  have hcur := inv.pendKeys cur (by simp)
  have hcnt : ∀ g ∈ c.gates,
      Function.update s.counts gn (s.counts gn - 1) g.name =
        (pendingInputs s.nets ([cur] ++ s.queue) g : Int) - ((seen ++ [gn]).count g.name : Int) := by
    intro g hg
    rw [count_snoc]
    by_cases h : gn = g.name
    · subst h
      rw [Function.update_same, inv.counts g hg]
      simp
      ring
    · rw [Function.update_noteq (fun e => h e.symm), inv.counts g hg]
      simp [h]
  refine ⟨inv.keys, inv.frame, inv.pendKeys, inv.pendNodup, hcnt, ?_, inv.recur⟩
  intro g hg
  by_cases h : gn = g.name
  · subst h
    have h1 := hcnt g hg
    have h2 : ((seen ++ [g.name]).count g.name) ≤ pendingInputs s.nets ([cur] ++ s.queue) g := by
      refine le_trans ?_ (count_le_pendingInputs s.nets _ g cur (by simp))
      rw [← wf.loads cur hcur.1 g hg, hloads]
      rw [List.count_append, List.count_append]
      have : List.count g.name [g.name] ≤ List.count g.name (g.name :: rest) := by simp
      omega
    have h3 := inv.counts g hg
    have h4 := count_snoc seen g.name g.name
    simp only [if_true] at h4
    rw [inv.fired g hg]
    simp only [Function.update_same]
    have hno' := hno g hg rfl
    constructor
    · rintro ⟨e0, _, _⟩
      rw [Function.update_same] at h1
      omega
    · rintro ⟨e0, hne, hnm⟩
      exact absurd ⟨e0, hnm⟩ hno'
  · rw [inv.fired g hg]
    simp only [Function.update_noteq (fun e => h e.symm)]

/-- A visit that brings the counter of gate `g` to zero assigns the level of
its output and keeps the invariant. -/
theorem levelInv_fire {c : Circuit} (wf : WellFormed c) (cur : String)
    (seen rest : List String) {g : Gate} (hg : g ∈ c.gates)
    (hloads : (c.nets.get cur).loads = seen ++ g.name :: rest)
    {s : LevelState} (inv : LevelInv c [cur] seen s)
    (hzero : s.counts g.name - 1 = 0) (hname : g.name ≠ "") :
    LevelInv c [cur] (seen ++ [g.name])
      { nets := s.nets.modify g.output
          (fun n => { n with level := maxInLevel s.nets g.inputs + 1 })
        queue := s.queue ++ [g.output]
        counts := Function.update s.counts g.name (s.counts g.name - 1) } := by
  have hcur := inv.pendKeys cur (by simp)
  have hrefs := wf.refs g hg
  -- the counter equation after the decrement
  have hcnt0 : ((pendingInputs s.nets ([cur] ++ s.queue) g : Nat) : Int) =
      ((seen ++ [g.name]).count g.name : Int) := by
    have h3 := inv.counts g hg
    have h4 := count_snoc seen g.name g.name
    simp only [if_true] at h4
    omega
  have hle : (seen ++ [g.name]).count g.name ≤ g.inputs.count cur := by
    rw [← wf.loads cur hcur.1 g hg, hloads]
    rw [List.count_append, List.count_append]
    have : List.count g.name [g.name] ≤ List.count g.name (g.name :: rest) := by simp
    omega
  have hpos : 1 ≤ (seen ++ [g.name]).count g.name := by
    rw [List.count_append]; simp
  -- the output had no level before
  have hout : (s.nets.get g.output).level < 0 := by
    by_contra hc
    have := (inv.fired g hg).1 (not_lt.1 hc)
    omega
  -- every input is levelled
  have hin : ∀ x ∈ g.inputs, 0 ≤ (s.nets.get x).level := by
    intro x hx
    by_contra hc
    have hp : decide ((s.nets.get x).level < 0 ∨ x ∈ [cur] ++ s.queue) = true := by
      simp [not_le.1 hc]
    have := countP_imp_of_le
      (fun x => decide ((s.nets.get x).level < 0 ∨ x ∈ [cur] ++ s.queue))
      (fun x => x == cur) g.inputs
      (by intro y _ hy
          have : y = cur := by simpa using hy
          subst this; simp)
      (by have : List.countP (fun x => x == cur) g.inputs = g.inputs.count cur := rfl
          rw [this]
          unfold pendingInputs at hcnt0
          omega) x hx hp
    have : x = cur := by simpa using this
    subst this
    exact hc hcur.2
  have hne : g.inputs ≠ [] := by
    intro e
    have h0 : g.inputs.count cur = 0 := by rw [e]; rfl
    omega
  obtain ⟨hmax, xm, hxm, hxe⟩ := maxInLevel_spec s.nets g.inputs hne
    (by rw [inv.keys]; exact hrefs.2) hin
  have hL : 1 ≤ maxInLevel s.nets g.inputs + 1 := by
    have := hin xm hxm
    omega
  have hnotin : ∀ x, 0 ≤ (s.nets.get x).level → x ≠ g.output := by
    intro x hx e
    rw [e] at hx
    omega
  have hlev : ∀ x, x ≠ g.output →
      ((s.nets.modify g.output
        (fun n => { n with level := maxInLevel s.nets g.inputs + 1 })).get x) = s.nets.get x :=
    fun x hx => modify_get_ne _ _ hx
  have hlevo : ((s.nets.modify g.output
        (fun n => { n with level := maxInLevel s.nets g.inputs + 1 })).get g.output).level =
        maxInLevel s.nets g.inputs + 1 := by
    rw [modify_get_same]
  have hpend : ∀ x ∈ [cur] ++ s.queue, x ≠ g.output :=
    fun x hx => hnotin x (inv.pendKeys x hx).2
  refine ⟨inv.keys, ?_, ?_, ?_, ?_, ?_, ?_⟩
  · intro k
    by_cases hk : k = g.output
    · subst hk
      rw [modify_get_same]
      exact frame_set_level (inv.frame g.output) _
    · rw [hlev k hk]
      exact inv.frame k
  · intro x hx
    have hx' : x ∈ [cur] ++ s.queue ∨ x = g.output := by
      simp only [List.mem_append, List.mem_singleton] at hx ⊢
      tauto
    rcases hx' with h | h
    · rw [hlev x (hpend x h)]
      exact inv.pendKeys x h
    · subst h
      refine ⟨hrefs.1, ?_⟩
      rw [hlevo]; omega
  · show ([cur] ++ (s.queue ++ [g.output])).Nodup
    rw [← List.append_assoc]
    refine List.Nodup.append inv.pendNodup (List.nodup_singleton _) ?_
    intro x hx hx'
    exact hpend x hx (List.mem_singleton.1 hx')
  · intro g' hg'
    have hsame : pendingInputs (s.nets.modify g.output
        (fun n => { n with level := maxInLevel s.nets g.inputs + 1 }))
        ([cur] ++ (s.queue ++ [g.output])) g' = pendingInputs s.nets ([cur] ++ s.queue) g' := by
      unfold pendingInputs
      apply List.countP_congr
      intro x _
      by_cases hx : x = g.output
      · subst hx
        simp [hout]
      · rw [hlev x hx]
        simp [hx]
    show Function.update s.counts g.name (s.counts g.name - 1) g'.name = _
    rw [hsame, count_snoc]
    by_cases h : g.name = g'.name
    · have : g' = g := gate_eq_of_name wf hg' hg h.symm
      subst this
      rw [Function.update_same, inv.counts g' hg']
      simp
      ring
    · rw [Function.update_noteq (fun e => h e.symm), inv.counts g' hg']
      simp [h]
  · intro g' hg'
    dsimp only
    by_cases h : g'.output = g.output
    · have : g' = g := gate_eq_of_output wf hg' hg h
      subst this
      rw [hlevo, Function.update_same]
      constructor
      · intro _; exact ⟨hzero, hne, hname⟩
      · intro _; omega
    · have hn : g'.name ≠ g.name := fun e => h (by rw [gate_eq_of_name wf hg' hg e])
      rw [hlev _ h, Function.update_noteq hn]
      exact inv.fired g' hg'
  · intro g' hg' h0
    by_cases h : g'.output = g.output
    · have : g' = g := gate_eq_of_output wf hg' hg h
      subst this
      refine ⟨?_, xm, hxm, ?_⟩
      · intro x hx
        rw [hlev x (hnotin x (hin x hx)), hlevo]
        have := hmax x hx
        exact ⟨hin x hx, by omega⟩
      · rw [hlev xm (hnotin xm (hin xm hxm)), hlevo, hxe]
        ring
    · rw [hlev _ h] at h0
      obtain ⟨h1, x1, hx1, h2⟩ := inv.recur g' hg' h0
      refine ⟨?_, x1, hx1, ?_⟩
      · intro x hx
        rw [hlev x (hnotin x (h1 x hx).1), hlev _ h]
        exact h1 x hx
      · rw [hlev x1 (hnotin x1 (h1 x1 hx1).1), hlev _ h]
        exact h2

/-- Every visit of the inner loop keeps the invariant. -/
theorem levelVisit_inv {c : Circuit} (wf : WellFormed c) {cur : String}
    {seen rest : List String} {gn : String}
    (hloads : (c.nets.get cur).loads = seen ++ gn :: rest)
    {s : LevelState} (inv : LevelInv c [cur] seen s) :
    LevelInv c [cur] (seen ++ [gn]) (levelVisit c.gates s gn) := by
  unfold levelVisit
  simp only [Function.update_same]
  by_cases hz : s.counts gn - 1 = 0
  · rw [if_pos hz]
    rcases findGateByName_cases c.gates gn with he | ⟨hmem, hnm⟩
    · rw [he]
      simp only [emptyGate, if_true]
      refine levelInv_decrement wf hloads inv ?_
      intro g hg hgn
      have := findGateByName_of_mem wf.uniqueNames hg
      rw [hgn, he] at this
      intro hcon
      exact hcon.2 (by rw [← this]; rfl)
    · by_cases hname : (findGateByName c.gates gn).name = ""
      · simp only [hname, if_true]
        refine levelInv_decrement wf hloads inv ?_
        intro g hg hgn hcon
        have := findGateByName_of_mem wf.uniqueNames hg
        rw [hgn] at this
        rw [this] at hname
        exact hcon.2 hname
      · simp only [hname, if_false]
        have hk : (findGateByName c.gates gn).output ∈ s.nets.keys := by
          rw [inv.keys]; exact (wf.refs _ hmem).1
        rw [if_pos hk]
        have key := levelInv_fire wf cur seen rest hmem
          (by rw [hnm]; exact hloads) inv (by rw [hnm]; exact hz) hname
        rw [hnm] at key
        exact key
  · rw [if_neg hz]
    exact levelInv_decrement wf hloads inv (fun g _ _ hcon => hz hcon.1)

/-- The inner loop over the loads of the current net keeps the invariant. -/
theorem levelVisit_foldl_inv {c : Circuit} (wf : WellFormed c) {cur : String}
    (rest seen : List String) (hloads : (c.nets.get cur).loads = seen ++ rest)
    (s : LevelState) (inv : LevelInv c [cur] seen s) :
    LevelInv c [cur] (c.nets.get cur).loads (rest.foldl (levelVisit c.gates) s) := by
  induction rest generalizing seen s with
  | nil =>
    rw [List.append_nil] at hloads
    rw [hloads]
    exact inv
  | cons gn rest ih =>
    rw [List.foldl_cons]
    exact ih (seen ++ [gn]) (by rw [hloads]; simp) _ (levelVisit_inv wf hloads inv)

theorem pendingInputs_cons (m : NetMap) (q : List String) (g : Gate) {cur : String}
    (hl : 0 ≤ (m.get cur).level) (hq : cur ∉ q) :
    pendingInputs m ([cur] ++ q) g = pendingInputs m ([] ++ q) g + g.inputs.count cur := by
  unfold pendingInputs
  induction g.inputs with
  | nil => rfl
  | cons a l ih =>
    rw [List.countP_cons, List.countP_cons, List.count_cons, ih]
    by_cases h : a = cur
    · subst h
      have h1 : ¬ (m.get a).level < 0 := not_lt.2 hl
      simp [h1, hq]
      omega
    · have h2 : ¬ (cur = a) := fun e => h e.symm
      simp [h, h2]
      omega

/-- After the loads of the current net are visited, the invariant holds for the
remaining queue. -/
theorem levelInv_close {c : Circuit} (wf : WellFormed c) {cur : String} {s : LevelState}
    (inv : LevelInv c [cur] (c.nets.get cur).loads s) : LevelInv c [] [] s := by
  have hcur := inv.pendKeys cur (by simp)
  have hnd := inv.pendNodup
  rw [List.singleton_append, List.nodup_cons] at hnd
  refine ⟨inv.keys, inv.frame, ?_, ?_, ?_, inv.fired, inv.recur⟩
  · intro x hx
    exact inv.pendKeys x (by simp at hx ⊢; exact Or.inr hx)
  · simpa using hnd.2
  · intro g hg
    rw [inv.counts g hg, pendingInputs_cons s.nets s.queue g hcur.2 hnd.1,
      wf.loads cur hcur.1 g hg]
    simp

/-- The invariant holds on entry to the loop. -/
theorem levelInv_init {c : Circuit} (wf : WellFormed c) (hfresh : FreshLevels c.nets) :
    LevelInv c [] [] (levelInit c) := by
  have hq : (levelInit c).queue = c.nets.keys.filter (fun k => isSource (c.nets.get k)) := by
    unfold levelInit
    dsimp only
    conv_rhs => rw [← List.map_id (c.nets.keys.filter (fun k => isSource (c.nets.get k)))]
    apply List.map_congr_left
    intro k hk
    exact wf.keyed.2 k (List.mem_of_mem_filter hk)
  have hlev : ∀ k ∈ c.nets.keys, ((levelInit c).nets.get k).level =
      if isSource (c.nets.get k) then 0 else -1 := by
    intro k hk
    unfold levelInit
    dsimp only
    rw [mapValues_get_mem _ _ hk]
    split
    · rfl
    · exact hfresh k hk
  have hout : ∀ g ∈ c.gates, ((levelInit c).nets.get g.output).level = -1 := by
    intro g hg
    rw [hlev _ (wf.refs g hg).1, wf.noDrivenSource g hg]
    rfl
  refine ⟨rfl, ?_, ?_, ?_, ?_, ?_, ?_⟩
  · intro k
    unfold levelInit NetMap.mapValues
    dsimp only
    split
    · split <;> rfl
    · rfl
  · intro x hx
    rw [List.nil_append, hq, List.mem_filter] at hx
    refine ⟨hx.1, ?_⟩
    rw [hlev x hx.1, if_pos hx.2]
  · rw [List.nil_append, hq]
    exact wf.keyed.1.filter _
  · intro g hg
    have hall : pendingInputs (levelInit c).nets ([] ++ (levelInit c).queue) g = g.inputs.length := by
      unfold pendingInputs
      rw [List.countP_eq_length]
      intro x hx
      have hk := (wf.refs g hg).2 x hx
      rw [List.nil_append, hq, hlev x hk]
      by_cases hs : isSource (c.nets.get x) = true
      · simp [hs, hk]
      · simp [hs]
    rw [hall]
    show initCounts c.gates g.name = _
    rw [initCounts_of_mem wf.uniqueNames hg]
    simp
  · intro g hg
    rw [hout g hg]
    have : (levelInit c).counts g.name = (g.inputs.length : Int) :=
      initCounts_of_mem wf.uniqueNames hg
    rw [this]
    constructor
    · intro h; omega
    · rintro ⟨h0, hne, _⟩
      have : g.inputs.length = 0 := by omega
      exact absurd (List.length_eq_zero.1 this) hne
  · intro g hg h0
    rw [hout g hg] at h0
    omega

/-- When the loop returns, the invariant holds for the returned table with an
empty queue. -/
theorem levelLoop_inv {c : Circuit} (wf : WellFormed c) (fuel : Nat) (s : LevelState)
    (inv : LevelInv c [] [] s) {m : NetMap} (h : levelLoop c.gates fuel s = .ok m) :
    ∃ s', LevelInv c [] [] s' ∧ s'.queue = [] ∧ s'.nets = m := by
  induction fuel generalizing s with
  | zero =>
    unfold levelLoop at h
    split at h
    · rename_i hq
      exact ⟨s, inv, hq, by injection h⟩
    · cases h
  | succ n ih =>
    unfold levelLoop at h
    split at h
    · rename_i hq
      exact ⟨s, inv, hq, by injection h⟩
    · rename_i cur rest hq
      split at h
      · rename_i hk
        refine ih _ ?_ h
        apply levelInv_close wf
        have hk' : cur ∈ c.nets.keys := inv.keys ▸ hk
        have e : (s.nets.get cur).loads = (c.nets.get cur).loads := by
          rw [inv.frame cur]
        rw [e]
        refine levelVisit_foldl_inv wf (c.nets.get cur).loads [] rfl _ ?_
        refine ⟨inv.keys, inv.frame, ?_, ?_, ?_, inv.fired, inv.recur⟩
        · intro x hx
          exact inv.pendKeys x (by rw [hq]; simpa using hx)
        · have := inv.pendNodup
          rw [hq] at this
          simpa using this
        · intro g hg
          have := inv.counts g hg
          rw [hq] at this
          simpa using this
      · cases h

/-! ## Termination of the levelization loop and what it leaves untouched -/

theorem openCounters_update_le (gates : List Gate) (counts : String → Int) (gn : String) :
    openCounters gates (Function.update counts gn (counts gn - 1)) ≤ openCounters gates counts := by
  unfold openCounters
  apply Finset.card_le_card
  intro n hn
  rw [Finset.mem_filter] at hn ⊢
  refine ⟨hn.1, ?_⟩
  by_cases h : n = gn
  · subst h
    have := hn.2
    rw [Function.update_same] at this
    omega
  · have := hn.2
    rwa [Function.update_noteq h] at this

theorem openCounters_update_lt (gates : List Gate) (counts : String → Int) (gn : String)
    (hmem : gn ∈ gates.map Gate.name) (hz : counts gn - 1 = 0) :
    openCounters gates (Function.update counts gn (counts gn - 1)) < openCounters gates counts := by
  unfold openCounters
  apply Finset.card_lt_card
  rw [Finset.ssubset_iff_of_subset]
  · refine ⟨gn, ?_, ?_⟩
    · rw [Finset.mem_filter]
      exact ⟨List.mem_toFinset.2 hmem, by omega⟩
    · rw [Finset.mem_filter, Function.update_same]
      intro h
      omega
  · intro n hn
    rw [Finset.mem_filter] at hn ⊢
    refine ⟨hn.1, ?_⟩
    by_cases h : n = gn
    · subst h
      have := hn.2
      rw [Function.update_same] at this
      omega
    · have := hn.2
      rwa [Function.update_noteq h] at this

theorem levelVisit_measure (gates : List Gate) (s : LevelState) (gn : String) :
    (levelVisit gates s gn).nets.keys = s.nets.keys ∧
    (∀ x ∈ (levelVisit gates s gn).queue, x ∈ s.queue ∨ x ∈ s.nets.keys) ∧
    (levelVisit gates s gn).queue.length + openCounters gates (levelVisit gates s gn).counts ≤
      s.queue.length + openCounters gates s.counts := by
  have hle := openCounters_update_le gates s.counts gn
  unfold levelVisit
  simp only [Function.update_same]
  by_cases hz : s.counts gn - 1 = 0
  · rw [if_pos hz]
    by_cases hname : (findGateByName gates gn).name = ""
    · rw [if_pos hname]
      exact ⟨rfl, fun x hx => Or.inl hx, by dsimp only; omega⟩
    · rw [if_neg hname]
      by_cases hk : (findGateByName gates gn).output ∈ s.nets.keys
      · rw [if_pos hk]
        have hmem : gn ∈ gates.map Gate.name := by
          rcases findGateByName_cases gates gn with he | ⟨hm, hn⟩
          · rw [he] at hname
            exact absurd rfl hname
          · rw [← hn]
            exact List.mem_map_of_mem _ hm
        have hlt := openCounters_update_lt gates s.counts gn hmem hz
        refine ⟨rfl, ?_, ?_⟩
        · intro x hx
          dsimp only at hx
          rcases List.mem_append.1 hx with h | h
          · exact Or.inl h
          · rw [List.mem_singleton.1 h]
            exact Or.inr hk
        · dsimp only
          rw [List.length_append, List.length_singleton]
          omega
      · rw [if_neg hk]
        exact ⟨rfl, fun x hx => Or.inl hx, by dsimp only; omega⟩
  · rw [if_neg hz]
    exact ⟨rfl, fun x hx => Or.inl hx, by dsimp only; omega⟩

theorem levelVisit_foldl_measure (gates : List Gate) (l : List String) (s : LevelState) :
    (l.foldl (levelVisit gates) s).nets.keys = s.nets.keys ∧
    (∀ x ∈ (l.foldl (levelVisit gates) s).queue, x ∈ s.queue ∨ x ∈ s.nets.keys) ∧
    (l.foldl (levelVisit gates) s).queue.length +
        openCounters gates (l.foldl (levelVisit gates) s).counts ≤
      s.queue.length + openCounters gates s.counts := by
  induction l generalizing s with
  | nil => exact ⟨rfl, fun x hx => Or.inl hx, le_refl _⟩
  | cons gn l ih =>
    rw [List.foldl_cons]
    obtain ⟨h1, h2, h3⟩ := levelVisit_measure gates s gn
    obtain ⟨i1, i2, i3⟩ := ih (levelVisit gates s gn)
    refine ⟨i1.trans h1, ?_, le_trans i3 h3⟩
    intro x hx
    rcases i2 x hx with h | h
    · exact h2 x h
    · exact Or.inr (h1 ▸ h)

/-- The `while` loop of `calculateNetLevels` ends within the given fuel. -/
theorem levelLoop_terminates (gates : List Gate) (fuel : Nat) (s : LevelState)
    (hq : ∀ x ∈ s.queue, x ∈ s.nets.keys)
    (hfuel : s.queue.length + openCounters gates s.counts ≤ fuel) :
    ∃ m, levelLoop gates fuel s = .ok m := by
  induction fuel generalizing s with
  | zero =>
    have : s.queue = [] := List.length_eq_zero.1 (by omega)
    exact ⟨s.nets, by unfold levelLoop; rw [if_pos this]⟩
  | succ n ih =>
    unfold levelLoop
    cases hs : s.queue with
    | nil => exact ⟨s.nets, rfl⟩
    | cons cur rest =>
      dsimp only
      have hcur : cur ∈ s.nets.keys := hq cur (by rw [hs]; exact List.mem_cons_self _ _)
      rw [if_pos hcur]
      obtain ⟨h1, h2, h3⟩ := levelVisit_foldl_measure gates (s.nets.get cur).loads
        { s with queue := rest }
      apply ih
      · intro x hx
        rw [h1]
        rcases h2 x hx with h | h
        · exact hq x (by rw [hs]; exact List.mem_cons_of_mem _ h)
        · exact h
      · rw [hs, List.length_cons] at hfuel
        dsimp only at h3
        omega

theorem sameButLevel_refl (m : NetMap) : SameButLevel m m := ⟨rfl, fun _ => rfl⟩

theorem sameButLevel_trans {m1 m2 m3 : NetMap} (h1 : SameButLevel m1 m2)
    (h2 : SameButLevel m2 m3) : SameButLevel m1 m3 := by
  refine ⟨h2.1.trans h1.1, fun k => ?_⟩
  have a := h2.2 k
  have b := h1.2 k
  rw [a, b]

theorem sameButLevel_modify (m : NetMap) (k : String) (L : Int) :
    SameButLevel m (m.modify k (fun n => { n with level := L })) := by
  refine ⟨rfl, fun k' => ?_⟩
  by_cases h : k' = k
  · subst h; rw [modify_get_same]
  · rw [modify_get_ne _ _ h]

theorem levelVisit_frame (gates : List Gate) (s : LevelState) (gn : String) :
    SameButLevel s.nets (levelVisit gates s gn).nets := by
  unfold levelVisit
  dsimp only
  split
  · split
    · exact sameButLevel_refl _
    · split
      · exact sameButLevel_modify _ _ _
      · exact sameButLevel_refl _
  · exact sameButLevel_refl _

theorem levelVisit_foldl_frame (gates : List Gate) (l : List String) (s : LevelState) :
    SameButLevel s.nets (l.foldl (levelVisit gates) s).nets := by
  induction l generalizing s with
  | nil => exact sameButLevel_refl _
  | cons gn l ih =>
    rw [List.foldl_cons]
    exact sameButLevel_trans (levelVisit_frame gates s gn) (ih _)

theorem levelLoop_frame (gates : List Gate) (fuel : Nat) (s : LevelState) {m : NetMap}
    (h : levelLoop gates fuel s = .ok m) : SameButLevel s.nets m := by
  induction fuel generalizing s with
  | zero =>
    unfold levelLoop at h
    split at h
    · injection h with h; rw [← h]; exact sameButLevel_refl _
    · cases h
  | succ n ih =>
    unfold levelLoop at h
    split at h
    · injection h with h; rw [← h]; exact sameButLevel_refl _
    · split at h
      · rename_i cur rest _ _
        exact sameButLevel_trans
          (levelVisit_foldl_frame gates (s.nets.get cur).loads { s with queue := rest }) (ih _ h)
      · cases h

theorem levelInit_frame (c : Circuit) : SameButLevel c.nets (levelInit c).nets := by
  refine ⟨rfl, fun k => ?_⟩
  unfold levelInit NetMap.mapValues
  dsimp only
  split
  · split <;> rfl
  · rfl

/-- The function `calculateNetLevels` changes nothing but `level` fields. -/
theorem calculateNetLevels_frame {fuel : Nat} {c c' : Circuit}
    (h : calculateNetLevels fuel c = .ok c') :
    c'.gates = c.gates ∧ c'.flipflops = c.flipflops ∧ c'.primaryInputs = c.primaryInputs ∧
    c'.primaryOutputs = c.primaryOutputs ∧ SameButLevel c.nets c'.nets := by
  unfold calculateNetLevels at h
  split at h
  · rename_i m hm
    injection h with h
    subst h
    exact ⟨rfl, rfl, rfl, rfl,
      sameButLevel_trans (levelInit_frame c) (levelLoop_frame _ _ _ hm)⟩
  · cases h

/-- The function `calculateNetLevels` returns normally once the fuel covers every net and gate. -/
theorem calculateNetLevels_ok (c : Circuit) (hk : ∀ k ∈ c.nets.keys, (c.nets.get k).name ∈ c.nets.keys)
    (fuel : Nat) (hfuel : c.nets.keys.length + c.gates.length ≤ fuel) :
    ∃ c', calculateNetLevels fuel c = .ok c' := by
  have h1 : (levelInit c).queue.length ≤ c.nets.keys.length := by
    unfold levelInit
    dsimp only
    rw [List.length_map]
    exact List.length_filter_le _ _
  have h2 : openCounters c.gates (levelInit c).counts ≤ c.gates.length := by
    unfold openCounters
    refine le_trans (Finset.card_filter_le _ _) ?_
    refine le_trans (List.toFinset_card_le _) ?_
    rw [List.length_map]
  obtain ⟨m, hm⟩ := levelLoop_terminates c.gates fuel (levelInit c)
    (by
      intro x hx
      unfold levelInit at hx ⊢
      dsimp only at hx ⊢
      rw [List.mem_map] at hx
      obtain ⟨k, hk1, rfl⟩ := hx
      exact hk k (List.mem_of_mem_filter hk1))
    (by omega)
  exact ⟨{ c with nets := m }, by unfold calculateNetLevels; rw [hm]⟩

theorem le_listMax : ∀ (l : List Int), ∀ y ∈ l, y ≤ listMax l
  | [], y, hy => by cases hy
  | [x], y, hy => by
    rw [List.mem_singleton.1 hy]
    exact le_of_eq rfl
  | x :: z :: l, y, hy => by
    show y ≤ max x (listMax (z :: l))
    rcases List.mem_cons.1 hy with h | h
    · rw [h]; exact le_max_left _ _
    · exact le_trans (le_listMax (z :: l) y h) (le_max_right _ _)

theorem listMax_mem : ∀ (l : List Int), l ≠ [] → listMax l ∈ l
  | [], h => absurd rfl h
  | [x], _ => List.mem_singleton.2 rfl
  | x :: z :: l, _ => by
    show max x (listMax (z :: l)) ∈ x :: z :: l
    rcases max_choice x (listMax (z :: l)) with e | e
    · rw [e]; exact List.mem_cons_self _ _
    · rw [e]; exact List.mem_cons_of_mem _ (listMax_mem (z :: l) (List.cons_ne_nil _ _))

/-- The value `listMax l` is characterised by being an upper bound that is attained. -/
theorem listMax_eq {l : List Int} {M : Int} (hb : ∀ y ∈ l, y ≤ M) (hm : M ∈ l) :
    listMax l = M :=
  le_antisymm (hb _ (listMax_mem l (List.ne_nil_of_mem hm))) (le_listMax l M hm)

/-- On a well-formed circuit with fresh levels, `calculateNetLevels` returns and
the loop invariant holds for the returned table with an empty queue. -/
theorem calculateNetLevels_inv {c : Circuit} (wf : WellFormed c) (hfresh : FreshLevels c.nets)
    (fuel : Nat) (hfuel : c.nets.keys.length + c.gates.length ≤ fuel) :
    ∃ c', calculateNetLevels fuel c = .ok c' ∧ c'.gates = c.gates ∧
      ∃ s', LevelInv c [] [] s' ∧ s'.queue = [] ∧ s'.nets = c'.nets := by
  obtain ⟨c', hc'⟩ := calculateNetLevels_ok c
    (fun k hk => by rw [wf.keyed.2 k hk]; exact hk) fuel hfuel
  refine ⟨c', hc', (calculateNetLevels_frame hc').1, ?_⟩
  unfold calculateNetLevels at hc'
  split at hc'
  · rename_i m hm
    injection hc' with hc'
    subst hc'
    exact levelLoop_inv wf fuel _ (levelInv_init wf hfresh) hm
  · cases hc'

/-- Claim C3. Levels obey the fan-in recurrence: on a well-formed circuit started with
every level `-1`, `calculateNetLevels` returns, and for every gate whose output
net has a level `L ≥ 0` every input net has a level `≥ 0`, `L` is one more than
the largest input level, and so every input level is below `L`. -/
theorem levels_obey_fanin_recurrence (c : Circuit) (wf : WellFormed c)
    (hfresh : FreshLevels c.nets) (fuel : Nat)
    (hfuel : c.nets.keys.length + c.gates.length ≤ fuel) :
    ∃ c', calculateNetLevels fuel c = .ok c' ∧
      ∀ g ∈ c'.gates, 0 ≤ (c'.nets.get g.output).level →
        (∀ x ∈ g.inputs, 0 ≤ (c'.nets.get x).level) ∧
        (c'.nets.get g.output).level =
          1 + listMax (g.inputs.map (fun x => (c'.nets.get x).level)) ∧
        (∀ x ∈ g.inputs, (c'.nets.get x).level < (c'.nets.get g.output).level) := by
  obtain ⟨c', hc', hg, s', inv, _, hs'⟩ := calculateNetLevels_inv wf hfresh fuel hfuel
  refine ⟨c', hc', ?_⟩
  intro g hgm h0
  rw [hg] at hgm
  rw [← hs'] at h0 ⊢
  obtain ⟨h1, x, hx, h2⟩ := inv.recur g hgm h0
  refine ⟨fun y hy => (h1 y hy).1, ?_, fun y hy => (h1 y hy).2⟩
  rw [h2]
  congr 1
  symm
  apply listMax_eq
  · intro y hy
    rw [List.mem_map] at hy
    obtain ⟨z, hz, rfl⟩ := hy
    have := (h1 z hz).2
    omega
  · exact List.mem_map_of_mem _ hx

theorem s1_wellFormed : WellFormed s1 :=
  ⟨⟨by decide, by decide⟩, by decide, by decide, by decide, by decide, by decide⟩

theorem s1_freshLevels : FreshLevels s1.nets := by
  unfold FreshLevels
  decide

/-- A run of C3 on scenario S1 (the single AND gate). -/
theorem levels_obey_fanin_recurrence_witness :
    WellFormed s1 ∧ FreshLevels s1.nets ∧
    ∃ c', calculateNetLevels 4 s1 = .ok c' ∧
      ∀ g ∈ c'.gates, 0 ≤ (c'.nets.get g.output).level →
        (∀ x ∈ g.inputs, 0 ≤ (c'.nets.get x).level) ∧
        (c'.nets.get g.output).level =
          1 + listMax (g.inputs.map (fun x => (c'.nets.get x).level)) ∧
        (∀ x ∈ g.inputs, (c'.nets.get x).level < (c'.nets.get g.output).level) :=
  ⟨s1_wellFormed, s1_freshLevels,
    levels_obey_fanin_recurrence s1 s1_wellFormed s1_freshLevels 4 (by decide)⟩

/-! ## `std::sort` by output level -/

theorem stdSort_perm (comp : Gate → Gate → Bool) (v : List Gate) : (stdSort comp v).Perm v :=
  List.perm_insertionSort _ v

theorem mem_stdSort {comp : Gate → Gate → Bool} {v : List Gate} {g : Gate} :
    g ∈ stdSort comp v ↔ g ∈ v :=
  (stdSort_perm comp v).mem_iff

theorem orderedInsert_pairwise_key (comp : Gate → Gate → Bool) (key : Gate → Int) (a : Gate)
    (l : List Gate) (hr : ∀ b ∈ l, (comp b a = false ↔ key a ≤ key b) ∧
      (comp a b = false ↔ key b ≤ key a))
    (hs : l.Pairwise (fun x y => key x ≤ key y)) :
    (l.orderedInsert (fun x y => comp y x = false) a).Pairwise (fun x y => key x ≤ key y) := by
  induction l with
  | nil => simp
  | cons b l ih =>
    rw [List.pairwise_cons] at hs
    have hb := hr b (List.mem_cons_self _ _)
    rw [List.orderedInsert]
    split
    · rename_i h
      have hab : key a ≤ key b := hb.1.1 h
      rw [List.pairwise_cons]
      refine ⟨?_, List.pairwise_cons.2 hs⟩
      intro y hy
      rcases List.mem_cons.1 hy with e | e
      · rw [e]; exact hab
      · exact le_trans hab (hs.1 y e)
    · rename_i h
      have hba : key b ≤ key a := by
        have : ¬ key a ≤ key b := fun e => h (hb.1.2 e)
        omega
      rw [List.pairwise_cons]
      refine ⟨?_, ih (fun y hy => hr y (List.mem_cons_of_mem _ hy)) hs.2⟩
      intro y hy
      rcases (List.mem_orderedInsert _).1 hy with e | e
      · rw [e]; exact hba
      · exact hs.1 y e

theorem stdSort_pairwise_key (comp : Gate → Gate → Bool) (key : Gate → Int) (v : List Gate)
    (hr : ∀ a ∈ v, ∀ b ∈ v, (comp b a = false ↔ key a ≤ key b)) :
    (stdSort comp v).Pairwise (fun x y => key x ≤ key y) := by
  unfold stdSort
  induction v with
  | nil => simp
  | cons a l ih =>
    rw [List.insertionSort]
    apply orderedInsert_pairwise_key
    · intro b hb
      have hb' : b ∈ l := (List.perm_insertionSort _ l).mem_iff.1 hb
      exact ⟨hr a (List.mem_cons_self _ _) b (List.mem_cons_of_mem _ hb'),
        hr b (List.mem_cons_of_mem _ hb') a (List.mem_cons_self _ _)⟩
    · exact ih (fun x hx y hy => hr x (List.mem_cons_of_mem _ hx) y (List.mem_cons_of_mem _ hy))

/-- The ascending sort puts gates in non-decreasing order of output level when
every output net exists. -/
theorem stdSort_levelLess_sorted (m : NetMap) (v : List Gate)
    (hk : ∀ g ∈ v, g.output ∈ m.keys) :
    (stdSort (levelLess m) v).Pairwise
      (fun x y => (m.get x.output).level ≤ (m.get y.output).level) := by
  apply stdSort_pairwise_key (levelLess m) (fun g => (m.get g.output).level)
  intro a ha b hb
  unfold levelLess
  have h1 := hk a ha
  have h2 := hk b hb
  simp [h1, h2]

/-- The descending sort puts gates in non-increasing order of output level when
every output net exists. -/
theorem stdSort_levelGreater_sorted (m : NetMap) (v : List Gate)
    (hk : ∀ g ∈ v, g.output ∈ m.keys) :
    (stdSort (levelGreater m) v).Pairwise
      (fun x y => (m.get y.output).level ≤ (m.get x.output).level) := by
  have := stdSort_pairwise_key (levelGreater m) (fun g => - (m.get g.output).level) v (by
    intro a ha b hb
    unfold levelGreater
    have h1 := hk a ha
    have h2 := hk b hb
    simp [h1, h2])
  refine this.imp ?_
  intro a b h
  dsimp only at h
  omega

/-! ## Sweeps -/

theorem sweep_nil {σ α : Type} (step : σ → α → Except Fault σ) (s : σ) :
    sweep step s [] = .ok s := rfl

theorem sweep_cons {σ α : Type} (step : σ → α → Except Fault σ) (s : σ) (a : α) (l : List α) :
    sweep step s (a :: l) =
      match step s a with
      | .ok s' => sweep step s' l
      | .error e => .error e := rfl

theorem sweep_cons_ok {σ α : Type} {step : σ → α → Except Fault σ} {s s' : σ} {a : α}
    (h : step s a = .ok s') (l : List α) : sweep step s (a :: l) = sweep step s' l := by
  rw [sweep_cons, h]

theorem sweep_cons_inv {σ α : Type} {step : σ → α → Except Fault σ} {s r : σ} {a : α}
    {l : List α} (h : sweep step s (a :: l) = .ok r) :
    ∃ s', step s a = .ok s' ∧ sweep step s' l = .ok r := by
  rw [sweep_cons] at h
  cases hs : step s a with
  | ok s' => rw [hs] at h; exact ⟨s', rfl, h⟩
  | error e => rw [hs] at h; cases h

theorem sweep_append {σ α : Type} (step : σ → α → Except Fault σ) (s : σ) (l1 l2 : List α)
    {r : σ} (h : sweep step s (l1 ++ l2) = .ok r) :
    ∃ s1, sweep step s l1 = .ok s1 ∧ sweep step s1 l2 = .ok r := by
  induction l1 generalizing s with
  | nil => exact ⟨s, rfl, h⟩
  | cons a l ih =>
    rw [List.cons_append] at h
    obtain ⟨s', h1, h2⟩ := sweep_cons_inv h
    obtain ⟨s1, h3, h4⟩ := ih s' h2
    exact ⟨s1, by rw [sweep_cons_ok h1]; exact h3, h4⟩

/-- An invariant of every step that returns is an invariant of the sweep. -/
theorem sweep_induction {σ α : Type} (step : σ → α → Except Fault σ) (P : σ → Prop)
    (l : List α) (hstep : ∀ s, ∀ a ∈ l, ∀ s', P s → step s a = .ok s' → P s')
    (s : σ) (hs : P s) {r : σ} (h : sweep step s l = .ok r) : P r := by
  induction l generalizing s with
  | nil =>
    rw [sweep_nil] at h
    injection h with h
    exact h ▸ hs
  | cons a l ih =>
    obtain ⟨s', h1, h2⟩ := sweep_cons_inv h
    exact ih (fun t b hb t' => hstep t b (List.mem_cons_of_mem _ hb) t') s'
      (hstep s a (List.mem_cons_self _ _) s' hs h1) h2

/-- A sweep returns when every step returns from every state satisfying an invariant. -/
theorem sweep_ok {σ α : Type} (step : σ → α → Except Fault σ) (P : σ → Prop)
    (l : List α) (hstep : ∀ s, ∀ a ∈ l, P s → ∃ s', step s a = .ok s' ∧ P s')
    (s : σ) (hs : P s) : ∃ r, sweep step s l = .ok r ∧ P r := by
  induction l generalizing s with
  | nil => exact ⟨s, rfl, hs⟩
  | cons a l ih =>
    obtain ⟨s', h1, h2⟩ := hstep s a (List.mem_cons_self _ _) hs
    obtain ⟨r, h3, h4⟩ := ih (fun t b hb => hstep t b (List.mem_cons_of_mem _ hb)) s' h2
    exact ⟨r, by rw [sweep_cons_ok h1]; exact h3, h4⟩

/-- Induction over a sweep with the part of the sequence already swept. -/
theorem sweep_induction_seen {σ α : Type} (step : σ → α → Except Fault σ)
    (P : List α → σ → Prop) (l : List α)
    (hstep : ∀ pre a post s s', l = pre ++ a :: post → P pre s → step s a = .ok s' →
      P (pre ++ [a]) s')
    (s : σ) (hs : P [] s) {r : σ} (h : sweep step s l = .ok r) : P l r := by
  suffices H : ∀ rest pre t, l = pre ++ rest → P pre t → sweep step t rest = .ok r → P l r from
    H l [] s rfl hs h
  intro rest
  induction rest with
  | nil =>
    intro pre t hl ht hr
    rw [sweep_nil] at hr
    injection hr with hr
    rw [hl, List.append_nil, ← hr]
    exact ht
  | cons a rest ih =>
    intro pre t hl ht hr
    obtain ⟨t', h1, h2⟩ := sweep_cons_inv hr
    exact ih (pre ++ [a]) t' (by rw [hl]; simp) (hstep pre a rest t t' hl ht h1) h2

/-! ## Arithmetic facts -/

theorem arithLB_id : ArithLB id 0 :=
  ⟨le_refl _, fun x y hx hy => by simp only [id]; omega⟩

theorem wrap32_ge (x : Int) : -2147483648 ≤ wrap32 x := by
  unfold wrap32
  have := Int.emod_nonneg (x + 2147483648) (by decide : (4294967296 : Int) ≠ 0)
  omega

theorem wrap32_lt (x : Int) : wrap32 x < 2147483648 := by
  unfold wrap32
  have := Int.emod_lt_of_pos (x + 2147483648) (by decide : (0 : Int) < 4294967296)
  omega

theorem wrap32_of_range {x : Int} (h1 : -2147483648 ≤ x) (h2 : x < 2147483648) :
    wrap32 x = x := by
  unfold wrap32
  rw [Int.emod_eq_of_lt (by omega) (by omega)]
  omega

theorem arithLB_wrap32 : ArithLB wrap32 (-2147483648) :=
  ⟨by decide, fun x y _ _ => wrap32_ge (x + y)⟩

theorem INF_nonneg : (0 : Int) ≤ INF := by decide

theorem ArithLB.le_INF {w : Int → Int} {B : Int} (h : ArithLB w B) : B ≤ INF :=
  le_trans h.1 INF_nonneg

theorem ArithLB.le_one {w : Int → Int} {B : Int} (h : ArithLB w B) : B ≤ 1 :=
  le_trans h.1 (by decide)

theorem foldl_min_le (l : List Int) (a : Int) : l.foldl min a ≤ a := by
  induction l generalizing a with
  | nil => exact le_refl _
  | cons x l ih => exact le_trans (ih _) (min_le_left _ _)

theorem foldl_min_le_mem (l : List Int) (a : Int) : ∀ y ∈ l, l.foldl min a ≤ y := by
  induction l generalizing a with
  | nil => intro y hy; cases hy
  | cons x l ih =>
    intro y hy
    rcases List.mem_cons.1 hy with h | h
    · subst h
      exact le_trans (foldl_min_le l _) (min_le_right _ _)
    · exact ih _ y h

theorem foldl_min_ge (l : List Int) (a B : Int) (ha : B ≤ a) (hl : ∀ y ∈ l, B ≤ y) :
    B ≤ l.foldl min a := by
  induction l generalizing a with
  | nil => exact ha
  | cons x l ih =>
    exact ih _ (le_min ha (hl x (List.mem_cons_self _ _)))
      (fun y hy => hl y (List.mem_cons_of_mem _ hy))

theorem foldl_min_mem (l : List Int) (a : Int) : l.foldl min a = a ∨ l.foldl min a ∈ l := by
  induction l generalizing a with
  | nil => exact Or.inl rfl
  | cons x l ih =>
    rw [List.foldl_cons]
    rcases ih (min a x) with h | h
    · rw [h]
      rcases min_choice a x with e | e
      · exact Or.inl e
      · exact Or.inr (by rw [e]; exact List.mem_cons_self _ _)
    · exact Or.inr (List.mem_cons_of_mem _ h)

theorem minElement_le {l : List Int} : ∀ y ∈ l, minElement l ≤ y := by
  cases l with
  | nil => intro y hy; cases hy
  | cons x xs =>
    intro y hy
    show xs.foldl min x ≤ y
    rcases List.mem_cons.1 hy with h | h
    · rw [h]; exact foldl_min_le xs x
    · exact foldl_min_le_mem xs x y h

theorem minElement_mem {l : List Int} (hne : l ≠ []) : minElement l ∈ l := by
  cases l with
  | nil => exact absurd rfl hne
  | cons x xs =>
    show xs.foldl min x ∈ x :: xs
    rcases foldl_min_mem xs x with h | h
    · rw [h]; exact List.mem_cons_self _ _
    · exact List.mem_cons_of_mem _ h

theorem minElement_ge {l : List Int} {B : Int} (hne : l ≠ []) (hl : ∀ y ∈ l, B ≤ y) :
    B ≤ minElement l :=
  hl _ (minElement_mem hne)

theorem listMin_cons_min (x y : Int) (l : List Int) :
    listMin (min x y :: l) = min x (listMin (y :: l)) := by
  cases l with
  | nil => rfl
  | cons z l =>
    show min (min x y) (listMin (z :: l)) = min x (min y (listMin (z :: l)))
    exact min_assoc _ _ _

theorem foldl_min_eq_listMin (l : List Int) (x : Int) : l.foldl min x = listMin (x :: l) := by
  induction l generalizing x with
  | nil => rfl
  | cons y l ih =>
    rw [List.foldl_cons, ih, listMin_cons_min]
    rfl

/-- The value of `std::min_element` is the smallest element of the list. -/
theorem minElement_eq_listMin (l : List Int) : minElement l = listMin l := by
  cases l with
  | nil => rfl
  | cons x xs => exact foldl_min_eq_listMin xs x

theorem accumulate_foldl_ge {w : Int → Int} {B : Int} (hw : ArithLB w B) (l : List Int) (a : Int)
    (ha : B ≤ a) (hl : ∀ y ∈ l, B ≤ y) : B ≤ l.foldl (fun acc x => w (acc + x)) a := by
  induction l generalizing a with
  | nil => exact ha
  | cons x l ih =>
    exact ih _ (hw.2 a x ha (hl x (List.mem_cons_self _ _)))
      (fun y hy => hl y (List.mem_cons_of_mem _ hy))

theorem accumulate_ge {w : Int → Int} {B : Int} (hw : ArithLB w B) {l : List Int}
    (hl : ∀ y ∈ l, B ≤ y) : B ≤ accumulate w l :=
  accumulate_foldl_ge hw l 0 hw.1 hl

theorem accumulate_id (a : Int) (l : List Int) :
    l.foldl (fun acc x => id (acc + x)) a = a + l.sum := by
  induction l generalizing a with
  | nil => simp
  | cons x l ih =>
    rw [List.foldl_cons, ih, List.sum_cons]
    simp only [id]
    ring

theorem accumulate_id_eq_sum (l : List Int) : accumulate id l = l.sum := by
  unfold accumulate
  rw [accumulate_id]
  simp

theorem exactInRange_id : ExactInRange id := fun _ _ _ => rfl

theorem exactInRange_wrap32 : ExactInRange wrap32 :=
  fun _ h1 h2 => wrap32_of_range h1 (by omega)

theorem accumulate_foldl_exact {w : Int → Int} (hw : ExactInRange w) (l : List Int)
    (hl : ∀ x ∈ l, 0 ≤ x) (acc : Int) (h0 : 0 ≤ acc) (hs : acc + l.sum ≤ 2147483647) :
    l.foldl (fun a x => w (a + x)) acc = acc + l.sum := by
  induction l generalizing acc with
  | nil => simp
  | cons x xs ih =>
    have hx : 0 ≤ x := hl x (List.mem_cons_self _ _)
    have hxs : ∀ y ∈ xs, 0 ≤ y := fun y hy => hl y (List.mem_cons_of_mem _ hy)
    have hsum : 0 ≤ xs.sum := List.sum_nonneg hxs
    rw [List.sum_cons] at hs
    rw [List.foldl_cons, hw (acc + x) (by omega) (by omega), ih hxs (acc + x) (by omega) (by omega),
      List.sum_cons]
    omega

/-- A sum of non-negative values that a 32-bit `int` holds is computed exactly. -/
theorem accumulate_exact {w : Int → Int} (hw : ExactInRange w) {l : List Int}
    (hl : ∀ x ∈ l, 0 ≤ x) (hs : l.sum ≤ 2147483647) : accumulate w l = l.sum := by
  unfold accumulate
  rw [accumulate_foldl_exact hw l hl 0 (le_refl _) (by omega)]
  omega

/-! ## The controllability sweep -/

theorem sameButCC_refl (m : NetMap) : SameButCC m m := ⟨rfl, fun _ => rfl⟩

theorem sameButCC_trans {m1 m2 m3 : NetMap} (h1 : SameButCC m1 m2) (h2 : SameButCC m2 m3) :
    SameButCC m1 m3 := by
  refine ⟨h2.1.trans h1.1, fun k => ?_⟩
  have a := h2.2 k
  have b := h1.2 k
  rw [a, b]

theorem SameButCC.level_eq {m m' : NetMap} (h : SameButCC m m') (k : String) :
    (m'.get k).level = (m.get k).level := by
  rw [h.2 k]

theorem ccInit_frame (m : NetMap) : SameButCC m (ccInit m) := by
  refine ⟨rfl, fun k => ?_⟩
  unfold ccInit NetMap.mapValues
  dsimp only
  split
  · split <;> rfl
  · rfl

theorem ccGate_frame {w : Int → Int} {m m' : NetMap} {g : Gate} (h : ccGate w m g = .ok m') :
    SameButCC m m' ∧ ∀ k, k ≠ g.output → m'.get k = m.get k := by
  unfold ccGate at h
  split at h
  · injection h with h; subst h; exact ⟨sameButCC_refl _, fun _ _ => rfl⟩
  · dsimp only at h
    split at h
    · injection h with h; subst h; exact ⟨sameButCC_refl _, fun _ _ => rfl⟩
    · split at h
      · injection h with h
        subst h
        refine ⟨⟨rfl, fun k => ?_⟩, fun k hk => modify_get_ne _ _ hk⟩
        by_cases hk : k = g.output
        · subst hk; rw [modify_get_same]
        · rw [modify_get_ne _ _ hk]
      · injection h with h; subst h; exact ⟨sameButCC_refl _, fun _ _ => rfl⟩
      · cases h

theorem sweep_ccGate_frame {w : Int → Int} (l : List Gate) {m m' : NetMap}
    (h : sweep (ccGate w) m l = .ok m') : SameButCC m m' :=
  sweep_induction (ccGate w) (fun s => SameButCC m s) l
    (fun _ _ _ _ hs hstep => sameButCC_trans hs (ccGate_frame hstep).1) m (sameButCC_refl m) h

/-- A sweep leaves alone every net that is the output of none of the swept gates. -/
theorem sweep_ccGate_untouched {w : Int → Int} (l : List Gate) {m m' : NetMap} {k : String}
    (hk : ∀ h ∈ l, h.output ≠ k) (h : sweep (ccGate w) m l = .ok m') : m'.get k = m.get k :=
  sweep_induction (ccGate w) (fun s => s.get k = m.get k) l
    (fun _ a ha _ hs hstep => by
      show _ = _
      rw [(ccGate_frame hstep).2 k (fun e => hk a ha e.symm)]; exact hs) m rfl h

theorem presentInputs_eq (m : NetMap) (g : Gate) (h : ∀ x ∈ g.inputs, x ∈ m.keys) :
    presentInputs m g = g.inputs := by
  unfold presentInputs
  rw [List.filter_eq_self]
  intro x hx
  simpa using h x hx

/-- In exact arithmetic the code's rule is the specification's table, for the
gate types of the closed set and input counts that fit the type. -/
theorem ccRule_id_eq_table (ty : String) (in0 in1 : List Int) (hty : ty ∈ knownTypes)
    (hlen : in0.length = in1.length)
    (hx : (ty = "xor" ∨ ty = "xnor") → in0.length = 2)
    (hn : (ty = "not" ∨ ty = "buf") → in0.length = 1) :
    ccRule id ty in0 in1 = .ok (ccTable ty in0 in1) ∧ (ccTable ty in0 in1).isSome = true := by
  unfold knownTypes at hty
  simp only [List.mem_cons, List.mem_singleton, List.not_mem_nil, or_false] at hty
  rcases hty with h | h | h | h | h | h | h | h
  all_goals subst h
  · exact ⟨by simp [ccTable, ccRule, accumulate_id_eq_sum, minElement_eq_listMin], by simp [ccTable]⟩
  · exact ⟨by simp [ccTable, ccRule, accumulate_id_eq_sum, minElement_eq_listMin], by simp [ccTable]⟩
  · exact ⟨by simp [ccTable, ccRule, accumulate_id_eq_sum, minElement_eq_listMin], by simp [ccTable]⟩
  · exact ⟨by simp [ccTable, ccRule, accumulate_id_eq_sum, minElement_eq_listMin], by simp [ccTable]⟩
  · have h0 := hx (Or.inl rfl)
    have h1 : in1.length = 2 := hlen ▸ h0
    match in0, in1, h0, h1 with
    | [a0, b0], [a1, b1], _, _ => exact ⟨by simp [ccTable, ccRule], by simp [ccTable]⟩
  · have h0 := hx (Or.inr rfl)
    have h1 : in1.length = 2 := hlen ▸ h0
    match in0, in1, h0, h1 with
    | [a0, b0], [a1, b1], _, _ => exact ⟨by simp [ccTable, ccRule], by simp [ccTable]⟩
  · have h0 := hn (Or.inl rfl)
    have h1 : in1.length = 1 := hlen ▸ h0
    match in0, in1, h0, h1 with
    | [a0], [a1], _, _ => exact ⟨by simp [ccTable, ccRule], by simp [ccTable]⟩
  · have h0 := hn (Or.inr rfl)
    have h1 : in1.length = 1 := hlen ▸ h0
    match in0, in1, h0, h1 with
    | [a0], [a1], _, _ => exact ⟨by simp [ccTable, ccRule], by simp [ccTable]⟩

/-- The rule faults only when a vector is too short for the gate type. -/
theorem ccRule_ok (w : Int → Int) (ty : String) (in0 in1 : List Int)
    (hlen : in0.length = in1.length) (hne : in0 ≠ [])
    (hx : (ty = "xor" ∨ ty = "xnor") → 2 ≤ in0.length) :
    ∃ r, ccRule w ty in0 in1 = .ok r := by
  unfold ccRule
  split
  · exact ⟨_, rfl⟩
  split
  · exact ⟨_, rfl⟩
  split
  · exact ⟨_, rfl⟩
  split
  · exact ⟨_, rfl⟩
  split
  · rename_i h
    have h0 := hx (Or.inl h)
    match in0, in1, h0, hlen with
    | a0 :: b0 :: _, a1 :: b1 :: _, _, _ => exact ⟨_, rfl⟩
  split
  · rename_i h
    have h0 := hx (Or.inr h)
    match in0, in1, h0, hlen with
    | a0 :: b0 :: _, a1 :: b1 :: _, _, _ => exact ⟨_, rfl⟩
  split
  · match in0, in1, hne, hlen with
    | a0 :: _, a1 :: _, _, _ => exact ⟨_, rfl⟩
  split
  · match in0, in1, hne, hlen with
    | a0 :: _, a1 :: _, _, _ => exact ⟨_, rfl⟩
  exact ⟨_, rfl⟩

/-- A gate whose `xor`/`xnor` arity is respected never faults in the sweep. -/
theorem ccGate_ok (w : Int → Int) (m : NetMap) (g : Gate)
    (hx : (g.type = "xor" ∨ g.type = "xnor") → 2 ≤ (presentInputs m g).length) :
    ∃ m', ccGate w m g = .ok m' := by
  unfold ccGate
  split
  · exact ⟨_, rfl⟩
  · dsimp only
    split
    · exact ⟨_, rfl⟩
    · rename_i hne
      obtain ⟨r, hr⟩ := ccRule_ok w g.type
        ((presentInputs m g).map (fun inp => (m.get inp).cc0))
        ((presentInputs m g).map (fun inp => (m.get inp).cc1))
        (by simp) (fun e => hne (Or.inl e)) (by simpa using hx)
      rw [hr]
      cases r with
      | none => exact ⟨_, rfl⟩
      | some p => exact ⟨_, rfl⟩

/-- What the sweep stores for a gate of the closed set in exact arithmetic. -/
theorem ccGate_value {m m' : NetMap} {g : Gate} (ho : g.output ∈ m.keys)
    (hi : ∀ x ∈ g.inputs, x ∈ m.keys) (har : ArityOk g) (hty : g.type ∈ knownTypes)
    (h : ccGate id m g = .ok m') :
    ccTable g.type (g.inputs.map (fun x => (m.get x).cc0))
      (g.inputs.map (fun x => (m.get x).cc1)) =
      some ((m'.get g.output).cc0, (m'.get g.output).cc1) := by
  have hlen : 1 ≤ g.inputs.length := by
    unfold knownTypes at hty
    simp only [List.mem_cons, List.mem_singleton, List.not_mem_nil, or_false] at hty
    rcases hty with e | e | e | e | e | e | e | e
    · exact har.2.2 (Or.inl e)
    · exact har.2.2 (Or.inr (Or.inl e))
    · exact har.2.2 (Or.inr (Or.inr (Or.inl e)))
    · exact har.2.2 (Or.inr (Or.inr (Or.inr e)))
    · rw [har.1 (Or.inl e)]; decide
    · rw [har.1 (Or.inr e)]; decide
    · rw [har.2.1 (Or.inl e)]
    · rw [har.2.1 (Or.inr e)]
  obtain ⟨hr, hs⟩ := ccRule_id_eq_table g.type
    (g.inputs.map (fun x => (m.get x).cc0))
    (g.inputs.map (fun x => (m.get x).cc1)) hty (by simp)
    (by simpa using har.1) (by simpa using har.2.1)
  unfold ccGate at h
  rw [if_neg (not_not.2 ho)] at h
  dsimp only at h
  rw [presentInputs_eq m g hi] at h
  have hne : ¬ (g.inputs.map (fun x => (m.get x).cc0) = [] ∨
      g.inputs.map (fun x => (m.get x).cc1) = []) := by
    simp only [List.map_eq_nil_iff, or_self]
    intro e
    rw [e] at hlen
    simp at hlen
  rw [if_neg hne, hr] at h
  cases hp : ccTable g.type (g.inputs.map (fun x => (m.get x).cc0))
      (g.inputs.map (fun x => (m.get x).cc1)) with
  | none => rw [hp] at hs; cases hs
  | some p =>
    rw [hp] at h
    obtain ⟨p0, p1⟩ := p
    injection h with h
    subst h
    rw [modify_get_same]

/-- The controllability pass returns on a circuit whose `xor`/`xnor` gates have
two inputs that exist. -/
theorem calculateCombinationalControllability_ok (w : Int → Int) (c : Circuit)
    (hx : ∀ g ∈ c.gates, (g.type = "xor" ∨ g.type = "xnor") →
      2 ≤ (g.inputs.filter (fun x => x ∈ c.nets.keys)).length) :
    ∃ c', calculateCombinationalControllability w c = .ok c' := by
  obtain ⟨r, hr, _⟩ := sweep_ok (ccGate w) (fun s => s.keys = c.nets.keys)
    (stdSort (levelLess (ccInit c.nets)) c.gates)
    (by
      intro s g hg hs
      obtain ⟨m', hm'⟩ := ccGate_ok w s g (by
        intro e
        unfold presentInputs
        rw [hs]
        exact hx g (mem_stdSort.1 hg) e)
      exact ⟨m', hm', (ccGate_frame hm').1.1.trans hs⟩)
    (ccInit c.nets) rfl
  exact ⟨{ c with nets := r }, by
    unfold calculateCombinationalControllability
    dsimp only
    rw [hr]⟩

theorem calculateCombinationalControllability_frame {w : Int → Int} {c c' : Circuit}
    (h : calculateCombinationalControllability w c = .ok c') :
    c'.gates = c.gates ∧ c'.flipflops = c.flipflops ∧ c'.primaryInputs = c.primaryInputs ∧
    c'.primaryOutputs = c.primaryOutputs ∧ SameButCC c.nets c'.nets := by
  unfold calculateCombinationalControllability at h
  dsimp only at h
  split at h
  · rename_i m hm
    injection h with h
    subst h
    exact ⟨rfl, rfl, rfl, rfl, sameButCC_trans (ccInit_frame _) (sweep_ccGate_frame _ hm)⟩
  · cases h

/-- In a sweep over gates sorted by output level, a gate whose inputs all lie
below its output ends with the table row of its type applied to the final
controllabilities of its inputs. -/
theorem ccSweep_table {m0 mf : NetMap} {gates order : List Gate}
    (hperm : order.Perm gates)
    (hsorted : order.Pairwise
      (fun x y => (m0.get x.output).level ≤ (m0.get y.output).level))
    (hout : (gates.map Gate.output).Nodup)
    (hrefs : ∀ g ∈ gates, g.output ∈ m0.keys ∧ ∀ x ∈ g.inputs, x ∈ m0.keys)
    (h : sweep (ccGate id) m0 order = .ok mf)
    {g : Gate} (hg : g ∈ gates) (har : ArityOk g) (hty : g.type ∈ knownTypes)
    (hlev : ∀ x ∈ g.inputs, (m0.get x).level < (m0.get g.output).level) :
    ccTable g.type (g.inputs.map (fun x => (mf.get x).cc0))
      (g.inputs.map (fun x => (mf.get x).cc1)) =
      some ((mf.get g.output).cc0, (mf.get g.output).cc1) := by
  obtain ⟨pre, post, hsplit⟩ := List.append_of_mem (hperm.mem_iff.2 hg)
  rw [hsplit] at h hsorted
  obtain ⟨ma, h1, h2⟩ := sweep_append _ _ _ _ h
  obtain ⟨mb, h3, h4⟩ := sweep_cons_inv h2
  have hka : ma.keys = m0.keys := (sweep_ccGate_frame pre h1).1
  -- gates after `g` have other outputs, at levels not below that of `g`
  have hnd : ((pre ++ g :: post).map Gate.output).Nodup := by
    rw [← hsplit]
    exact (hperm.map Gate.output).nodup_iff.2 hout
  rw [List.map_append, List.map_cons] at hnd
  have hnd2 := (List.nodup_append.1 hnd).2.1
  rw [List.nodup_cons] at hnd2
  have hpost_ne : ∀ h' ∈ post, h'.output ≠ g.output := by
    intro h' hh' e
    exact hnd2.1 (e ▸ List.mem_map_of_mem Gate.output hh')
  have hpost_lev : ∀ h' ∈ post, (m0.get g.output).level ≤ (m0.get h'.output).level := by
    have := (List.pairwise_append.1 hsorted).2.1
    rw [List.pairwise_cons] at this
    exact this.1
  have hin_post : ∀ x ∈ g.inputs, ∀ h' ∈ post, h'.output ≠ x := by
    intro x hx h' hh' e
    have a := hpost_lev h' hh'
    have b := hlev x hx
    rw [e] at a
    omega
  have hin_g : ∀ x ∈ g.inputs, x ≠ g.output := by
    intro x hx e
    have b := hlev x hx
    rw [e] at b
    omega
  have hval := @ccGate_value ma mb g
    (by rw [hka]; exact (hrefs g hg).1)
    (by intro x hx; rw [hka]; exact (hrefs g hg).2 x hx) har hty h3
  have hfin_out : mf.get g.output = mb.get g.output :=
    sweep_ccGate_untouched post hpost_ne h4
  have hfin_in : ∀ x ∈ g.inputs, mf.get x = ma.get x := by
    intro x hx
    rw [sweep_ccGate_untouched post (hin_post x hx) h4]
    exact (ccGate_frame h3).2 x (hin_g x hx)
  rw [hfin_out, ← hval]
  congr 1
  · apply List.map_congr_left
    intro x hx
    rw [hfin_in x hx]
  · apply List.map_congr_left
    intro x hx
    rw [hfin_in x hx]

/-- Claim C1. Combinational controllability follows the per-type table on final
values: on a well-formed circuit with the input counts its gate types need,
started from fresh levels and run in exact arithmetic, `calculateNetLevels`
followed by `calculateCombinationalControllability` returns, and every gate of
the closed set of types whose output net has a level `≥ 0` has `cc0`/`cc1` of
its output equal to the table row of its type applied to the final `cc0`/`cc1`
of its inputs. -/
theorem combinational_controllability_table (c : Circuit) (wf : WellFormed c)
    (har : ∀ g ∈ c.gates, ArityOk g) (hfresh : FreshLevels c.nets) (fuel : Nat)
    (hfuel : c.nets.keys.length + c.gates.length ≤ fuel) :
    ∃ c1 c2, calculateNetLevels fuel c = .ok c1 ∧
      calculateCombinationalControllability id c1 = .ok c2 ∧
      ∀ g ∈ c2.gates, g.type ∈ knownTypes → 0 ≤ (c2.nets.get g.output).level →
        ccTable g.type (g.inputs.map (fun x => (c2.nets.get x).cc0))
          (g.inputs.map (fun x => (c2.nets.get x).cc1)) =
          some ((c2.nets.get g.output).cc0, (c2.nets.get g.output).cc1) := by
  obtain ⟨c1, hc1, hg1, s', inv, _, hs'⟩ := calculateNetLevels_inv wf hfresh fuel hfuel
  have hk1 : c1.nets.keys = c.nets.keys := hs' ▸ inv.keys
  have hrefs1 : ∀ g ∈ c1.gates, g.output ∈ c1.nets.keys ∧ ∀ x ∈ g.inputs, x ∈ c1.nets.keys := by
    intro g hg
    rw [hk1]
    exact wf.refs g (hg1 ▸ hg)
  obtain ⟨c2, hc2⟩ := calculateCombinationalControllability_ok id c1 (by
    intro g hg e
    rw [List.filter_eq_self.2 (by intro x hx; simpa using (hrefs1 g hg).2 x hx)]
    rw [(har g (hg1 ▸ hg)).1 e])
  refine ⟨c1, c2, hc1, hc2, ?_⟩
  have hfr := calculateCombinationalControllability_frame hc2
  intro g hg hty h0
  rw [hfr.1] at hg
  have hlev2 : ∀ k, (c2.nets.get k).level = (c1.nets.get k).level := hfr.2.2.2.2.level_eq
  rw [hlev2] at h0
  have hrec := inv.recur g (hg1 ▸ hg) (by rw [hs']; exact h0)
  rw [hs'] at hrec
  unfold calculateCombinationalControllability at hc2
  dsimp only at hc2
  split at hc2
  · rename_i mf hmf
    injection hc2 with hc2
    subst hc2
    dsimp only
    have hl0 : ∀ k, ((ccInit c1.nets).get k).level = (c1.nets.get k).level :=
      (ccInit_frame c1.nets).level_eq
    refine @ccSweep_table (ccInit c1.nets) _ c1.gates _
      (stdSort_perm _ _) (stdSort_levelLess_sorted _ _ (fun g hg => (hrefs1 g hg).1))
      (hg1 ▸ wf.singleDriver) hrefs1 hmf g hg (har g (hg1 ▸ hg)) hty ?_
    intro x hx
    rw [hl0, hl0]
    exact (hrec.1 x hx).2
  · cases hc2

theorem s1_arity : ∀ g ∈ s1.gates, ArityOk g := by
  unfold ArityOk
  decide

/-- A run of C1 on scenario S1: the single AND gate of two primary inputs. -/
theorem combinational_controllability_table_witness :
    WellFormed s1 ∧ (∀ g ∈ s1.gates, ArityOk g) ∧ FreshLevels s1.nets ∧
    ∃ c1 c2, calculateNetLevels 4 s1 = .ok c1 ∧
      calculateCombinationalControllability id c1 = .ok c2 ∧
      ∀ g ∈ c2.gates, g.type ∈ knownTypes → 0 ≤ (c2.nets.get g.output).level →
        ccTable g.type (g.inputs.map (fun x => (c2.nets.get x).cc0))
          (g.inputs.map (fun x => (c2.nets.get x).cc1)) =
          some ((c2.nets.get g.output).cc0, (c2.nets.get g.output).cc1) :=
  ⟨s1_wellFormed, s1_arity, s1_freshLevels,
    combinational_controllability_table s1 s1_wellFormed s1_arity s1_freshLevels 4 (by decide)⟩

/-- Scenario S1 evaluated: `cc0(y) = 2` and `cc1(y) = 3`, with `level(y) = 1`. -/
theorem s1_controllability :
    ∃ c1 c2, calculateNetLevels 4 s1 = .ok c1 ∧
      calculateCombinationalControllability id c1 = .ok c2 ∧
      (c2.nets.get "y").level = 1 ∧ (c2.nets.get "y").cc0 = 2 ∧ (c2.nets.get "y").cc1 = 3 :=
  ⟨_, _, rfl, rfl, rfl, rfl, rfl⟩

/-! ## The loop body of `calculateSequentialControllability` -/

theorem sameButSC_refl (m : NetMap) : SameButSC m m := ⟨rfl, fun _ => rfl⟩

theorem sameButSC_trans {m1 m2 m3 : NetMap} (h1 : SameButSC m1 m2) (h2 : SameButSC m2 m3) :
    SameButSC m1 m3 := by
  refine ⟨h2.1.trans h1.1, fun k => ?_⟩
  have a := h2.2 k
  have b := h1.2 k
  rw [a, b]

theorem sameButSC_modify0 (m : NetMap) (k : String) (v : Int) :
    SameButSC m (m.modify k (fun n => { n with sc0 := v })) := by
  refine ⟨rfl, fun j => ?_⟩
  by_cases h : j = k
  · subst h; rw [modify_get_same]
  · rw [modify_get_ne _ _ h]

theorem sameButSC_modify1 (m : NetMap) (k : String) (v : Int) :
    SameButSC m (m.modify k (fun n => { n with sc1 := v })) := by
  refine ⟨rfl, fun j => ?_⟩
  by_cases h : j = k
  · subst h; rw [modify_get_same]
  · rw [modify_get_ne _ _ h]

theorem scMeasure_le {B : Int} {m m' : NetMap} (hk : m'.keys = m.keys)
    (h0 : ∀ k, (m'.get k).sc0 ≤ (m.get k).sc0) (h1 : ∀ k, (m'.get k).sc1 ≤ (m.get k).sc1) :
    scMeasure B m' ≤ scMeasure B m := by
  unfold scMeasure
  rw [hk]
  apply List.sum_le_sum
  intro k _
  have a := h0 k
  have b := h1 k
  omega

theorem scMeasure_lt {B : Int} {m m' : NetMap} (hk : m'.keys = m.keys)
    (h0 : ∀ k, (m'.get k).sc0 ≤ (m.get k).sc0) (h1 : ∀ k, (m'.get k).sc1 ≤ (m.get k).sc1)
    {k : String} (hmem : k ∈ m.keys) (hB0 : B ≤ (m'.get k).sc0) (hB1 : B ≤ (m'.get k).sc1)
    (hlt : (m'.get k).sc0 < (m.get k).sc0 ∨ (m'.get k).sc1 < (m.get k).sc1) :
    scMeasure B m' < scMeasure B m := by
  unfold scMeasure
  rw [hk]
  apply List.sum_lt_sum
  · intro j _
    have a := h0 j
    have b := h1 j
    omega
  · refine ⟨k, hmem, ?_⟩
    have a := h0 k
    have b := h1 k
    rcases hlt with h | h <;> omega

theorem scMono_refl (m : NetMap) (b : Bool) : ScMono m (m, b) :=
  ⟨sameButSC_refl m, fun _ => le_refl _, fun _ => le_refl _⟩

theorem lowerSc0_mono {m0 : NetMap} {s : NetMap × Bool} (h : ScMono m0 s) (k : String) (v : Int) :
    ScMono m0 (lowerSc0 s k v) := by
  unfold lowerSc0
  split
  · rename_i hv
    refine ⟨sameButSC_trans h.frame (sameButSC_modify0 _ _ _), ?_, ?_⟩
    · intro j
      by_cases e : j = k
      · subst e
        rw [modify_get_same]
        exact le_trans (le_of_lt hv) (h.le0 j)
      · rw [modify_get_ne _ _ e]; exact h.le0 j
    · intro j
      by_cases e : j = k
      · subst e
        rw [modify_get_same]
        exact h.le1 j
      · rw [modify_get_ne _ _ e]; exact h.le1 j
  · exact h

theorem lowerSc1_mono {m0 : NetMap} {s : NetMap × Bool} (h : ScMono m0 s) (k : String) (v : Int) :
    ScMono m0 (lowerSc1 s k v) := by
  unfold lowerSc1
  split
  · rename_i hv
    refine ⟨sameButSC_trans h.frame (sameButSC_modify1 _ _ _), ?_, ?_⟩
    · intro j
      by_cases e : j = k
      · subst e
        rw [modify_get_same]
        exact h.le0 j
      · rw [modify_get_ne _ _ e]; exact h.le0 j
    · intro j
      by_cases e : j = k
      · subst e
        rw [modify_get_same]
        exact le_trans (le_of_lt hv) (h.le1 j)
      · rw [modify_get_ne _ _ e]; exact h.le1 j
  · exact h

theorem lowerSc0_prog {B : Int} {m0 : NetMap} {s : NetMap × Bool} (hm : ScMono m0 s)
    (hp : ScProg B m0 s) {k : String} (hk : k ∈ s.1.keys) {v : Int} (hv : B ≤ v) :
    ScProg B m0 (lowerSc0 s k v) := by
  have hm' := lowerSc0_mono hm k v
  unfold lowerSc0 at hm' ⊢
  split
  · rename_i hlt
    rw [if_pos hlt] at hm'
    have hlb : MetricsLB B (s.1.modify k (fun n => { n with sc0 := v })) := by
      intro j hj
      by_cases e : j = k
      · subst e
        rw [modify_get_same]
        have := hp.lb j hj
        exact ⟨this.1, this.2.1, hv, this.2.2.2⟩
      · rw [modify_get_ne _ _ e]; exact hp.lb j hj
    refine ⟨hlb, fun _ => ?_⟩
    have h1 : scMeasure B (s.1.modify k (fun n => { n with sc0 := v })) < scMeasure B s.1 := by
      refine scMeasure_lt (m := s.1) (k := k) (modify_keys _ _ _) ?_ ?_ hk ?_ ?_ ?_
      · intro j
        by_cases e : j = k
        · subst e; rw [modify_get_same]; exact le_of_lt hlt
        · rw [modify_get_ne _ _ e]
      · intro j
        by_cases e : j = k
        · subst e; rw [modify_get_same]
        · rw [modify_get_ne _ _ e]
      · rw [modify_get_same]; exact hv
      · rw [modify_get_same]; exact (hp.lb k hk).2.2.2.1
      · left; rw [modify_get_same]; exact hlt
    exact lt_of_lt_of_le h1 (scMeasure_le hm.frame.1 hm.le0 hm.le1)
  · exact hp

theorem lowerSc1_prog {B : Int} {m0 : NetMap} {s : NetMap × Bool} (hm : ScMono m0 s)
    (hp : ScProg B m0 s) {k : String} (hk : k ∈ s.1.keys) {v : Int} (hv : B ≤ v) :
    ScProg B m0 (lowerSc1 s k v) := by
  have hm' := lowerSc1_mono hm k v
  unfold lowerSc1 at hm' ⊢
  split
  · rename_i hlt
    rw [if_pos hlt] at hm'
    have hlb : MetricsLB B (s.1.modify k (fun n => { n with sc1 := v })) := by
      intro j hj
      by_cases e : j = k
      · subst e
        rw [modify_get_same]
        have := hp.lb j hj
        exact ⟨this.1, this.2.1, this.2.2.1, hv, this.2.2.2.2⟩
      · rw [modify_get_ne _ _ e]; exact hp.lb j hj
    refine ⟨hlb, fun _ => ?_⟩
    have h1 : scMeasure B (s.1.modify k (fun n => { n with sc1 := v })) < scMeasure B s.1 := by
      refine scMeasure_lt (m := s.1) (k := k) (modify_keys _ _ _) ?_ ?_ hk ?_ ?_ ?_
      · intro j
        by_cases e : j = k
        · subst e; rw [modify_get_same]
        · rw [modify_get_ne _ _ e]
      · intro j
        by_cases e : j = k
        · subst e; rw [modify_get_same]; exact le_of_lt hlt
        · rw [modify_get_ne _ _ e]
      · rw [modify_get_same]; exact (hp.lb k hk).2.2.1
      · rw [modify_get_same]; exact hv
      · right; rw [modify_get_same]; exact hlt
    exact lt_of_lt_of_le h1 (scMeasure_le hm.frame.1 hm.le0 hm.le1)
  · exact hp

theorem lowerSc0_keys (s : NetMap × Bool) (k : String) (v : Int) :
    (lowerSc0 s k v).1.keys = s.1.keys := by
  unfold lowerSc0; split <;> rfl

theorem lowerSc1_keys (s : NetMap × Bool) (k : String) (v : Int) :
    (lowerSc1 s k v).1.keys = s.1.keys := by
  unfold lowerSc1; split <;> rfl

theorem scRule_ge {w : Int → Int} {B : Int} (hw : ArithLB w B) (ty : String)
    (in0 in1 : List Int) (h0 : ∀ x ∈ in0, B ≤ x) (h1 : ∀ x ∈ in1, B ≤ x)
    (hne0 : in0 ≠ []) (hne1 : in1 ≠ []) :
    B ≤ (scRule w ty in0 in1).1 ∧ B ≤ (scRule w ty in0 in1).2 := by
  have hINF := hw.le_INF
  unfold scRule
  split
  · exact ⟨minElement_ge hne0 h0, accumulate_ge hw h1⟩
  split
  · exact ⟨accumulate_ge hw h1, minElement_ge hne0 h0⟩
  split
  · exact ⟨accumulate_ge hw h0, minElement_ge hne1 h1⟩
  split
  · exact ⟨minElement_ge hne1 h1, accumulate_ge hw h0⟩
  split
  · split
    · rename_i a0 _ a1 _
      exact ⟨h1 a1 (List.mem_cons_self _ _), h0 a0 (List.mem_cons_self _ _)⟩
    · exact ⟨hINF, hINF⟩
  split
  · split
    · rename_i a0 _ a1 _
      exact ⟨h0 a0 (List.mem_cons_self _ _), h1 a1 (List.mem_cons_self _ _)⟩
    · exact ⟨hINF, hINF⟩
  exact ⟨hINF, hINF⟩

theorem scGate_keys (w : Int → Int) (s : NetMap × Bool) (g : Gate) :
    (scGate w s g).1.keys = s.1.keys := by
  unfold scGate
  split
  · rfl
  · dsimp only
    split
    · rfl
    · rw [lowerSc1_keys, lowerSc0_keys]

theorem scGate_mono (w : Int → Int) {m0 : NetMap} {s : NetMap × Bool} (h : ScMono m0 s)
    (g : Gate) : ScMono m0 (scGate w s g) := by
  unfold scGate
  split
  · exact h
  · dsimp only
    split
    · exact h
    · exact lowerSc1_mono (lowerSc0_mono h _ _) _ _

theorem scGate_prog {w : Int → Int} {B : Int} (hw : ArithLB w B) {m0 : NetMap}
    {s : NetMap × Bool} (hm : ScMono m0 s) (hp : ScProg B m0 s) (g : Gate) :
    ScProg B m0 (scGate w s g) := by
  unfold scGate
  split
  · exact hp
  · rename_i hout
    dsimp only
    split
    · exact hp
    · rename_i hne
      have hin : ∀ x ∈ presentInputs s.1 g, x ∈ s.1.keys := by
        intro x hx
        unfold presentInputs at hx
        simpa using (List.mem_filter.1 hx).2
      obtain ⟨hv0, hv1⟩ := scRule_ge hw g.type
        ((presentInputs s.1 g).map (fun inp => (s.1.get inp).sc0))
        ((presentInputs s.1 g).map (fun inp => (s.1.get inp).sc1))
        (by
          intro x hx
          obtain ⟨y, hy, rfl⟩ := List.mem_map.1 hx
          exact (hp.lb y (hin y hy)).2.2.1)
        (by
          intro x hx
          obtain ⟨y, hy, rfl⟩ := List.mem_map.1 hx
          exact (hp.lb y (hin y hy)).2.2.2.1)
        (fun e => hne (Or.inl e)) (fun e => hne (Or.inr e))
      have hk : g.output ∈ s.1.keys := not_not.1 hout
      exact lowerSc1_prog (lowerSc0_mono hm _ _) (lowerSc0_prog hm hp hk hv0)
        (by rw [lowerSc0_keys]; exact hk) hv1

theorem scFlipFlop_keys (w : Int → Int) (s : NetMap × Bool) (ff : FlipFlop) :
    (scFlipFlop w s ff).1.keys = s.1.keys := by
  unfold scFlipFlop
  split
  · rfl
  · split
    · dsimp only
      rw [lowerSc1_keys, lowerSc0_keys]
    · rfl

theorem scFlipFlop_mono (w : Int → Int) {m0 : NetMap} {s : NetMap × Bool} (h : ScMono m0 s)
    (ff : FlipFlop) : ScMono m0 (scFlipFlop w s ff) := by
  unfold scFlipFlop
  split
  · exact h
  · split
    · exact lowerSc1_mono (lowerSc0_mono h _ _) _ _
    · exact h

theorem scFlipFlop_prog {w : Int → Int} {B : Int} (hw : ArithLB w B) {m0 : NetMap}
    {s : NetMap × Bool} (hm : ScMono m0 s) (hp : ScProg B m0 s) (ff : FlipFlop) :
    ScProg B m0 (scFlipFlop w s ff) := by
  unfold scFlipFlop
  split
  · exact hp
  · rename_i hk
    simp only [not_or, not_not] at hk
    split
    · dsimp only
      have hd := hp.lb ff.d hk.2.1
      have hc := hp.lb ff.clk hk.2.2
      have h1 := hw.le_one
      exact lowerSc1_prog (lowerSc0_mono hm _ _)
        (lowerSc0_prog hm hp hk.1 (hw.2 _ _ (hw.2 _ _ (hw.2 _ _ hd.2.2.1 hc.2.2.1) hc.2.2.2.1) h1))
        (by rw [lowerSc0_keys]; exact hk.1)
        (hw.2 _ _ (hw.2 _ _ (hw.2 _ _ hd.2.2.2.1 hc.2.2.1) hc.2.2.2.1) h1)
    · exact hp

theorem foldl_scGate_mono (w : Int → Int) {m0 : NetMap} (l : List Gate) {s : NetMap × Bool}
    (h : ScMono m0 s) : ScMono m0 (l.foldl (scGate w) s) := by
  induction l generalizing s with
  | nil => exact h
  | cons g l ih => exact ih (scGate_mono w h g)

theorem foldl_scGate_prog {w : Int → Int} {B : Int} (hw : ArithLB w B) {m0 : NetMap}
    (l : List Gate) {s : NetMap × Bool} (hm : ScMono m0 s) (hp : ScProg B m0 s) :
    ScProg B m0 (l.foldl (scGate w) s) := by
  induction l generalizing s with
  | nil => exact hp
  | cons g l ih => exact ih (scGate_mono w hm g) (scGate_prog hw hm hp g)

theorem foldl_scFlipFlop_mono (w : Int → Int) {m0 : NetMap} (l : List FlipFlop)
    {s : NetMap × Bool} (h : ScMono m0 s) : ScMono m0 (l.foldl (scFlipFlop w) s) := by
  induction l generalizing s with
  | nil => exact h
  | cons g l ih => exact ih (scFlipFlop_mono w h g)

theorem foldl_scFlipFlop_prog {w : Int → Int} {B : Int} (hw : ArithLB w B) {m0 : NetMap}
    (l : List FlipFlop) {s : NetMap × Bool} (hm : ScMono m0 s) (hp : ScProg B m0 s) :
    ScProg B m0 (l.foldl (scFlipFlop w) s) := by
  induction l generalizing s with
  | nil => exact hp
  | cons g l ih => exact ih (scFlipFlop_mono w hm g) (scFlipFlop_prog hw hm hp g)

/-- One pass of the loop body lowers sequential controllabilities and changes
nothing else. -/
theorem scBody_mono (w : Int → Int) (c : Circuit) (m : NetMap) : ScMono m (scBody w c m) :=
  foldl_scFlipFlop_mono w _ (foldl_scGate_mono w _ (scMono_refl m false))

/-- One pass of the loop body keeps the lower bound, and a pass that reports a
change has lowered the measure. -/
theorem scBody_prog {w : Int → Int} {B : Int} (hw : ArithLB w B) (c : Circuit) {m : NetMap}
    (hlb : MetricsLB B m) : ScProg B m (scBody w c m) :=
  foldl_scFlipFlop_prog hw _ (foldl_scGate_mono w _ (scMono_refl m false))
    (foldl_scGate_prog hw _ (scMono_refl m false) ⟨hlb, fun h => by cases h⟩)

/-! ## The loop of `calculateSequentialControllability` -/

/-- The loop returns within any fuel above the measure of its start. -/
theorem scLoop_terminates {w : Int → Int} {B : Int} (hw : ArithLB w B) (c : Circuit)
    (fuel : Nat) (m : NetMap) (hlb : MetricsLB B m) (hfuel : scMeasure B m < fuel) :
    ∃ r, scLoop w c fuel m = .ok r := by
  induction fuel generalizing m with
  | zero => omega
  | succ n ih =>
    unfold scLoop
    have hp := scBody_prog hw c hlb
    split
    · rename_i hch
      exact ih _ hp.lb (by have := hp.dec hch; omega)
    · exact ⟨_, rfl⟩

/-- More fuel does not change what the loop returns. -/
theorem scLoop_fuel_mono (w : Int → Int) (c : Circuit) {n : Nat} {m r : NetMap}
    (h : scLoop w c n m = .ok r) (k : Nat) : scLoop w c (n + k) m = .ok r := by
  induction n generalizing m with
  | zero => unfold scLoop at h; cases h
  | succ n ih =>
    rw [Nat.succ_add]
    unfold scLoop at h ⊢
    split
    · rename_i hch
      rw [if_pos hch] at h
      exact ih h
    · rename_i hch
      rw [if_neg hch] at h
      exact h

/-- An invariant of the loop body holds of what the loop returns, which is the
result of a pass that reported no change. -/
theorem scLoop_induction (w : Int → Int) (c : Circuit) (P : NetMap → Prop)
    (hP : ∀ m, P m → P (scBody w c m).1) {n : Nat} {m r : NetMap} (hm : P m)
    (h : scLoop w c n m = .ok r) :
    P r ∧ ∃ m', P m' ∧ (scBody w c m').2 = false ∧ (scBody w c m').1 = r := by
  induction n generalizing m with
  | zero => unfold scLoop at h; cases h
  | succ n ih =>
    unfold scLoop at h
    split at h
    · exact ih (hP m hm) h
    · rename_i hch
      injection h with h
      exact ⟨h ▸ hP m hm, m, hm, by simpa using hch, h⟩

/-! ## The observability sweep -/

theorem sameButCO_refl (m : NetMap) : SameButCO m m := ⟨rfl, fun _ => rfl⟩

theorem sameButCO_trans {m1 m2 m3 : NetMap} (h1 : SameButCO m1 m2) (h2 : SameButCO m2 m3) :
    SameButCO m1 m3 := by
  refine ⟨h2.1.trans h1.1, fun k => ?_⟩
  have a := h2.2 k
  have b := h1.2 k
  rw [a, b]

theorem sameButCO_modify (m : NetMap) (k : String) (v : Int) :
    SameButCO m (m.modify k (fun n => { n with co := v })) := by
  refine ⟨rfl, fun j => ?_⟩
  by_cases h : j = k
  · subst h; rw [modify_get_same]
  · rw [modify_get_ne _ _ h]

theorem coMono_refl (m : NetMap) : CoMono m m := ⟨sameButCO_refl m, fun _ => le_refl _⟩

theorem coMono_trans {m1 m2 m3 : NetMap} (h1 : CoMono m1 m2) (h2 : CoMono m2 m3) :
    CoMono m1 m3 :=
  ⟨sameButCO_trans h1.frame h2.frame, fun k => le_trans (h2.le k) (h1.le k)⟩

theorem sumOthers_ok (w : Int → Int) (m : NetMap) (f : Net → Int) {inputs : List String}
    (h : ∀ x ∈ inputs, x ∈ m.keys) (i : Nat) :
    sumOthers w m f inputs i =
      .ok (accumulate w ((inputs.eraseIdx i).map (fun x => f (m.get x)))) := by
  unfold sumOthers
  rw [if_pos]
  intro x hx
  exact h x (List.mem_of_mem_eraseIdx hx)

/-- With all inputs of the gate present, the contribution is computed without a fault. -/
theorem coNew_ok (w : Int → Int) (m : NetMap) (g : Gate) (coY : Int) (i : Nat)
    (h : ∀ x ∈ g.inputs, x ∈ m.keys) : ∃ v, coNew w m g coY i = .ok v := by
  unfold coNew
  split
  · rw [sumOthers_ok w m _ h]; exact ⟨_, rfl⟩
  split
  · rw [sumOthers_ok w m _ h]; exact ⟨_, rfl⟩
  split
  · exact ⟨_, rfl⟩
  split
  · split
    · rename_i h2
      dsimp only
      rw [if_pos]
      · exact ⟨_, rfl⟩
      · apply h
        rw [List.getD_eq_getElem?_getD]
        have hlt : (if i = 0 then 1 else 0) < g.inputs.length := by
          rw [h2]; split <;> decide
        rw [List.getElem?_eq_getElem hlt]
        exact List.getElem_mem _
    · exact ⟨_, rfl⟩
  exact ⟨_, rfl⟩

theorem sumOthers_ge {w : Int → Int} {B : Int} (hw : ArithLB w B) {m : NetMap} {f : Net → Int}
    (hf : ∀ k ∈ m.keys, B ≤ f (m.get k)) {inputs : List String} {i : Nat} {v : Int}
    (h : sumOthers w m f inputs i = .ok v) : B ≤ v := by
  unfold sumOthers at h
  split at h
  · rename_i hk
    injection h with h
    subst h
    apply accumulate_ge hw
    intro y hy
    obtain ⟨x, hx, rfl⟩ := List.mem_map.1 hy
    exact hf x (hk x hx)
  · cases h

/-- The contribution respects the lower bound of the arithmetic. -/
theorem coNew_ge {w : Int → Int} {B : Int} (hw : ArithLB w B) {m : NetMap}
    (hlb : MetricsLB B m) {g : Gate} {coY : Int} (hY : B ≤ coY) {i : Nat} {v : Int}
    (h : coNew w m g coY i = .ok v) : B ≤ v := by
  have h1 := hw.le_one
  unfold coNew at h
  split at h
  · split at h
    · rename_i s hs
      injection h with h
      subst h
      exact hw.2 _ _ (hw.2 _ _ hY (sumOthers_ge hw (fun k hk => (hlb k hk).2.1) hs)) h1
    · cases h
  split at h
  · split at h
    · rename_i s hs
      injection h with h
      subst h
      exact hw.2 _ _ (hw.2 _ _ hY (sumOthers_ge hw (fun k hk => (hlb k hk).1) hs)) h1
    · cases h
  split at h
  · injection h with h
    subst h
    exact hw.2 _ _ hY h1
  split at h
  · split at h
    · dsimp only at h
      generalize g.inputs.getD (if i = 0 then 1 else 0) "" = other at h
      split at h
      · rename_i hk
        injection h with h
        subst h
        exact hw.2 _ _ (hw.2 _ _ hY (le_min (hlb _ hk).1 (hlb _ hk).2.1)) h1
      · cases h
    · injection h with h
      subst h
      exact hw.le_INF
  injection h with h
  subst h
  exact hw.le_INF

theorem coVisit_mono {w : Int → Int} {g : Gate} {coY : Int} {m m' : NetMap} {i : Nat}
    (h : coVisit w g coY m i = .ok m') :
    CoMono m m' ∧ ∀ k, k ≠ g.inputs.getD i "" → m'.get k = m.get k := by
  unfold coVisit at h
  dsimp only at h
  split at h
  · injection h with h; subst h; exact ⟨coMono_refl _, fun _ _ => rfl⟩
  · split at h
    · split at h
      · rename_i hlt
        injection h with h
        subst h
        refine ⟨⟨sameButCO_modify _ _ _, fun k => ?_⟩, fun k hk => modify_get_ne _ _ hk⟩
        by_cases e : k = g.inputs.getD i ""
        · rw [e, modify_get_same]; exact le_of_lt hlt
        · rw [modify_get_ne _ _ e]
      · injection h with h; subst h; exact ⟨coMono_refl _, fun _ _ => rfl⟩
    · cases h

theorem coVisit_lb {w : Int → Int} {B : Int} (hw : ArithLB w B) {g : Gate} {coY : Int}
    (hY : B ≤ coY) {m m' : NetMap} {i : Nat} (hlb : MetricsLB B m)
    (h : coVisit w g coY m i = .ok m') : MetricsLB B m' := by
  unfold coVisit at h
  dsimp only at h
  split at h
  · injection h with h; subst h; exact hlb
  · split at h
    · rename_i v hv
      split at h
      · injection h with h
        subst h
        intro k hk
        by_cases e : k = g.inputs.getD i ""
        · rw [e, modify_get_same]
          have := hlb _ (e ▸ hk)
          exact ⟨this.1, this.2.1, this.2.2.1, this.2.2.2.1, coNew_ge hw hlb hY hv, this.2.2.2.2.2⟩
        · rw [modify_get_ne _ _ e]; exact hlb k hk
      · injection h with h; subst h; exact hlb
    · cases h

theorem coVisit_ok (w : Int → Int) (g : Gate) (coY : Int) (m : NetMap) (i : Nat)
    (h : ∀ x ∈ g.inputs, x ∈ m.keys) : ∃ m', coVisit w g coY m i = .ok m' := by
  unfold coVisit
  dsimp only
  split
  · exact ⟨_, rfl⟩
  · obtain ⟨v, hv⟩ := coNew_ok w m g coY i h
    rw [hv]
    dsimp only
    split <;> exact ⟨_, rfl⟩

theorem coGate_mono {w : Int → Int} {g : Gate} {m m' : NetMap} (h : coGate w m g = .ok m') :
    CoMono m m' ∧ ∀ k, k ∉ g.inputs → m'.get k = m.get k := by
  unfold coGate at h
  split at h
  · injection h with h; subst h; exact ⟨coMono_refl _, fun _ _ => rfl⟩
  split at h
  · injection h with h; subst h; exact ⟨coMono_refl _, fun _ _ => rfl⟩
  · exact sweep_induction _
      (fun s => CoMono m s ∧ ∀ k, k ∉ g.inputs → s.get k = m.get k) _
      (fun s i hi s' hs hstep => by
        obtain ⟨a, b⟩ := coVisit_mono hstep
        refine ⟨coMono_trans hs.1 a, fun k hk => ?_⟩
        rw [b k, hs.2 k hk]
        intro e
        apply hk
        rw [e, List.getD_eq_getElem?_getD, List.getElem?_eq_getElem (List.mem_range.1 hi)]
        exact List.getElem_mem _)
      m ⟨coMono_refl _, fun _ _ => rfl⟩ h

theorem coGate_lb {w : Int → Int} {B : Int} (hw : ArithLB w B) {g : Gate} {m m' : NetMap}
    (hlb : MetricsLB B m) (h : coGate w m g = .ok m') : MetricsLB B m' := by
  unfold coGate at h
  split at h
  · injection h with h; subst h; exact hlb
  · rename_i hk
    split at h
    · injection h with h; subst h; exact hlb
    · exact sweep_induction _ (fun s => MetricsLB B s) _
        (fun s i _ s' hs hstep =>
          coVisit_lb hw (hlb _ (not_not.1 hk)).2.2.2.2.1 hs hstep) m hlb h

theorem coGate_ok (w : Int → Int) (g : Gate) (m : NetMap) (h : ∀ x ∈ g.inputs, x ∈ m.keys) :
    ∃ m', coGate w m g = .ok m' := by
  unfold coGate
  split
  · exact ⟨_, rfl⟩
  split
  · exact ⟨_, rfl⟩
  · obtain ⟨r, hr, _⟩ := sweep_ok (coVisit w g (m.get g.output).co) (fun s => s.keys = m.keys)
      (List.range g.inputs.length)
      (fun s i _ hs => by
        obtain ⟨m', hm'⟩ := coVisit_ok w g (m.get g.output).co s i (by rw [hs]; exact h)
        exact ⟨m', hm', (coVisit_mono hm').1.frame.1.trans hs⟩) m rfl
    exact ⟨r, hr⟩

theorem sweep_coGate_mono {w : Int → Int} (l : List Gate) {m m' : NetMap}
    (h : sweep (coGate w) m l = .ok m') : CoMono m m' :=
  sweep_induction _ (fun s => CoMono m s) l
    (fun _ _ _ _ hs hstep => coMono_trans hs (coGate_mono hstep).1) m (coMono_refl m) h

theorem sweep_coGate_lb {w : Int → Int} {B : Int} (hw : ArithLB w B) (l : List Gate)
    {m m' : NetMap} (hlb : MetricsLB B m) (h : sweep (coGate w) m l = .ok m') :
    MetricsLB B m' :=
  sweep_induction _ (fun s => MetricsLB B s) l
    (fun _ _ _ _ hs hstep => coGate_lb hw hs hstep) m hlb h

theorem sweep_coGate_ok (w : Int → Int) (gates l : List Gate) (hl : ∀ g ∈ l, g ∈ gates)
    (m : NetMap) (h : InputsExist gates m) : ∃ m', sweep (coGate w) m l = .ok m' := by
  obtain ⟨r, hr, _⟩ := sweep_ok (coGate w) (fun s => s.keys = m.keys) l
    (fun s g hg hs => by
      obtain ⟨m', hm'⟩ := coGate_ok w g s (by rw [hs]; exact h g (hl g hg))
      exact ⟨m', hm', (coGate_mono hm').1.frame.1.trans hs⟩) m rfl
  exact ⟨r, hr⟩

/-! ## The loop body of `calculateSequentialObservability` -/

theorem sameButSO_refl (m : NetMap) : SameButSO m m := ⟨rfl, fun _ => rfl⟩

theorem sameButSO_trans {m1 m2 m3 : NetMap} (h1 : SameButSO m1 m2) (h2 : SameButSO m2 m3) :
    SameButSO m1 m3 := by
  refine ⟨h2.1.trans h1.1, fun k => ?_⟩
  have a := h2.2 k
  have b := h1.2 k
  rw [a, b]

theorem sameButSO_modify (m : NetMap) (k : String) (v : Int) :
    SameButSO m (m.modify k (fun n => { n with so := v })) := by
  refine ⟨rfl, fun j => ?_⟩
  by_cases h : j = k
  · subst h; rw [modify_get_same]
  · rw [modify_get_ne _ _ h]

theorem soMeasure_le {B : Int} {m m' : NetMap} (hk : m'.keys = m.keys)
    (h0 : ∀ k, (m'.get k).so ≤ (m.get k).so) : soMeasure B m' ≤ soMeasure B m := by
  unfold soMeasure
  rw [hk]
  apply List.sum_le_sum
  intro k _
  have a := h0 k
  omega

theorem soMeasure_lt {B : Int} {m m' : NetMap} (hk : m'.keys = m.keys)
    (h0 : ∀ k, (m'.get k).so ≤ (m.get k).so)
    {k : String} (hmem : k ∈ m.keys) (hB0 : B ≤ (m'.get k).so)
    (hlt : (m'.get k).so < (m.get k).so) : soMeasure B m' < soMeasure B m := by
  unfold soMeasure
  rw [hk]
  apply List.sum_lt_sum
  · intro j _
    have a := h0 j
    omega
  · exact ⟨k, hmem, by omega⟩

theorem soMono_refl (m : NetMap) (b : Bool) : SoMono m (m, b) :=
  ⟨sameButSO_refl m, fun _ => le_refl _⟩

theorem lowerSo_keys (s : NetMap × Bool) (k : String) (v : Int) :
    (lowerSo s k v).1.keys = s.1.keys := by
  unfold lowerSo; split <;> rfl

theorem lowerSo_mono {m0 : NetMap} {s : NetMap × Bool} (h : SoMono m0 s) (k : String) (v : Int) :
    SoMono m0 (lowerSo s k v) := by
  unfold lowerSo
  split
  · rename_i hv
    refine ⟨sameButSO_trans h.frame (sameButSO_modify _ _ _), ?_⟩
    intro j
    by_cases e : j = k
    · subst e
      rw [modify_get_same]
      exact le_trans (le_of_lt hv) (h.le j)
    · rw [modify_get_ne _ _ e]; exact h.le j
  · exact h

theorem lowerSo_prog {B : Int} {m0 : NetMap} {s : NetMap × Bool} (hm : SoMono m0 s)
    (hp : SoProg B m0 s) {k : String} (hk : k ∈ s.1.keys) {v : Int} (hv : B ≤ v) :
    SoProg B m0 (lowerSo s k v) := by
  unfold lowerSo
  split
  · rename_i hlt
    have hlb : MetricsLB B (s.1.modify k (fun n => { n with so := v })) := by
      intro j hj
      by_cases e : j = k
      · subst e
        rw [modify_get_same]
        have := hp.lb j hj
        exact ⟨this.1, this.2.1, this.2.2.1, this.2.2.2.1, this.2.2.2.2.1, hv⟩
      · rw [modify_get_ne _ _ e]; exact hp.lb j hj
    refine ⟨hlb, fun _ => ?_⟩
    have h1 : soMeasure B (s.1.modify k (fun n => { n with so := v })) < soMeasure B s.1 := by
      refine soMeasure_lt (m := s.1) (k := k) (modify_keys _ _ _) ?_ hk ?_ ?_
      · intro j
        by_cases e : j = k
        · subst e; rw [modify_get_same]; exact le_of_lt hlt
        · rw [modify_get_ne _ _ e]
      · rw [modify_get_same]; exact hv
      · rw [modify_get_same]; exact hlt
    exact lt_of_lt_of_le h1 (soMeasure_le hm.frame.1 hm.le)
  · exact hp

theorem soFlipFlop_keys (w : Int → Int) (s : NetMap × Bool) (ff : FlipFlop) :
    (soFlipFlop w s ff).1.keys = s.1.keys := by
  unfold soFlipFlop
  split
  · rfl
  split
  · rfl
  split
  · dsimp only; rw [lowerSo_keys]
  · rfl

theorem soFlipFlop_mono (w : Int → Int) {m0 : NetMap} {s : NetMap × Bool} (h : SoMono m0 s)
    (ff : FlipFlop) : SoMono m0 (soFlipFlop w s ff) := by
  unfold soFlipFlop
  split
  · exact h
  split
  · exact h
  split
  · exact lowerSo_mono h _ _
  · exact h

theorem soFlipFlop_prog {w : Int → Int} {B : Int} (hw : ArithLB w B) {m0 : NetMap}
    {s : NetMap × Bool} (hm : SoMono m0 s) (hp : SoProg B m0 s) (ff : FlipFlop) :
    SoProg B m0 (soFlipFlop w s ff) := by
  unfold soFlipFlop
  split
  · exact hp
  · rename_i hk
    simp only [not_or, not_not] at hk
    split
    · exact hp
    split
    · dsimp only
      have hq := hp.lb ff.q hk.1
      have hc := hp.lb ff.clk hk.2.2
      exact lowerSo_prog hm hp hk.2.1
        (hw.2 _ _ (hw.2 _ _ (hw.2 _ _ hq.2.2.2.2.2 hc.2.2.1) hc.2.2.2.1) hw.le_one)
    · exact hp

theorem foldl_soFlipFlop_mono (w : Int → Int) {m0 : NetMap} (l : List FlipFlop)
    {s : NetMap × Bool} (h : SoMono m0 s) : SoMono m0 (l.foldl (soFlipFlop w) s) := by
  induction l generalizing s with
  | nil => exact h
  | cons g l ih => exact ih (soFlipFlop_mono w h g)

theorem foldl_soFlipFlop_prog {w : Int → Int} {B : Int} (hw : ArithLB w B) {m0 : NetMap}
    (l : List FlipFlop) {s : NetMap × Bool} (hm : SoMono m0 s) (hp : SoProg B m0 s) :
    SoProg B m0 (l.foldl (soFlipFlop w) s) := by
  induction l generalizing s with
  | nil => exact hp
  | cons g l ih => exact ih (soFlipFlop_mono w hm g) (soFlipFlop_prog hw hm hp g)

theorem soNew_ok (w : Int → Int) (m : NetMap) (g : Gate) (soY : Int) (i : Nat)
    (h : ∀ x ∈ g.inputs, x ∈ m.keys) : ∃ v, soNew w m g soY i = .ok v := by
  unfold soNew
  split
  · rw [sumOthers_ok w m _ h]; exact ⟨_, rfl⟩
  split
  · rw [sumOthers_ok w m _ h]; exact ⟨_, rfl⟩
  split
  · exact ⟨_, rfl⟩
  exact ⟨_, rfl⟩

theorem soNew_ge {w : Int → Int} {B : Int} (hw : ArithLB w B) {m : NetMap}
    (hlb : MetricsLB B m) {g : Gate} {soY : Int} (hY : B ≤ soY) {i : Nat} {v : Int}
    (h : soNew w m g soY i = .ok v) : B ≤ v := by
  unfold soNew at h
  split at h
  · split at h
    · rename_i s hs
      injection h with h
      subst h
      exact hw.2 _ _ hY (sumOthers_ge hw (fun k hk => (hlb k hk).2.2.2.1) hs)
    · cases h
  split at h
  · split at h
    · rename_i s hs
      injection h with h
      subst h
      exact hw.2 _ _ hY (sumOthers_ge hw (fun k hk => (hlb k hk).2.2.1) hs)
    · cases h
  split at h
  · injection h with h
    subst h
    exact hY
  injection h with h
  subst h
  exact hw.le_INF

theorem soVisit_keys {w : Int → Int} {g : Gate} {soY : Int} {s s' : NetMap × Bool} {i : Nat}
    (h : soVisit w g soY s i = .ok s') : s'.1.keys = s.1.keys := by
  unfold soVisit at h
  dsimp only at h
  split at h
  · injection h with h; subst h; rfl
  · split at h
    · injection h with h; subst h; exact lowerSo_keys _ _ _
    · cases h

theorem soVisit_mono {w : Int → Int} {g : Gate} {soY : Int} {m0 : NetMap}
    {s s' : NetMap × Bool} {i : Nat} (hm : SoMono m0 s)
    (h : soVisit w g soY s i = .ok s') : SoMono m0 s' := by
  unfold soVisit at h
  dsimp only at h
  split at h
  · injection h with h; subst h; exact hm
  · split at h
    · injection h with h; subst h; exact lowerSo_mono hm _ _
    · cases h

theorem soVisit_prog {w : Int → Int} {B : Int} (hw : ArithLB w B) {g : Gate} {soY : Int}
    (hY : B ≤ soY) {m0 : NetMap} {s s' : NetMap × Bool} {i : Nat} (hm : SoMono m0 s)
    (hp : SoProg B m0 s) (h : soVisit w g soY s i = .ok s') : SoProg B m0 s' := by
  unfold soVisit at h
  dsimp only at h
  split at h
  · injection h with h; subst h; exact hp
  · rename_i hk
    split at h
    · rename_i v hv
      injection h with h
      subst h
      exact lowerSo_prog hm hp (not_not.1 hk) (soNew_ge hw hp.lb hY hv)
    · cases h

theorem soVisit_ok (w : Int → Int) (g : Gate) (soY : Int) (s : NetMap × Bool) (i : Nat)
    (h : ∀ x ∈ g.inputs, x ∈ s.1.keys) : ∃ s', soVisit w g soY s i = .ok s' := by
  unfold soVisit
  dsimp only
  split
  · exact ⟨_, rfl⟩
  · obtain ⟨v, hv⟩ := soNew_ok w s.1 g soY i h
    rw [hv]
    exact ⟨_, rfl⟩

theorem soGate_keys {w : Int → Int} {g : Gate} {s s' : NetMap × Bool}
    (h : soGate w s g = .ok s') : s'.1.keys = s.1.keys := by
  unfold soGate at h
  split at h
  · injection h with h; subst h; rfl
  split at h
  · injection h with h; subst h; rfl
  · exact sweep_induction _ (fun t => t.1.keys = s.1.keys) _
      (fun t i _ t' ht hstep => (soVisit_keys hstep).trans ht) s rfl h

theorem soGate_mono {w : Int → Int} {g : Gate} {m0 : NetMap} {s s' : NetMap × Bool}
    (hm : SoMono m0 s) (h : soGate w s g = .ok s') : SoMono m0 s' := by
  unfold soGate at h
  split at h
  · injection h with h; subst h; exact hm
  split at h
  · injection h with h; subst h; exact hm
  · exact sweep_induction _ (fun t => SoMono m0 t) _
      (fun t i _ t' ht hstep => soVisit_mono ht hstep) s hm h

theorem soGate_prog {w : Int → Int} {B : Int} (hw : ArithLB w B) {g : Gate} {m0 : NetMap}
    {s s' : NetMap × Bool} (hm : SoMono m0 s) (hp : SoProg B m0 s)
    (h : soGate w s g = .ok s') : SoProg B m0 s' := by
  unfold soGate at h
  split at h
  · injection h with h; subst h; exact hp
  · rename_i hk
    split at h
    · injection h with h; subst h; exact hp
    · exact (sweep_induction _ (fun t => SoMono m0 t ∧ SoProg B m0 t) _
        (fun t i _ t' ht hstep =>
          ⟨soVisit_mono ht.1 hstep,
            soVisit_prog hw (hp.lb _ (not_not.1 hk)).2.2.2.2.2 ht.1 ht.2 hstep⟩)
        s ⟨hm, hp⟩ h).2

theorem soGate_ok (w : Int → Int) (g : Gate) (s : NetMap × Bool)
    (h : ∀ x ∈ g.inputs, x ∈ s.1.keys) : ∃ s', soGate w s g = .ok s' := by
  unfold soGate
  split
  · exact ⟨_, rfl⟩
  split
  · exact ⟨_, rfl⟩
  · obtain ⟨r, hr, _⟩ := sweep_ok (soVisit w g (s.1.get g.output).so)
      (fun t => t.1.keys = s.1.keys) (List.range g.inputs.length)
      (fun t i _ ht => by
        obtain ⟨t', ht'⟩ := soVisit_ok w g (s.1.get g.output).so t i (by rw [ht]; exact h)
        exact ⟨t', ht', (soVisit_keys ht').trans ht⟩) s rfl
    exact ⟨r, hr⟩

/-- One pass of the loop body lowers sequential observabilities and changes
nothing else. -/
theorem soBody_mono {w : Int → Int} {c : Circuit} {m : NetMap} {s : NetMap × Bool}
    (h : soBody w c m = .ok s) : SoMono m s := by
  unfold soBody at h
  dsimp only at h
  exact sweep_induction _ (fun t => SoMono m t) _
    (fun t g _ t' ht hstep => soGate_mono ht hstep) _
    (foldl_soFlipFlop_mono w _ (soMono_refl m false)) h

/-- One pass of the loop body keeps the lower bound, and a pass that reports a
change has lowered the measure. -/
theorem soBody_prog {w : Int → Int} {B : Int} (hw : ArithLB w B) {c : Circuit} {m : NetMap}
    (hlb : MetricsLB B m) {s : NetMap × Bool} (h : soBody w c m = .ok s) : SoProg B m s := by
  unfold soBody at h
  dsimp only at h
  exact (sweep_induction _ (fun t => SoMono m t ∧ SoProg B m t) _
    (fun t g _ t' ht hstep => ⟨soGate_mono ht.1 hstep, soGate_prog hw ht.1 ht.2 hstep⟩) _
    ⟨foldl_soFlipFlop_mono w _ (soMono_refl m false),
      foldl_soFlipFlop_prog hw _ (soMono_refl m false) ⟨hlb, fun h => by cases h⟩⟩ h).2

/-- With every gate input present, the loop body returns. -/
theorem soBody_ok (w : Int → Int) (c : Circuit) (m : NetMap) (h : InputsExist c.gates m) :
    ∃ s, soBody w c m = .ok s := by
  unfold soBody
  dsimp only
  have hk : (c.flipflops.foldl (soFlipFlop w) (m, false)).1.keys = m.keys :=
    (foldl_soFlipFlop_mono w _ (soMono_refl m false)).frame.1
  obtain ⟨r, hr, _⟩ := sweep_ok (soGate w) (fun t => t.1.keys = m.keys)
    (stdSort (levelGreater (c.flipflops.foldl (soFlipFlop w) (m, false)).1) c.gates)
    (fun t g hg ht => by
      obtain ⟨t', ht'⟩ := soGate_ok w g t (by rw [ht]; exact h g (mem_stdSort.1 hg))
      exact ⟨t', ht', (soGate_keys ht').trans ht⟩) _ hk
  exact ⟨r, hr⟩

/-! ## The loop of `calculateSequentialObservability` -/

/-- The loop returns within any fuel above the measure of its start. -/
theorem soLoop_terminates {w : Int → Int} {B : Int} (hw : ArithLB w B) (c : Circuit)
    (fuel : Nat) (m : NetMap) (hin : InputsExist c.gates m) (hlb : MetricsLB B m)
    (hfuel : soMeasure B m < fuel) : ∃ r, soLoop w c fuel m = .ok r := by
  induction fuel generalizing m with
  | zero => omega
  | succ n ih =>
    unfold soLoop
    obtain ⟨s, hs⟩ := soBody_ok w c m hin
    rw [hs]
    dsimp only
    have hp := soBody_prog hw hlb hs
    have hm := soBody_mono hs
    split
    · rename_i hch
      refine ih _ ?_ hp.lb (by have := hp.dec hch; omega)
      intro g hg x hx
      rw [hm.frame.1]
      exact hin g hg x hx
    · exact ⟨_, rfl⟩

/-- More fuel does not change what the loop returns. -/
theorem soLoop_fuel_mono (w : Int → Int) (c : Circuit) {n : Nat} {m r : NetMap}
    (h : soLoop w c n m = .ok r) (k : Nat) : soLoop w c (n + k) m = .ok r := by
  induction n generalizing m with
  | zero => unfold soLoop at h; cases h
  | succ n ih =>
    rw [Nat.succ_add]
    unfold soLoop at h ⊢
    cases hb : soBody w c m with
    | error e => rw [hb] at h; cases h
    | ok s =>
      rw [hb] at h
      dsimp only at h ⊢
      split
      · rename_i hch
        rw [if_pos hch] at h
        exact ih h
      · rename_i hch
        rw [if_neg hch] at h
        exact h

/-- An invariant of the loop body holds of what the loop returns, which is the
result of a pass that reported no change. -/
theorem soLoop_induction (w : Int → Int) (c : Circuit) (P : NetMap → Prop)
    (hP : ∀ m s, P m → soBody w c m = .ok s → P s.1) {n : Nat} {m r : NetMap} (hm : P m)
    (h : soLoop w c n m = .ok r) :
    P r ∧ ∃ m', P m' ∧ soBody w c m' = .ok (r, false) := by
  induction n generalizing m with
  | zero => unfold soLoop at h; cases h
  | succ n ih =>
    unfold soLoop at h
    cases hb : soBody w c m with
    | error e => rw [hb] at h; cases h
    | ok s =>
      rw [hb] at h
      dsimp only at h
      split at h
      · exact ih (hP m s hm hb) h
      · rename_i hch
        injection h with h
        refine ⟨h ▸ hP m s hm hb, m, hm, ?_⟩
        rw [hb, ← h]
        have : s.2 = false := by simpa using hch
        rw [← this]

/-- Claim C7. Both sequential fixpoint loops terminate: for every circuit whose gate
inputs all exist and every assignment of 32-bit metrics, the `do`-`while` loop
of `calculateSequentialControllability` and that of
`calculateSequentialObservability`, run in 32-bit arithmetic, return for every
sufficiently large fuel. -/
theorem sequential_loops_terminate (c : Circuit) (hin : InputsExist c.gates c.nets)
    (hrange : MetricsLB (-2147483648) c.nets) :
    (∃ N, ∀ fuel, N ≤ fuel → ∃ r, scLoop wrap32 c fuel c.nets = .ok r) ∧
    (∃ N, ∀ fuel, N ≤ fuel → ∃ r, soLoop wrap32 c fuel c.nets = .ok r) :=
  ⟨⟨scMeasure (-2147483648) c.nets + 1, fun fuel hf =>
      scLoop_terminates arithLB_wrap32 c fuel c.nets hrange (by omega)⟩,
    ⟨soMeasure (-2147483648) c.nets + 1, fun fuel hf =>
      soLoop_terminates arithLB_wrap32 c fuel c.nets hin hrange (by omega)⟩⟩

theorem s4_inputsExist : InputsExist s4.gates s4.nets := by
  unfold InputsExist
  decide

theorem s4_range : MetricsLB (-2147483648) s4.nets := by
  unfold MetricsLB
  decide

/-- A run of C7 on scenario S4, the loop through a flip-flop. -/
theorem sequential_loops_terminate_witness :
    InputsExist s4.gates s4.nets ∧ MetricsLB (-2147483648) s4.nets ∧
    (∃ N, ∀ fuel, N ≤ fuel → ∃ r, scLoop wrap32 s4 fuel s4.nets = .ok r) ∧
    (∃ N, ∀ fuel, N ≤ fuel → ∃ r, soLoop wrap32 s4 fuel s4.nets = .ok r) :=
  ⟨s4_inputsExist, s4_range, sequential_loops_terminate s4 s4_inputsExist s4_range⟩

/-- The loops also terminate in exact arithmetic when no metric is negative. -/
theorem exact_loops_terminate (c : Circuit) (hin : InputsExist c.gates c.nets)
    (hnonneg : MetricsLB 0 c.nets) :
    (∃ N, ∀ fuel, N ≤ fuel → ∃ r, scLoop id c fuel c.nets = .ok r) ∧
    (∃ N, ∀ fuel, N ≤ fuel → ∃ r, soLoop id c fuel c.nets = .ok r) :=
  ⟨⟨scMeasure 0 c.nets + 1, fun fuel hf =>
      scLoop_terminates arithLB_id c fuel c.nets hnonneg (by omega)⟩,
    ⟨soMeasure 0 c.nets + 1, fun fuel hf =>
      soLoop_terminates arithLB_id c fuel c.nets hin hnonneg (by omega)⟩⟩

/-- Claim C8. Monotone fixpoint: one execution of the loop body of
`calculateSequentialControllability` never increases `sc0` or `sc1` of any net,
and one execution of the loop body of `calculateSequentialObservability` that
returns never increases `so` of any net, in any arithmetic. -/
theorem monotone_fixpoint (w : Int → Int) (c : Circuit) (m : NetMap) (n : String) :
    ((scBody w c m).1.get n).sc0 ≤ (m.get n).sc0 ∧
    ((scBody w c m).1.get n).sc1 ≤ (m.get n).sc1 ∧
    ∀ s, soBody w c m = .ok s → (s.1.get n).so ≤ (m.get n).so :=
  ⟨(scBody_mono w c m).le0 n, (scBody_mono w c m).le1 n, fun _ h => (soBody_mono h).le n⟩

/-- A run of C8 on scenario S4 in 32-bit arithmetic, at the flip-flop output `x`. -/
theorem monotone_fixpoint_witness :
    ((scBody wrap32 s4 s4.nets).1.get "x").sc0 ≤ (s4.nets.get "x").sc0 ∧
    ((scBody wrap32 s4 s4.nets).1.get "x").sc1 ≤ (s4.nets.get "x").sc1 ∧
    ∃ s, soBody wrap32 s4 s4.nets = .ok s ∧ (s.1.get "x").so ≤ (s4.nets.get "x").so :=
  ⟨(monotone_fixpoint wrap32 s4 s4.nets "x").1, (monotone_fixpoint wrap32 s4 s4.nets "x").2.1,
    _, rfl, (monotone_fixpoint wrap32 s4 s4.nets "x").2.2 _ rfl⟩

/-! ## Lower bounds through the controllability sweep -/

theorem ccRule_ge {w : Int → Int} {B : Int} (hw : ArithLB w B) {ty : String}
    {in0 in1 : List Int} (h0 : ∀ x ∈ in0, B ≤ x) (h1 : ∀ x ∈ in1, B ≤ x)
    (hne0 : in0 ≠ []) (hne1 : in1 ≠ []) {p : Int × Int}
    (h : ccRule w ty in0 in1 = .ok (some p)) : B ≤ p.1 ∧ B ≤ p.2 := by
  have one := hw.le_one
  unfold ccRule at h
  split at h
  · injection h with h; injection h with h; subst h
    exact ⟨hw.2 _ _ one (minElement_ge hne0 h0), hw.2 _ _ one (accumulate_ge hw h1)⟩
  split at h
  · injection h with h; injection h with h; subst h
    exact ⟨hw.2 _ _ one (accumulate_ge hw h1), hw.2 _ _ one (minElement_ge hne0 h0)⟩
  split at h
  · injection h with h; injection h with h; subst h
    exact ⟨hw.2 _ _ one (accumulate_ge hw h0), hw.2 _ _ one (minElement_ge hne1 h1)⟩
  split at h
  · injection h with h; injection h with h; subst h
    exact ⟨hw.2 _ _ one (minElement_ge hne1 h1), hw.2 _ _ one (accumulate_ge hw h0)⟩
  split at h
  · split at h
    · rename_i a0 b0 _ a1 b1 _
      injection h with h; injection h with h; subst h
      have ha0 := h0 a0 (by simp)
      have hb0 := h0 b0 (by simp)
      have ha1 := h1 a1 (by simp)
      have hb1 := h1 b1 (by simp)
      exact ⟨hw.2 _ _ one (le_min (hw.2 _ _ ha0 hb0) (hw.2 _ _ ha1 hb1)),
        hw.2 _ _ one (le_min (hw.2 _ _ ha0 hb1) (hw.2 _ _ ha1 hb0))⟩
    · cases h
  split at h
  · split at h
    · rename_i a0 b0 _ a1 b1 _
      injection h with h; injection h with h; subst h
      have ha0 := h0 a0 (by simp)
      have hb0 := h0 b0 (by simp)
      have ha1 := h1 a1 (by simp)
      have hb1 := h1 b1 (by simp)
      exact ⟨hw.2 _ _ one (le_min (hw.2 _ _ ha0 hb1) (hw.2 _ _ ha1 hb0)),
        hw.2 _ _ one (le_min (hw.2 _ _ ha0 hb0) (hw.2 _ _ ha1 hb1))⟩
    · cases h
  split at h
  · split at h
    · rename_i a0 _ a1 _
      injection h with h; injection h with h; subst h
      exact ⟨hw.2 _ _ one (h1 a1 (by simp)), hw.2 _ _ one (h0 a0 (by simp))⟩
    · cases h
  split at h
  · split at h
    · rename_i a0 _ a1 _
      injection h with h; injection h with h; subst h
      exact ⟨hw.2 _ _ one (h0 a0 (by simp)), hw.2 _ _ one (h1 a1 (by simp))⟩
    · cases h
  injection h with h
  cases h

theorem ccGate_lb {w : Int → Int} {B : Int} (hw : ArithLB w B) {m m' : NetMap} {g : Gate}
    (hlb : MetricsLB B m) (h : ccGate w m g = .ok m') : MetricsLB B m' := by
  unfold ccGate at h
  split at h
  · injection h with h; subst h; exact hlb
  · dsimp only at h
    split at h
    · injection h with h; subst h; exact hlb
    · rename_i hne
      have hin : ∀ x ∈ presentInputs m g, x ∈ m.keys := by
        intro x hx
        unfold presentInputs at hx
        simpa using (List.mem_filter.1 hx).2
      split at h
      · rename_i o0 o1 hr
        injection h with h
        subst h
        obtain ⟨a, b⟩ := ccRule_ge hw
          (by intro x hx
              obtain ⟨y, hy, rfl⟩ := List.mem_map.1 hx
              exact (hlb y (hin y hy)).1)
          (by intro x hx
              obtain ⟨y, hy, rfl⟩ := List.mem_map.1 hx
              exact (hlb y (hin y hy)).2.1)
          (fun e => hne (Or.inl e)) (fun e => hne (Or.inr e)) hr
        intro k hk
        by_cases e : k = g.output
        · rw [e, modify_get_same]
          have := hlb _ (e ▸ hk)
          exact ⟨a, b, this.2.2⟩
        · rw [modify_get_ne _ _ e]; exact hlb k hk
      · injection h with h; subst h; exact hlb
      · cases h

theorem mapValues_lb {B : Int} {m : NetMap} (hlb : MetricsLB B m) (f : Net → Net)
    (hf : ∀ n, (B ≤ n.cc0 ∧ B ≤ n.cc1 ∧ B ≤ n.sc0 ∧ B ≤ n.sc1 ∧ B ≤ n.co ∧ B ≤ n.so) →
      (B ≤ (f n).cc0 ∧ B ≤ (f n).cc1 ∧ B ≤ (f n).sc0 ∧ B ≤ (f n).sc1 ∧ B ≤ (f n).co ∧
        B ≤ (f n).so)) : MetricsLB B (m.mapValues f) := by
  intro k hk
  rw [mapValues_get_mem m f hk]
  exact hf _ (hlb k hk)

theorem calculateCombinationalControllability_lb {w : Int → Int} {B : Int} (hw : ArithLB w B)
    {c c' : Circuit} (hlb : MetricsLB B c.nets)
    (h : calculateCombinationalControllability w c = .ok c') : MetricsLB B c'.nets := by
  unfold calculateCombinationalControllability at h
  dsimp only at h
  split at h
  · rename_i m hm
    injection h with h
    subst h
    refine sweep_induction _ (fun s => MetricsLB B s) _
      (fun _ _ _ _ hs hstep => ccGate_lb hw hs hstep) _ ?_ hm
    apply mapValues_lb hlb
    intro n hn
    have one := hw.le_one
    split
    · exact ⟨one, one, hn.2.2⟩
    · exact hn
  · cases h

theorem sameButLevel_lb {B : Int} {m m' : NetMap} (h : SameButLevel m m')
    (hlb : MetricsLB B m) : MetricsLB B m' := by
  intro k hk
  rw [h.2 k]
  exact hlb k (h.1 ▸ hk)

/-! ## Frames of the remaining passes -/

theorem scInit_frame (m : NetMap) : SameButSC m (scInit m) := by
  refine ⟨rfl, fun k => ?_⟩
  unfold scInit NetMap.mapValues
  dsimp only
  split
  · split <;> rfl
  · rfl

theorem scInit_lb {w : Int → Int} {B : Int} (hw : ArithLB w B) {m : NetMap}
    (hlb : MetricsLB B m) : MetricsLB B (scInit m) := by
  apply mapValues_lb hlb
  intro n hn
  split
  · exact ⟨hn.1, hn.2.1, hw.1, hw.1, hn.2.2.2.2⟩
  · exact hn

theorem calculateSequentialControllability_frame {w : Int → Int} {fuel : Nat} {c c' : Circuit}
    (h : calculateSequentialControllability w fuel c = .ok c') :
    c'.gates = c.gates ∧ c'.flipflops = c.flipflops ∧ c'.primaryInputs = c.primaryInputs ∧
    c'.primaryOutputs = c.primaryOutputs ∧ SameButSC c.nets c'.nets := by
  unfold calculateSequentialControllability at h
  split at h
  · rename_i m hm
    injection h with h
    subst h
    refine ⟨rfl, rfl, rfl, rfl, ?_⟩
    exact (scLoop_induction w c (fun s => SameButSC c.nets s)
      (fun s hs => sameButSC_trans hs (scBody_mono w c s).frame) (scInit_frame _) hm).1
  · cases h

theorem calculateSequentialControllability_lb {w : Int → Int} {B : Int} (hw : ArithLB w B)
    {fuel : Nat} {c c' : Circuit} (hlb : MetricsLB B c.nets)
    (h : calculateSequentialControllability w fuel c = .ok c') : MetricsLB B c'.nets := by
  unfold calculateSequentialControllability at h
  split at h
  · rename_i m hm
    injection h with h
    subst h
    exact (scLoop_induction w c (fun s => MetricsLB B s)
      (fun s hs => (scBody_prog hw c hs).lb) (scInit_lb hw hlb) hm).1
  · cases h

theorem foldl_modify_keys (f : Net → Net) (l : List String) (m : NetMap) :
    (l.foldl (fun m po => if po ∈ m.keys then m.modify po f else m) m).keys = m.keys := by
  induction l generalizing m with
  | nil => rfl
  | cons a l ih =>
    rw [List.foldl_cons, ih]
    split <;> rfl

/-- The loop over the primary outputs rewrites exactly the records of the
outputs that are keys. -/
theorem foldl_modify_get (f : Net → Net) (hf : ∀ n, f (f n) = f n) (l : List String)
    (m : NetMap) (k : String) :
    (l.foldl (fun m po => if po ∈ m.keys then m.modify po f else m) m).get k =
      if k ∈ l ∧ k ∈ m.keys then f (m.get k) else m.get k := by
  induction l generalizing m with
  | nil => simp
  | cons a l ih =>
    rw [List.foldl_cons, ih]
    by_cases ha : a ∈ m.keys
    · rw [if_pos ha, modify_keys]
      by_cases e : k = a
      · subst e
        rw [modify_get_same]
        simp only [List.mem_cons, true_or, ha, and_true, if_true]
        split
        · exact hf _
        · rfl
      · rw [modify_get_ne _ _ e]
        simp only [List.mem_cons, e, false_or]
    · rw [if_neg ha]
      by_cases e : k = a
      · subst e
        simp [ha]
      · simp only [List.mem_cons, e, false_or]

theorem initOutputsCo_frame (c : Circuit) : SameButCO c.nets (initOutputsCo c).nets := by
  unfold initOutputsCo
  dsimp only
  refine ⟨foldl_modify_keys _ _ _, fun k => ?_⟩
  rw [foldl_modify_get (fun n => { n with co := 0 }) (fun _ => rfl)]
  split <;> rfl

theorem initOutputsCo_get (c : Circuit) (k : String) :
    ((initOutputsCo c).nets.get k).co =
      if k ∈ c.primaryOutputs ∧ k ∈ c.nets.keys then 0 else (c.nets.get k).co := by
  unfold initOutputsCo
  dsimp only
  rw [foldl_modify_get (fun n => { n with co := 0 }) (fun _ => rfl)]
  split <;> rfl

theorem initOutputsSo_frame (c : Circuit) : SameButSO c.nets (initOutputsSo c).nets := by
  unfold initOutputsSo
  dsimp only
  refine ⟨foldl_modify_keys _ _ _, fun k => ?_⟩
  rw [foldl_modify_get (fun n => { n with so := 0 }) (fun _ => rfl)]
  split <;> rfl

theorem initOutputsSo_get (c : Circuit) (k : String) :
    ((initOutputsSo c).nets.get k).so =
      if k ∈ c.primaryOutputs ∧ k ∈ c.nets.keys then 0 else (c.nets.get k).so := by
  unfold initOutputsSo
  dsimp only
  rw [foldl_modify_get (fun n => { n with so := 0 }) (fun _ => rfl)]
  split <;> rfl

theorem initOutputsCo_lb {w : Int → Int} {B : Int} (hw : ArithLB w B) {c : Circuit}
    (hlb : MetricsLB B c.nets) : MetricsLB B (initOutputsCo c).nets := by
  intro k hk
  have hk' : k ∈ c.nets.keys := (initOutputsCo_frame c).1 ▸ hk
  have h := hlb k hk'
  have e := initOutputsCo_get c k
  rw [(initOutputsCo_frame c).2 k]
  refine ⟨h.1, h.2.1, h.2.2.1, h.2.2.2.1, ?_, h.2.2.2.2.2⟩
  show B ≤ ((initOutputsCo c).nets.get k).co
  rw [e]
  split
  · exact hw.1
  · exact h.2.2.2.2.1

theorem initOutputsSo_lb {w : Int → Int} {B : Int} (hw : ArithLB w B) {c : Circuit}
    (hlb : MetricsLB B c.nets) : MetricsLB B (initOutputsSo c).nets := by
  intro k hk
  have hk' : k ∈ c.nets.keys := (initOutputsSo_frame c).1 ▸ hk
  have h := hlb k hk'
  have e := initOutputsSo_get c k
  rw [(initOutputsSo_frame c).2 k]
  refine ⟨h.1, h.2.1, h.2.2.1, h.2.2.2.1, h.2.2.2.2.1, ?_⟩
  show B ≤ ((initOutputsSo c).nets.get k).so
  rw [e]
  split
  · exact hw.1
  · exact h.2.2.2.2.2

theorem calculateCombinationalObservability_mono {w : Int → Int} {c c' : Circuit}
    (h : calculateCombinationalObservability w c = .ok c') :
    c'.gates = c.gates ∧ c'.flipflops = c.flipflops ∧ c'.primaryInputs = c.primaryInputs ∧
    c'.primaryOutputs = c.primaryOutputs ∧ CoMono c.nets c'.nets := by
  unfold calculateCombinationalObservability at h
  split at h
  · rename_i m hm
    injection h with h
    subst h
    exact ⟨rfl, rfl, rfl, rfl, sweep_coGate_mono _ hm⟩
  · cases h

theorem calculateCombinationalObservability_lb {w : Int → Int} {B : Int} (hw : ArithLB w B)
    {c c' : Circuit} (hlb : MetricsLB B c.nets)
    (h : calculateCombinationalObservability w c = .ok c') : MetricsLB B c'.nets := by
  unfold calculateCombinationalObservability at h
  split at h
  · rename_i m hm
    injection h with h
    subst h
    exact sweep_coGate_lb hw _ hlb hm
  · cases h

theorem calculateCombinationalObservability_ok (w : Int → Int) (c : Circuit)
    (h : InputsExist c.gates c.nets) : ∃ c', calculateCombinationalObservability w c = .ok c' := by
  obtain ⟨m, hm⟩ := sweep_coGate_ok w c.gates (stdSort (levelGreater c.nets) c.gates)
    (fun g hg => mem_stdSort.1 hg) c.nets h
  exact ⟨{ c with nets := m }, by unfold calculateCombinationalObservability; rw [hm]⟩

theorem soMono_of_loop {w : Int → Int} {c : Circuit} {fuel : Nat} {m r : NetMap}
    (h : soLoop w c fuel m = .ok r) : SoMono m (r, false) :=
  (soLoop_induction w c (fun s => SoMono m (s, false))
    (fun s t hs ht => by
      have := soBody_mono ht
      exact ⟨sameButSO_trans hs.frame this.frame,
        fun k => le_trans (this.le k) (hs.le k)⟩) (soMono_refl m false) h).1

theorem calculateSequentialObservability_mono {w : Int → Int} {fuel : Nat} {c c' : Circuit}
    (h : calculateSequentialObservability w fuel c = .ok c') :
    c'.gates = c.gates ∧ c'.flipflops = c.flipflops ∧ c'.primaryInputs = c.primaryInputs ∧
    c'.primaryOutputs = c.primaryOutputs ∧ SoMono c.nets (c'.nets, false) := by
  unfold calculateSequentialObservability at h
  split at h
  · rename_i m hm
    injection h with h
    subst h
    exact ⟨rfl, rfl, rfl, rfl, soMono_of_loop hm⟩
  · cases h

theorem calculateSequentialObservability_lb {w : Int → Int} {B : Int} (hw : ArithLB w B)
    {fuel : Nat} {c c' : Circuit} (hlb : MetricsLB B c.nets)
    (h : calculateSequentialObservability w fuel c = .ok c') : MetricsLB B c'.nets := by
  unfold calculateSequentialObservability at h
  split at h
  · rename_i m hm
    injection h with h
    subst h
    exact (soLoop_induction w c (fun s => MetricsLB B s)
      (fun s t hs ht => (soBody_prog hw hs ht).lb) hlb hm).1
  · cases h

/-! ## The whole analysis -/

theorem levelLoop_fuel_mono (gates : List Gate) {n : Nat} {s : LevelState} {m : NetMap}
    (h : levelLoop gates n s = .ok m) (k : Nat) : levelLoop gates (n + k) s = .ok m := by
  induction n generalizing s with
  | zero =>
    unfold levelLoop at h
    split at h
    · rename_i hq
      cases k with
      | zero => unfold levelLoop; rw [if_pos hq]; exact h
      | succ k =>
        rw [Nat.zero_add]
        unfold levelLoop
        rw [hq]
        exact h
    · cases h
  | succ n ih =>
    rw [Nat.succ_add]
    unfold levelLoop at h ⊢
    split
    · rename_i hq
      rw [hq] at h
      exact h
    · rename_i cur rest hq
      rw [hq] at h
      dsimp only at h ⊢
      split
      · rename_i hk
        rw [if_pos hk] at h
        exact ih h
      · rename_i hk
        rw [if_neg hk] at h
        exact h

theorem calculateNetLevels_fuel_mono {n : Nat} {c c' : Circuit}
    (h : calculateNetLevels n c = .ok c') (k : Nat) : calculateNetLevels (n + k) c = .ok c' := by
  unfold calculateNetLevels at h ⊢
  split at h
  · rename_i m hm
    rw [levelLoop_fuel_mono c.gates hm k]
    exact h
  · cases h

theorem calculateSequentialControllability_fuel_mono {w : Int → Int} {n : Nat} {c c' : Circuit}
    (h : calculateSequentialControllability w n c = .ok c') (k : Nat) :
    calculateSequentialControllability w (n + k) c = .ok c' := by
  unfold calculateSequentialControllability at h ⊢
  split at h
  · rename_i m hm
    rw [scLoop_fuel_mono w c hm k]
    exact h
  · cases h

theorem calculateSequentialObservability_fuel_mono {w : Int → Int} {n : Nat} {c c' : Circuit}
    (h : calculateSequentialObservability w n c = .ok c') (k : Nat) :
    calculateSequentialObservability w (n + k) c = .ok c' := by
  unfold calculateSequentialObservability at h ⊢
  split at h
  · rename_i m hm
    rw [soLoop_fuel_mono w c hm k]
    exact h
  · cases h

/-- The analysis returns `c'` exactly when its five passes return in turn. -/
theorem calculateAllScoapMetrics_eq_ok {w : Int → Int} {fuel : Nat} {c c' : Circuit} :
    calculateAllScoapMetrics w fuel c = .ok c' ↔
    ∃ c1 c2 c3 c4, calculateNetLevels fuel c = .ok c1 ∧
      calculateCombinationalControllability w c1 = .ok c2 ∧
      calculateSequentialControllability w fuel c2 = .ok c3 ∧
      calculateCombinationalObservability w (initOutputsCo c3) = .ok c4 ∧
      calculateSequentialObservability w fuel (initOutputsSo c4) = .ok c' := by
  unfold calculateAllScoapMetrics
  constructor
  · intro h
    cases h1 : calculateNetLevels fuel c with
    | error e => rw [h1] at h; cases h
    | ok c1 =>
      cases h2 : calculateCombinationalControllability w c1 with
      | error e => rw [h1] at h; simp only [bind, Except.bind] at h; rw [h2] at h; cases h
      | ok c2 =>
        cases h3 : calculateSequentialControllability w fuel c2 with
        | error e =>
          rw [h1] at h; simp only [bind, Except.bind] at h; rw [h2] at h
          simp only at h; rw [h3] at h; cases h
        | ok c3 =>
          cases h4 : calculateCombinationalObservability w (initOutputsCo c3) with
          | error e =>
            rw [h1] at h; simp only [bind, Except.bind] at h; rw [h2] at h
            simp only at h; rw [h3] at h; simp only at h; rw [h4] at h; cases h
          | ok c4 =>
            rw [h1] at h; simp only [bind, Except.bind] at h; rw [h2] at h
            simp only at h; rw [h3] at h; simp only at h; rw [h4] at h
            exact ⟨c1, c2, c3, c4, rfl, h2, h3, h4, h⟩
  · rintro ⟨c1, c2, c3, c4, h1, h2, h3, h4, h5⟩
    rw [h1]; simp only [bind, Except.bind]
    rw [h2]; simp only
    rw [h3]; simp only
    rw [h4]; simp only
    exact h5

/-- The analysis returns, with a result that no longer depends on the fuel, on a
circuit whose nets carry names that are keys, whose gate inputs exist, whose
`xor`/`xnor` gates have two inputs, and whose metrics respect the lower bound
of the arithmetic. -/
theorem calculateAllScoapMetrics_ok {w : Int → Int} {B : Int} (hw : ArithLB w B) (c : Circuit)
    (hk : ∀ k ∈ c.nets.keys, (c.nets.get k).name ∈ c.nets.keys)
    (hx : ∀ g ∈ c.gates, (g.type = "xor" ∨ g.type = "xnor") →
      2 ≤ (g.inputs.filter (fun x => x ∈ c.nets.keys)).length)
    (hin : InputsExist c.gates c.nets) (hlb : MetricsLB B c.nets) :
    ∃ N c', ∀ fuel, N ≤ fuel → calculateAllScoapMetrics w fuel c = .ok c' := by
  obtain ⟨c1, h1⟩ := calculateNetLevels_ok c hk (c.nets.keys.length + c.gates.length) (le_refl _)
  obtain ⟨g1, _, _, _, fr1⟩ := calculateNetLevels_frame h1
  have lb1 := sameButLevel_lb fr1 hlb
  obtain ⟨c2, h2⟩ := calculateCombinationalControllability_ok w c1 (by
    rw [g1, fr1.1]; exact hx)
  obtain ⟨g2, _, _, _, fr2⟩ := calculateCombinationalControllability_frame h2
  have lb2 := calculateCombinationalControllability_lb hw lb1 h2
  obtain ⟨r3, hr3⟩ := scLoop_terminates hw c2 (scMeasure B (scInit c2.nets) + 1)
    (scInit c2.nets) (scInit_lb hw lb2) (Nat.lt_succ_self _)
  have h3 : calculateSequentialControllability w (scMeasure B (scInit c2.nets) + 1) c2 =
      .ok { c2 with nets := r3 } := by
    unfold calculateSequentialControllability; rw [hr3]
  obtain ⟨g3, _, _, _, fr3⟩ := calculateSequentialControllability_frame h3
  have lb3 := calculateSequentialControllability_lb hw lb2 h3
  have k3 : (initOutputsCo { c2 with nets := r3 }).nets.keys = c.nets.keys := by
    rw [(initOutputsCo_frame _).1, fr3.1, fr2.1, fr1.1]
  obtain ⟨c4, h4⟩ := calculateCombinationalObservability_ok w
    (initOutputsCo { c2 with nets := r3 }) (by
      intro g hg x hx'
      rw [k3]
      have : g ∈ c.gates := by
        have e : (initOutputsCo { c2 with nets := r3 }).gates = c2.gates := rfl
        rw [e, g2, g1] at hg
        exact hg
      exact hin g this x hx')
  obtain ⟨g4, _, _, _, fr4⟩ := calculateCombinationalObservability_mono h4
  have lb4 := calculateCombinationalObservability_lb hw (initOutputsCo_lb hw lb3) h4
  have k4 : (initOutputsSo c4).nets.keys = c.nets.keys := by
    rw [(initOutputsSo_frame _).1, fr4.frame.1, k3]
  have hg4 : (initOutputsSo c4).gates = c.gates := by
    have e : (initOutputsSo c4).gates = c4.gates := rfl
    have e' : (initOutputsCo { c2 with nets := r3 }).gates = c2.gates := rfl
    rw [e, g4, e', g2, g1]
  obtain ⟨r5, hr5⟩ := soLoop_terminates hw (initOutputsSo c4)
    (soMeasure B (initOutputsSo c4).nets + 1) (initOutputsSo c4).nets
    (by intro g hg x hx'
        rw [k4]
        exact hin g (hg4 ▸ hg) x hx')
    (initOutputsSo_lb hw lb4) (Nat.lt_succ_self _)
  have h5 : calculateSequentialObservability w (soMeasure B (initOutputsSo c4).nets + 1)
      (initOutputsSo c4) = .ok { initOutputsSo c4 with nets := r5 } := by
    unfold calculateSequentialObservability; rw [hr5]
  refine ⟨(c.nets.keys.length + c.gates.length) + (scMeasure B (scInit c2.nets) + 1) +
    (soMeasure B (initOutputsSo c4).nets + 1), { initOutputsSo c4 with nets := r5 }, ?_⟩
  intro fuel hfuel
  rw [calculateAllScoapMetrics_eq_ok]
  refine ⟨c1, c2, { c2 with nets := r3 }, c4, ?_, h2, ?_, h4, ?_⟩
  · have := calculateNetLevels_fuel_mono h1 (fuel - (c.nets.keys.length + c.gates.length))
    rwa [Nat.add_sub_cancel' (by omega)] at this
  · have := calculateSequentialControllability_fuel_mono h3
      (fuel - (scMeasure B (scInit c2.nets) + 1))
    rwa [Nat.add_sub_cancel' (by omega)] at this
  · have := calculateSequentialObservability_fuel_mono h5
      (fuel - (soMeasure B (initOutputsSo c4).nets + 1))
    rwa [Nat.add_sub_cancel' (by omega)] at this

/-- What a successful analysis leaves untouched and what it bounds. -/
theorem calculateAllScoapMetrics_passes {w : Int → Int} {fuel : Nat} {c c' : Circuit}
    (h : calculateAllScoapMetrics w fuel c = .ok c') :
    ∃ c1 c2 c3 c4, calculateNetLevels fuel c = .ok c1 ∧
      calculateCombinationalControllability w c1 = .ok c2 ∧
      calculateSequentialControllability w fuel c2 = .ok c3 ∧
      calculateCombinationalObservability w (initOutputsCo c3) = .ok c4 ∧
      calculateSequentialObservability w fuel (initOutputsSo c4) = .ok c' ∧
      (c1.gates = c.gates ∧ c2.gates = c.gates ∧ c3.gates = c.gates ∧ c4.gates = c.gates ∧
        c'.gates = c.gates) ∧
      (c1.flipflops = c.flipflops ∧ c2.flipflops = c.flipflops ∧ c3.flipflops = c.flipflops ∧
        c4.flipflops = c.flipflops ∧ c'.flipflops = c.flipflops) ∧
      (c1.primaryOutputs = c.primaryOutputs ∧ c2.primaryOutputs = c.primaryOutputs ∧
        c3.primaryOutputs = c.primaryOutputs ∧ c4.primaryOutputs = c.primaryOutputs ∧
        c'.primaryOutputs = c.primaryOutputs) ∧
      (c1.nets.keys = c.nets.keys ∧ c2.nets.keys = c.nets.keys ∧ c3.nets.keys = c.nets.keys ∧
        c4.nets.keys = c.nets.keys ∧ c'.nets.keys = c.nets.keys) ∧
      SameButLevel c.nets c1.nets ∧ SameButCC c1.nets c2.nets ∧ SameButSC c2.nets c3.nets ∧
      SameButCO c3.nets (initOutputsCo c3).nets ∧ CoMono (initOutputsCo c3).nets c4.nets ∧
      SameButSO c4.nets (initOutputsSo c4).nets ∧ SoMono (initOutputsSo c4).nets (c'.nets, false) := by
  obtain ⟨c1, c2, c3, c4, h1, h2, h3, h4, h5⟩ := calculateAllScoapMetrics_eq_ok.1 h
  obtain ⟨g1, f1, _, o1, fr1⟩ := calculateNetLevels_frame h1
  obtain ⟨g2, f2, _, o2, fr2⟩ := calculateCombinationalControllability_frame h2
  obtain ⟨g3, f3, _, o3, fr3⟩ := calculateSequentialControllability_frame h3
  obtain ⟨g4, f4, _, o4, fr4⟩ := calculateCombinationalObservability_mono h4
  obtain ⟨g5, f5, _, o5, fr5⟩ := calculateSequentialObservability_mono h5
  have e3g : (initOutputsCo c3).gates = c3.gates := rfl
  have e3f : (initOutputsCo c3).flipflops = c3.flipflops := rfl
  have e3o : (initOutputsCo c3).primaryOutputs = c3.primaryOutputs := rfl
  have e4g : (initOutputsSo c4).gates = c4.gates := rfl
  have e4f : (initOutputsSo c4).flipflops = c4.flipflops := rfl
  have e4o : (initOutputsSo c4).primaryOutputs = c4.primaryOutputs := rfl
  have G1 := g1
  have G2 := g2.trans G1
  have G3 := g3.trans G2
  have G4 := (g4.trans e3g).trans G3
  have G5 := (g5.trans e4g).trans G4
  have F1 := f1
  have F2 := f2.trans F1
  have F3 := f3.trans F2
  have F4 := (f4.trans e3f).trans F3
  have F5 := (f5.trans e4f).trans F4
  have O1 := o1
  have O2 := o2.trans O1
  have O3 := o3.trans O2
  have O4 := (o4.trans e3o).trans O3
  have O5 := (o5.trans e4o).trans O4
  have K1 := fr1.1
  have K2 := fr2.1.trans K1
  have K3 := fr3.1.trans K2
  have K4 := (fr4.frame.1.trans (initOutputsCo_frame c3).1).trans K3
  have K5 := (fr5.frame.1.trans (initOutputsSo_frame c4).1).trans K4
  exact ⟨c1, c2, c3, c4, h1, h2, h3, h4, h5, ⟨G1, G2, G3, G4, G5⟩, ⟨F1, F2, F3, F4, F5⟩,
    ⟨O1, O2, O3, O4, O5⟩, ⟨K1, K2, K3, K4, K5⟩, fr1, fr2, fr3, initOutputsCo_frame c3, fr4,
    initOutputsSo_frame c4, fr5⟩

/-! ## Primary inputs and primary outputs -/

theorem lowerSc0_get_ne (s : NetMap × Bool) {k j : String} (v : Int) (h : j ≠ k) :
    (lowerSc0 s k v).1.get j = s.1.get j := by
  unfold lowerSc0
  split
  · dsimp only
    exact modify_get_ne s.1 _ h
  · rfl

theorem lowerSc1_get_ne (s : NetMap × Bool) {k j : String} (v : Int) (h : j ≠ k) :
    (lowerSc1 s k v).1.get j = s.1.get j := by
  unfold lowerSc1
  split
  · dsimp only
    exact modify_get_ne s.1 _ h
  · rfl

theorem scGate_get_ne (w : Int → Int) (s : NetMap × Bool) (g : Gate) {j : String}
    (h : g.output ≠ j) : (scGate w s g).1.get j = s.1.get j := by
  unfold scGate
  split
  · rfl
  · dsimp only
    split
    · rfl
    · rw [lowerSc1_get_ne _ _ (fun e => h e.symm), lowerSc0_get_ne _ _ (fun e => h e.symm)]

theorem scFlipFlop_get_ne (w : Int → Int) (s : NetMap × Bool) (ff : FlipFlop) {j : String}
    (h : ff.q ≠ j) : (scFlipFlop w s ff).1.get j = s.1.get j := by
  unfold scFlipFlop
  split
  · rfl
  · split
    · dsimp only
      rw [lowerSc1_get_ne _ _ (fun e => h e.symm), lowerSc0_get_ne _ _ (fun e => h e.symm)]
    · rfl

/-- The loop body leaves alone every net that is neither a gate output nor the
`q` net of a flip-flop. -/
theorem scBody_untouched (w : Int → Int) (c : Circuit) (m : NetMap) {j : String}
    (hg : ∀ g ∈ c.gates, g.output ≠ j) (hf : ∀ ff ∈ c.flipflops, ff.q ≠ j) :
    (scBody w c m).1.get j = m.get j := by
  unfold scBody
  have h1 : ∀ (l : List FlipFlop) (s : NetMap × Bool), (∀ ff ∈ l, ff.q ≠ j) →
      (l.foldl (scFlipFlop w) s).1.get j = s.1.get j := by
    intro l
    induction l with
    | nil => intro s _; rfl
    | cons a l ih =>
      intro s hl
      rw [List.foldl_cons, ih _ (fun ff hff => hl ff (List.mem_cons_of_mem _ hff)),
        scFlipFlop_get_ne w s a (hl a (List.mem_cons_self _ _))]
  have h2 : ∀ (l : List Gate) (s : NetMap × Bool), (∀ g ∈ l, g.output ≠ j) →
      (l.foldl (scGate w) s).1.get j = s.1.get j := by
    intro l
    induction l with
    | nil => intro s _; rfl
    | cons a l ih =>
      intro s hl
      rw [List.foldl_cons, ih _ (fun g hg' => hl g (List.mem_cons_of_mem _ hg')),
        scGate_get_ne w s a (hl a (List.mem_cons_self _ _))]
  rw [h1 _ _ hf, h2 _ _ (fun g hg' => hg g (mem_stdSort.1 hg'))]

/-- Claim C4 (amended). For every circuit of the data model (nets keyed by names in
the table, gate inputs exist, `xor`/`xnor` gates have two inputs, metrics within
the lower bound `B` of the arithmetic `w`) and every primary-input net `p`, the
analysis returns and leaves `cc0(p) = cc1(p) = 1` when `p` is the output of no
gate, and `sc0(p) = sc1(p) = 0` when the arithmetic keeps values non-negative
(`B = 0`) or `p` is neither a gate output nor a flip-flop `q` net. -/
theorem primary_input_metrics {w : Int → Int} {B : Int} (hw : ArithLB w B) (c : Circuit)
    (hk : ∀ k ∈ c.nets.keys, (c.nets.get k).name ∈ c.nets.keys)
    (hx : ∀ g ∈ c.gates, (g.type = "xor" ∨ g.type = "xnor") →
      2 ≤ (g.inputs.filter (fun x => x ∈ c.nets.keys)).length)
    (hin : InputsExist c.gates c.nets) (hlb : MetricsLB B c.nets)
    (p : String) (hp : p ∈ c.nets.keys) (hP : (c.nets.get p).type = "P") :
    ∃ N c', (∀ fuel, N ≤ fuel → calculateAllScoapMetrics w fuel c = .ok c') ∧
      ((∀ g ∈ c.gates, g.output ≠ p) → (c'.nets.get p).cc0 = 1 ∧ (c'.nets.get p).cc1 = 1) ∧
      ((B = 0 ∨ ((∀ g ∈ c.gates, g.output ≠ p) ∧ (∀ ff ∈ c.flipflops, ff.q ≠ p))) →
        (c'.nets.get p).sc0 = 0 ∧ (c'.nets.get p).sc1 = 0) := by
  obtain ⟨N, c', hrun⟩ := calculateAllScoapMetrics_ok hw c hk hx hin hlb
  refine ⟨N, c', hrun, ?_⟩
  obtain ⟨c1, c2, c3, c4, h1, h2, h3, h4, h5, ⟨G1, G2, G3, G4, G5⟩, ⟨F1, F2, F3, F4, F5⟩, _,
    ⟨K1, K2, K3, K4, K5⟩, fr1, fr2, fr3, fr3', fr4, fr4', fr5⟩ :=
    calculateAllScoapMetrics_passes (hrun N (le_refl _))
  have lb1 := sameButLevel_lb fr1 hlb
  have lb2 := calculateCombinationalControllability_lb hw lb1 h2
  -- the type tag survives the first two passes
  have hP1 : (c1.nets.get p).type = "P" := by rw [fr1.2 p]; exact hP
  have hP2 : (c2.nets.get p).type = "P" := by rw [fr2.2 p]; exact hP1
  -- later passes keep `cc` and `sc`
  have hcc : (c'.nets.get p).cc0 = (c2.nets.get p).cc0 ∧
      (c'.nets.get p).cc1 = (c2.nets.get p).cc1 := by
    rw [fr5.frame.2 p, fr4'.2 p, fr4.frame.2 p, fr3'.2 p, fr3.2 p]
    exact ⟨rfl, rfl⟩
  have hsc : (c'.nets.get p).sc0 = (c3.nets.get p).sc0 ∧
      (c'.nets.get p).sc1 = (c3.nets.get p).sc1 := by
    rw [fr5.frame.2 p, fr4'.2 p, fr4.frame.2 p, fr3'.2 p]
    exact ⟨rfl, rfl⟩
  have hinit : ((scInit c2.nets).get p).sc0 = 0 ∧ ((scInit c2.nets).get p).sc1 = 0 := by
    unfold scInit
    rw [mapValues_get_mem _ _ (K2 ▸ hp), if_pos hP2]
    exact ⟨rfl, rfl⟩
  constructor
  · intro hg
    rw [hcc.1, hcc.2]
    unfold calculateCombinationalControllability at h2
    dsimp only at h2
    split at h2
    · rename_i m hm
      injection h2 with h2
      subst h2
      dsimp only
      rw [sweep_ccGate_untouched _ (fun g hg' => hg g (G1 ▸ mem_stdSort.1 hg')) hm]
      unfold ccInit
      rw [mapValues_get_mem _ _ (K1 ▸ hp)]
      have : isSource (c1.nets.get p) = true := by
        unfold isSource
        rw [hP1]
        rfl
      rw [if_pos this]
      exact ⟨rfl, rfl⟩
    · cases h2
  · intro hcase
    rw [hsc.1, hsc.2]
    unfold calculateSequentialControllability at h3
    split at h3
    · rename_i m hm
      injection h3 with h3
      subst h3
      dsimp only
      rcases hcase with hB | ⟨hg, hf⟩
      · subst hB
        have key := (scLoop_induction w c2
          (fun s => MetricsLB 0 s ∧ s.keys = c2.nets.keys ∧
            (s.get p).sc0 ≤ 0 ∧ (s.get p).sc1 ≤ 0)
          (fun s hs => by
            have a := scBody_prog hw c2 hs.1
            have b := scBody_mono w c2 s
            exact ⟨a.lb, b.frame.1.trans hs.2.1, le_trans (b.le0 p) hs.2.2.1,
              le_trans (b.le1 p) hs.2.2.2⟩)
          ⟨scInit_lb hw lb2, rfl, le_of_eq hinit.1, le_of_eq hinit.2⟩ hm).1
        have lo := key.1 p (by rw [key.2.1, K2]; exact hp)
        exact ⟨le_antisymm key.2.2.1 lo.2.2.1, le_antisymm key.2.2.2 lo.2.2.2.1⟩
      · have key := (scLoop_induction w c2
          (fun s => (s.get p).sc0 = 0 ∧ (s.get p).sc1 = 0)
          (fun s hs => by
            show ((scBody w c2 s).1.get p).sc0 = 0 ∧ ((scBody w c2 s).1.get p).sc1 = 0
            rw [scBody_untouched w c2 s (fun g hg' => hg g (G2 ▸ hg'))
              (fun ff hff => hf ff (F2 ▸ hff))]
            exact hs) hinit hm).1
        exact key
    · cases h3

theorem s1_names : ∀ k ∈ s1.nets.keys, (s1.nets.get k).name ∈ s1.nets.keys := by decide

theorem s1_xor : ∀ g ∈ s1.gates, (g.type = "xor" ∨ g.type = "xnor") →
    2 ≤ (g.inputs.filter (fun x => x ∈ s1.nets.keys)).length := by decide

theorem s1_inputsExist : InputsExist s1.gates s1.nets := by
  unfold InputsExist
  decide

theorem s1_range : MetricsLB (-2147483648) s1.nets := by
  unfold MetricsLB
  decide

theorem s1_p_undriven :
    (∀ g ∈ s1.gates, g.output ≠ "p") ∧ (∀ ff ∈ s1.flipflops, ff.q ≠ "p") := by decide

/-- A run of C4 (amended) on scenario S1 in 32-bit arithmetic, at the input `p`,
which no gate and no flip-flop drives. -/
theorem primary_input_metrics_witness :
    ArithLB wrap32 (-2147483648) ∧
    (∀ k ∈ s1.nets.keys, (s1.nets.get k).name ∈ s1.nets.keys) ∧
    (∀ g ∈ s1.gates, (g.type = "xor" ∨ g.type = "xnor") →
      2 ≤ (g.inputs.filter (fun x => x ∈ s1.nets.keys)).length) ∧
    InputsExist s1.gates s1.nets ∧ MetricsLB (-2147483648) s1.nets ∧
    "p" ∈ s1.nets.keys ∧ (s1.nets.get "p").type = "P" ∧
    (∀ g ∈ s1.gates, g.output ≠ "p") ∧ (∀ ff ∈ s1.flipflops, ff.q ≠ "p") ∧
    ∃ N c', (∀ fuel, N ≤ fuel → calculateAllScoapMetrics wrap32 fuel s1 = .ok c') ∧
      (c'.nets.get "p").cc0 = 1 ∧ (c'.nets.get "p").cc1 = 1 ∧
      (c'.nets.get "p").sc0 = 0 ∧ (c'.nets.get "p").sc1 = 0 :=
  ⟨arithLB_wrap32, s1_names, s1_xor, s1_inputsExist, s1_range, by decide, rfl,
    s1_p_undriven.1, s1_p_undriven.2,
    (primary_input_metrics arithLB_wrap32 s1 s1_names s1_xor s1_inputsExist s1_range "p"
      (by decide) rfl).elim fun N h => h.elim fun c' h' =>
        ⟨N, c', h'.1, (h'.2.1 s1_p_undriven.1).1, (h'.2.1 s1_p_undriven.1).2,
          (h'.2.2 (Or.inr s1_p_undriven)).1, (h'.2.2 (Or.inr s1_p_undriven)).2⟩⟩

/-- The claim C4 as stated fails: in `input p, a; buf g1(p, a);` every referenced
net exists and the loads and drivers lists agree with the gate, `p` is a primary
input, and the analysis ends with `cc0(p) = cc1(p) = 2`, in exact and in 32-bit
arithmetic alike. -/
theorem primary_input_overwritten :
    (∀ g ∈ drivenInput.gates, g.output ∈ drivenInput.nets.keys ∧
      (drivenInput.nets.get g.output).drivers = [g.name] ∧
      ∀ x ∈ g.inputs, x ∈ drivenInput.nets.keys ∧ (drivenInput.nets.get x).loads = [g.name]) ∧
    (drivenInput.nets.get "p").type = "P" ∧
    (∃ c', calculateAllScoapMetrics id 4 drivenInput = .ok c' ∧
      (c'.nets.get "p").cc0 = 2 ∧ (c'.nets.get "p").cc1 = 2) ∧
    (∃ c', calculateAllScoapMetrics wrap32 4 drivenInput = .ok c' ∧
      (c'.nets.get "p").cc0 = 2 ∧ (c'.nets.get "p").cc1 = 2) :=
  ⟨by decide, rfl, ⟨_, rfl, rfl, rfl⟩, ⟨_, rfl, rfl, rfl⟩⟩

/-- In exact arithmetic on non-negative metrics, a successful analysis leaves
every primary output that is in the table at `co = 0` and `so = 0`. -/
theorem outputs_zero {fuel : Nat} {c c' : Circuit} (hlb : MetricsLB 0 c.nets)
    (hrun : calculateAllScoapMetrics id fuel c = .ok c')
    {o : String} (ho : o ∈ c.primaryOutputs) (hok : o ∈ c.nets.keys) :
    (c'.nets.get o).co = 0 ∧ (c'.nets.get o).so = 0 := by
  have hw := arithLB_id
  obtain ⟨c1, c2, c3, c4, h1, h2, h3, h4, h5, _, _, ⟨O1, O2, O3, O4, O5⟩,
    ⟨K1, K2, K3, K4, K5⟩, fr1, fr2, fr3, fr3', fr4, fr4', fr5⟩ :=
    calculateAllScoapMetrics_passes hrun
  have lb1 := sameButLevel_lb fr1 hlb
  have lb2 := calculateCombinationalControllability_lb hw lb1 h2
  have lb3 := calculateSequentialControllability_lb hw lb2 h3
  have lb4 := calculateCombinationalObservability_lb hw (initOutputsCo_lb hw lb3) h4
  have lb5 := calculateSequentialObservability_lb hw (initOutputsSo_lb hw lb4) h5
  have co3 : ((initOutputsCo c3).nets.get o).co = 0 := by
    rw [initOutputsCo_get, if_pos ⟨O3 ▸ ho, K3 ▸ hok⟩]
  have co4 : (c4.nets.get o).co = 0 := by
    have a := fr4.le o
    rw [co3] at a
    have b := (lb4 o (K4 ▸ hok)).2.2.2.2.1
    omega
  have so4 : ((initOutputsSo c4).nets.get o).so = 0 := by
    rw [initOutputsSo_get, if_pos ⟨O4 ▸ ho, K4 ▸ hok⟩]
  constructor
  · rw [fr5.frame.2 o, fr4'.2 o]
    exact co4
  · have a := fr5.le o
    rw [so4] at a
    have b := (lb5 o (K5 ▸ hok)).2.2.2.2.2
    exact le_antisymm a b

/-- Claim C5. For every circuit of the data model (nets keyed by names in the table,
gate inputs exist, `xor`/`xnor` gates have two inputs, no negative metric), in
exact arithmetic: the analysis returns, and every net listed in
`primaryOutputs` that is in the table has `co = 0` and `so = 0` afterwards,
whatever else the net is connected to. -/
theorem primary_output_observability (c : Circuit)
    (hk : ∀ k ∈ c.nets.keys, (c.nets.get k).name ∈ c.nets.keys)
    (hx : ∀ g ∈ c.gates, (g.type = "xor" ∨ g.type = "xnor") →
      2 ≤ (g.inputs.filter (fun x => x ∈ c.nets.keys)).length)
    (hin : InputsExist c.gates c.nets) (hlb : MetricsLB 0 c.nets)
    (o : String) (ho : o ∈ c.primaryOutputs) (hok : o ∈ c.nets.keys) :
    ∃ N c', (∀ fuel, N ≤ fuel → calculateAllScoapMetrics id fuel c = .ok c') ∧
      (c'.nets.get o).co = 0 ∧ (c'.nets.get o).so = 0 := by
  obtain ⟨N, c', hrun⟩ := calculateAllScoapMetrics_ok arithLB_id c hk hx hin hlb
  exact ⟨N, c', hrun, outputs_zero hlb (hrun N (le_refl _)) ho hok⟩

theorem s4_names : ∀ k ∈ s4.nets.keys, (s4.nets.get k).name ∈ s4.nets.keys := by decide

theorem s4_xor : ∀ g ∈ s4.gates, (g.type = "xor" ∨ g.type = "xnor") →
    2 ≤ (g.inputs.filter (fun x => x ∈ s4.nets.keys)).length := by decide

theorem s4_nonneg : MetricsLB 0 s4.nets := by
  unfold MetricsLB
  decide

/-- A run of C5 on scenario S4, whose primary output `y` is also the `d` input
of the flip-flop. -/
theorem primary_output_observability_witness :
    (∀ k ∈ s4.nets.keys, (s4.nets.get k).name ∈ s4.nets.keys) ∧
    (∀ g ∈ s4.gates, (g.type = "xor" ∨ g.type = "xnor") →
      2 ≤ (g.inputs.filter (fun x => x ∈ s4.nets.keys)).length) ∧
    InputsExist s4.gates s4.nets ∧ MetricsLB 0 s4.nets ∧
    "y" ∈ s4.primaryOutputs ∧ "y" ∈ s4.nets.keys ∧
    ∃ N c', (∀ fuel, N ≤ fuel → calculateAllScoapMetrics id fuel s4 = .ok c') ∧
      (c'.nets.get "y").co = 0 ∧ (c'.nets.get "y").so = 0 :=
  ⟨s4_names, s4_xor, s4_inputsExist, s4_nonneg, by decide, by decide,
    primary_output_observability s4 s4_names s4_xor s4_inputsExist s4_nonneg "y"
      (by decide) (by decide)⟩

/-! ## The observability sweep computes the minimum over all loads -/

theorem SameButCO.cc0_eq {m t : NetMap} (h : SameButCO m t) (k : String) :
    (t.get k).cc0 = (m.get k).cc0 := by rw [h.2 k]

theorem SameButCO.cc1_eq {m t : NetMap} (h : SameButCO m t) (k : String) :
    (t.get k).cc1 = (m.get k).cc1 := by rw [h.2 k]

/-- The contribution depends only on the controllabilities and on the
observability of the gate's output. -/
theorem coContribution_congr {m t : NetMap} (g : Gate) (i : Nat)
    (h0 : ∀ k, (t.get k).cc0 = (m.get k).cc0) (h1 : ∀ k, (t.get k).cc1 = (m.get k).cc1)
    (ho : (t.get g.output).co = (m.get g.output).co) :
    coContribution t g i = coContribution m g i := by
  unfold coContribution
  simp only [h0, h1, ho]

theorem getD_mem_of_lt {l : List String} {i : Nat} (h : i < l.length) : l.getD i "" ∈ l := by
  rw [List.getD_eq_getElem?_getD, List.getElem?_eq_getElem h]
  exact List.getElem_mem _

/-- In exact arithmetic and with the inputs present, the code's `newCO` is the
contribution of the specification. -/
theorem coNew_id_eq (t : NetMap) (g : Gate) (i : Nat) (hin : ∀ x ∈ g.inputs, x ∈ t.keys)
    (hi : i < g.inputs.length) :
    coNew id t g (t.get g.output).co i = .ok (coContribution t g i) := by
  unfold coNew coContribution
  split
  · rw [sumOthers_ok id t _ hin, accumulate_id_eq_sum]
    simp only [id]
    congr 1
    ring
  split
  · rw [sumOthers_ok id t _ hin, accumulate_id_eq_sum]
    simp only [id]
    congr 1
    ring
  split
  · rfl
  by_cases hx : g.type = "xor" ∨ g.type = "xnor"
  · rw [if_pos hx]
    by_cases h2 : g.inputs.length = 2
    · have hc : (g.type = "xor" ∨ g.type = "xnor") ∧ g.inputs.length = 2 := ⟨hx, h2⟩
      have hidx : (if i = 0 then 1 else 0) = 1 - i := by
        split <;> omega
      have hmem : g.inputs.getD (1 - i) "" ∈ t.keys := hin _ (getD_mem_of_lt (by omega))
      rw [if_pos hc, if_pos h2]
      simp only [hidx, hmem, if_true, id]
      congr 1
      ring
    · rw [if_neg h2, if_neg (fun e => h2 e.2)]
  · rw [if_neg hx, if_neg (fun e => hx e.1)]

/-- One visit of the inner loop keeps its invariant. -/
theorem coVisit_inv {m t t' : NetMap} {g : Gate} {seen : List Nat} {i : Nat}
    (hin : ∀ x ∈ g.inputs, x ∈ m.keys) (hself : g.output ∉ g.inputs)
    (hi : i < g.inputs.length) (inv : CoVisitInv m g seen t)
    (h : coVisit id g (m.get g.output).co t i = .ok t') :
    CoVisitInv m g (seen ++ [i]) t' := by
  have hxi : g.inputs.getD i "" ∈ g.inputs := getD_mem_of_lt hi
  have hkeys : t.keys = m.keys := inv.mono.frame.1
  have hout : (t.get g.output).co = (m.get g.output).co := by rw [inv.others _ hself]
  have hnew := coNew_id_eq t g i (by rw [hkeys]; exact hin) hi
  rw [hout] at hnew
  have hmem : g.inputs.getD i "" ∈ t.keys := by rw [hkeys]; exact hin _ hxi
  unfold coVisit at h
  simp only [hmem, not_true_eq_false, if_false, hnew] at h
  split at h
  · rename_i hlt
    injection h with h
    subst h
    have hfr : SameButCO t (t.modify (g.inputs.getD i "")
        (fun n => { n with co := coContribution t g i })) := sameButCO_modify _ _ _
    have hne : g.output ≠ g.inputs.getD i "" := by
      intro e
      apply hself
      rw [e]
      exact hxi
    have hcon : ∀ j, coContribution (t.modify (g.inputs.getD i "")
        (fun n => { n with co := coContribution t g i })) g j = coContribution t g j := by
      intro j
      apply coContribution_congr g j hfr.cc0_eq hfr.cc1_eq
      rw [modify_get_ne _ _ hne]
    have hle : ∀ k, ((t.modify (g.inputs.getD i "")
        (fun n => { n with co := coContribution t g i })).get k).co ≤ (t.get k).co := by
      intro k
      by_cases e : k = g.inputs.getD i ""
      · rw [e, modify_get_same]; exact le_of_lt hlt
      · rw [modify_get_ne _ _ e]
    refine ⟨coMono_trans inv.mono ⟨hfr, hle⟩, ?_, ?_, ?_⟩
    · intro k hk
      have hk' : k ≠ g.inputs.getD i "" := by
        intro e
        apply hk
        rw [e]
        exact hxi
      rw [modify_get_ne _ _ hk']
      exact inv.others k hk
    · intro j hj
      rw [hcon]
      rcases List.mem_append.1 hj with hj | hj
      · exact le_trans (hle _) (inv.upper j hj)
      · rw [List.mem_singleton.1 hj, modify_get_same]
    · intro x
      by_cases e : x = g.inputs.getD i ""
      · right
        refine ⟨i, by simp, e.symm, ?_⟩
        rw [hcon, e, modify_get_same]
      · rw [modify_get_ne _ _ e]
        rcases inv.attained x with h' | ⟨j, hj, hjx, hv⟩
        · exact Or.inl h'
        · exact Or.inr ⟨j, List.mem_append_left _ hj, hjx, by rw [hcon]; exact hv⟩
  · rename_i hlt
    injection h with h
    subst h
    refine ⟨inv.mono, inv.others, ?_, ?_⟩
    · intro j hj
      rcases List.mem_append.1 hj with hj | hj
      · exact inv.upper j hj
      · rw [List.mem_singleton.1 hj]
        exact not_lt.1 hlt
    · intro x
      rcases inv.attained x with h' | ⟨j, hj, hjx, hv⟩
      · exact Or.inl h'
      · exact Or.inr ⟨j, List.mem_append_left _ hj, hjx, hv⟩

/-- The inner loop over all input positions of a gate establishes its invariant
for every position. -/
theorem coVisit_sweep_inv {m t : NetMap} {g : Gate}
    (hin : ∀ x ∈ g.inputs, x ∈ m.keys) (hself : g.output ∉ g.inputs)
    (h : sweep (coVisit id g (m.get g.output).co) m (List.range g.inputs.length) = .ok t) :
    CoVisitInv m g (List.range g.inputs.length) t := by
  refine sweep_induction_seen _ (fun seen s => CoVisitInv m g seen s) _ ?_ m
    ⟨coMono_refl m, fun _ _ => rfl, fun i hi => (by cases hi), fun x => Or.inl rfl⟩ h
  intro pre a post s s' hl hs hstep
  have ha : a ∈ List.range g.inputs.length := by rw [hl]; simp
  exact coVisit_inv hin hself (List.mem_range.1 ha) hs hstep

/-- Sweeping one more gate keeps the invariant of the sweep, when the outputs of
the gates swept so far and of this gate are not among its inputs. -/
theorem coGate_inv {m0 m m' : NetMap} {done : List Gate} {g : Gate}
    (hout : g.output ∈ m0.keys) (hin : ∀ x ∈ g.inputs, x ∈ m0.keys)
    (hself : g.output ∉ g.inputs)
    (hdone : ∀ h ∈ done, h.output ∉ g.inputs) (inv : CoInv m0 done m)
    (h : coGate id m g = .ok m') : CoInv m0 (done ++ [g]) m' := by
  have hmono := coGate_mono h
  have hkeys : m.keys = m0.keys := inv.mono.frame.1
  -- contributions of the gates swept so far, and of `g`, are unchanged
  have hcon : ∀ h' : Gate, h'.output ∉ g.inputs → ∀ j,
      coContribution m' h' j = coContribution m h' j := by
    intro h' hh' j
    apply coContribution_congr h' j hmono.1.frame.cc0_eq hmono.1.frame.cc1_eq
    rw [hmono.2 _ hh']
  have hoY : ∀ h' : Gate, h'.output ∉ g.inputs →
      (m'.get h'.output).co = (m.get h'.output).co := by
    intro h' hh'
    rw [hmono.2 _ hh']
  have hup_done : ∀ h' ∈ done, ∀ i, i < h'.inputs.length → (m'.get h'.output).co ≠ INF →
      (m'.get (h'.inputs.getD i "")).co ≤ coContribution m' h' i := by
    intro h' hh' i hi hne
    rw [hcon h' (hdone h' hh')]
    rw [hoY h' (hdone h' hh')] at hne
    exact le_trans (hmono.1.le _) (inv.upper h' hh' i hi hne)
  have hatt_old : ∀ x, (m'.get x).co = (m.get x).co →
      ((m'.get x).co = (m0.get x).co ∨ ∃ g' ∈ done ++ [g], ∃ i, i < g'.inputs.length ∧
        g'.inputs.getD i "" = x ∧ (m'.get g'.output).co ≠ INF ∧
        (m'.get x).co = coContribution m' g' i) := by
    intro x hx
    rcases inv.attained x with h' | ⟨g', hg', i, hi, hix, hne, hv⟩
    · exact Or.inl (hx.trans h')
    · refine Or.inr ⟨g', List.mem_append_left _ hg', i, hi, hix, ?_, ?_⟩
      · rw [hoY g' (hdone g' hg')]; exact hne
      · rw [hcon g' (hdone g' hg'), hx]; exact hv
  have hmono0 : CoMono m0 m' := coMono_trans inv.mono hmono.1
  unfold coGate at h
  rw [if_neg (not_not.2 (by rw [hkeys]; exact hout))] at h
  split at h
  · rename_i hINF
    injection h with h
    subst h
    refine ⟨hmono0, ?_, fun x => hatt_old x rfl⟩
    intro h' hh' i hi hne
    rcases List.mem_append.1 hh' with hh' | hh'
    · exact inv.upper h' hh' i hi hne
    · rw [List.mem_singleton.1 hh'] at hne
      exact absurd hINF hne
  · rename_i hINF
    have vinv := coVisit_sweep_inv (by rw [hkeys]; exact hin) hself h
    refine ⟨hmono0, ?_, ?_⟩
    · intro h' hh' i hi hne
      rcases List.mem_append.1 hh' with hh' | hh'
      · exact hup_done h' hh' i hi hne
      · have e := List.mem_singleton.1 hh'
        subst e
        exact vinv.upper i (List.mem_range.2 hi)
    · intro x
      rcases vinv.attained x with hx | ⟨i, hi, hix, hv⟩
      · exact hatt_old x hx
      · refine Or.inr ⟨g, by simp, i, List.mem_range.1 hi, hix, ?_, hv⟩
        rw [hoY g hself]
        exact hINF

/-- The descending sweep over gates whose inputs lie below their outputs
establishes the invariant for all gates. -/
theorem coSweep_inv {m0 mf : NetMap} {gates order : List Gate} (hperm : order.Perm gates)
    (hsorted : order.Pairwise
      (fun x y => (m0.get y.output).level ≤ (m0.get x.output).level))
    (hrefs : ∀ g ∈ gates, g.output ∈ m0.keys ∧ ∀ x ∈ g.inputs, x ∈ m0.keys)
    (hlev : ∀ g ∈ gates, ∀ x ∈ g.inputs, (m0.get x).level < (m0.get g.output).level)
    (h : sweep (coGate id) m0 order = .ok mf) : CoInv m0 order mf := by
  refine sweep_induction_seen _ (fun done s => CoInv m0 done s) order ?_ m0
    ⟨coMono_refl m0, fun g hg => (by cases hg), fun x => Or.inl rfl⟩ h
  intro pre g post s s' hl hs hstep
  have hg : g ∈ gates := hperm.mem_iff.1 (by rw [hl]; simp)
  rw [hl] at hsorted
  have hpre : ∀ h' ∈ pre, (m0.get g.output).level ≤ (m0.get h'.output).level := by
    intro h' hh'
    exact (List.pairwise_append.1 hsorted).2.2 h' hh' g (List.mem_cons_self _ _)
  refine coGate_inv (hrefs g hg).1 (hrefs g hg).2 ?_ ?_ hs hstep
  · intro hmem
    have := hlev g hg _ hmem
    omega
  · intro h' hh' hmem
    have a := hlev g hg _ hmem
    have b := hpre h' hh'
    omega

theorem foldl_min_eq {L : List Int} {a v : Int} (ha : v ≤ a) (hL : ∀ y ∈ L, v ≤ y)
    (hv : v = a ∨ v ∈ L) : v = L.foldl min a := by
  apply le_antisymm
  · exact foldl_min_ge L a v ha hL
  · rcases hv with e | e
    · rw [e]; exact foldl_min_le L a
    · exact foldl_min_le_mem L a v e

theorem mem_coCandidates {c : Circuit} {x : String} {y : Int} :
    y ∈ coCandidates c x ↔ ∃ g ∈ c.gates, (c.nets.get g.output).co ≠ INF ∧
      ∃ i, i < g.inputs.length ∧ g.inputs.getD i "" = x ∧ y = coContribution c.nets g i := by
  unfold coCandidates
  rw [List.mem_flatMap]
  constructor
  · rintro ⟨g, hg, hy⟩
    split at hy
    · cases hy
    · rename_i hne
      rw [List.mem_map] at hy
      obtain ⟨i, hi, rfl⟩ := hy
      rw [List.mem_filter, List.mem_range] at hi
      exact ⟨g, hg, hne, i, hi.1, by simpa using hi.2, rfl⟩
  · rintro ⟨g, hg, hne, i, hi, hix, rfl⟩
    refine ⟨g, hg, ?_⟩
    rw [if_neg hne, List.mem_map]
    exact ⟨i, by rw [List.mem_filter, List.mem_range]; exact ⟨hi, by simpa using hix⟩, rfl⟩

/-- With the invariant for all gates, a net that started at `INF` ends with the
minimum of `INF` and its contributions. -/
theorem coInv_spec {m0 : NetMap} {done : List Gate} {c : Circuit} (inv : CoInv m0 done c.nets)
    (hg : ∀ g, g ∈ c.gates ↔ g ∈ done) {x : String} (h0 : (m0.get x).co = INF) :
    (c.nets.get x).co = coSpec c x := by
  unfold coSpec
  apply foldl_min_eq
  · rw [← h0]; exact inv.mono.le x
  · intro y hy
    obtain ⟨g, hgm, hne, i, hi, hix, rfl⟩ := mem_coCandidates.1 hy
    rw [← hix]
    exact inv.upper g ((hg g).1 hgm) i hi hne
  · rcases inv.attained x with e | ⟨g, hgm, i, hi, hix, hne, hv⟩
    · exact Or.inl (e.trans h0)
    · exact Or.inr (mem_coCandidates.2 ⟨g, (hg g).2 hgm, hne, i, hi, hix, hv⟩)

/-- The specification's value depends only on the gates, the controllabilities
and the observabilities. -/
theorem coSpec_congr {c c' : Circuit} (hg : c'.gates = c.gates)
    (h0 : ∀ k, (c'.nets.get k).cc0 = (c.nets.get k).cc0)
    (h1 : ∀ k, (c'.nets.get k).cc1 = (c.nets.get k).cc1)
    (ho : ∀ k, (c'.nets.get k).co = (c.nets.get k).co) (x : String) :
    coSpec c' x = coSpec c x := by
  unfold coSpec coCandidates
  rw [hg]
  congr 1
  apply List.flatMap_congr
  intro g _
  rw [ho]
  split
  · rfl
  · apply List.map_congr_left
    intro i _
    exact coContribution_congr g i h0 h1 (ho _)

theorem freshMetrics_nonneg {m : NetMap} (h : FreshMetrics m) : MetricsLB 0 m := by
  intro k hk
  obtain ⟨a, b, c, d, e, f⟩ := h k hk
  rw [a, b, c, d, e, f]
  exact ⟨INF_nonneg, INF_nonneg, INF_nonneg, INF_nonneg, INF_nonneg, INF_nonneg⟩

theorem wellFormed_xor {c : Circuit} (wf : WellFormed c) (har : ∀ g ∈ c.gates, ArityOk g) :
    ∀ g ∈ c.gates, (g.type = "xor" ∨ g.type = "xnor") →
      2 ≤ (g.inputs.filter (fun x => x ∈ c.nets.keys)).length := by
  intro g hg e
  rw [List.filter_eq_self.2 (by intro x hx; simpa using (wf.refs g hg).2 x hx)]
  rw [(har g hg).1 e]

/-- Claim C2. Combinational observability is the minimum over all loads: on a
well-formed circuit with the input counts its gate types need, started from
fresh nets, in which `calculateNetLevels` gives every gate's output net a level
`≥ 0`, the analysis in exact arithmetic returns, every net of the table listed
in `primaryOutputs` has `co = 0`, and every other net `x` of the table has
`co(x) = min(INF, minimum of the contributions to x)` over the gates `g` and
input positions `i` with `g.inputs[i] = x` and `co(output(g)) ≠ INF`. -/
theorem combinational_observability_min (c : Circuit) (wf : WellFormed c)
    (har : ∀ g ∈ c.gates, ArityOk g) (hfl : FreshLevels c.nets) (hfm : FreshMetrics c.nets)
    (fuel0 : Nat) (c0 : Circuit) (h0 : calculateNetLevels fuel0 c = .ok c0)
    (hall : ∀ g ∈ c.gates, 0 ≤ (c0.nets.get g.output).level) :
    ∃ N c', (∀ fuel, N ≤ fuel → calculateAllScoapMetrics id fuel c = .ok c') ∧
      ∀ x ∈ c'.nets.keys,
        (x ∈ c'.primaryOutputs → (c'.nets.get x).co = 0) ∧
        (x ∉ c'.primaryOutputs → (c'.nets.get x).co = coSpec c' x) := by
  have hlb := freshMetrics_nonneg hfm
  have hin : InputsExist c.gates c.nets := fun g hg => (wf.refs g hg).2
  obtain ⟨N, c', hrun⟩ := calculateAllScoapMetrics_ok arithLB_id c
    (fun k hk => by rw [wf.keyed.2 k hk]; exact hk) (wellFormed_xor wf har) hin hlb
  refine ⟨N, c', hrun, ?_⟩
  -- one fuel that serves every pass
  have hF := hrun (N + fuel0 + (c.nets.keys.length + c.gates.length)) (by omega)
  obtain ⟨c1, c2, c3, c4, h1, h2, h3, h4, h5, ⟨G1, G2, G3, G4, G5⟩, _, ⟨O1, O2, O3, O4, O5⟩,
    ⟨K1, K2, K3, K4, K5⟩, fr1, fr2, fr3, fr3', fr4, fr4', fr5⟩ :=
    calculateAllScoapMetrics_passes hF
  -- the levels are those of the given run, and they obey the recurrence
  have e0 : c0 = c1 := by
    have := calculateNetLevels_fuel_mono h0 (N + (c.nets.keys.length + c.gates.length))
    rw [show fuel0 + (N + (c.nets.keys.length + c.gates.length)) =
      N + fuel0 + (c.nets.keys.length + c.gates.length) by omega, h1] at this
    injection this with this
    exact this.symm
  subst e0
  obtain ⟨c1', hc1', _, s', inv, _, hs'⟩ := calculateNetLevels_inv wf hfl
    (N + fuel0 + (c.nets.keys.length + c.gates.length)) (by omega)
  rw [h1] at hc1'
  injection hc1' with hc1'
  subst hc1'
  have hrec : ∀ g ∈ c.gates, ∀ x ∈ g.inputs,
      (c0.nets.get x).level < (c0.nets.get g.output).level := by
    intro g hg x hx
    have := inv.recur g hg (by rw [hs']; exact hall g hg)
    rw [hs'] at this
    exact (this.1 x hx).2
  intro x hxk
  rw [K5] at hxk
  constructor
  · intro hpo
    exact (outputs_zero hlb hF (O5 ▸ hpo) hxk).1
  · intro hpo
    rw [O5] at hpo
    -- the table on entry to the observability sweep
    have hl0 : ∀ k, ((initOutputsCo c3).nets.get k).level = (c0.nets.get k).level := by
      intro k
      rw [fr3'.2 k, fr3.2 k, fr2.2 k]
    have hco0 : ((initOutputsCo c3).nets.get x).co = INF := by
      rw [initOutputsCo_get, if_neg (fun e => hpo (O3 ▸ e.1)), fr3.2 x, fr2.2 x, fr1.2 x]
      exact (hfm x hxk).2.2.2.2.1
    have hk0 : (initOutputsCo c3).nets.keys = c.nets.keys := fr3'.1.trans K3
    have hg0 : (initOutputsCo c3).gates = c.gates := G3
    unfold calculateCombinationalObservability at h4
    split at h4
    · rename_i m4 hm4
      injection h4 with h4
      subst h4
      rw [hg0] at hm4
      have hrefs0 : ∀ g ∈ c.gates, g.output ∈ (initOutputsCo c3).nets.keys ∧
          ∀ y ∈ g.inputs, y ∈ (initOutputsCo c3).nets.keys := by
        intro g hg
        rw [hk0]
        exact wf.refs g hg
      have cinv := coSweep_inv (stdSort_perm _ _)
        (stdSort_levelGreater_sorted _ _ (fun g hg => (hrefs0 g hg).1)) hrefs0
        (by intro g hg y hy; rw [hl0, hl0]; exact hrec g hg y hy) hm4
      have key := coInv_spec (c := { initOutputsCo c3 with nets := m4 }) cinv
        (by intro g
            show g ∈ (initOutputsCo c3).gates ↔ _
            rw [hg0]
            exact mem_stdSort.symm) hco0
      have hc0 : ∀ k, (c'.nets.get k).cc0 = (m4.get k).cc0 := by
        intro k; rw [fr5.frame.2 k, fr4'.2 k]
      have hc1 : ∀ k, (c'.nets.get k).cc1 = (m4.get k).cc1 := by
        intro k; rw [fr5.frame.2 k, fr4'.2 k]
      have hco : ∀ k, (c'.nets.get k).co = (m4.get k).co := by
        intro k; rw [fr5.frame.2 k, fr4'.2 k]
      rw [@coSpec_congr { initOutputsCo c3 with nets := m4 } c'
        (G5.trans hg0.symm) hc0 hc1 hco x, hco x]
      exact key
    · cases h4

theorem s1_freshMetrics : FreshMetrics s1.nets := by
  unfold FreshMetrics
  decide

theorem s1_levelled : ∃ c0, calculateNetLevels 4 s1 = .ok c0 ∧
    ∀ g ∈ s1.gates, 0 ≤ (c0.nets.get g.output).level :=
  ⟨_, rfl, by decide⟩

/-- A run of C2 on scenario S1: the single AND gate `y = and(p, q)` with `y` a
primary output. -/
theorem combinational_observability_min_witness :
    WellFormed s1 ∧ (∀ g ∈ s1.gates, ArityOk g) ∧ FreshLevels s1.nets ∧ FreshMetrics s1.nets ∧
    (∃ c0, calculateNetLevels 4 s1 = .ok c0 ∧
      ∀ g ∈ s1.gates, 0 ≤ (c0.nets.get g.output).level) ∧
    ∃ N c', (∀ fuel, N ≤ fuel → calculateAllScoapMetrics id fuel s1 = .ok c') ∧
      ∀ x ∈ c'.nets.keys,
        (x ∈ c'.primaryOutputs → (c'.nets.get x).co = 0) ∧
        (x ∉ c'.primaryOutputs → (c'.nets.get x).co = coSpec c' x) :=
  ⟨s1_wellFormed, s1_arity, s1_freshLevels, s1_freshMetrics, s1_levelled,
    s1_levelled.elim fun c0 h =>
      combinational_observability_min s1 s1_wellFormed s1_arity s1_freshLevels
        s1_freshMetrics 4 c0 h.1 h.2⟩

/-- Scenario S1 evaluated: `co(y) = 0` and `co(p) = co(q) = 2`, the single
contribution `0 + 1 + cc1` of the other input. -/
theorem s1_observability :
    ∃ c', calculateAllScoapMetrics id 4 s1 = .ok c' ∧
      (c'.nets.get "y").co = 0 ∧ (c'.nets.get "p").co = 2 ∧ (c'.nets.get "q").co = 2 ∧
      coSpec c' "p" = 2 ∧ coSpec c' "q" = 2 :=
  ⟨_, rfl, rfl, rfl, rfl, rfl, rfl⟩

/-! ## Saturation, symmetry, and the `xor` case of the sequential sweep -/

/-- The claim C6 as stated fails: in `input p; output y; wire a; and g1(y, p, a);`
the input `a` keeps `cc1 = INF`, and the summed branch of the AND gate stores
`cc1(y) = 1 + (1 + INF) = INF + 2`, not `INF`, in 32-bit and in exact arithmetic. -/
theorem saturation_counterexample :
    (∃ c1 c2, calculateNetLevels 4 floatingAnd = .ok c1 ∧
      calculateCombinationalControllability wrap32 c1 = .ok c2 ∧
      (c2.nets.get "a").cc1 = INF ∧ (c2.nets.get "y").cc1 = INF + 2 ∧
      (c2.nets.get "y").cc1 ≠ INF) ∧
    (∃ c1 c2, calculateNetLevels 4 floatingAnd = .ok c1 ∧
      calculateCombinationalControllability id c1 = .ok c2 ∧
      (c2.nets.get "a").cc1 = INF ∧ (c2.nets.get "y").cc1 = INF + 2 ∧
      (c2.nets.get "y").cc1 ≠ INF) :=
  ⟨⟨_, _, rfl, rfl, rfl, rfl, by decide⟩, ⟨_, _, rfl, rfl, rfl, rfl, by decide⟩⟩

theorem INF_le_sum {l : List Int} (h : ∀ x ∈ l, 0 ≤ x) (hI : INF ∈ l) : INF ≤ l.sum :=
  List.single_le_sum h INF hI

/-- The step of the sweep for a gate whose rule gives a pair stores that pair in
the output net. -/
theorem ccGate_stores (w : Int → Int) {m : NetMap} {g : Gate} (ho : g.output ∈ m.keys)
    (hne : presentInputs m g ≠ []) {a b : Int}
    (hr : ccRule w g.type ((presentInputs m g).map (fun inp => (m.get inp).cc0))
      ((presentInputs m g).map (fun inp => (m.get inp).cc1)) = .ok (some (a, b))) :
    ∃ m', ccGate w m g = .ok m' ∧ (m'.get g.output).cc0 = a ∧ (m'.get g.output).cc1 = b := by
  unfold ccGate
  rw [if_neg (not_not.2 ho)]
  dsimp only
  rw [if_neg (by simp [hne]), hr]
  exact ⟨_, rfl, by rw [modify_get_same], by rw [modify_get_same]⟩

theorem ccRule_and (w : Int → Int) (a b : List Int) :
    ccRule w "and" a b = .ok (some (w (1 + minElement a), w (1 + accumulate w b))) := by
  simp [ccRule]

theorem ccRule_nand (w : Int → Int) (a b : List Int) :
    ccRule w "nand" a b = .ok (some (w (1 + accumulate w b), w (1 + minElement a))) := by
  simp [ccRule]

theorem ccRule_or (w : Int → Int) (a b : List Int) :
    ccRule w "or" a b = .ok (some (w (1 + accumulate w a), w (1 + minElement b))) := by
  simp [ccRule]

theorem ccRule_nor (w : Int → Int) (a b : List Int) :
    ccRule w "nor" a b = .ok (some (w (1 + minElement b), w (1 + accumulate w a))) := by
  simp [ccRule]

theorem ccRule_not (w : Int → Int) (a0 a1 : Int) (r0 r1 : List Int) :
    ccRule w "not" (a0 :: r0) (a1 :: r1) = .ok (some (w (1 + a1), w (1 + a0))) := by
  simp [ccRule]

theorem ccRule_buf (w : Int → Int) (a0 a1 : Int) (r0 r1 : List Int) :
    ccRule w "buf" (a0 :: r0) (a1 :: r1) = .ok (some (w (1 + a0), w (1 + a1))) := by
  simp [ccRule]

/-- The summed branch on non-negative metrics whose sum a 32-bit `int` holds: the
plain `1 + sum`, above `INF` when one of the metrics is `INF`. -/
theorem summed_value {w : Int → Int} (hw : ExactInRange w) {l : List Int}
    (hl : ∀ x ∈ l, 0 ≤ x) (hs : 1 + l.sum ≤ 2147483647) :
    w (1 + accumulate w l) = 1 + l.sum := by
  have h0 : 0 ≤ l.sum := List.sum_nonneg hl
  rw [accumulate_exact hw hl (by omega), hw _ (by omega) hs]

/-- Claim C6 (amended). Arithmetic does not saturate at `INF`. In the sweep of
`calculateCombinationalControllability`, in exact and in 32-bit arithmetic, for a
gate whose output net is in the table and whose present inputs have non-negative
metrics: when one summed metric is `INF` and `1 +` the plain sum of the summed
metrics fits a 32-bit `int`, the step returns and the summed branch of an
`and`/`nand`/`or`/`nor` gate stores that `1 + sum`, which is greater than `INF`;
a `not`/`buf` gate whose input metric is `INF` stores `INF + 1`. -/
theorem summed_branch_exceeds_INF {w : Int → Int} (hw : ExactInRange w) (m : NetMap)
    (g : Gate) (ho : g.output ∈ m.keys) (hne : presentInputs m g ≠ [])
    (h0 : ∀ x ∈ presentInputs m g, 0 ≤ (m.get x).cc0)
    (h1 : ∀ x ∈ presentInputs m g, 0 ≤ (m.get x).cc1) :
    ((∃ x ∈ presentInputs m g, (m.get x).cc1 = INF) →
      1 + ((presentInputs m g).map (fun x => (m.get x).cc1)).sum ≤ 2147483647 →
      (g.type = "and" → ∃ m', ccGate w m g = .ok m' ∧
        (m'.get g.output).cc1 = 1 + ((presentInputs m g).map (fun x => (m.get x).cc1)).sum ∧
        INF < (m'.get g.output).cc1) ∧
      (g.type = "nand" → ∃ m', ccGate w m g = .ok m' ∧
        (m'.get g.output).cc0 = 1 + ((presentInputs m g).map (fun x => (m.get x).cc1)).sum ∧
        INF < (m'.get g.output).cc0)) ∧
    ((∃ x ∈ presentInputs m g, (m.get x).cc0 = INF) →
      1 + ((presentInputs m g).map (fun x => (m.get x).cc0)).sum ≤ 2147483647 →
      (g.type = "or" → ∃ m', ccGate w m g = .ok m' ∧
        (m'.get g.output).cc0 = 1 + ((presentInputs m g).map (fun x => (m.get x).cc0)).sum ∧
        INF < (m'.get g.output).cc0) ∧
      (g.type = "nor" → ∃ m', ccGate w m g = .ok m' ∧
        (m'.get g.output).cc1 = 1 + ((presentInputs m g).map (fun x => (m.get x).cc0)).sum ∧
        INF < (m'.get g.output).cc1)) ∧
    (∀ x rest, presentInputs m g = x :: rest →
      ((m.get x).cc1 = INF →
        (g.type = "not" → ∃ m', ccGate w m g = .ok m' ∧ (m'.get g.output).cc0 = INF + 1) ∧
        (g.type = "buf" → ∃ m', ccGate w m g = .ok m' ∧ (m'.get g.output).cc1 = INF + 1)) ∧
      ((m.get x).cc0 = INF →
        (g.type = "not" → ∃ m', ccGate w m g = .ok m' ∧ (m'.get g.output).cc1 = INF + 1) ∧
        (g.type = "buf" → ∃ m', ccGate w m g = .ok m' ∧ (m'.get g.output).cc0 = INF + 1))) := by
  have hl0 : ∀ v ∈ (presentInputs m g).map (fun x => (m.get x).cc0), 0 ≤ v := by
    intro v hv
    obtain ⟨x, hx, e⟩ := List.mem_map.1 hv
    rw [← e]
    exact h0 x hx
  have hl1 : ∀ v ∈ (presentInputs m g).map (fun x => (m.get x).cc1), 0 ≤ v := by
    intro v hv
    obtain ⟨x, hx, e⟩ := List.mem_map.1 hv
    rw [← e]
    exact h1 x hx
  have hI1 : w (1 + INF) = INF + 1 := by
    rw [hw _ (by decide) (by decide)]
    decide
  refine ⟨fun hex hs => ?_, fun hex hs => ?_, fun x rest hx => ⟨fun hinf => ?_, fun hinf => ?_⟩⟩
  · obtain ⟨x, hx, e⟩ := hex
    have hlt : INF < 1 + ((presentInputs m g).map (fun x => (m.get x).cc1)).sum := by
      have := INF_le_sum hl1 (List.mem_map.2 ⟨x, hx, e⟩)
      omega
    constructor
    · intro hty
      obtain ⟨m', hm', _, e1⟩ := ccGate_stores w ho hne
        (by rw [hty]; exact ccRule_and w _ _)
      rw [summed_value hw hl1 hs] at e1
      exact ⟨m', hm', e1, by rw [e1]; exact hlt⟩
    · intro hty
      obtain ⟨m', hm', e1, _⟩ := ccGate_stores w ho hne
        (by rw [hty]; exact ccRule_nand w _ _)
      rw [summed_value hw hl1 hs] at e1
      exact ⟨m', hm', e1, by rw [e1]; exact hlt⟩
  · obtain ⟨x, hx, e⟩ := hex
    have hlt : INF < 1 + ((presentInputs m g).map (fun x => (m.get x).cc0)).sum := by
      have := INF_le_sum hl0 (List.mem_map.2 ⟨x, hx, e⟩)
      omega
    constructor
    · intro hty
      obtain ⟨m', hm', e1, _⟩ := ccGate_stores w ho hne
        (by rw [hty]; exact ccRule_or w _ _)
      rw [summed_value hw hl0 hs] at e1
      exact ⟨m', hm', e1, by rw [e1]; exact hlt⟩
    · intro hty
      obtain ⟨m', hm', _, e1⟩ := ccGate_stores w ho hne
        (by rw [hty]; exact ccRule_nor w _ _)
      rw [summed_value hw hl0 hs] at e1
      exact ⟨m', hm', e1, by rw [e1]; exact hlt⟩
  · constructor
    · intro hty
      obtain ⟨m', hm', e1, _⟩ := ccGate_stores w ho hne
        (by rw [hty, hx]; exact ccRule_not w _ _ _ _)
      dsimp only at e1
      rw [hinf, hI1] at e1
      exact ⟨m', hm', e1⟩
    · intro hty
      obtain ⟨m', hm', _, e1⟩ := ccGate_stores w ho hne
        (by rw [hty, hx]; exact ccRule_buf w _ _ _ _)
      dsimp only at e1
      rw [hinf, hI1] at e1
      exact ⟨m', hm', e1⟩
  · constructor
    · intro hty
      obtain ⟨m', hm', _, e1⟩ := ccGate_stores w ho hne
        (by rw [hty, hx]; exact ccRule_not w _ _ _ _)
      dsimp only at e1
      rw [hinf, hI1] at e1
      exact ⟨m', hm', e1⟩
    · intro hty
      obtain ⟨m', hm', e1, _⟩ := ccGate_stores w ho hne
        (by rw [hty, hx]; exact ccRule_buf w _ _ _ _)
      dsimp only at e1
      rw [hinf, hI1] at e1
      exact ⟨m', hm', e1⟩

/-- An instance of C6 (amended) in 32-bit arithmetic: the AND gate of
`input p; output y; wire a; and g1(y, p, a);` at the start of the sweep, where
`cc1(p) = 1` and `cc1(a) = INF`. -/
theorem summed_branch_exceeds_INF_witness :
    ExactInRange wrap32 ∧ "y" ∈ (ccInit floatingAnd.nets).keys ∧
    (∃ x ∈ presentInputs (ccInit floatingAnd.nets) ⟨"g1", "and", ["p", "a"], "y", -1⟩,
      ((ccInit floatingAnd.nets).get x).cc1 = INF) ∧
    ∃ m', ccGate wrap32 (ccInit floatingAnd.nets) ⟨"g1", "and", ["p", "a"], "y", -1⟩ = .ok m' ∧
      (m'.get "y").cc1 = 1 + ((presentInputs (ccInit floatingAnd.nets)
        ⟨"g1", "and", ["p", "a"], "y", -1⟩).map
          (fun x => ((ccInit floatingAnd.nets).get x).cc1)).sum ∧
      INF < (m'.get "y").cc1 :=
  ⟨exactInRange_wrap32, by decide, ⟨"a", by decide, rfl⟩,
    ((summed_branch_exceeds_INF exactInRange_wrap32 (ccInit floatingAnd.nets)
      ⟨"g1", "and", ["p", "a"], "y", -1⟩ (by decide) (by decide) (by decide) (by decide)).1
      ⟨"a", by decide, rfl⟩ (by decide)).1 rfl⟩

/-- Claim C9. Symmetry of inverted gate types: on the same input vectors the rule
for `nand` is that for `and` with `(cc0, cc1)` swapped, and likewise `nor`
against `or` and `xnor` against `xor`, in any arithmetic and for vectors of any
length. -/
theorem inverted_gate_types_swap (w : Int → Int) (inCC0 inCC1 : List Int) :
    ccRule w "nand" inCC0 inCC1 = (ccRule w "and" inCC0 inCC1).map (Option.map Prod.swap) ∧
    ccRule w "nor" inCC0 inCC1 = (ccRule w "or" inCC0 inCC1).map (Option.map Prod.swap) ∧
    ccRule w "xnor" inCC0 inCC1 = (ccRule w "xor" inCC0 inCC1).map (Option.map Prod.swap) := by
  refine ⟨?_, ?_, ?_⟩
  · simp [ccRule, Except.map]
  · simp [ccRule, Except.map]
  · unfold ccRule
    simp only [reduceCtorEq, String.reduceEq, if_false, if_true]
    split <;> simp [Except.map]

/-- The sequential rule has no `xor`/`xnor` branch: both values stay `INF`. -/
theorem scRule_xor (w : Int → Int) (inSC0 inSC1 : List Int) :
    scRule w "xor" inSC0 inSC1 = (INF, INF) ∧ scRule w "xnor" inSC0 inSC1 = (INF, INF) := by
  constructor <;> simp [scRule]

/-- Claim C10 (the code at the failing input). On scenario S3, the 2-input `xor` of
two primary inputs, the analysis ends with `sc0 = sc1 = 0` on both inputs and
`sc0(y) = sc1(y) = INF`, while the combinational sweep does handle the gate
(`cc0(y) = cc1(y) = 3`). -/
theorem xor_sequential_controllability_stays_INF :
    ∃ c', calculateAllScoapMetrics id 4 s3 = .ok c' ∧
      (c'.nets.get "a").sc0 = 0 ∧ (c'.nets.get "a").sc1 = 0 ∧
      (c'.nets.get "b").sc0 = 0 ∧ (c'.nets.get "b").sc1 = 0 ∧
      (c'.nets.get "y").sc0 = INF ∧ (c'.nets.get "y").sc1 = INF ∧
      (c'.nets.get "y").cc0 = 3 ∧ (c'.nets.get "y").cc1 = 3 :=
  ⟨_, rfl, rfl, rfl, rfl, rfl, rfl, rfl, rfl, rfl⟩

/-- More fuel does not change the result of an analysis that has returned. -/
theorem calculateAllScoapMetrics_fuel_mono {w : Int → Int} {n : Nat} {c c' : Circuit}
    (h : calculateAllScoapMetrics w n c = .ok c') (k : Nat) :
    calculateAllScoapMetrics w (n + k) c = .ok c' := by
  obtain ⟨c1, c2, c3, c4, h1, h2, h3, h4, h5⟩ := calculateAllScoapMetrics_eq_ok.1 h
  exact calculateAllScoapMetrics_eq_ok.2 ⟨c1, c2, c3, c4, calculateNetLevels_fuel_mono h1 k, h2,
    calculateSequentialControllability_fuel_mono h3 k, h4,
    calculateSequentialObservability_fuel_mono h5 k⟩

/-- Claim C11, refuted as stated. In scenario S4 the analysis returns, in exact
and in 32-bit arithmetic, and none of `sc0(x)`, `sc1(x)`, `sc0(y)`, `sc1(y)` is
below `INF`. -/
theorem s4_controllability_not_finite :
    (∃ c', calculateAllScoapMetrics id 4 s4 = .ok c' ∧
      ¬ (c'.nets.get "x").sc0 < INF ∧ ¬ (c'.nets.get "x").sc1 < INF ∧
      ¬ (c'.nets.get "y").sc0 < INF ∧ ¬ (c'.nets.get "y").sc1 < INF) ∧
    (∃ c', calculateAllScoapMetrics wrap32 4 s4 = .ok c' ∧
      ¬ (c'.nets.get "x").sc0 < INF ∧ ¬ (c'.nets.get "x").sc1 < INF ∧
      ¬ (c'.nets.get "y").sc0 < INF ∧ ¬ (c'.nets.get "y").sc1 < INF) :=
  ⟨⟨_, rfl, by decide, by decide, by decide, by decide⟩,
    ⟨_, rfl, by decide, by decide, by decide, by decide⟩⟩

/-- Claim C11, amended. In scenario S4, for every fuel from 3 on, the analysis
returns in exact and in 32-bit arithmetic with
`sc0(x) = sc1(x) = sc0(y) = sc1(y) = INF`: the only seeds of the sequential
loop are the primary inputs, and the loop `x → y → x` contains none. -/
theorem s4_sequential_controllability_INF (fuel : Nat) (hfuel : 3 ≤ fuel) :
    (∃ c', calculateAllScoapMetrics id fuel s4 = .ok c' ∧
      (c'.nets.get "x").sc0 = INF ∧ (c'.nets.get "x").sc1 = INF ∧
      (c'.nets.get "y").sc0 = INF ∧ (c'.nets.get "y").sc1 = INF) ∧
    (∃ c', calculateAllScoapMetrics wrap32 fuel s4 = .ok c' ∧
      (c'.nets.get "x").sc0 = INF ∧ (c'.nets.get "x").sc1 = INF ∧
      (c'.nets.get "y").sc0 = INF ∧ (c'.nets.get "y").sc1 = INF) := by
  have e : 3 + (fuel - 3) = fuel := by omega
  constructor
  · obtain ⟨c', h, hv⟩ : ∃ c', calculateAllScoapMetrics id 3 s4 = .ok c' ∧
        (c'.nets.get "x").sc0 = INF ∧ (c'.nets.get "x").sc1 = INF ∧
        (c'.nets.get "y").sc0 = INF ∧ (c'.nets.get "y").sc1 = INF :=
      ⟨_, rfl, rfl, rfl, rfl, rfl⟩
    have := calculateAllScoapMetrics_fuel_mono h (fuel - 3)
    rw [e] at this
    exact ⟨c', this, hv⟩
  · obtain ⟨c', h, hv⟩ : ∃ c', calculateAllScoapMetrics wrap32 3 s4 = .ok c' ∧
        (c'.nets.get "x").sc0 = INF ∧ (c'.nets.get "x").sc1 = INF ∧
        (c'.nets.get "y").sc0 = INF ∧ (c'.nets.get "y").sc1 = INF :=
      ⟨_, rfl, rfl, rfl, rfl, rfl⟩
    have := calculateAllScoapMetrics_fuel_mono h (fuel - 3)
    rw [e] at this
    exact ⟨c', this, hv⟩

/-- A run of the amended C11 with fuel 5. -/
theorem s4_sequential_controllability_INF_witness :
    3 ≤ 5 ∧
    (∃ c', calculateAllScoapMetrics id 5 s4 = .ok c' ∧
      (c'.nets.get "x").sc0 = INF ∧ (c'.nets.get "x").sc1 = INF ∧
      (c'.nets.get "y").sc0 = INF ∧ (c'.nets.get "y").sc1 = INF) ∧
    (∃ c', calculateAllScoapMetrics wrap32 5 s4 = .ok c' ∧
      (c'.nets.get "x").sc0 = INF ∧ (c'.nets.get "x").sc1 = INF ∧
      (c'.nets.get "y").sc0 = INF ∧ (c'.nets.get "y").sc1 = INF) :=
  ⟨by decide, s4_sequential_controllability_INF 5 (by decide)⟩

/-- Claim C12, refuted as stated. In scenario S5 `level(y)` is `-1` after
`calculateNetLevels` and after the analysis, and `detectFeedbackLoops` returns
`0`, not `1`, on both. -/
theorem s5_detector_reports_nothing :
    (∃ c1, calculateNetLevels 4 s5 = .ok c1 ∧ (c1.nets.get "y").level = -1 ∧
      detectFeedbackLoops c1 = 0 ∧ detectFeedbackLoops c1 ≠ 1) ∧
    (∃ c', calculateAllScoapMetrics wrap32 4 s5 = .ok c' ∧ (c'.nets.get "y").level = -1 ∧
      detectFeedbackLoops c' = 0 ∧ detectFeedbackLoops c' ≠ 1) :=
  ⟨⟨_, rfl, rfl, rfl, by decide⟩, ⟨_, rfl, rfl, rfl, by decide⟩⟩

/-- Claim C12, amended. In scenario S5, for every fuel from 2 on,
`calculateNetLevels` and the analysis (in exact and in 32-bit arithmetic)
return, `level(y)` is `-1` after each, and `detectFeedbackLoops` returns `0`
after each: the detector passes over a gate whose output level is `-1`. -/
theorem s5_level_undefined_detector_zero (fuel : Nat) (hfuel : 2 ≤ fuel) :
    (∃ c1, calculateNetLevels fuel s5 = .ok c1 ∧ (c1.nets.get "y").level = -1 ∧
      detectFeedbackLoops c1 = 0) ∧
    (∃ c', calculateAllScoapMetrics id fuel s5 = .ok c' ∧ (c'.nets.get "y").level = -1 ∧
      detectFeedbackLoops c' = 0) ∧
    (∃ c', calculateAllScoapMetrics wrap32 fuel s5 = .ok c' ∧ (c'.nets.get "y").level = -1 ∧
      detectFeedbackLoops c' = 0) := by
  have e : 2 + (fuel - 2) = fuel := by omega
  refine ⟨?_, ?_, ?_⟩
  · obtain ⟨c1, h, hv⟩ : ∃ c1, calculateNetLevels 2 s5 = .ok c1 ∧
        (c1.nets.get "y").level = -1 ∧ detectFeedbackLoops c1 = 0 := ⟨_, rfl, rfl, rfl⟩
    have := calculateNetLevels_fuel_mono h (fuel - 2)
    rw [e] at this
    exact ⟨c1, this, hv⟩
  · obtain ⟨c', h, hv⟩ : ∃ c', calculateAllScoapMetrics id 2 s5 = .ok c' ∧
        (c'.nets.get "y").level = -1 ∧ detectFeedbackLoops c' = 0 := ⟨_, rfl, rfl, rfl⟩
    have := calculateAllScoapMetrics_fuel_mono h (fuel - 2)
    rw [e] at this
    exact ⟨c', this, hv⟩
  · obtain ⟨c', h, hv⟩ : ∃ c', calculateAllScoapMetrics wrap32 2 s5 = .ok c' ∧
        (c'.nets.get "y").level = -1 ∧ detectFeedbackLoops c' = 0 := ⟨_, rfl, rfl, rfl⟩
    have := calculateAllScoapMetrics_fuel_mono h (fuel - 2)
    rw [e] at this
    exact ⟨c', this, hv⟩

/-- A run of the amended C12 with fuel 4. -/
theorem s5_level_undefined_detector_zero_witness :
    2 ≤ 4 ∧
    (∃ c1, calculateNetLevels 4 s5 = .ok c1 ∧ (c1.nets.get "y").level = -1 ∧
      detectFeedbackLoops c1 = 0) ∧
    (∃ c', calculateAllScoapMetrics id 4 s5 = .ok c' ∧ (c'.nets.get "y").level = -1 ∧
      detectFeedbackLoops c' = 0) ∧
    (∃ c', calculateAllScoapMetrics wrap32 4 s5 = .ok c' ∧ (c'.nets.get "y").level = -1 ∧
      detectFeedbackLoops c' = 0) :=
  ⟨by decide, s5_level_undefined_detector_zero 4 (by decide)⟩

/-- The chain of the controllability sweep has a row for each of `and`, `nand`,
`or`, `nor` whatever the vectors hold. -/
theorem ccRule_summing (w : Int → Int) {ty : String}
    (hty : ty = "and" ∨ ty = "nand" ∨ ty = "or" ∨ ty = "nor") (in0 in1 : List Int) :
    ∃ p, ccRule w ty in0 in1 = .ok (some p) := by
  rcases hty with h | h | h | h <;> subst h <;> simp [ccRule]

/-- Claim C13, refuted as stated. Scenario S5 starts from fresh nets, `y` is
neither a primary input nor a flip-flop output and keeps level `-1` after
`calculateNetLevels`, yet the controllability sweep stores `cc0(y) = 2` and
`cc1(y) = INF + 2`, and these values stand after the analysis. -/
theorem s5_controllability_overwritten :
    FreshLevels s5.nets ∧ FreshMetrics s5.nets ∧ isSource (s5.nets.get "y") = false ∧
    (∃ c1 c2, calculateNetLevels 4 s5 = .ok c1 ∧ (c1.nets.get "y").level = -1 ∧
      calculateCombinationalControllability wrap32 c1 = .ok c2 ∧
      (c2.nets.get "y").cc0 = 2 ∧ (c2.nets.get "y").cc1 = INF + 2 ∧
      (c2.nets.get "y").cc0 ≠ INF ∧ (c2.nets.get "y").cc1 ≠ INF) ∧
    (∃ c', calculateAllScoapMetrics wrap32 4 s5 = .ok c' ∧
      (c'.nets.get "y").cc0 ≠ INF ∧ (c'.nets.get "y").cc1 ≠ INF) :=
  ⟨by unfold FreshLevels; decide, by unfold FreshMetrics; decide, rfl,
    ⟨_, _, rfl, rfl, rfl, rfl, rfl, by decide, by decide⟩, ⟨_, rfl, by decide, by decide⟩⟩

/-- Claim C13, amended. The controllability sweep does not look at levels when
it processes a gate: for every table and every `and`, `nand`, `or` or `nor`
gate whose output net and at least one input net are in the table, the step of
that gate overwrites `cc0` and `cc1` of its output with the row of its type,
whatever the level of the output. In scenario S5, where `level(y)` stays `-1`,
the analysis ends with `cc0(y) = 2` and `cc1(y) = INF + 2` in exact and in
32-bit arithmetic. -/
theorem unlevelized_gates_are_swept (w : Int → Int) (m : NetMap) (g : Gate)
    (hout : g.output ∈ m.keys) (hin : presentInputs m g ≠ [])
    (hty : g.type = "and" ∨ g.type = "nand" ∨ g.type = "or" ∨ g.type = "nor") :
    (∃ p, ccRule w g.type ((presentInputs m g).map (fun x => (m.get x).cc0))
        ((presentInputs m g).map (fun x => (m.get x).cc1)) = .ok (some p) ∧
      ccGate w m g = .ok (m.modify g.output (fun n => { n with cc0 := p.1, cc1 := p.2 }))) ∧
    (∃ c', calculateAllScoapMetrics id 4 s5 = .ok c' ∧ (c'.nets.get "y").level = -1 ∧
      (c'.nets.get "y").cc0 = 2 ∧ (c'.nets.get "y").cc1 = INF + 2) ∧
    (∃ c', calculateAllScoapMetrics wrap32 4 s5 = .ok c' ∧ (c'.nets.get "y").level = -1 ∧
      (c'.nets.get "y").cc0 = 2 ∧ (c'.nets.get "y").cc1 = INF + 2) := by
  refine ⟨?_, ⟨_, rfl, rfl, rfl, rfl⟩, ⟨_, rfl, rfl, rfl, rfl⟩⟩
  obtain ⟨p, hp⟩ := ccRule_summing w hty ((presentInputs m g).map (fun x => (m.get x).cc0))
    ((presentInputs m g).map (fun x => (m.get x).cc1))
  refine ⟨p, hp, ?_⟩
  unfold ccGate
  rw [if_neg (not_not.2 hout)]
  dsimp only
  rw [if_neg (by simp [hin]), hp]

/-- The amended C13 at the gate of scenario S5, on the table after
`calculateNetLevels` and the seeding of the primary inputs. -/
theorem unlevelized_gates_are_swept_witness :
    "y" ∈ (ccInit s5.nets).keys ∧
    presentInputs (ccInit s5.nets)
      { name := "g1", type := "and", inputs := ["a", "y"], output := "y" } ≠ [] ∧
    (∃ p, ccRule wrap32 "and"
        ((presentInputs (ccInit s5.nets)
          { name := "g1", type := "and", inputs := ["a", "y"], output := "y" }).map
          (fun x => ((ccInit s5.nets).get x).cc0))
        ((presentInputs (ccInit s5.nets)
          { name := "g1", type := "and", inputs := ["a", "y"], output := "y" }).map
          (fun x => ((ccInit s5.nets).get x).cc1)) = .ok (some p) ∧
      ccGate wrap32 (ccInit s5.nets)
        { name := "g1", type := "and", inputs := ["a", "y"], output := "y" } =
        .ok ((ccInit s5.nets).modify "y" (fun n => { n with cc0 := p.1, cc1 := p.2 }))) :=
  ⟨by decide, by decide,
    (unlevelized_gates_are_swept wrap32 (ccInit s5.nets)
      { name := "g1", type := "and", inputs := ["a", "y"], output := "y" }
      (by decide) (by decide) (Or.inl rfl)).1⟩

/-- One visit of a load either leaves the table alone or stores a level `≥ 1`
on the output net of a gate of the circuit. -/
theorem levelVisit_nets_cases (gates : List Gate) (s : LevelState) (gn : String) :
    (levelVisit gates s gn).nets = s.nets ∨
    ∃ g ∈ gates, (levelVisit gates s gn).nets =
      s.nets.modify g.output (fun n => { n with level := maxInLevel s.nets g.inputs + 1 }) := by
  unfold levelVisit
  dsimp only
  split
  · split
    · exact Or.inl rfl
    · rename_i hname
      split
      · rcases findGateByName_cases gates gn with h | h
        · rw [h] at hname
          exact absurd rfl hname
        · exact Or.inr ⟨_, h.1, rfl⟩
      · exact Or.inl rfl
  · exact Or.inl rfl

/-- A property of the net table kept by every visit of a load holds of the
table `calculateNetLevels` ends with. -/
theorem levelLoop_induction (gates : List Gate) (P : NetMap → Prop)
    (hstep : ∀ s gn, P s.nets → P (levelVisit gates s gn).nets)
    (fuel : Nat) (s : LevelState) (hs : P s.nets) {m : NetMap}
    (h : levelLoop gates fuel s = .ok m) : P m := by
  have hfold : ∀ (l : List String) (s : LevelState), P s.nets →
      P (l.foldl (levelVisit gates) s).nets := by
    intro l
    induction l with
    | nil => intro s hs; exact hs
    | cons gn l ih => intro s hs; rw [List.foldl_cons]; exact ih _ (hstep s gn hs)
  induction fuel generalizing s with
  | zero =>
    unfold levelLoop at h
    split at h
    · injection h with h; rw [← h]; exact hs
    · cases h
  | succ n ih =>
    unfold levelLoop at h
    split at h
    · injection h with h; rw [← h]; exact hs
    · split at h
      · rename_i cur rest _ _
        exact ih _ (hfold _ { s with queue := rest } hs) h
      · cases h

theorem maxInLevel_nonneg (m : NetMap) (inputs : List String) : 0 ≤ maxInLevel m inputs :=
  maxInLevel_foldl_ge m inputs 0

/-- A level that is defined stays defined. -/
theorem levelLoop_keeps_defined (gates : List Gate) (fuel : Nat) (s : LevelState) {m : NetMap}
    (h : levelLoop gates fuel s = .ok m) (k : String) (hk : 0 ≤ (s.nets.get k).level) :
    0 ≤ (m.get k).level := by
  refine levelLoop_induction gates (fun t => 0 ≤ (t.get k).level) ?_ fuel s hk h
  intro t gn ht
  rcases levelVisit_nets_cases gates t gn with e | ⟨g, _, e⟩
  · rw [e]; exact ht
  · rw [e]
    by_cases hkg : k = g.output
    · rw [hkg, modify_get_same]
      have := maxInLevel_nonneg t.nets g.inputs
      show 0 ≤ maxInLevel t.nets g.inputs + 1
      omega
    · rw [modify_get_ne _ _ hkg]; exact ht

/-- A net with a defined level had one from the start or is the output of a gate. -/
theorem levelLoop_defined_origin (gates : List Gate) (fuel : Nat) (s : LevelState) {m : NetMap}
    (h : levelLoop gates fuel s = .ok m) (k : String) (hk : 0 ≤ (m.get k).level) :
    0 ≤ (s.nets.get k).level ∨ ∃ g ∈ gates, g.output = k := by
  refine levelLoop_induction gates
    (fun t => 0 ≤ (t.get k).level → 0 ≤ (s.nets.get k).level ∨ ∃ g ∈ gates, g.output = k)
    ?_ fuel s (fun a => Or.inl a) h hk
  intro t gn ht hk'
  rcases levelVisit_nets_cases gates t gn with e | ⟨g, hg, e⟩
  · rw [e] at hk'; exact ht hk'
  · by_cases hkg : k = g.output
    · exact Or.inr ⟨g, hg, hkg.symm⟩
    · rw [e, modify_get_ne _ _ hkg] at hk'; exact ht hk'

/-- The levels on entry to the loop of `calculateNetLevels`, on fresh levels. -/
theorem levelInit_level {c : Circuit} (hfresh : FreshLevels c.nets) {k : String}
    (hk : k ∈ c.nets.keys) :
    ((levelInit c).nets.get k).level = if isSource (c.nets.get k) then 0 else -1 := by
  unfold levelInit
  dsimp only
  rw [mapValues_get_mem _ _ hk]
  split
  · rfl
  · exact hfresh k hk

theorem grounded_mem_keys {c : Circuit} (wf : WellFormed c) {n : String} (h : Grounded c n) :
    n ∈ c.nets.keys := by
  cases h with
  | source hk _ => exact hk
  | gate hg _ _ _ => exact (wf.refs _ hg).1

/-- On a well-formed circuit with fresh levels `calculateNetLevels` returns, and
the nets of the table that end with a level are exactly the grounded ones. -/
theorem levels_defined_iff_grounded {c : Circuit} (wf : WellFormed c)
    (hfresh : FreshLevels c.nets) (fuel : Nat)
    (hfuel : c.nets.keys.length + c.gates.length ≤ fuel) :
    ∃ c', calculateNetLevels fuel c = .ok c' ∧
      (∀ n, Grounded c n → 0 ≤ (c'.nets.get n).level) ∧
      (∀ n ∈ c.nets.keys, 0 ≤ (c'.nets.get n).level → Grounded c n) := by
  obtain ⟨c', hc', _, s', inv, hq, hs'⟩ := calculateNetLevels_inv wf hfresh fuel hfuel
  have hloop : levelLoop c.gates fuel (levelInit c) = .ok c'.nets := by
    unfold calculateNetLevels at hc'
    split at hc'
    · rename_i m hm
      injection hc' with hc'
      rw [← hc']
      exact hm
    · cases hc'
  refine ⟨c', hc', ?_, ?_⟩
  · intro n hn
    induction hn with
    | source hk hsrc =>
      apply levelLoop_keeps_defined _ _ _ hloop
      rw [levelInit_level hfresh hk, if_pos hsrc]
    | @gate g hg hne hname _ ih =>
      have hcnt := inv.counts g hg
      have hpend : pendingInputs s'.nets ([] ++ s'.queue) g = 0 := by
        unfold pendingInputs
        rw [List.countP_eq_zero]
        intro x hx
        have := ih x hx
        rw [← hs'] at this
        simp [hq]
        exact this
      rw [hpend] at hcnt
      have := (inv.fired g hg).2 ⟨by simpa using hcnt, hne, hname⟩
      rw [hs'] at this
      exact this
  · have key : ∀ L : Nat, ∀ n ∈ c.nets.keys, 0 ≤ (c'.nets.get n).level →
        (c'.nets.get n).level < L → Grounded c n := by
      intro L
      induction L with
      | zero => intro n _ h0 h1; omega
      | succ L ih =>
        intro n hn h0 h1
        rcases levelLoop_defined_origin _ _ _ hloop n h0 with hi | ⟨g, hg, hgo⟩
        · rw [levelInit_level hfresh hn] at hi
          by_cases hsrc : isSource (c.nets.get n) = true
          · exact Grounded.source hn hsrc
          · rw [if_neg hsrc] at hi
            omega
        · subst hgo
          have hf := (inv.fired g hg).1 (by rw [hs']; exact h0)
          have hr := inv.recur g hg (by rw [hs']; exact h0)
          rw [hs'] at hr
          refine Grounded.gate hg hf.2.1 hf.2.2 ?_
          intro x hx
          have := hr.1 x hx
          exact ih x ((wf.refs g hg).2 x hx) this.1 (by omega)
    intro n hn h0
    exact key ((c'.nets.get n).level.toNat + 1) n hn h0 (by omega)

theorem floatingAnd_wellFormed : WellFormed floatingAnd :=
  ⟨⟨by decide, by decide⟩, by decide, by decide, by decide, by decide, by decide⟩

theorem floatingAnd_freshLevels : FreshLevels floatingAnd.nets := by
  unfold FreshLevels
  decide

/-- Claim C15, refuted as stated. The circuit `input p; output y; wire a;
and g1(y, p, a);` is well-formed and starts with all levels `-1`; the net `y` is
reached from the primary input `p` through the gate `g1`, and `level(y)` is
`-1` after `calculateNetLevels`. -/
theorem reachable_net_without_level :
    WellFormed floatingAnd ∧ FreshLevels floatingAnd.nets ∧ Reachable floatingAnd "y" ∧
    ∃ c', calculateNetLevels 4 floatingAnd = .ok c' ∧ (c'.nets.get "y").level = -1 ∧
      ¬ 0 ≤ (c'.nets.get "y").level :=
  ⟨floatingAnd_wellFormed, floatingAnd_freshLevels,
    @Reachable.step floatingAnd
      { name := "g1", type := "and", inputs := ["p", "a"], output := "y" } "p"
      (List.mem_cons_self _ _) (by decide) (Reachable.source (by decide) rfl),
    _, rfl, rfl, by decide⟩

/-- Claim C15, amended. Every grounded net gets a level: on a well-formed
circuit started with all levels `-1`, `calculateNetLevels` returns, every net
that is a primary input or flip-flop output, or is reached from those through
named gates all of whose inputs (at least one) are reached in the same way, has
`level ≥ 0` afterwards, and no other net of the table has. -/
theorem grounded_nets_get_levels (c : Circuit) (wf : WellFormed c)
    (hfresh : FreshLevels c.nets) (fuel : Nat)
    (hfuel : c.nets.keys.length + c.gates.length ≤ fuel) :
    ∃ c', calculateNetLevels fuel c = .ok c' ∧
      (∀ n, Grounded c n → 0 ≤ (c'.nets.get n).level) ∧
      (∀ n ∈ c.nets.keys, 0 ≤ (c'.nets.get n).level → Grounded c n) :=
  levels_defined_iff_grounded wf hfresh fuel hfuel

/-- A run of the amended C15 on scenario S1. -/
theorem grounded_nets_get_levels_witness :
    WellFormed s1 ∧ FreshLevels s1.nets ∧
    ∃ c', calculateNetLevels 4 s1 = .ok c' ∧
      (∀ n, Grounded s1 n → 0 ≤ (c'.nets.get n).level) ∧
      (∀ n ∈ s1.nets.keys, 0 ≤ (c'.nets.get n).level → Grounded s1 n) :=
  ⟨s1_wellFormed, s1_freshLevels,
    grounded_nets_get_levels s1 s1_wellFormed s1_freshLevels 4 (by decide)⟩

/-- The guarded lookups: absent gate outputs and flip-flop ports never abort the
analysis. For every circuit whose record names are keys, in which gates have
the input count their type requires and every gate input net is in the table
(gate output nets and flip-flop port nets may be absent), with metrics above
the lower bound of the arithmetic, the analysis returns; and in every pass the
step of a gate whose output net is absent, and the step of a flip-flop one of
whose `q`, `d`, `clk` nets is absent, returns the table and the flag `changed`
as they were. -/
theorem absent_outputs_and_ports_are_skipped {w : Int → Int} {B : Int} (hw : ArithLB w B)
    (c : Circuit) (hk : ∀ k ∈ c.nets.keys, (c.nets.get k).name ∈ c.nets.keys)
    (har : ∀ g ∈ c.gates, ArityOk g) (hin : InputsExist c.gates c.nets)
    (hlb : MetricsLB B c.nets) :
    (∃ N c', ∀ fuel, N ≤ fuel → calculateAllScoapMetrics w fuel c = .ok c') ∧
    (∀ (m : NetMap) (changed : Bool) (g : Gate), g.output ∉ m.keys →
      ccGate w m g = .ok m ∧ scGate w (m, changed) g = (m, changed) ∧
      coGate w m g = .ok m ∧ soGate w (m, changed) g = .ok (m, changed)) ∧
    (∀ (m : NetMap) (changed : Bool) (ff : FlipFlop),
      ff.q ∉ m.keys ∨ ff.d ∉ m.keys ∨ ff.clk ∉ m.keys →
      scFlipFlop w (m, changed) ff = (m, changed) ∧
      soFlipFlop w (m, changed) ff = (m, changed)) := by
  refine ⟨?_, ?_, ?_⟩
  · refine calculateAllScoapMetrics_ok hw c hk ?_ hin hlb
    intro g hg e
    rw [List.filter_eq_self.2 (by intro x hx; simpa using hin g hg x hx), (har g hg).1 e]
  · intro m changed g hout
    refine ⟨?_, ?_, ?_, ?_⟩
    · unfold ccGate
      rw [if_pos hout]
    · unfold scGate
      rw [if_pos hout]
    · unfold coGate
      rw [if_pos hout]
    · unfold soGate
      rw [if_pos hout]
  · intro m changed ff hp
    constructor
    · unfold scFlipFlop
      rw [if_pos hp]
    · unfold soFlipFlop
      rw [if_pos hp]

/-- A run in 32-bit arithmetic on a circuit whose gate output `y` and whose
flip-flop nets `c` and `z` are absent. -/
theorem absent_outputs_and_ports_are_skipped_witness :
    ArithLB wrap32 (-2147483648) ∧
    (∀ k ∈ missingOutput.nets.keys, (missingOutput.nets.get k).name ∈ missingOutput.nets.keys) ∧
    (∀ g ∈ missingOutput.gates, ArityOk g) ∧ InputsExist missingOutput.gates missingOutput.nets ∧
    MetricsLB (-2147483648) missingOutput.nets ∧
    (∀ g ∈ missingOutput.gates, g.output ∉ missingOutput.nets.keys) ∧
    (∀ ff ∈ missingOutput.flipflops, ff.d ∉ missingOutput.nets.keys) ∧
    (∃ N c', ∀ fuel, N ≤ fuel → calculateAllScoapMetrics wrap32 fuel missingOutput = .ok c') ∧
    (∀ (m : NetMap) (changed : Bool) (g : Gate), g.output ∉ m.keys →
      ccGate wrap32 m g = .ok m ∧ scGate wrap32 (m, changed) g = (m, changed) ∧
      coGate wrap32 m g = .ok m ∧ soGate wrap32 (m, changed) g = .ok (m, changed)) ∧
    (∀ (m : NetMap) (changed : Bool) (ff : FlipFlop),
      ff.q ∉ m.keys ∨ ff.d ∉ m.keys ∨ ff.clk ∉ m.keys →
      scFlipFlop wrap32 (m, changed) ff = (m, changed) ∧
      soFlipFlop wrap32 (m, changed) ff = (m, changed)) :=
  ⟨arithLB_wrap32, by decide, by unfold ArityOk; decide, by unfold InputsExist; decide,
    by unfold MetricsLB; decide, by decide, by decide,
    absent_outputs_and_ports_are_skipped arithLB_wrap32 missingOutput (by decide)
      (by unfold ArityOk; decide) (by unfold InputsExist; decide) (by unfold MetricsLB; decide)⟩

theorem not_knownTypes {ty : String} (h : ty ∉ knownTypes) :
    ty ≠ "and" ∧ ty ≠ "nand" ∧ ty ≠ "or" ∧ ty ≠ "nor" ∧ ty ≠ "xor" ∧ ty ≠ "xnor" ∧
      ty ≠ "not" ∧ ty ≠ "buf" := by
  unfold knownTypes at h
  simp only [List.mem_cons, List.mem_singleton, List.not_mem_nil, or_false, not_or] at h
  exact h

theorem ccRule_unknown (w : Int → Int) {ty : String} (h : ty ∉ knownTypes)
    (in0 in1 : List Int) : ccRule w ty in0 in1 = .ok none := by
  obtain ⟨a, b, c, d, e, f, g, i⟩ := not_knownTypes h
  unfold ccRule
  rw [if_neg a, if_neg b, if_neg c, if_neg d, if_neg e, if_neg f, if_neg g, if_neg i]

theorem scRule_unknown (w : Int → Int) {ty : String} (h : ty ∉ knownTypes)
    (in0 in1 : List Int) : scRule w ty in0 in1 = (INF, INF) := by
  obtain ⟨a, b, c, d, _, _, g, i⟩ := not_knownTypes h
  unfold scRule
  rw [if_neg a, if_neg b, if_neg c, if_neg d, if_neg g, if_neg i]

theorem coNew_unknown (w : Int → Int) (m : NetMap) {g : Gate} (h : g.type ∉ knownTypes)
    (coY : Int) (i : Nat) : coNew w m g coY i = .ok INF := by
  obtain ⟨a, b, c, d, e, f, g', i'⟩ := not_knownTypes h
  unfold coNew
  rw [if_neg (by rintro (x | x) <;> contradiction),
    if_neg (by rintro (x | x) <;> contradiction),
    if_neg (by rintro (x | x) <;> contradiction),
    if_neg (by rintro (x | x) <;> contradiction)]

theorem soNew_unknown (w : Int → Int) (m : NetMap) {g : Gate} (h : g.type ∉ knownTypes)
    (soY : Int) (i : Nat) : soNew w m g soY i = .ok INF := by
  obtain ⟨a, b, c, d, e, f, g', i'⟩ := not_knownTypes h
  unfold soNew
  rw [if_neg (by rintro (x | x) <;> contradiction),
    if_neg (by rintro (x | x) <;> contradiction),
    if_neg (by rintro (x | x) <;> contradiction)]

/-- A loop whose body returns the state it is given returns that state. -/
theorem sweep_fixed {σ α : Type} (step : σ → α → Except Fault σ) (s : σ) (l : List α)
    (h : ∀ a ∈ l, step s a = .ok s) : sweep step s l = .ok s := by
  induction l with
  | nil => exact sweep_nil step s
  | cons a l ih =>
    rw [sweep_cons_ok (h a (List.mem_cons_self _ _))]
    exact ih (fun b hb => h b (List.mem_cons_of_mem _ hb))

/-- Claim C17. Unknown gate types are a silent skip: for every table whose
sequential controllabilities and observabilities do not exceed `INF` (they
start at `INF` and are only ever lowered), every arithmetic and every gate
whose type is outside the closed set, the step of that gate in the `cc` sweep,
the `sc` sweep, the `co` sweep and the `so` sweep returns without a fault and
leaves the whole table, and the flag `changed`, as they were. -/
theorem unknown_gate_type_is_skipped (w : Int → Int) (m : NetMap) (changed : Bool) (g : Gate)
    (hty : g.type ∉ knownTypes) (hcap : Capped m) :
    ccGate w m g = .ok m ∧ scGate w (m, changed) g = (m, changed) ∧
    coGate w m g = .ok m ∧ soGate w (m, changed) g = .ok (m, changed) := by
  refine ⟨?_, ?_, ?_, ?_⟩
  · unfold ccGate
    split
    · rfl
    · dsimp only
      split
      · rfl
      · rw [ccRule_unknown w hty]
  · unfold scGate
    split
    · rfl
    · rename_i hout
      dsimp only
      split
      · rfl
      · rw [scRule_unknown w hty]
        have hc := hcap g.output (not_not.1 hout)
        have e0 : lowerSc0 (m, changed) g.output INF = (m, changed) := by
          unfold lowerSc0
          rw [if_neg (not_lt.2 hc.1)]
        dsimp only
        rw [e0]
        unfold lowerSc1
        rw [if_neg (not_lt.2 hc.2.1)]
  · unfold coGate
    split
    · rfl
    · split
      · rfl
      · apply sweep_fixed
        intro i _
        unfold coVisit
        dsimp only
        split
        · rfl
        · rename_i hin
          rw [coNew_unknown w m hty]
          dsimp only
          rw [if_neg (not_lt.2 (hcap _ (not_not.1 hin)).2.2.1)]
  · unfold soGate
    split
    · rfl
    · split
      · rfl
      · apply sweep_fixed
        intro i _
        unfold soVisit
        dsimp only
        split
        · rfl
        · rename_i hin
          rw [soNew_unknown w m hty]
          dsimp only
          unfold lowerSo
          rw [if_neg (not_lt.2 (hcap _ (not_not.1 hin)).2.2.2)]

/-- A run of C17 on the table of scenario S1 with a gate of type `mux`. -/
theorem unknown_gate_type_is_skipped_witness :
    "mux" ∉ knownTypes ∧ Capped s1.nets ∧
    ccGate wrap32 s1.nets { name := "u1", type := "mux", inputs := ["p", "q"], output := "y" } =
      .ok s1.nets ∧
    scGate wrap32 (s1.nets, false)
      { name := "u1", type := "mux", inputs := ["p", "q"], output := "y" } = (s1.nets, false) ∧
    coGate wrap32 s1.nets { name := "u1", type := "mux", inputs := ["p", "q"], output := "y" } =
      .ok s1.nets ∧
    soGate wrap32 (s1.nets, false)
      { name := "u1", type := "mux", inputs := ["p", "q"], output := "y" } =
      .ok (s1.nets, false) :=
  ⟨by decide, by unfold Capped; decide,
    unknown_gate_type_is_skipped wrap32 s1.nets false
      { name := "u1", type := "mux", inputs := ["p", "q"], output := "y" } (by decide)
      (by unfold Capped; decide)⟩

/-! ### The cap `INF` holds throughout a run -/

theorem capped_of_sameButLevel {m m' : NetMap} (h : SameButLevel m m') (hc : Capped m) :
    Capped m' := by
  intro k hk
  rw [h.1] at hk
  rw [h.2 k]
  exact hc k hk

theorem capped_of_sameButCC {m m' : NetMap} (h : SameButCC m m') (hc : Capped m) :
    Capped m' := by
  intro k hk
  rw [h.1] at hk
  rw [h.2 k]
  exact hc k hk

theorem capped_of_scMono {m0 : NetMap} {s : NetMap × Bool} (h : ScMono m0 s) (hc : Capped m0) :
    Capped s.1 := by
  intro k hk
  rw [h.frame.1] at hk
  obtain ⟨a, b, c, d⟩ := hc k hk
  refine ⟨le_trans (h.le0 k) a, le_trans (h.le1 k) b, ?_, ?_⟩
  · rw [h.frame.2 k]; exact c
  · rw [h.frame.2 k]; exact d

theorem capped_of_coMono {m0 m : NetMap} (h : CoMono m0 m) (hc : Capped m0) : Capped m := by
  intro k hk
  rw [h.frame.1] at hk
  obtain ⟨a, b, c, d⟩ := hc k hk
  refine ⟨?_, ?_, le_trans (h.le k) c, ?_⟩
  · rw [h.frame.2 k]; exact a
  · rw [h.frame.2 k]; exact b
  · rw [h.frame.2 k]; exact d

theorem capped_of_soMono {m0 : NetMap} {s : NetMap × Bool} (h : SoMono m0 s) (hc : Capped m0) :
    Capped s.1 := by
  intro k hk
  rw [h.frame.1] at hk
  obtain ⟨a, b, c, d⟩ := hc k hk
  refine ⟨?_, ?_, ?_, le_trans (h.le k) d⟩
  · rw [h.frame.2 k]; exact a
  · rw [h.frame.2 k]; exact b
  · rw [h.frame.2 k]; exact c

theorem capped_scInit {m : NetMap} (hc : Capped m) : Capped (scInit m) := by
  intro k hk
  unfold scInit at hk ⊢
  rw [mapValues_keys] at hk
  rw [mapValues_get_mem _ _ hk]
  split
  · exact ⟨INF_nonneg, INF_nonneg, (hc k hk).2.2.1, (hc k hk).2.2.2⟩
  · exact hc k hk

theorem capped_initOutputsCo {c : Circuit} (hc : Capped c.nets) :
    Capped (initOutputsCo c).nets := by
  intro k hk
  rw [(initOutputsCo_frame c).1] at hk
  obtain ⟨a, b, d, e⟩ := hc k hk
  refine ⟨?_, ?_, ?_, ?_⟩
  · rw [(initOutputsCo_frame c).2 k]; exact a
  · rw [(initOutputsCo_frame c).2 k]; exact b
  · rw [initOutputsCo_get]
    split
    · exact INF_nonneg
    · exact d
  · rw [(initOutputsCo_frame c).2 k]; exact e

theorem capped_initOutputsSo {c : Circuit} (hc : Capped c.nets) :
    Capped (initOutputsSo c).nets := by
  intro k hk
  rw [(initOutputsSo_frame c).1] at hk
  obtain ⟨a, b, d, e⟩ := hc k hk
  refine ⟨?_, ?_, ?_, ?_⟩
  · rw [(initOutputsSo_frame c).2 k]; exact a
  · rw [(initOutputsSo_frame c).2 k]; exact b
  · rw [(initOutputsSo_frame c).2 k]; exact d
  · rw [initOutputsSo_get]
    split
    · exact INF_nonneg
    · exact e

theorem capped_of_fresh {m : NetMap} (h : FreshMetrics m) : Capped m := by
  intro k hk
  obtain ⟨_, _, a, b, c, d⟩ := h k hk
  rw [a, b, c, d]
  exact ⟨le_refl _, le_refl _, le_refl _, le_refl _⟩

/-- A table within the cap on entry to the analysis stays within it after
every pass; in particular the cap holds whenever the nets start fresh. -/
theorem calculateAllScoapMetrics_capped {w : Int → Int} {fuel : Nat} {c c' : Circuit}
    (hc : Capped c.nets) (h : calculateAllScoapMetrics w fuel c = .ok c') :
    ∃ c1 c2 c3 c4, calculateNetLevels fuel c = .ok c1 ∧
      calculateCombinationalControllability w c1 = .ok c2 ∧
      calculateSequentialControllability w fuel c2 = .ok c3 ∧
      calculateCombinationalObservability w (initOutputsCo c3) = .ok c4 ∧
      Capped c1.nets ∧ Capped c2.nets ∧ Capped (scInit c2.nets) ∧ Capped c3.nets ∧
      Capped (initOutputsCo c3).nets ∧ Capped c4.nets ∧ Capped (initOutputsSo c4).nets ∧
      Capped c'.nets := by
  obtain ⟨c1, c2, c3, c4, h1, h2, h3, h4, h5, _, _, _, _, fr1, fr2, fr3, _, fr4, _, fr5⟩ :=
    calculateAllScoapMetrics_passes h
  have k1 := capped_of_sameButLevel fr1 hc
  have k2 := capped_of_sameButCC fr2 k1
  have k2' := capped_scInit k2
  have k3 : Capped c3.nets := by
    unfold calculateSequentialControllability at h3
    split at h3
    · rename_i r hr
      injection h3 with h3
      subst h3
      exact (scLoop_induction w c2 Capped
        (fun m hm => capped_of_scMono (scBody_mono w c2 m) hm) k2' hr).1
    · cases h3
  have k3' := capped_initOutputsCo k3
  have k4 := capped_of_coMono fr4 k3'
  have k4' := capped_initOutputsSo k4
  have k5 := capped_of_soMono fr5 k4'
  exact ⟨c1, c2, c3, c4, h1, h2, h3, h4, k1, k2, k2', k3, k3', k4, k4', k5⟩

/-- The list `primaryInputs` is the same after the analysis. -/
theorem calculateAllScoapMetrics_primaryInputs {w : Int → Int} {fuel : Nat} {c c' : Circuit}
    (h : calculateAllScoapMetrics w fuel c = .ok c') : c'.primaryInputs = c.primaryInputs := by
  obtain ⟨c1, c2, c3, c4, h1, h2, h3, h4, h5⟩ := calculateAllScoapMetrics_eq_ok.1 h
  obtain ⟨_, _, p1, _, _⟩ := calculateNetLevels_frame h1
  obtain ⟨_, _, p2, _, _⟩ := calculateCombinationalControllability_frame h2
  obtain ⟨_, _, p3, _, _⟩ := calculateSequentialControllability_frame h3
  obtain ⟨_, _, p4, _, _⟩ := calculateCombinationalObservability_mono h4
  obtain ⟨_, _, p5, _, _⟩ := calculateSequentialObservability_mono h5
  have e3 : (initOutputsCo c3).primaryInputs = c3.primaryInputs := rfl
  have e4 : (initOutputsSo c4).primaryInputs = c4.primaryInputs := rfl
  rw [p5, e4, p4, e3, p3, p2, p1]

/-- Claim C18. The analysis leaves the topology frozen. On a circuit whose
record names are keys, whose gate inputs exist and whose `xor`/`xnor` gates have
two inputs, with metrics above the lower bound of the arithmetic, the analysis
returns; and whenever it returns, the gate list, the flip-flop list,
`primaryInputs`, `primaryOutputs` and the keys of the net table are those it
started with, every net has the `name`, `type`, `drivers`, `loads` and
`drivenByFlipFlop` it started with, and its `level` is the one
`calculateNetLevels` gave it. -/
theorem topology_frozen {w : Int → Int} {B : Int} (hw : ArithLB w B) (c : Circuit)
    (hk : ∀ k ∈ c.nets.keys, (c.nets.get k).name ∈ c.nets.keys)
    (hx : ∀ g ∈ c.gates, (g.type = "xor" ∨ g.type = "xnor") →
      2 ≤ (g.inputs.filter (fun x => x ∈ c.nets.keys)).length)
    (hin : InputsExist c.gates c.nets) (hlb : MetricsLB B c.nets) :
    (∃ N c', ∀ fuel, N ≤ fuel → calculateAllScoapMetrics w fuel c = .ok c') ∧
    ∀ fuel c', calculateAllScoapMetrics w fuel c = .ok c' →
      c'.gates = c.gates ∧ c'.flipflops = c.flipflops ∧
      c'.primaryInputs = c.primaryInputs ∧ c'.primaryOutputs = c.primaryOutputs ∧
      c'.nets.keys = c.nets.keys ∧
      (∀ k, (c'.nets.get k).name = (c.nets.get k).name ∧
        (c'.nets.get k).type = (c.nets.get k).type ∧
        (c'.nets.get k).drivers = (c.nets.get k).drivers ∧
        (c'.nets.get k).loads = (c.nets.get k).loads ∧
        (c'.nets.get k).drivenByFlipFlop = (c.nets.get k).drivenByFlipFlop) ∧
      ∃ c1, calculateNetLevels fuel c = .ok c1 ∧
        ∀ k, (c'.nets.get k).level = (c1.nets.get k).level := by
  refine ⟨calculateAllScoapMetrics_ok hw c hk hx hin hlb, ?_⟩
  intro fuel c' h
  have hp := calculateAllScoapMetrics_primaryInputs h
  obtain ⟨c1, c2, c3, c4, h1, _, _, _, _, ⟨_, _, _, _, G5⟩, ⟨_, _, _, _, F5⟩,
    ⟨_, _, _, _, O5⟩, ⟨_, _, _, _, K5⟩, fr1, fr2, fr3, fr3', fr4, fr4', fr5⟩ :=
    calculateAllScoapMetrics_passes h
  have e5 : (c'.nets, false).1 = c'.nets := rfl
  refine ⟨G5, F5, hp, O5, K5, ?_, c1, h1, ?_⟩
  · intro k
    refine ⟨?_, ?_, ?_, ?_, ?_⟩ <;>
      rw [← e5, fr5.frame.2 k, fr4'.2 k, fr4.frame.2 k, fr3'.2 k, fr3.2 k, fr2.2 k, fr1.2 k]
  · intro k
    rw [← e5, fr5.frame.2 k, fr4'.2 k, fr4.frame.2 k, fr3'.2 k, fr3.2 k, fr2.2 k]

/-- A run of C18 on scenario S4 in 32-bit arithmetic. -/
theorem topology_frozen_witness :
    ArithLB wrap32 (-2147483648) ∧
    (∀ k ∈ s4.nets.keys, (s4.nets.get k).name ∈ s4.nets.keys) ∧
    (∀ g ∈ s4.gates, (g.type = "xor" ∨ g.type = "xnor") →
      2 ≤ (g.inputs.filter (fun x => x ∈ s4.nets.keys)).length) ∧
    InputsExist s4.gates s4.nets ∧ MetricsLB (-2147483648) s4.nets ∧
    (∃ N c', ∀ fuel, N ≤ fuel → calculateAllScoapMetrics wrap32 fuel s4 = .ok c') ∧
    ∀ fuel c', calculateAllScoapMetrics wrap32 fuel s4 = .ok c' →
      c'.gates = s4.gates ∧ c'.flipflops = s4.flipflops ∧
      c'.primaryInputs = s4.primaryInputs ∧ c'.primaryOutputs = s4.primaryOutputs ∧
      c'.nets.keys = s4.nets.keys ∧
      (∀ k, (c'.nets.get k).name = (s4.nets.get k).name ∧
        (c'.nets.get k).type = (s4.nets.get k).type ∧
        (c'.nets.get k).drivers = (s4.nets.get k).drivers ∧
        (c'.nets.get k).loads = (s4.nets.get k).loads ∧
        (c'.nets.get k).drivenByFlipFlop = (s4.nets.get k).drivenByFlipFlop) ∧
      ∃ c1, calculateNetLevels fuel s4 = .ok c1 ∧
        ∀ k, (c'.nets.get k).level = (c1.nets.get k).level :=
  ⟨arithLB_wrap32, s4_names, s4_xor, s4_inputsExist, s4_range,
    topology_frozen arithLB_wrap32 s4 s4_names s4_xor s4_inputsExist s4_range⟩

/-- Claim C19, refuted as stated. After `input a; output y;` the line
`xor g1(y, a);`, an `xor` with one input, is read without an error and its gate
is appended to the gate list (under the name `g1(y,`, the second
blank-separated word of the line); so is the gate of `and g2 (y);`, which has
no input. On the circuit with the one-input `xor` the controllability sweep
collects one input metric and indexes the second. -/
theorem short_gates_are_accepted :
    (∃ c1, parseInstantiation "xor g1(y, a);"
        (declare "output" ["y"] (declare "input" ["a"] emptyCircuit)) = .ok c1 ∧
      c1.gates = [{ name := "g1(y,", type := "xor", inputs := ["a"], output := "y" }] ∧
      calculateAllScoapMetrics id 4 c1 = .error .badIndex ∧
      calculateAllScoapMetrics wrap32 4 c1 = .error .badIndex) ∧
    (∃ c1, parseInstantiation "and g2 (y);"
        (declare "output" ["y"] (declare "input" ["a"] emptyCircuit)) = .ok c1 ∧
      c1.gates = [{ name := "g2", type := "and", inputs := [], output := "y" }]) :=
  ⟨⟨_, rfl, rfl, rfl, rfl⟩, ⟨_, rfl, rfl⟩⟩

/-- Claim C19, amended. The builder checks no arity: for every type that is
not a flip-flop type, every instance name and every circuit built so far, an
instantiation with at least one connection returns without an error and appends
to the gate list the gate with the first connection as output and the others,
however few, as inputs; an instantiation with no connection returns without an
error and leaves the circuit as it was. -/
theorem builder_checks_no_arity (type name : String) (c : Circuit)
    (hty : ¬ (type = "dff" ∨ type = "tff" ∨ type = "jkff" ∨ type = "srff")) :
    (∀ output inputs, ∃ c', instantiate type name (output :: inputs) c = .ok c' ∧
      c'.gates = c.gates ++ [{ name := name, type := type, inputs := inputs, output := output }] ∧
      c'.flipflops = c.flipflops ∧ c'.primaryInputs = c.primaryInputs ∧
      c'.primaryOutputs = c.primaryOutputs) ∧
    instantiate type name [] c = .ok c := by
  constructor
  · intro output inputs
    refine ⟨addGate type name (output :: inputs) c, ?_, rfl, rfl, rfl, rfl⟩
    unfold instantiate
    rw [if_neg hty]
  · unfold instantiate
    rw [if_neg hty]
    rfl

/-- The amended C19 for the type `xor` after `input a; output y;`. -/
theorem builder_checks_no_arity_witness :
    ¬ ("xor" = "dff" ∨ "xor" = "tff" ∨ "xor" = "jkff" ∨ "xor" = "srff") ∧
    (∀ output inputs, ∃ c', instantiate "xor" "g1" (output :: inputs)
        (declare "output" ["y"] (declare "input" ["a"] emptyCircuit)) = .ok c' ∧
      c'.gates = (declare "output" ["y"] (declare "input" ["a"] emptyCircuit)).gates ++
        [{ name := "g1", type := "xor", inputs := inputs, output := output }] ∧
      c'.flipflops = (declare "output" ["y"] (declare "input" ["a"] emptyCircuit)).flipflops ∧
      c'.primaryInputs =
        (declare "output" ["y"] (declare "input" ["a"] emptyCircuit)).primaryInputs ∧
      c'.primaryOutputs =
        (declare "output" ["y"] (declare "input" ["a"] emptyCircuit)).primaryOutputs) ∧
    instantiate "xor" "g1" [] (declare "output" ["y"] (declare "input" ["a"] emptyCircuit)) =
      .ok (declare "output" ["y"] (declare "input" ["a"] emptyCircuit)) :=
  ⟨by decide, builder_checks_no_arity "xor" "g1"
    (declare "output" ["y"] (declare "input" ["a"] emptyCircuit)) (by decide)⟩

/-! ## The sequential controllabilities at the fixpoint -/

theorem minElement_map_mono {α : Type} (l : List α) (f f' : α → Int) (h : ∀ x, f' x ≤ f x) :
    minElement (l.map f') ≤ minElement (l.map f) := by
  cases l with
  | nil => exact le_refl _
  | cons a l =>
    have hmem := @minElement_mem ((a :: l).map f) (by simp)
    obtain ⟨x, hx, e⟩ := List.mem_map.1 hmem
    rw [← e]
    exact le_trans (minElement_le _ (List.mem_map_of_mem f' hx)) (h x)

theorem sum_map_mono {α : Type} (l : List α) (f f' : α → Int) (h : ∀ x, f' x ≤ f x) :
    (l.map f').sum ≤ (l.map f).sum :=
  List.sum_le_sum (fun x _ => h x)

/-- In exact arithmetic the pair computed for a gate does not grow when the
sequential controllabilities of the table shrink. -/
theorem scNew_mono {m m' : NetMap} (h0 : ∀ k, (m'.get k).sc0 ≤ (m.get k).sc0)
    (h1 : ∀ k, (m'.get k).sc1 ≤ (m.get k).sc1) (g : Gate) :
    (scNew m' g).1 ≤ (scNew m g).1 ∧ (scNew m' g).2 ≤ (scNew m g).2 := by
  have a0 := minElement_map_mono g.inputs (fun x => (m.get x).sc0) (fun x => (m'.get x).sc0) h0
  have a1 := minElement_map_mono g.inputs (fun x => (m.get x).sc1) (fun x => (m'.get x).sc1) h1
  have b0 := sum_map_mono g.inputs (fun x => (m.get x).sc0) (fun x => (m'.get x).sc0) h0
  have b1 := sum_map_mono g.inputs (fun x => (m.get x).sc1) (fun x => (m'.get x).sc1) h1
  unfold scNew scRule
  simp only [accumulate_id_eq_sum]
  split
  · exact ⟨a0, b1⟩
  · split
    · exact ⟨b1, a0⟩
    · split
      · exact ⟨b0, a1⟩
      · split
        · exact ⟨a1, b0⟩
        · split
          · cases hi : g.inputs with
            | nil => exact ⟨le_refl _, le_refl _⟩
            | cons x l => exact ⟨h1 x, h0 x⟩
          · split
            · cases hi : g.inputs with
              | nil => exact ⟨le_refl _, le_refl _⟩
              | cons x l => exact ⟨h0 x, h1 x⟩
            · exact ⟨le_refl _, le_refl _⟩

/-- For the six types the sequential chain has a branch for, and the input
counts they need, the pair computed in exact arithmetic is the row of the
specification's table. -/
theorem scNew_eq_table (m : NetMap) (g : Gate) (har : ArityOk g)
    (hty : g.type ∈ ["and", "nand", "or", "nor", "not", "buf"]) :
    scTable g.type (g.inputs.map (fun x => (m.get x).sc0))
      (g.inputs.map (fun x => (m.get x).sc1)) = some (scNew m g) := by
  simp only [List.mem_cons, List.mem_singleton, List.not_mem_nil, or_false] at hty
  unfold scNew
  rcases hty with h | h | h | h | h | h
  · rw [h]; simp [scTable, scRule, accumulate_id_eq_sum, minElement_eq_listMin]
  · rw [h]; simp [scTable, scRule, accumulate_id_eq_sum, minElement_eq_listMin]
  · rw [h]; simp [scTable, scRule, accumulate_id_eq_sum, minElement_eq_listMin]
  · rw [h]; simp [scTable, scRule, accumulate_id_eq_sum, minElement_eq_listMin]
  · have hl := har.2.1 (Or.inl h)
    rw [h]
    match hi : g.inputs, hl with
    | [x], _ => simp [scTable, scRule]
  · have hl := har.2.1 (Or.inr h)
    rw [h]
    match hi : g.inputs, hl with
    | [x], _ => simp [scTable, scRule]

theorem lowerSc0_at (s : NetMap × Bool) (k : String) (v : Int) :
    (((lowerSc0 s k v).1.get k).sc0 = (s.1.get k).sc0 ∨ ((lowerSc0 s k v).1.get k).sc0 = v) ∧
    ((lowerSc0 s k v).1.get k).sc1 = (s.1.get k).sc1 := by
  unfold lowerSc0
  split
  · dsimp only
    rw [modify_get_same]
    exact ⟨Or.inr rfl, rfl⟩
  · exact ⟨Or.inl rfl, rfl⟩

theorem lowerSc1_at (s : NetMap × Bool) (k : String) (v : Int) :
    (((lowerSc1 s k v).1.get k).sc1 = (s.1.get k).sc1 ∨ ((lowerSc1 s k v).1.get k).sc1 = v) ∧
    ((lowerSc1 s k v).1.get k).sc0 = (s.1.get k).sc0 := by
  unfold lowerSc1
  split
  · dsimp only
    rw [modify_get_same]
    exact ⟨Or.inr rfl, rfl⟩
  · exact ⟨Or.inl rfl, rfl⟩

/-- What the step of gate `g` can leave on its output: the value stored before
or the value computed from the table before the step. -/
theorem scGate_at (s : NetMap × Bool) (g : Gate) (hin : ∀ x ∈ g.inputs, x ∈ s.1.keys) :
    (((scGate id s g).1.get g.output).sc0 = (s.1.get g.output).sc0 ∨
      ((scGate id s g).1.get g.output).sc0 = (scNew s.1 g).1) ∧
    (((scGate id s g).1.get g.output).sc1 = (s.1.get g.output).sc1 ∨
      ((scGate id s g).1.get g.output).sc1 = (scNew s.1 g).2) := by
  unfold scGate
  split
  · exact ⟨Or.inl rfl, Or.inl rfl⟩
  · dsimp only
    split
    · exact ⟨Or.inl rfl, Or.inl rfl⟩
    · rw [presentInputs_eq s.1 g hin]
      have a := lowerSc0_at s g.output (scNew s.1 g).1
      have b := lowerSc1_at (lowerSc0 s g.output (scNew s.1 g).1) g.output (scNew s.1 g).2
      unfold scNew at a b ⊢
      constructor
      · rw [b.2]; exact a.1
      · rw [← a.2]; exact b.1

/-- The step from `m` to `m'` keeps the bound `min(INF, new) ≤ stored` at the
output of `g` when it only lowers sequential controllabilities and leaves on the
output of `g` the stored value or the value computed on `m`. -/
theorem fixpoint_bound_step {m m' : NetMap} (g : Gate)
    (h0 : ∀ k, (m'.get k).sc0 ≤ (m.get k).sc0) (h1 : ∀ k, (m'.get k).sc1 ≤ (m.get k).sc1)
    (hv0 : (m'.get g.output).sc0 = (m.get g.output).sc0 ∨
      (m'.get g.output).sc0 = (scNew m g).1)
    (hv1 : (m'.get g.output).sc1 = (m.get g.output).sc1 ∨
      (m'.get g.output).sc1 = (scNew m g).2)
    (hJ : min INF (scNew m g).1 ≤ (m.get g.output).sc0 ∧
      min INF (scNew m g).2 ≤ (m.get g.output).sc1) :
    min INF (scNew m' g).1 ≤ (m'.get g.output).sc0 ∧
      min INF (scNew m' g).2 ≤ (m'.get g.output).sc1 := by
  obtain ⟨a, b⟩ := scNew_mono h0 h1 g
  constructor
  · refine le_trans (min_le_min_left INF a) ?_
    rcases hv0 with e | e
    · rw [e]; exact hJ.1
    · rw [e]; exact min_le_right _ _
  · refine le_trans (min_le_min_left INF b) ?_
    rcases hv1 with e | e
    · rw [e]; exact hJ.2
    · rw [e]; exact min_le_right _ _

/-- An invariant of every step of a left fold is an invariant of the fold. -/
theorem foldl_invariant {σ α : Type} (f : σ → α → σ) (Q : σ → Prop) (l : List α)
    (hstep : ∀ s, ∀ a ∈ l, Q s → Q (f s a)) (s : σ) (hs : Q s) : Q (l.foldl f s) := by
  induction l generalizing s with
  | nil => exact hs
  | cons a l ih =>
    rw [List.foldl_cons]
    exact ih (fun s b hb => hstep s b (List.mem_cons_of_mem _ hb)) _
      (hstep s a (List.mem_cons_self _ _) hs)

/-- One pass of the loop body keeps, for gate `g`, the keys, the bound
`min(INF, new) ≤ stored` at its output and the cap `INF` there. -/
theorem scBody_bound (c : Circuit) (g : Gate)
    (hin : ∀ x ∈ g.inputs, x ∈ c.nets.keys)
    (huniq : ∀ h ∈ c.gates, h.output = g.output → h = g)
    (hff : ∀ ff ∈ c.flipflops, ff.q ≠ g.output) (m : NetMap)
    (hP : m.keys = c.nets.keys ∧
      (min INF (scNew m g).1 ≤ (m.get g.output).sc0 ∧
        min INF (scNew m g).2 ≤ (m.get g.output).sc1) ∧
      (m.get g.output).sc0 ≤ INF ∧ (m.get g.output).sc1 ≤ INF) :
    (scBody id c m).1.keys = c.nets.keys ∧
      (min INF (scNew (scBody id c m).1 g).1 ≤ ((scBody id c m).1.get g.output).sc0 ∧
        min INF (scNew (scBody id c m).1 g).2 ≤ ((scBody id c m).1.get g.output).sc1) ∧
      ((scBody id c m).1.get g.output).sc0 ≤ INF ∧
      ((scBody id c m).1.get g.output).sc1 ≤ INF := by
  have hmono := scBody_mono id c m
  refine ⟨hmono.frame.1.trans hP.1, ?_, le_trans (hmono.le0 _) hP.2.2.1,
    le_trans (hmono.le1 _) hP.2.2.2⟩
  -- the bound is kept by every step of the two sweeps
  have key : (scBody id c m).1.keys = c.nets.keys ∧
      min INF (scNew (scBody id c m).1 g).1 ≤ ((scBody id c m).1.get g.output).sc0 ∧
      min INF (scNew (scBody id c m).1 g).2 ≤ ((scBody id c m).1.get g.output).sc1 := by
    unfold scBody
    apply foldl_invariant (scFlipFlop id)
      (fun s => s.1.keys = c.nets.keys ∧ min INF (scNew s.1 g).1 ≤ (s.1.get g.output).sc0 ∧
        min INF (scNew s.1 g).2 ≤ (s.1.get g.output).sc1)
    · intro s ff hffm hs
      have hm : ScMono s.1 (scFlipFlop id s ff) := scFlipFlop_mono id (scMono_refl s.1 s.2) ff
      refine ⟨(scFlipFlop_keys id s ff).trans hs.1, ?_⟩
      have e := scFlipFlop_get_ne id s ff (hff ff hffm)
      exact fixpoint_bound_step g hm.le0 hm.le1 (Or.inl (by rw [e])) (Or.inl (by rw [e])) hs.2
    · apply foldl_invariant (scGate id)
        (fun s => s.1.keys = c.nets.keys ∧ min INF (scNew s.1 g).1 ≤ (s.1.get g.output).sc0 ∧
          min INF (scNew s.1 g).2 ≤ (s.1.get g.output).sc1)
      · intro s h hh hs
        have hm : ScMono s.1 (scGate id s h) := scGate_mono id (scMono_refl s.1 s.2) h
        refine ⟨(scGate_keys id s h).trans hs.1, ?_⟩
        by_cases e : h.output = g.output
        · have := huniq h (mem_stdSort.1 hh) e
          subst this
          obtain ⟨a, b⟩ := scGate_at s h (by rw [hs.1]; exact hin)
          exact fixpoint_bound_step h hm.le0 hm.le1 a b hs.2
        · have e' := scGate_get_ne id s h e
          exact fixpoint_bound_step g hm.le0 hm.le1 (Or.inl (by rw [e'])) (Or.inl (by rw [e']))
            hs.2
      · exact ⟨hP.1, hP.2.1⟩
  exact key.2

/-! ### The last pass of the loop changes nothing -/

theorem lowerSc0_unchanged {s : NetMap × Bool} {k : String} {v : Int}
    (h : (lowerSc0 s k v).2 = false) : ¬ v < (s.1.get k).sc0 ∧ lowerSc0 s k v = s := by
  unfold lowerSc0 at h ⊢
  split
  · rename_i hlt
    rw [if_pos hlt] at h
    cases h
  · rename_i hlt
    exact ⟨hlt, rfl⟩

theorem lowerSc1_unchanged {s : NetMap × Bool} {k : String} {v : Int}
    (h : (lowerSc1 s k v).2 = false) : ¬ v < (s.1.get k).sc1 ∧ lowerSc1 s k v = s := by
  unfold lowerSc1 at h ⊢
  split
  · rename_i hlt
    rw [if_pos hlt] at h
    cases h
  · rename_i hlt
    exact ⟨hlt, rfl⟩

/-- A gate step that leaves `changed` unset has stored nothing, and the pair it
computed was not below the stored values. -/
theorem scGate_unchanged {s : NetMap × Bool} {g : Gate} (h : (scGate id s g).2 = false) :
    scGate id s g = s ∧
    ((∀ x ∈ g.inputs, x ∈ s.1.keys) → g.output ∈ s.1.keys → g.inputs ≠ [] →
      (s.1.get g.output).sc0 ≤ (scNew s.1 g).1 ∧ (s.1.get g.output).sc1 ≤ (scNew s.1 g).2) := by
  unfold scGate at h ⊢
  split
  · rename_i hout
    exact ⟨rfl, fun _ ho _ => absurd ho hout⟩
  · rename_i hout
    rw [if_neg hout] at h
    dsimp only at h ⊢
    split
    · rename_i hempty
      refine ⟨rfl, fun hin _ hne => ?_⟩
      rw [presentInputs_eq s.1 g hin] at hempty
      simp [hne] at hempty
    · rename_i hempty
      rw [if_neg hempty] at h
      obtain ⟨b1, b2⟩ := lowerSc1_unchanged h
      rw [b2] at h
      obtain ⟨a1, a2⟩ := lowerSc0_unchanged h
      rw [b2, a2]
      refine ⟨rfl, fun hin _ _ => ?_⟩
      rw [a2] at b1
      rw [presentInputs_eq s.1 g hin] at a1 b1
      exact ⟨not_lt.1 a1, not_lt.1 b1⟩

/-- A flip-flop step that leaves `changed` unset has stored nothing, and for a
`dff` with its three nets in the table the values computed were not below the
stored ones. -/
theorem scFlipFlop_unchanged {s : NetMap × Bool} {ff : FlipFlop}
    (h : (scFlipFlop id s ff).2 = false) :
    scFlipFlop id s ff = s ∧
    (ff.type = "dff" → ff.clk ∈ s.1.keys → ff.d ∈ s.1.keys → ff.q ∈ s.1.keys →
      (s.1.get ff.q).sc0 ≤
        (s.1.get ff.d).sc0 + (s.1.get ff.clk).sc0 + (s.1.get ff.clk).sc1 + 1 ∧
      (s.1.get ff.q).sc1 ≤
        (s.1.get ff.d).sc1 + (s.1.get ff.clk).sc0 + (s.1.get ff.clk).sc1 + 1) := by
  unfold scFlipFlop at h ⊢
  split
  · rename_i hk
    refine ⟨rfl, fun _ hc hd hq => ?_⟩
    rcases hk with x | x | x
    · exact absurd hq x
    · exact absurd hd x
    · exact absurd hc x
  · rename_i hk
    rw [if_neg hk] at h
    split
    · rename_i hty
      rw [if_pos hty] at h
      dsimp only at h ⊢
      obtain ⟨b1, b2⟩ := lowerSc1_unchanged h
      rw [b2] at h
      obtain ⟨a1, a2⟩ := lowerSc0_unchanged h
      rw [b2, a2]
      refine ⟨rfl, fun _ _ _ _ => ?_⟩
      rw [a2] at b1
      simp only [id] at a1 b1
      exact ⟨not_lt.1 a1, not_lt.1 b1⟩
    · rename_i hty
      exact ⟨rfl, fun e => absurd e hty⟩

/-- A left fold whose steps either set a flag for good or return their state:
when the flag is unset at the end, no step has changed the state. -/
theorem foldl_unchanged {σ α : Type} (f : σ → α → σ) (flag : σ → Bool) (l : List α)
    (hstep : ∀ s, ∀ a ∈ l, flag (f s a) = false → f s a = s) (s : σ)
    (h : flag (l.foldl f s) = false) :
    l.foldl f s = s ∧ ∀ a ∈ l, flag (f s a) = false := by
  induction l generalizing s with
  | nil => exact ⟨rfl, fun a ha => by cases ha⟩
  | cons a l ih =>
    rw [List.foldl_cons] at h ⊢
    obtain ⟨e, hall⟩ := ih (fun s b hb => hstep s b (List.mem_cons_of_mem _ hb)) (f s a) h
    rw [e] at h
    have ea := hstep s a (List.mem_cons_self _ _) h
    refine ⟨e.trans ea, ?_⟩
    intro b hb
    rcases List.mem_cons.1 hb with x | x
    · rw [x]; exact h
    · have := hall b x
      rw [ea] at this
      exact this

/-- A pass of the loop body that leaves `changed` unset has changed nothing,
and no gate or flip-flop step of it would store anything. -/
theorem scBody_unchanged {c : Circuit} {m : NetMap} (h : (scBody id c m).2 = false) :
    (scBody id c m).1 = m ∧ (∀ g ∈ c.gates, (scGate id (m, false) g).2 = false) ∧
    (∀ ff ∈ c.flipflops, (scFlipFlop id (m, false) ff).2 = false) := by
  unfold scBody at h ⊢
  obtain ⟨e1, h1⟩ := foldl_unchanged (scFlipFlop id) (fun s => s.2) c.flipflops
    (fun s ff _ hf => (scFlipFlop_unchanged hf).1) _ h
  rw [e1] at h ⊢
  obtain ⟨e2, h2⟩ := foldl_unchanged (scGate id) (fun s => s.2) _
    (fun s g _ hf => (scGate_unchanged hf).1) _ h
  rw [e2] at h1 ⊢
  exact ⟨rfl, fun g hg => h2 g (mem_stdSort.2 hg), h1⟩

/-- Claim C20. The sequential-controllability result is the fixpoint of the
gate and flip-flop rules. On a circuit whose gate nets exist, started from fresh
metrics and run in exact arithmetic, `calculateSequentialControllability`
returns, and in its result (i) every gate of type `and`, `nand`, `or`, `nor`,
`not` or `buf` with the input count of its type, whose output net `Y` is not a
primary input, is the output of no other gate and is the `q` of no flip-flop,
has `sc0(Y) = min(INF, f0)` and `sc1(Y) = min(INF, f1)` for the row `(f0, f1)`
of its type, without the `+1`, on the final `sc0`/`sc1` of its inputs; and (ii)
every `dff` whose `clk`, `d` and `q` nets exist has
`sc0(q) ≤ sc0(d) + sc0(clk) + sc1(clk) + 1` and
`sc1(q) ≤ sc1(d) + sc0(clk) + sc1(clk) + 1`. -/
theorem sequential_controllability_fixpoint (c : Circuit)
    (hrefs : ∀ g ∈ c.gates, g.output ∈ c.nets.keys ∧ ∀ x ∈ g.inputs, x ∈ c.nets.keys)
    (hfm : FreshMetrics c.nets) :
    ∃ N c', (∀ fuel, N ≤ fuel → calculateSequentialControllability id fuel c = .ok c') ∧
      (∀ g ∈ c.gates, g.type ∈ ["and", "nand", "or", "nor", "not", "buf"] → ArityOk g →
        (c.nets.get g.output).type ≠ "P" →
        (∀ h ∈ c.gates, h.output = g.output → h = g) →
        (∀ ff ∈ c.flipflops, ff.q ≠ g.output) →
        ∃ f0 f1, scTable g.type (g.inputs.map (fun x => (c'.nets.get x).sc0))
            (g.inputs.map (fun x => (c'.nets.get x).sc1)) = some (f0, f1) ∧
          (c'.nets.get g.output).sc0 = min INF f0 ∧
          (c'.nets.get g.output).sc1 = min INF f1) ∧
      (∀ ff ∈ c.flipflops, ff.type = "dff" → ff.clk ∈ c.nets.keys → ff.d ∈ c.nets.keys →
        ff.q ∈ c.nets.keys →
        (c'.nets.get ff.q).sc0 ≤
          (c'.nets.get ff.d).sc0 + (c'.nets.get ff.clk).sc0 + (c'.nets.get ff.clk).sc1 + 1 ∧
        (c'.nets.get ff.q).sc1 ≤
          (c'.nets.get ff.d).sc1 + (c'.nets.get ff.clk).sc0 + (c'.nets.get ff.clk).sc1 + 1) := by
  have hlb0 : MetricsLB 0 (scInit c.nets) := scInit_lb arithLB_id (freshMetrics_nonneg hfm)
  obtain ⟨r, hr⟩ := scLoop_terminates arithLB_id c (scMeasure 0 (scInit c.nets) + 1)
    (scInit c.nets) hlb0 (Nat.lt_succ_self _)
  -- the last pass changed nothing
  obtain ⟨hkeys, m', _, hflag, hm'⟩ := scLoop_induction id c (fun m => m.keys = c.nets.keys)
    (fun m hm => (scBody_mono id c m).frame.1.trans hm) (mapValues_keys _ _) hr
  obtain ⟨e, hgs, hffs⟩ := scBody_unchanged hflag
  have emr : m' = r := e.symm.trans hm'
  subst emr
  refine ⟨scMeasure 0 (scInit c.nets) + 1, { c with nets := m' }, ?_, ?_, ?_⟩
  · intro fuel hf
    unfold calculateSequentialControllability
    have := scLoop_fuel_mono id c hr (fuel - (scMeasure 0 (scInit c.nets) + 1))
    rw [Nat.add_sub_cancel' hf] at this
    rw [this]
  · intro g hg hty har hP huniq hff
    dsimp only
    have hin : ∀ x ∈ g.inputs, x ∈ c.nets.keys := (hrefs g hg).2
    have hout : g.output ∈ c.nets.keys := (hrefs g hg).1
    have hne : g.inputs ≠ [] := by
      have hty' := hty
      simp only [List.mem_cons, List.mem_singleton, List.not_mem_nil, or_false] at hty'
      intro e0
      rcases hty' with h | h | h | h | h | h
      · have := har.2.2 (Or.inl h); rw [e0] at this; simp at this
      · have := har.2.2 (Or.inr (Or.inl h)); rw [e0] at this; simp at this
      · have := har.2.2 (Or.inr (Or.inr (Or.inl h))); rw [e0] at this; simp at this
      · have := har.2.2 (Or.inr (Or.inr (Or.inr h))); rw [e0] at this; simp at this
      · have := har.2.1 (Or.inl h); rw [e0] at this; simp at this
      · have := har.2.1 (Or.inr h); rw [e0] at this; simp at this
    -- the bound from below, carried through the loop
    have hinit : ((scInit c.nets).get g.output).sc0 = INF ∧
        ((scInit c.nets).get g.output).sc1 = INF := by
      unfold scInit
      rw [mapValues_get_mem _ _ hout, if_neg hP]
      exact ⟨(hfm _ hout).2.2.1, (hfm _ hout).2.2.2.1⟩
    have hstart : (scInit c.nets).keys = c.nets.keys ∧
        (min INF (scNew (scInit c.nets) g).1 ≤ ((scInit c.nets).get g.output).sc0 ∧
          min INF (scNew (scInit c.nets) g).2 ≤ ((scInit c.nets).get g.output).sc1) ∧
        ((scInit c.nets).get g.output).sc0 ≤ INF ∧ ((scInit c.nets).get g.output).sc1 ≤ INF := by
      rw [hinit.1, hinit.2]
      exact ⟨mapValues_keys _ _, ⟨min_le_left _ _, min_le_left _ _⟩, le_refl _, le_refl _⟩
    obtain ⟨⟨_, hJ, hc0, hc1⟩, _⟩ := scLoop_induction id c
      (fun m => m.keys = c.nets.keys ∧
        (min INF (scNew m g).1 ≤ (m.get g.output).sc0 ∧
          min INF (scNew m g).2 ≤ (m.get g.output).sc1) ∧
        (m.get g.output).sc0 ≤ INF ∧ (m.get g.output).sc1 ≤ INF)
      (fun m hm => scBody_bound c g hin huniq hff m hm) hstart hr
    -- the bound from above, from the last pass
    obtain ⟨hu0, hu1⟩ := (scGate_unchanged (hgs g hg)).2
      (by intro x hx; show x ∈ m'.keys; rw [hkeys]; exact hin x hx)
      (by show g.output ∈ m'.keys; rw [hkeys]; exact hout) hne
    exact ⟨(scNew m' g).1, (scNew m' g).2, scNew_eq_table m' g har hty,
      le_antisymm (le_min hc0 hu0) hJ.1, le_antisymm (le_min hc1 hu1) hJ.2⟩
  · intro ff hff hty hclk hd hq
    exact (scFlipFlop_unchanged (hffs ff hff)).2 hty
      (by show ff.clk ∈ m'.keys; rw [hkeys]; exact hclk)
      (by show ff.d ∈ m'.keys; rw [hkeys]; exact hd)
      (by show ff.q ∈ m'.keys; rw [hkeys]; exact hq)

theorem s4_refs : ∀ g ∈ s4.gates, g.output ∈ s4.nets.keys ∧ ∀ x ∈ g.inputs, x ∈ s4.nets.keys := by
  decide

theorem s4_freshMetrics : FreshMetrics s4.nets := by
  unfold FreshMetrics
  decide

/-- A run of C20 on scenario S4, which has a `not` gate and a `dff`. -/
theorem sequential_controllability_fixpoint_witness :
    (∀ g ∈ s4.gates, g.output ∈ s4.nets.keys ∧ ∀ x ∈ g.inputs, x ∈ s4.nets.keys) ∧
    FreshMetrics s4.nets ∧
    ∃ N c', (∀ fuel, N ≤ fuel → calculateSequentialControllability id fuel s4 = .ok c') ∧
      (∀ g ∈ s4.gates, g.type ∈ ["and", "nand", "or", "nor", "not", "buf"] → ArityOk g →
        (s4.nets.get g.output).type ≠ "P" →
        (∀ h ∈ s4.gates, h.output = g.output → h = g) →
        (∀ ff ∈ s4.flipflops, ff.q ≠ g.output) →
        ∃ f0 f1, scTable g.type (g.inputs.map (fun x => (c'.nets.get x).sc0))
            (g.inputs.map (fun x => (c'.nets.get x).sc1)) = some (f0, f1) ∧
          (c'.nets.get g.output).sc0 = min INF f0 ∧
          (c'.nets.get g.output).sc1 = min INF f1) ∧
      (∀ ff ∈ s4.flipflops, ff.type = "dff" → ff.clk ∈ s4.nets.keys → ff.d ∈ s4.nets.keys →
        ff.q ∈ s4.nets.keys →
        (c'.nets.get ff.q).sc0 ≤
          (c'.nets.get ff.d).sc0 + (c'.nets.get ff.clk).sc0 + (c'.nets.get ff.clk).sc1 + 1 ∧
        (c'.nets.get ff.q).sc1 ≤
          (c'.nets.get ff.d).sc1 + (c'.nets.get ff.clk).sc0 + (c'.nets.get ff.clk).sc1 + 1) :=
  ⟨s4_refs, s4_freshMetrics, sequential_controllability_fixpoint s4 s4_refs s4_freshMetrics⟩

/-! ## The inverter chain -/

theorem insertKey_perm (k : String) (l : List String) : (insertKey k l).Perm (k :: l) := by
  induction l with
  | nil => exact List.Perm.refl _
  | cons x xs ih =>
    unfold insertKey
    split
    · exact List.Perm.refl _
    · exact (List.Perm.cons x ih).trans (List.Perm.swap k x xs)

theorem foldr_insertKey_perm (l : List String) : (l.foldr insertKey []).Perm l := by
  induction l with
  | nil => exact List.Perm.refl _
  | cons x xs ih =>
    rw [List.foldr_cons]
    exact (insertKey_perm x _).trans (List.Perm.cons x ih)

/-- A table built from nets with distinct names returns each net under its name. -/
theorem netTable_get_of_mem {l : List Net} (hn : (l.map Net.name).Nodup) {n : Net}
    (h : n ∈ l) : (netTable l).get n.name = n := by
  unfold netTable
  dsimp only
  induction l with
  | nil => cases h
  | cons a l ih =>
    rw [List.map_cons, List.nodup_cons] at hn
    rw [List.find?_cons]
    by_cases e : a.name = n.name
    · have : (a.name == n.name) = true := by simpa using e
      rw [this]
      rcases List.mem_cons.1 h with x | x
      · exact x.symm
      · exact absurd (e ▸ List.mem_map_of_mem Net.name x) hn.1
    · have : (a.name == n.name) = false := by simpa using e
      rw [this]
      rcases List.mem_cons.1 h with x | x
      · exact absurd (x ▸ rfl) e
      · exact ih hn.2 x

theorem chain_keys_perm (nm gn : Nat → String) (k : Nat) :
    (chain nm gn k).nets.keys.Perm ((List.range (k + 1)).map nm) :=
  foldr_insertKey_perm _

theorem chain_mem_keys {nm gn : Nat → String} {k : Nat} {s : String} :
    s ∈ (chain nm gn k).nets.keys ↔ ∃ i, i ≤ k ∧ nm i = s := by
  rw [(chain_keys_perm nm gn k).mem_iff, List.mem_map]
  constructor
  · rintro ⟨i, hi, e⟩
    exact ⟨i, Nat.lt_succ_iff.1 (List.mem_range.1 hi), e⟩
  · rintro ⟨i, hi, e⟩
    exact ⟨i, List.mem_range.2 (Nat.lt_succ_iff.2 hi), e⟩

theorem chain_names_nodup {nm : Nat → String} {k : Nat}
    (hnm : ∀ i, i ≤ k → ∀ j, j ≤ k → nm i = nm j → i = j) :
    ((List.range (k + 1)).map nm).Nodup := by
  apply List.Nodup.map_on _ (List.nodup_range _)
  intro i hi j hj e
  exact hnm i (Nat.lt_succ_iff.1 (List.mem_range.1 hi)) j (Nat.lt_succ_iff.1 (List.mem_range.1 hj)) e

theorem chain_get {nm gn : Nat → String} {k : Nat}
    (hnm : ∀ i, i ≤ k → ∀ j, j ≤ k → nm i = nm j → i = j) {i : Nat} (hi : i ≤ k) :
    (chain nm gn k).nets.get (nm i) = chainNet nm gn k i := by
  have hn : (((List.range (k + 1)).map (chainNet nm gn k)).map Net.name).Nodup := by
    rw [List.map_map]
    exact chain_names_nodup hnm
  exact netTable_get_of_mem hn
    (List.mem_map_of_mem (chainNet nm gn k) (List.mem_range.2 (Nat.lt_succ_iff.2 hi)))

theorem chain_mem_gates {nm gn : Nat → String} {k : Nat} {g : Gate} :
    g ∈ (chain nm gn k).gates ↔ ∃ i, i < k ∧ chainGate nm gn i = g := by
  show g ∈ (List.range k).map (chainGate nm gn) ↔ _
  rw [List.mem_map]
  constructor
  · rintro ⟨i, hi, e⟩
    exact ⟨i, List.mem_range.1 hi, e⟩
  · rintro ⟨i, hi, e⟩
    exact ⟨i, List.mem_range.2 hi, e⟩

/-- The inverter chain is a well-formed circuit when its net names and its gate
names are distinct. -/
theorem chain_wellFormed {nm gn : Nat → String} {k : Nat}
    (hnm : ∀ i, i ≤ k → ∀ j, j ≤ k → nm i = nm j → i = j)
    (hgn : ∀ i, i < k → ∀ j, j < k → gn i = gn j → i = j) : WellFormed (chain nm gn k) := by
  refine ⟨⟨?_, ?_⟩, ?_, ?_, ?_, ?_, ?_⟩
  · exact (chain_keys_perm nm gn k).nodup_iff.2 (chain_names_nodup hnm)
  · intro s hs
    obtain ⟨i, hi, e⟩ := chain_mem_keys.1 hs
    rw [← e, chain_get hnm hi]
    rfl
  · show (((List.range k).map (chainGate nm gn)).map Gate.name).Nodup
    rw [List.map_map]
    apply List.Nodup.map_on _ (List.nodup_range _)
    intro i hi j hj e
    exact hgn i (List.mem_range.1 hi) j (List.mem_range.1 hj) e
  · intro g hg
    obtain ⟨i, hi, e⟩ := chain_mem_gates.1 hg
    subst e
    refine ⟨chain_mem_keys.2 ⟨i + 1, hi, rfl⟩, ?_⟩
    intro x hx
    rw [show (chainGate nm gn i).inputs = [nm i] from rfl, List.mem_singleton] at hx
    exact chain_mem_keys.2 ⟨i, Nat.le_of_lt hi, hx.symm⟩
  · intro s hs g hg
    obtain ⟨j, hj, e⟩ := chain_mem_keys.1 hs
    obtain ⟨i, hi, e'⟩ := chain_mem_gates.1 hg
    subst e e'
    rw [chain_get hnm hj]
    show (if j < k then [gn j] else []).count (gn i) = [nm i].count (nm j)
    by_cases hjk : j < k
    · rw [if_pos hjk, List.count_singleton, List.count_singleton]
      by_cases hij : i = j
      · subst hij; simp
      · have h1 : ¬ gn j = gn i := fun e => hij (hgn j hjk i hi e).symm
        have h2 : ¬ nm i = nm j := fun e => hij (hnm i (Nat.le_of_lt hi) j hj e)
        simp [h1, h2]
    · rw [if_neg hjk, List.count_singleton]
      have h2 : ¬ nm i = nm j := fun e => by
        have := hnm i (Nat.le_of_lt hi) j hj e
        omega
      simp [h2]
  · show (((List.range k).map (chainGate nm gn)).map Gate.output).Nodup
    rw [List.map_map]
    apply List.Nodup.map_on _ (List.nodup_range _)
    intro i hi j hj e
    have := hnm (i + 1) (List.mem_range.1 hi) (j + 1) (List.mem_range.1 hj) e
    omega
  · intro g hg
    obtain ⟨i, hi, e⟩ := chain_mem_gates.1 hg
    subst e
    show isSource ((chain nm gn k).nets.get (nm (i + 1))) = false
    rw [chain_get hnm hi]
    unfold isSource chainNet
    dsimp only
    rw [if_neg (Nat.succ_ne_zero i)]
    split <;> decide

/-! ## The analysis on a well-formed circuit, pass by pass -/

/-- A net that no gate drives keeps the level it has on entry to the loop. -/
theorem levelLoop_untouched (gates : List Gate) (fuel : Nat) (s : LevelState) {m : NetMap}
    (h : levelLoop gates fuel s = .ok m) (k : String) (hk : ∀ g ∈ gates, g.output ≠ k) :
    (m.get k).level = (s.nets.get k).level := by
  refine levelLoop_induction gates (fun t => (t.get k).level = (s.nets.get k).level) ?_
    fuel s rfl h
  intro t gn ht
  rcases levelVisit_nets_cases gates t gn with e | ⟨g, hg, e⟩
  · rw [e]; exact ht
  · rw [e, modify_get_ne _ _ (fun x => hk g hg x.symm)]; exact ht

/-- The levels after the analysis of a well-formed circuit with fresh levels:
primary inputs and flip-flop outputs have level `0`, grounded nets have a
level, and a gate whose output has a level obeys the fan-in recurrence. -/
theorem analysis_levels {c c' : Circuit} {fuel : Nat} (wf : WellFormed c)
    (hfl : FreshLevels c.nets) (hrun : calculateAllScoapMetrics id fuel c = .ok c') :
    (∀ p ∈ c.nets.keys, isSource (c.nets.get p) = true → (c'.nets.get p).level = 0) ∧
    (∀ n, Grounded c n → 0 ≤ (c'.nets.get n).level) ∧
    (∀ g ∈ c.gates, 0 ≤ (c'.nets.get g.output).level → LevelRec c'.nets g) := by
  obtain ⟨c1, c2, c3, c4, h1, _, _, _, _, _, _, _, _, fr1, fr2, fr3, fr3', fr4, fr4', fr5⟩ :=
    calculateAllScoapMetrics_passes hrun
  have hl : ∀ k, (c'.nets.get k).level = (c1.nets.get k).level := by
    intro k
    have e5 : (c'.nets, false).1 = c'.nets := rfl
    rw [← e5, fr5.frame.2 k, fr4'.2 k, fr4.frame.2 k, fr3'.2 k, fr3.2 k, fr2.2 k]
  -- the same levels come out of a run of the leveler with enough fuel
  have h1' := calculateNetLevels_fuel_mono h1 (c.nets.keys.length + c.gates.length)
  obtain ⟨c1', hc1', _, s', inv, hq, hs'⟩ := calculateNetLevels_inv wf hfl
    (fuel + (c.nets.keys.length + c.gates.length)) (by omega)
  rw [h1'] at hc1'
  injection hc1' with hc1'
  subst hc1'
  obtain ⟨c1'', hc1'', hgr, _⟩ := levels_defined_iff_grounded wf hfl
    (fuel + (c.nets.keys.length + c.gates.length)) (by omega)
  rw [h1'] at hc1''
  injection hc1'' with hc1''
  subst hc1''
  have hloop : levelLoop c.gates fuel (levelInit c) = .ok c1.nets := by
    unfold calculateNetLevels at h1
    split at h1
    · rename_i m hm
      injection h1 with h1
      rw [← h1]
      exact hm
    · cases h1
  refine ⟨?_, ?_, ?_⟩
  · intro p hp hsrc
    rw [hl, levelLoop_untouched _ _ _ hloop p, levelInit_level hfl hp, if_pos hsrc]
    intro g hg e
    have := wf.noDrivenSource g hg
    rw [e, hsrc] at this
    cases this
  · intro n hn
    rw [hl]
    exact hgr n hn
  · intro g hg h0
    rw [hl] at h0
    have hr := inv.recur g hg (by rw [hs']; exact h0)
    rw [hs'] at hr
    unfold LevelRec at hr ⊢
    simp only [hl]
    exact hr

/-- The combinational controllabilities after the analysis of a well-formed
circuit in exact arithmetic: `1` on primary inputs and flip-flop outputs, the
row of the table on every levelled gate of the closed set of types. -/
theorem analysis_cc {c c' : Circuit} {fuel : Nat} (wf : WellFormed c)
    (har : ∀ g ∈ c.gates, ArityOk g) (hfl : FreshLevels c.nets)
    (hrun : calculateAllScoapMetrics id fuel c = .ok c') :
    (∀ p ∈ c.nets.keys, isSource (c.nets.get p) = true →
      (c'.nets.get p).cc0 = 1 ∧ (c'.nets.get p).cc1 = 1) ∧
    (∀ g ∈ c.gates, g.type ∈ knownTypes → 0 ≤ (c'.nets.get g.output).level →
      ccTable g.type (g.inputs.map (fun x => (c'.nets.get x).cc0))
        (g.inputs.map (fun x => (c'.nets.get x).cc1)) =
        some ((c'.nets.get g.output).cc0, (c'.nets.get g.output).cc1)) := by
  obtain ⟨_, _, hrec⟩ := analysis_levels wf hfl hrun
  obtain ⟨c1, c2, c3, c4, h1, h2, _, _, _, ⟨G1, _, _, _, _⟩, _, _, ⟨K1, _, _, _, _⟩, fr1, fr2,
    fr3, fr3', fr4, fr4', fr5⟩ := calculateAllScoapMetrics_passes hrun
  have e5 : (c'.nets, false).1 = c'.nets := rfl
  have hl : ∀ k, (c'.nets.get k).level = (c1.nets.get k).level := by
    intro k
    rw [← e5, fr5.frame.2 k, fr4'.2 k, fr4.frame.2 k, fr3'.2 k, fr3.2 k, fr2.2 k]
  have hc0 : ∀ k, (c'.nets.get k).cc0 = (c2.nets.get k).cc0 := by
    intro k
    rw [← e5, fr5.frame.2 k, fr4'.2 k, fr4.frame.2 k, fr3'.2 k, fr3.2 k]
  have hc1 : ∀ k, (c'.nets.get k).cc1 = (c2.nets.get k).cc1 := by
    intro k
    rw [← e5, fr5.frame.2 k, fr4'.2 k, fr4.frame.2 k, fr3'.2 k, fr3.2 k]
  have hrefs1 : ∀ g ∈ c1.gates, g.output ∈ c1.nets.keys ∧ ∀ x ∈ g.inputs, x ∈ c1.nets.keys := by
    intro g hg
    rw [K1]
    exact wf.refs g (G1 ▸ hg)
  have hl0 : ∀ k, ((ccInit c1.nets).get k).level = (c1.nets.get k).level :=
    (ccInit_frame c1.nets).level_eq
  unfold calculateCombinationalControllability at h2
  dsimp only at h2
  split at h2
  · rename_i mf hmf
    injection h2 with h2
    subst h2
    dsimp only at hc0 hc1
    constructor
    · intro p hp hsrc
      have hno : ∀ h ∈ stdSort (levelLess (ccInit c1.nets)) c1.gates, h.output ≠ p := by
        intro h hh e
        have := wf.noDrivenSource h (G1 ▸ mem_stdSort.1 hh)
        rw [e, hsrc] at this
        cases this
      have hsrc1 : isSource (c1.nets.get p) = true := by
        rw [fr1.2 p]
        exact hsrc
      rw [hc0, hc1, sweep_ccGate_untouched _ hno hmf]
      unfold ccInit
      rw [mapValues_get_mem _ _ (K1 ▸ hp), if_pos hsrc1]
      exact ⟨rfl, rfl⟩
    · intro g hg hty h0
      have hr := hrec g hg h0
      simp only [hc0, hc1]
      refine @ccSweep_table (ccInit c1.nets) _ c1.gates _
        (stdSort_perm _ _) (stdSort_levelLess_sorted _ _ (fun g hg => (hrefs1 g hg).1))
        (G1 ▸ wf.singleDriver) hrefs1 hmf g (G1 ▸ hg) (har g hg) hty ?_
      intro x hx
      rw [hl0, hl0, ← hl, ← hl]
      exact (hr.1 x hx).2
  · cases h2

/-- The combinational observabilities after the analysis, in exact arithmetic,
of a well-formed circuit with fresh nets all of whose gates get a level: `0` on
the primary outputs, the minimum of `INF` and the contributions elsewhere. -/
theorem analysis_co {c c' : Circuit} {fuel : Nat} (wf : WellFormed c)
    (hfl : FreshLevels c.nets) (hfm : FreshMetrics c.nets)
    (hrun : calculateAllScoapMetrics id fuel c = .ok c')
    (hall : ∀ g ∈ c.gates, 0 ≤ (c'.nets.get g.output).level) :
    ∀ x ∈ c.nets.keys,
      (x ∈ c.primaryOutputs → (c'.nets.get x).co = 0) ∧
      (x ∉ c.primaryOutputs → (c'.nets.get x).co = coSpec c' x) := by
  have hlb := freshMetrics_nonneg hfm
  obtain ⟨_, _, hrec⟩ := analysis_levels wf hfl hrun
  obtain ⟨c1, c2, c3, c4, h1, h2, h3, h4, h5, ⟨G1, G2, G3, G4, G5⟩, _, ⟨O1, O2, O3, O4, O5⟩,
    ⟨K1, K2, K3, K4, K5⟩, fr1, fr2, fr3, fr3', fr4, fr4', fr5⟩ :=
    calculateAllScoapMetrics_passes hrun
  have e5 : (c'.nets, false).1 = c'.nets := rfl
  have hl : ∀ k, (c'.nets.get k).level = ((initOutputsCo c3).nets.get k).level := by
    intro k
    rw [← e5, fr5.frame.2 k, fr4'.2 k, fr4.frame.2 k]
  intro x hxk
  constructor
  · intro hpo
    exact (outputs_zero hlb hrun hpo hxk).1
  · intro hpo
    have hco0 : ((initOutputsCo c3).nets.get x).co = INF := by
      rw [initOutputsCo_get, if_neg (fun e => hpo (O3 ▸ e.1)), fr3.2 x, fr2.2 x, fr1.2 x]
      exact (hfm x hxk).2.2.2.2.1
    have hk0 : (initOutputsCo c3).nets.keys = c.nets.keys := fr3'.1.trans K3
    have hg0 : (initOutputsCo c3).gates = c.gates := G3
    unfold calculateCombinationalObservability at h4
    split at h4
    · rename_i m4 hm4
      injection h4 with h4
      subst h4
      rw [hg0] at hm4
      have hrefs0 : ∀ g ∈ c.gates, g.output ∈ (initOutputsCo c3).nets.keys ∧
          ∀ y ∈ g.inputs, y ∈ (initOutputsCo c3).nets.keys := by
        intro g hg
        rw [hk0]
        exact wf.refs g hg
      have cinv := coSweep_inv (stdSort_perm _ _)
        (stdSort_levelGreater_sorted _ _ (fun g hg => (hrefs0 g hg).1)) hrefs0
        (by intro g hg y hy
            rw [← hl, ← hl]
            exact ((hrec g hg (hall g hg)).1 y hy).2) hm4
      have key := coInv_spec (c := { initOutputsCo c3 with nets := m4 }) cinv
        (by intro g
            show g ∈ (initOutputsCo c3).gates ↔ _
            rw [hg0]
            exact mem_stdSort.symm) hco0
      have hc0 : ∀ k, (c'.nets.get k).cc0 = (m4.get k).cc0 := by
        intro k; rw [← e5, fr5.frame.2 k, fr4'.2 k]
      have hc1 : ∀ k, (c'.nets.get k).cc1 = (m4.get k).cc1 := by
        intro k; rw [← e5, fr5.frame.2 k, fr4'.2 k]
      have hco : ∀ k, (c'.nets.get k).co = (m4.get k).co := by
        intro k; rw [← e5, fr5.frame.2 k, fr4'.2 k]
      rw [@coSpec_congr { initOutputsCo c3 with nets := m4 } c'
        (G5.trans hg0.symm) hc0 hc1 hco x, hco x]
      exact key
    · cases h4

theorem chain_arity (nm gn : Nat → String) (k : Nat) : ∀ g ∈ (chain nm gn k).gates, ArityOk g := by
  intro g hg
  obtain ⟨i, _, e⟩ := chain_mem_gates.1 hg
  subst e
  refine ⟨fun h => ?_, fun _ => rfl, fun _ => Nat.le_refl 1⟩
  have hx : ¬ ("not" = "xor") := by decide
  have hxn : ¬ ("not" = "xnor") := by decide
  rcases h with h | h
  · exact absurd h hx
  · exact absurd h hxn

theorem chain_freshLevels {nm gn : Nat → String} {k : Nat}
    (hnm : ∀ i, i ≤ k → ∀ j, j ≤ k → nm i = nm j → i = j) :
    FreshLevels (chain nm gn k).nets := by
  intro s hs
  obtain ⟨i, hi, e⟩ := chain_mem_keys.1 hs
  rw [← e, chain_get hnm hi]
  rfl

theorem chain_freshMetrics {nm gn : Nat → String} {k : Nat}
    (hnm : ∀ i, i ≤ k → ∀ j, j ≤ k → nm i = nm j → i = j) :
    FreshMetrics (chain nm gn k).nets := by
  intro s hs
  obtain ⟨i, hi, e⟩ := chain_mem_keys.1 hs
  rw [← e, chain_get hnm hi]
  exact ⟨rfl, rfl, rfl, rfl, rfl, rfl⟩

theorem chain_grounded {nm gn : Nat → String} {k : Nat}
    (hnm : ∀ i, i ≤ k → ∀ j, j ≤ k → nm i = nm j → i = j)
    (hgne : ∀ i, i < k → gn i ≠ "") : ∀ i, i ≤ k → Grounded (chain nm gn k) (nm i) := by
  intro i
  induction i with
  | zero =>
    intro h0
    refine Grounded.source (chain_mem_keys.2 ⟨0, h0, rfl⟩) ?_
    rw [chain_get hnm h0]
    rfl
  | succ i ih =>
    intro hi
    refine @Grounded.gate (chain nm gn k) (chainGate nm gn i)
      (chain_mem_gates.2 ⟨i, hi, rfl⟩) (List.cons_ne_nil _ _) (hgne i hi) ?_
    intro x hx
    rw [show (chainGate nm gn i).inputs = [nm i] from rfl, List.mem_singleton] at hx
    rw [hx]
    exact ih (Nat.le_of_lt hi)

theorem coContribution_chain (m : NetMap) (nm gn : Nat → String) (i p : Nat) :
    coContribution m (chainGate nm gn i) p = (m.get (nm (i + 1))).co + 1 := by
  unfold coContribution
  have ht : (chainGate nm gn i).type = "not" := rfl
  have ho : (chainGate nm gn i).output = nm (i + 1) := rfl
  rw [ht, ho, if_neg (by decide), if_neg (by decide), if_pos (by decide)]

/-- The analysis of an inverter chain with distinct net names and distinct,
non-empty gate names, in exact arithmetic: it returns, net `i` has level `i`
and `cc0 = cc1 = i + 1`, and its observability is `min(INF, k - i)`. -/
theorem chain_analysis {nm gn : Nat → String} {k : Nat}
    (hnm : ∀ i, i ≤ k → ∀ j, j ≤ k → nm i = nm j → i = j)
    (hgn : ∀ i, i < k → ∀ j, j < k → gn i = gn j → i = j)
    (hgne : ∀ i, i < k → gn i ≠ "") :
    ∃ N c', (∀ fuel, N ≤ fuel → calculateAllScoapMetrics id fuel (chain nm gn k) = .ok c') ∧
      ∀ i, i ≤ k → (c'.nets.get (nm i)).level = (i : Int) ∧
        (c'.nets.get (nm i)).cc0 = (i : Int) + 1 ∧ (c'.nets.get (nm i)).cc1 = (i : Int) + 1 ∧
        (c'.nets.get (nm i)).co = min INF ((k : Int) - (i : Int)) := by
  have wf := chain_wellFormed hnm hgn
  have har := chain_arity nm gn k
  have hfl := @chain_freshLevels nm gn k hnm
  have hfm := @chain_freshMetrics nm gn k hnm
  obtain ⟨N, c', hrun⟩ := calculateAllScoapMetrics_ok arithLB_id (chain nm gn k)
    (fun s hs => by rw [wf.keyed.2 s hs]; exact hs) (wellFormed_xor wf har)
    (fun g hg => (wf.refs g hg).2) (freshMetrics_nonneg hfm)
  refine ⟨N, c', hrun, ?_⟩
  have hF := hrun N (le_refl _)
  obtain ⟨hsrc, hgrd, hrec⟩ := analysis_levels wf hfl hF
  obtain ⟨hccs, hcct⟩ := analysis_cc wf har hfl hF
  have hG := chain_grounded hnm hgne
  have hlev0 : ∀ i, i ≤ k → 0 ≤ (c'.nets.get (nm i)).level := fun i hi => hgrd _ (hG i hi)
  have hmem : ∀ i, i < k → chainGate nm gn i ∈ (chain nm gn k).gates :=
    fun i hi => chain_mem_gates.2 ⟨i, hi, rfl⟩
  have hall : ∀ g ∈ (chain nm gn k).gates, 0 ≤ (c'.nets.get g.output).level := by
    intro g hg
    obtain ⟨i, hi, e⟩ := chain_mem_gates.1 hg
    subst e
    exact hlev0 (i + 1) hi
  have hco := analysis_co wf hfl hfm hF hall
  have hkey : ∀ i, i ≤ k → nm i ∈ (chain nm gn k).nets.keys :=
    fun i hi => chain_mem_keys.2 ⟨i, hi, rfl⟩
  have hsrc0 : isSource ((chain nm gn k).nets.get (nm 0)) = true := by
    rw [chain_get hnm (Nat.zero_le k)]
    rfl
  obtain ⟨_, _, _, _, _, _, _, _, _, ⟨_, _, _, _, G5⟩, _⟩ := calculateAllScoapMetrics_passes hF
  -- levels
  have hL : ∀ i, i ≤ k → (c'.nets.get (nm i)).level = (i : Int) := by
    intro i
    induction i with
    | zero =>
      intro h0
      rw [hsrc (nm 0) (hkey 0 h0) hsrc0]
      rfl
    | succ i ih =>
      intro hi
      obtain ⟨x, hx, e⟩ := (hrec (chainGate nm gn i) (hmem i hi) (hlev0 (i + 1) hi)).2
      rw [show (chainGate nm gn i).inputs = [nm i] from rfl, List.mem_singleton] at hx
      rw [hx, show (chainGate nm gn i).output = nm (i + 1) from rfl, ih (Nat.le_of_lt hi)] at e
      rw [e]
      push_cast
      ring
  -- controllabilities
  have hC : ∀ i, i ≤ k → (c'.nets.get (nm i)).cc0 = (i : Int) + 1 ∧
      (c'.nets.get (nm i)).cc1 = (i : Int) + 1 := by
    intro i
    induction i with
    | zero =>
      intro h0
      obtain ⟨a, b⟩ := hccs (nm 0) (hkey 0 h0) hsrc0
      rw [a, b]
      exact ⟨rfl, rfl⟩
    | succ i ih =>
      intro hi
      have ht : ccTable "not" [(c'.nets.get (nm i)).cc0] [(c'.nets.get (nm i)).cc1] =
          some ((c'.nets.get (nm (i + 1))).cc0, (c'.nets.get (nm (i + 1))).cc1) :=
        hcct (chainGate nm gn i) (hmem i hi) (show "not" ∈ knownTypes by decide)
          (hlev0 (i + 1) hi)
      obtain ⟨a, b⟩ := ih (Nat.le_of_lt hi)
      rw [a, b] at ht
      simp [ccTable] at ht
      rw [← ht.1, ← ht.2]
      push_cast
      constructor <;> ring
  -- the contributions to net `i` come from gate `i` alone
  have hcand : ∀ i, i < k → ∀ y, y ∈ coCandidates c' (nm i) ↔
      ((c'.nets.get (nm (i + 1))).co ≠ INF ∧ y = (c'.nets.get (nm (i + 1))).co + 1) := by
    intro i hi y
    rw [mem_coCandidates]
    constructor
    · rintro ⟨g, hg, hne, p, _, hx, hy⟩
      rw [G5] at hg
      obtain ⟨j, hj, e⟩ := chain_mem_gates.1 hg
      subst e
      rw [coContribution_chain] at hy
      have hx' : [nm j].getD p "" = nm i := hx
      have hji : j = i := by
        cases p with
        | zero => exact hnm j (Nat.le_of_lt hj) i (Nat.le_of_lt hi) hx'
        | succ p =>
          rename_i hp
          have : (chainGate nm gn j).inputs.length = 1 := rfl
          omega
      subst hji
      exact ⟨hne, hy⟩
    · rintro ⟨hne, hy⟩
      refine ⟨chainGate nm gn i, G5 ▸ hmem i hi, hne, 0, Nat.one_pos, rfl, ?_⟩
      rw [coContribution_chain]
      exact hy
  -- observabilities, from the output backwards
  have hD : ∀ d, d ≤ k → (c'.nets.get (nm (k - d))).co = min INF (d : Int) := by
    intro d
    induction d with
    | zero =>
      intro _
      show (c'.nets.get (nm k)).co = _
      rw [(hco (nm k) (hkey k (le_refl _))).1 (List.mem_singleton.2 rfl)]
      exact (min_eq_right INF_nonneg).symm
    | succ d ih =>
      intro hd
      have hi : k - (d + 1) < k := by omega
      have hi1 : k - (d + 1) + 1 = k - d := by omega
      have hnpo : nm (k - (d + 1)) ∉ (chain nm gn k).primaryOutputs := by
        intro h
        have := hnm _ (Nat.le_of_lt hi) k (le_refl _) (List.mem_singleton.1 h)
        omega
      have ihd := ih (by omega)
      rw [← hi1] at ihd
      rw [(hco _ (hkey _ (Nat.le_of_lt hi))).2 hnpo]
      unfold coSpec
      by_cases hinf : (c'.nets.get (nm (k - (d + 1) + 1))).co = INF
      · have hnil : coCandidates c' (nm (k - (d + 1))) = [] :=
          List.eq_nil_iff_forall_not_mem.2 (fun y hy => ((hcand _ hi y).1 hy).1 hinf)
        rw [hnil, List.foldl_nil]
        rw [ihd] at hinf
        have hle : INF ≤ (d : Int) := min_eq_left_iff.1 hinf
        refine (min_eq_left ?_).symm
        push_cast
        omega
      · have hval : (c'.nets.get (nm (k - (d + 1) + 1))).co = (d : Int) := by
          rcases min_choice INF (d : Int) with e | e
          · exact absurd (ihd.trans e) hinf
          · exact ihd.trans e
        refine (foldl_min_eq (min_le_left _ _) ?_ ?_).symm
        · intro y hy
          rw [((hcand _ hi y).1 hy).2, hval]
          push_cast
          exact min_le_right _ _
        · rcases min_choice INF (((d + 1 : Nat)) : Int) with e | e
          · exact Or.inl e
          · refine Or.inr ?_
            rw [e]
            refine (hcand _ hi _).2 ⟨hinf, ?_⟩
            rw [hval]
            push_cast
            rfl
  intro i hi
  refine ⟨hL i hi, (hC i hi).1, (hC i hi).2, ?_⟩
  have := hD (k - i) (Nat.sub_le _ _)
  rw [Nat.sub_sub_self hi] at this
  rw [this, Nat.cast_sub hi]

theorem unary_injective (ch : Char) {i j : Nat} (h : unary ch i = unary ch j) : i = j := by
  unfold unary at h
  have := congrArg (fun s => s.data.length) h
  simp only [List.length_replicate] at this
  omega

theorem unary_ne_empty (ch : Char) (i : Nat) : unary ch i ≠ "" := by
  intro h
  have := congrArg (fun s => s.data.length) h
  simp [unary] at this

/-- Claim C14, refuted as stated. In the inverter chain of `k = INF + 1` gates
(nets named by `i + 1` letters `n`, gates by `i + 1` letters `g`) the analysis
in exact arithmetic returns and the observability of the primary input is
`INF`, not `k - 0`: the store into `co` is guarded by `newCO < co`, and a gate
whose output has `co = INF` is passed over. -/
theorem long_chain_observability_stops_at_INF :
    ∃ N c', (∀ fuel, N ≤ fuel →
        calculateAllScoapMetrics id fuel (chain (unary 'n') (unary 'g') 1073741824) = .ok c') ∧
      (c'.nets.get (unary 'n' 0)).co = INF ∧
      (c'.nets.get (unary 'n' 0)).co ≠ (1073741824 : Int) - 0 := by
  obtain ⟨N, c', hrun, h⟩ := @chain_analysis (unary 'n') (unary 'g') 1073741824
    (fun i _ j _ e => unary_injective 'n' e) (fun i _ j _ e => unary_injective 'g' e)
    (fun i _ => unary_ne_empty 'g' i)
  have h0 := (h 0 (Nat.zero_le _)).2.2.2
  have e : min INF (((1073741824 : Nat) : Int) - ((0 : Nat) : Int)) = INF := by
    unfold INF
    decide
  rw [e] at h0
  refine ⟨N, c', hrun, h0, ?_⟩
  rw [h0]
  unfold INF
  decide

/-- Claim C14, amended. Inverter chain: for every `k` with `1 ≤ k ≤ INF`, in
the circuit with distinct nets `n0..nk`, `n0` a primary input, `nk` a primary
output and gate `i` a `not` gate with input `n(i-1)` and output `n(i)` (gate
names distinct and non-empty), the analysis in exact arithmetic returns and
every `i` in `0..k` has `level(n_i) = i`, `cc0(n_i) = cc1(n_i) = i + 1` and
`co(n_i) = k - i`. -/
theorem inverter_chain_metrics (nm gn : Nat → String) (k : Nat) (hk : 1 ≤ k)
    (hINF : (k : Int) ≤ INF)
    (hnm : ∀ i, i ≤ k → ∀ j, j ≤ k → nm i = nm j → i = j)
    (hgn : ∀ i, i < k → ∀ j, j < k → gn i = gn j → i = j)
    (hgne : ∀ i, i < k → gn i ≠ "") :
    ∃ N c', (∀ fuel, N ≤ fuel → calculateAllScoapMetrics id fuel (chain nm gn k) = .ok c') ∧
      ∀ i, i ≤ k → (c'.nets.get (nm i)).level = (i : Int) ∧
        (c'.nets.get (nm i)).cc0 = (i : Int) + 1 ∧ (c'.nets.get (nm i)).cc1 = (i : Int) + 1 ∧
        (c'.nets.get (nm i)).co = (k : Int) - (i : Int) := by
  have _ := hk
  obtain ⟨N, c', hrun, h⟩ := chain_analysis hnm hgn hgne
  refine ⟨N, c', hrun, ?_⟩
  intro i hi
  obtain ⟨a, b, c, d⟩ := h i hi
  refine ⟨a, b, c, ?_⟩
  rw [d]
  apply min_eq_right
  have : (0 : Int) ≤ (i : Int) := Int.ofNat_nonneg i
  omega

/-- The spec's case of the amended C14: scenario S2, `k = 3` with the nets
`p`, `n1`, `n2`, `n3`. -/
theorem inverter_chain_metrics_witness :
    1 ≤ 3 ∧ ((3 : Nat) : Int) ≤ INF ∧
    (∀ i, i ≤ 3 → ∀ j, j ≤ 3 → s2Nets i = s2Nets j → i = j) ∧
    (∀ i, i < 3 → ∀ j, j < 3 → s2Gates i = s2Gates j → i = j) ∧
    (∀ i, i < 3 → s2Gates i ≠ "") ∧
    ∃ N c', (∀ fuel, N ≤ fuel →
        calculateAllScoapMetrics id fuel (chain s2Nets s2Gates 3) = .ok c') ∧
      ∀ i, i ≤ 3 → (c'.nets.get (s2Nets i)).level = (i : Int) ∧
        (c'.nets.get (s2Nets i)).cc0 = (i : Int) + 1 ∧
        (c'.nets.get (s2Nets i)).cc1 = (i : Int) + 1 ∧
        (c'.nets.get (s2Nets i)).co = ((3 : Nat) : Int) - (i : Int) :=
  ⟨by decide, by decide, by decide, by decide, by decide,
    inverter_chain_metrics s2Nets s2Gates 3 (by decide) (by decide) (by decide) (by decide)
      (by decide)⟩

/-- Scenario S2 evaluated: levels `0, 1, 2, 3`, controllabilities `1, 2, 3, 4`
and observabilities `3, 2, 1, 0` on `p`, `n1`, `n2`, `n3`. -/
theorem s2_evaluated :
    ∃ c', calculateAllScoapMetrics id 4 (chain s2Nets s2Gates 3) = .ok c' ∧
      ["p", "n1", "n2", "n3"].map (fun n => (c'.nets.get n).level) = [0, 1, 2, 3] ∧
      ["p", "n1", "n2", "n3"].map (fun n => (c'.nets.get n).cc0) = [1, 2, 3, 4] ∧
      ["p", "n1", "n2", "n3"].map (fun n => (c'.nets.get n).cc1) = [1, 2, 3, 4] ∧
      ["p", "n1", "n2", "n3"].map (fun n => (c'.nets.get n).co) = [3, 2, 1, 0] :=
  ⟨_, rfl, rfl, rfl, rfl, rfl⟩

/-! ## The feedback detector after the leveler -/

/-- After the leveler, started on fresh levels, every net of the table has
level `-1` or a level `≥ 0`. -/
theorem levelLoop_undefined_or_defined (c : Circuit) (hfl : FreshLevels c.nets) (fuel : Nat)
    {m : NetMap} (h : levelLoop c.gates fuel (levelInit c) = .ok m) :
    ∀ k ∈ c.nets.keys, (m.get k).level = -1 ∨ 0 ≤ (m.get k).level := by
  refine levelLoop_induction c.gates
    (fun t => ∀ k ∈ c.nets.keys, (t.get k).level = -1 ∨ 0 ≤ (t.get k).level) ?_ fuel
    (levelInit c) ?_ h
  · intro t gn ht k hk
    rcases levelVisit_nets_cases c.gates t gn with e | ⟨g, _, e⟩
    · rw [e]; exact ht k hk
    · rw [e]
      by_cases hkg : k = g.output
      · right
        rw [hkg, modify_get_same]
        have := maxInLevel_nonneg t.nets g.inputs
        show 0 ≤ maxInLevel t.nets g.inputs + 1
        omega
      · rw [modify_get_ne _ _ hkg]; exact ht k hk
  · intro k hk
    rw [levelInit_level hfl hk]
    split
    · exact Or.inr (le_refl _)
    · exact Or.inl rfl

/-- The detector counts nothing on a table in which every gate with a defined
output level has its inputs strictly below its output. -/
theorem detectFeedbackLoops_zero (c : Circuit)
    (h : ∀ g ∈ c.gates, g.output ∈ c.nets.keys → (c.nets.get g.output).level ≠ -1 →
      ∀ x ∈ g.inputs, (c.nets.get x).level < (c.nets.get g.output).level) :
    detectFeedbackLoops c = 0 := by
  unfold detectFeedbackLoops
  apply foldl_invariant _ (fun n => n = 0) c.gates _ 0 rfl
  intro n g hg hn
  dsimp only
  split
  · exact hn
  · rename_i hout
    split
    · exact hn
    · rename_i hlev
      rw [if_neg]
      · exact hn
      · intro hany
        obtain ⟨x, hx, hd⟩ := List.any_eq_true.1 hany
        have hlt := h g hg (not_not.1 hout) hlev x hx
        have := (of_decide_eq_true hd).2
        omega

/-- Claim C24. On well-formed circuits the feedback detector can never fire:
for every well-formed circuit started with all levels `-1`, `calculateNetLevels`
returns and `detectFeedbackLoops` on its result returns `0`, whether or not the
circuit contains combinational loops. -/
theorem detector_never_fires (c : Circuit) (wf : WellFormed c) (hfl : FreshLevels c.nets)
    (fuel : Nat) (hfuel : c.nets.keys.length + c.gates.length ≤ fuel) :
    ∃ c', calculateNetLevels fuel c = .ok c' ∧ detectFeedbackLoops c' = 0 := by
  obtain ⟨c', hc', hg', s', inv, _, hs'⟩ := calculateNetLevels_inv wf hfl fuel hfuel
  refine ⟨c', hc', ?_⟩
  have hloop : levelLoop c.gates fuel (levelInit c) = .ok c'.nets := by
    unfold calculateNetLevels at hc'
    split at hc'
    · rename_i m hm
      injection hc' with hc'
      rw [← hc']
      exact hm
    · cases hc'
  have hdef := levelLoop_undefined_or_defined c hfl fuel hloop
  apply detectFeedbackLoops_zero
  intro g hg _ hlev x hx
  rw [hg'] at hg
  have h0 : 0 ≤ (c'.nets.get g.output).level := by
    rcases hdef g.output (wf.refs g hg).1 with e | e
    · exact absurd e hlev
    · exact e
  have hr := inv.recur g hg (by rw [hs']; exact h0)
  rw [hs'] at hr
  exact (hr.1 x hx).2

theorem s5_wellFormed : WellFormed s5 :=
  ⟨⟨by decide, by decide⟩, by decide, by decide, by decide, by decide, by decide⟩

theorem s5_freshLevels : FreshLevels s5.nets := by
  unfold FreshLevels
  decide

/-- A run of C24 on scenario S5, whose gate reads its own output. -/
theorem detector_never_fires_witness :
    WellFormed s5 ∧ FreshLevels s5.nets ∧ "y" ∈ s5.nets.keys ∧
    (∀ g ∈ s5.gates, g.output ∈ g.inputs) ∧
    ∃ c', calculateNetLevels 3 s5 = .ok c' ∧ detectFeedbackLoops c' = 0 :=
  ⟨s5_wellFormed, s5_freshLevels, by decide, by decide,
    detector_never_fires s5 s5_wellFormed s5_freshLevels 3 (by decide)⟩

/-! ## Bounds on the stored metrics -/

/-- Fresh metrics respect the lower bound of any arithmetic. -/
theorem freshMetrics_lb {w : Int → Int} {B : Int} (hw : ArithLB w B) {m : NetMap}
    (h : FreshMetrics m) : MetricsLB B m := by
  intro k hk
  obtain ⟨a, b, c, d, e, f⟩ := h k hk
  rw [a, b, c, d, e, f]
  exact ⟨hw.le_INF, hw.le_INF, hw.le_INF, hw.le_INF, hw.le_INF, hw.le_INF⟩

/-- The lower bound of the arithmetic holds of the metrics after the analysis
when it holds before. -/
theorem calculateAllScoapMetrics_lb {w : Int → Int} {B : Int} (hw : ArithLB w B) {fuel : Nat}
    {c c' : Circuit} (hlb : MetricsLB B c.nets)
    (h : calculateAllScoapMetrics w fuel c = .ok c') : MetricsLB B c'.nets := by
  obtain ⟨c1, c2, c3, c4, h1, h2, h3, h4, h5⟩ := calculateAllScoapMetrics_eq_ok.1 h
  obtain ⟨_, _, _, _, fr1⟩ := calculateNetLevels_frame h1
  have lb1 := sameButLevel_lb fr1 hlb
  have lb2 := calculateCombinationalControllability_lb hw lb1 h2
  have lb3 := calculateSequentialControllability_lb hw lb2 h3
  have lb4 := calculateCombinationalObservability_lb hw (initOutputsCo_lb hw lb3) h4
  exact calculateSequentialObservability_lb hw (initOutputsSo_lb hw lb4) h5

/-- Claim C22. Sums overflow and metrics go negative. Each of the two circuits
starts from fresh nets. In `input p; output y; wire a, b; and g1(y, p, a, b);`
the sum stored in `cc1(y)` is `1 + (1 + INF + INF) = 2^31` in unbounded
integers, above `2^31 - 1`, and `-2^31` in 32-bit integers. In `output x;
wire c, z; dff ff1(c, x, z);` the 32-bit dff sums `INF + INF + INF + 1` wrap to
`-1073741826`, which is stored in `sc0(x)` and `sc1(x)`. -/
theorem sums_overflow_on_floating_inputs :
    FreshMetrics overflowAnd.nets ∧ FreshMetrics floatingDff.nets ∧
    (∃ c', calculateAllScoapMetrics id 4 overflowAnd = .ok c' ∧
      (c'.nets.get "y").cc1 = 2147483648 ∧ 2147483647 < (c'.nets.get "y").cc1) ∧
    (∃ c', calculateAllScoapMetrics wrap32 4 overflowAnd = .ok c' ∧
      (c'.nets.get "y").cc1 = -2147483648 ∧ ¬ 0 ≤ (c'.nets.get "y").cc1) ∧
    (∃ c', calculateAllScoapMetrics wrap32 4 floatingDff = .ok c' ∧
      (c'.nets.get "x").sc0 = -1073741826 ∧ (c'.nets.get "x").sc1 = -1073741826 ∧
      ¬ 0 ≤ (c'.nets.get "x").sc0 ∧ ¬ 0 ≤ (c'.nets.get "x").sc1) :=
  ⟨by unfold FreshMetrics; decide, by unfold FreshMetrics; decide,
    ⟨_, rfl, rfl, by decide⟩, ⟨_, rfl, rfl, by decide⟩,
    ⟨_, rfl, rfl, rfl, by decide, by decide⟩⟩

/-- Without overflow the metrics stay non-negative: for every circuit started
from fresh nets (record names keys, gate inputs in the table, two inputs on
`xor`/`xnor` gates) and every arithmetic in which the sum of two non-negative
values is non-negative, as in unbounded integers, the analysis returns and every
stored `cc0`, `cc1`, `sc0`, `sc1`, `co` and `so` is `≥ 0` afterwards. -/
theorem metrics_nonneg_without_overflow {w : Int → Int} (hw : ArithLB w 0) (c : Circuit)
    (hk : ∀ k ∈ c.nets.keys, (c.nets.get k).name ∈ c.nets.keys)
    (hx : ∀ g ∈ c.gates, (g.type = "xor" ∨ g.type = "xnor") →
      2 ≤ (g.inputs.filter (fun x => x ∈ c.nets.keys)).length)
    (hin : InputsExist c.gates c.nets) (hfm : FreshMetrics c.nets) :
    (∃ N c', ∀ fuel, N ≤ fuel → calculateAllScoapMetrics w fuel c = .ok c') ∧
    ∀ fuel c', calculateAllScoapMetrics w fuel c = .ok c' →
      ∀ k ∈ c'.nets.keys, 0 ≤ (c'.nets.get k).cc0 ∧ 0 ≤ (c'.nets.get k).cc1 ∧
        0 ≤ (c'.nets.get k).sc0 ∧ 0 ≤ (c'.nets.get k).sc1 ∧ 0 ≤ (c'.nets.get k).co ∧
        0 ≤ (c'.nets.get k).so := by
  have hlb := freshMetrics_lb hw hfm
  refine ⟨calculateAllScoapMetrics_ok hw c hk hx hin hlb, ?_⟩
  intro fuel c' h
  exact calculateAllScoapMetrics_lb hw hlb h

/-- Claim C23. The sentinel is an upper bound for the guarded metrics: for every
circuit started from fresh nets and every arithmetic, unbounded or 32-bit, the
analysis returns (record names keys, gate inputs in the table, two inputs on
`xor`/`xnor` gates) and after it every net has `sc0 ≤ INF`, `sc1 ≤ INF`,
`co ≤ INF` and `so ≤ INF`. No such bound holds of `cc0` and `cc1`, which are
overwritten without a guard: from fresh nets, `output y; wire a; not g1(y, a);`
ends with `cc0(y) = cc1(y) = INF + 1`. -/
theorem sentinel_bounds_guarded_metrics {w : Int → Int} {B : Int} (hw : ArithLB w B)
    (c : Circuit) (hk : ∀ k ∈ c.nets.keys, (c.nets.get k).name ∈ c.nets.keys)
    (hx : ∀ g ∈ c.gates, (g.type = "xor" ∨ g.type = "xnor") →
      2 ≤ (g.inputs.filter (fun x => x ∈ c.nets.keys)).length)
    (hin : InputsExist c.gates c.nets) (hfm : FreshMetrics c.nets) :
    (∃ N c', ∀ fuel, N ≤ fuel → calculateAllScoapMetrics w fuel c = .ok c') ∧
    (∀ fuel c', calculateAllScoapMetrics w fuel c = .ok c' →
      ∀ k ∈ c'.nets.keys, (c'.nets.get k).sc0 ≤ INF ∧ (c'.nets.get k).sc1 ≤ INF ∧
        (c'.nets.get k).co ≤ INF ∧ (c'.nets.get k).so ≤ INF) ∧
    (FreshMetrics floatingNot.nets ∧
      ∃ c', calculateAllScoapMetrics wrap32 4 floatingNot = .ok c' ∧
        (c'.nets.get "y").cc0 = INF + 1 ∧ (c'.nets.get "y").cc1 = INF + 1 ∧
        INF < (c'.nets.get "y").cc0 ∧ INF < (c'.nets.get "y").cc1) := by
  refine ⟨calculateAllScoapMetrics_ok hw c hk hx hin (freshMetrics_lb hw hfm), ?_,
    by unfold FreshMetrics; decide, _, rfl, rfl, rfl, by decide, by decide⟩
  intro fuel c' h
  obtain ⟨_, _, _, _, _, _, _, _, _, _, _, _, _, _, _, hc⟩ :=
    calculateAllScoapMetrics_capped (capped_of_fresh hfm) h
  exact hc

/-- A run of C23 on scenario S4 in 32-bit arithmetic. -/
theorem sentinel_bounds_guarded_metrics_witness :
    ArithLB wrap32 (-2147483648) ∧
    (∀ k ∈ s4.nets.keys, (s4.nets.get k).name ∈ s4.nets.keys) ∧
    (∀ g ∈ s4.gates, (g.type = "xor" ∨ g.type = "xnor") →
      2 ≤ (g.inputs.filter (fun x => x ∈ s4.nets.keys)).length) ∧
    InputsExist s4.gates s4.nets ∧ FreshMetrics s4.nets ∧
    (∃ N c', ∀ fuel, N ≤ fuel → calculateAllScoapMetrics wrap32 fuel s4 = .ok c') ∧
    (∀ fuel c', calculateAllScoapMetrics wrap32 fuel s4 = .ok c' →
      ∀ k ∈ c'.nets.keys, (c'.nets.get k).sc0 ≤ INF ∧ (c'.nets.get k).sc1 ≤ INF ∧
        (c'.nets.get k).co ≤ INF ∧ (c'.nets.get k).so ≤ INF) ∧
    (FreshMetrics floatingNot.nets ∧
      ∃ c', calculateAllScoapMetrics wrap32 4 floatingNot = .ok c' ∧
        (c'.nets.get "y").cc0 = INF + 1 ∧ (c'.nets.get "y").cc1 = INF + 1 ∧
        INF < (c'.nets.get "y").cc0 ∧ INF < (c'.nets.get "y").cc1) :=
  ⟨arithLB_wrap32, s4_names, s4_xor, s4_inputsExist, s4_freshMetrics,
    sentinel_bounds_guarded_metrics arithLB_wrap32 s4 s4_names s4_xor s4_inputsExist s4_freshMetrics⟩

/-! ## The sequential observabilities at the fixpoint -/

theorem lowerSo_unchanged {s : NetMap × Bool} {k : String} {v : Int}
    (h : (lowerSo s k v).2 = false) : ¬ v < (s.1.get k).so ∧ lowerSo s k v = s := by
  unfold lowerSo at h ⊢
  split
  · rename_i hlt
    rw [if_pos hlt] at h
    cases h
  · rename_i hlt
    exact ⟨hlt, rfl⟩

/-- A flip-flop step that leaves `changed` unset has stored nothing, and for a
`dff` with its three nets in the table and `so(q) ≠ INF` the value computed was
not below the stored one. -/
theorem soFlipFlop_unchanged {w : Int → Int} {s : NetMap × Bool} {ff : FlipFlop}
    (h : (soFlipFlop w s ff).2 = false) :
    soFlipFlop w s ff = s ∧
    (ff.type = "dff" → ff.clk ∈ s.1.keys → ff.d ∈ s.1.keys → ff.q ∈ s.1.keys →
      (s.1.get ff.q).so ≠ INF →
      (s.1.get ff.d).so ≤
        w (w (w ((s.1.get ff.q).so + (s.1.get ff.clk).sc0) + (s.1.get ff.clk).sc1) + 1)) := by
  unfold soFlipFlop at h ⊢
  split
  · rename_i hk
    refine ⟨rfl, fun _ hc hd hq _ => ?_⟩
    rcases hk with x | x | x
    · exact absurd hq x
    · exact absurd hd x
    · exact absurd hc x
  · rename_i hk
    rw [if_neg hk] at h
    split
    · rename_i hinf
      exact ⟨rfl, fun _ _ _ _ e => absurd hinf e⟩
    · rename_i hinf
      rw [if_neg hinf] at h
      split
      · rename_i hty
        rw [if_pos hty] at h
        dsimp only at h ⊢
        obtain ⟨a1, a2⟩ := lowerSo_unchanged h
        exact ⟨a2, fun _ _ _ _ _ => not_lt.1 a1⟩
      · rename_i hty
        exact ⟨rfl, fun e => absurd e hty⟩

/-- A loop whose body either sets a flag for good or returns its state: when
the flag is unset at the end, no step has changed the state. -/
theorem sweep_unchanged {σ α : Type} (step : σ → α → Except Fault σ) (flag : σ → Bool)
    (l : List α) (hstep : ∀ s, ∀ a ∈ l, ∀ s', step s a = .ok s' → flag s' = false → s' = s)
    (s : σ) {r : σ} (h : sweep step s l = .ok r) (hr : flag r = false) :
    r = s ∧ ∀ a ∈ l, step s a = .ok s := by
  induction l generalizing s with
  | nil =>
    rw [sweep_nil] at h
    injection h with h
    exact ⟨h.symm, fun a ha => by cases ha⟩
  | cons a l ih =>
    obtain ⟨s1, h1, h2⟩ := sweep_cons_inv h
    obtain ⟨e, hall⟩ := ih (fun s b hb => hstep s b (List.mem_cons_of_mem _ hb)) s1 h2
    rw [e] at hr
    have e1 := hstep s a (List.mem_cons_self _ _) s1 h1 hr
    rw [e1] at h1 hall e
    refine ⟨e, ?_⟩
    intro b hb
    rcases List.mem_cons.1 hb with x | x
    · rw [x]; exact h1
    · exact hall b x

/-- A visit of an input position that leaves `changed` unset has stored
nothing, and the value computed was not below the stored one. -/
theorem soVisit_unchanged {w : Int → Int} {g : Gate} {soY : Int} {s s' : NetMap × Bool}
    {i : Nat} (h : soVisit w g soY s i = .ok s') (hf : s'.2 = false) :
    s' = s ∧ (g.inputs.getD i "" ∈ s.1.keys →
      ∃ v, soNew w s.1 g soY i = .ok v ∧ (s.1.get (g.inputs.getD i "")).so ≤ v) := by
  unfold soVisit at h
  dsimp only at h
  split at h
  · rename_i hk
    injection h with h
    exact ⟨h.symm, fun e => absurd e hk⟩
  · split at h
    · rename_i v hv
      injection h with h
      rw [← h] at hf
      obtain ⟨a1, a2⟩ := lowerSo_unchanged hf
      rw [a2] at h
      exact ⟨h.symm, fun _ => ⟨v, hv, not_lt.1 a1⟩⟩
    · cases h

/-- A gate step that leaves `changed` unset has stored nothing, and for a gate
whose output is in the table with `so ≠ INF`, at each input position in the
table the value computed was not below the stored one. -/
theorem soGate_unchanged {w : Int → Int} {g : Gate} {s s' : NetMap × Bool}
    (h : soGate w s g = .ok s') (hf : s'.2 = false) :
    s' = s ∧ (g.output ∈ s.1.keys → (s.1.get g.output).so ≠ INF →
      ∀ i, i < g.inputs.length → g.inputs.getD i "" ∈ s.1.keys →
      ∃ v, soNew w s.1 g (s.1.get g.output).so i = .ok v ∧
        (s.1.get (g.inputs.getD i "")).so ≤ v) := by
  unfold soGate at h
  split at h
  · rename_i hk
    injection h with h
    exact ⟨h.symm, fun e => absurd e hk⟩
  · split at h
    · rename_i hinf
      injection h with h
      exact ⟨h.symm, fun _ e => absurd hinf e⟩
    · obtain ⟨e, hall⟩ := sweep_unchanged _ (fun t => t.2) _
        (fun t i _ t' ht hft => (soVisit_unchanged ht hft).1) s h hf
      have hs : s.2 = false := by rw [← e]; exact hf
      refine ⟨e, fun _ _ i hi hik => ?_⟩
      exact (soVisit_unchanged (hall i (List.mem_range.2 hi)) hs).2 hik

/-- A pass of the loop body that leaves `changed` unset has changed nothing,
and no flip-flop or gate step of it would store anything. -/
theorem soBody_unchanged {w : Int → Int} {c : Circuit} {m r : NetMap}
    (h : soBody w c m = .ok (r, false)) :
    r = m ∧ (∀ ff ∈ c.flipflops, (soFlipFlop w (m, false) ff).2 = false) ∧
    (∀ g ∈ c.gates, soGate w (m, false) g = .ok (m, false)) := by
  unfold soBody at h
  dsimp only at h
  obtain ⟨e, hall⟩ := sweep_unchanged (soGate w) (fun t => t.2) _
    (fun t g _ t' ht hft => (soGate_unchanged ht hft).1) _ h rfl
  have hflag : (c.flipflops.foldl (soFlipFlop w) (m, false)).2 = false := by
    rw [← e]
  obtain ⟨e1, h1⟩ := foldl_unchanged (soFlipFlop w) (fun s => s.2) c.flipflops
    (fun s ff _ hf => (soFlipFlop_unchanged hf).1) _ hflag
  rw [e1] at e hall
  refine ⟨congrArg Prod.fst e, h1, ?_⟩
  intro g hg
  exact hall g (mem_stdSort.2 hg)

/-- On return the table is a fixpoint of the loop body: one more pass stores
nothing. This holds for any arithmetic. -/
theorem soLoop_stable {w : Int → Int} {c : Circuit} {n : Nat} {m r : NetMap}
    (h : soLoop w c n m = .ok r) : r.keys = m.keys ∧ soBody w c r = .ok (r, false) := by
  obtain ⟨hk, m', _, hb⟩ := soLoop_induction w c (fun t => t.keys = m.keys)
    (fun t s ht hs => (soBody_mono hs).frame.1.trans ht) rfl h
  obtain ⟨e, _, _⟩ := soBody_unchanged hb
  rw [← e] at hb
  exact ⟨hk, hb⟩

/-- The value offered to input position `i` in exact arithmetic, by gate type. -/
theorem soNew_id_value {m : NetMap} {g : Gate} (hins : ∀ x ∈ g.inputs, x ∈ m.keys)
    (soY : Int) (i : Nat) {v : Int} (hv : soNew id m g soY i = .ok v) :
    ((g.type = "and" ∨ g.type = "nand") →
      v = soY + ((g.inputs.eraseIdx i).map (fun x => (m.get x).sc1)).sum) ∧
    ((g.type = "or" ∨ g.type = "nor") →
      v = soY + ((g.inputs.eraseIdx i).map (fun x => (m.get x).sc0)).sum) ∧
    ((g.type = "not" ∨ g.type = "buf") → v = soY) := by
  unfold soNew at hv
  rw [sumOthers_ok id m Net.sc1 hins i, sumOthers_ok id m Net.sc0 hins i,
    accumulate_id_eq_sum, accumulate_id_eq_sum] at hv
  refine ⟨fun hty => ?_, fun hty => ?_, fun hty => ?_⟩
  · rw [if_pos hty] at hv
    injection hv with hv
    exact hv.symm
  · have h1 : ¬ (g.type = "and" ∨ g.type = "nand") := by
      rcases hty with h | h <;> rw [h] <;> decide
    rw [if_neg h1, if_pos hty] at hv
    injection hv with hv
    exact hv.symm
  · have h1 : ¬ (g.type = "and" ∨ g.type = "nand") := by
      rcases hty with h | h <;> rw [h] <;> decide
    have h2 : ¬ (g.type = "or" ∨ g.type = "nor") := by
      rcases hty with h | h <;> rw [h] <;> decide
    rw [if_neg h1, if_neg h2, if_pos hty] at hv
    injection hv with hv
    exact hv.symm

/-- An `xor` or `xnor` gate offers the sentinel itself to each input. -/
theorem soNew_xor (w : Int → Int) (m : NetMap) (g : Gate)
    (hty : g.type = "xor" ∨ g.type = "xnor") (soY : Int) (i : Nat) :
    soNew w m g soY i = .ok INF := by
  have h1 : ¬ (g.type = "and" ∨ g.type = "nand") := by
    rcases hty with h | h <;> rw [h] <;> decide
  have h2 : ¬ (g.type = "or" ∨ g.type = "nor") := by
    rcases hty with h | h <;> rw [h] <;> decide
  have h3 : ¬ (g.type = "not" ∨ g.type = "buf") := by
    rcases hty with h | h <;> rw [h] <;> decide
  unfold soNew
  rw [if_neg h1, if_neg h2, if_neg h3]

/-- In exact arithmetic the fixpoint gives the plain inequalities. On a circuit
whose gate nets exist, with non-negative metrics and in exact arithmetic,
`calculateSequentialObservability` returns, and in its result one more pass of
the loop body stores nothing; every `dff` whose `clk`, `d` and `q` nets exist
and whose `so(q) ≠ INF` has `so(d) ≤ so(q) + sc0(clk) + sc1(clk) + 1`; every
gate with `so(Y) ≠ INF` has, at each input position `i`,
`so(input i) ≤ so(Y) + Σ sc1` over the other positions for `and`/`nand`, the same
with `sc0` for `or`/`nor`, and `so(input i) ≤ so(Y)` for `not`/`buf`; an
`xor`/`xnor` gate offers the sentinel `INF` itself, which is no contribution. -/
theorem sequential_observability_stable (c : Circuit)
    (hrefs : ∀ g ∈ c.gates, g.output ∈ c.nets.keys ∧ ∀ x ∈ g.inputs, x ∈ c.nets.keys)
    (hlb : MetricsLB 0 c.nets) :
    ∃ N c', (∀ fuel, N ≤ fuel → calculateSequentialObservability id fuel c = .ok c') ∧
      soBody id c c'.nets = .ok (c'.nets, false) ∧
      (∀ ff ∈ c.flipflops, ff.type = "dff" → ff.clk ∈ c.nets.keys → ff.d ∈ c.nets.keys →
        ff.q ∈ c.nets.keys → (c'.nets.get ff.q).so ≠ INF →
        (c'.nets.get ff.d).so ≤
          (c'.nets.get ff.q).so + (c'.nets.get ff.clk).sc0 + (c'.nets.get ff.clk).sc1 + 1) ∧
      (∀ g ∈ c.gates, (c'.nets.get g.output).so ≠ INF → ∀ i, i < g.inputs.length →
        ((g.type = "and" ∨ g.type = "nand") →
          (c'.nets.get (g.inputs.getD i "")).so ≤ (c'.nets.get g.output).so +
            ((g.inputs.eraseIdx i).map (fun x => (c'.nets.get x).sc1)).sum) ∧
        ((g.type = "or" ∨ g.type = "nor") →
          (c'.nets.get (g.inputs.getD i "")).so ≤ (c'.nets.get g.output).so +
            ((g.inputs.eraseIdx i).map (fun x => (c'.nets.get x).sc0)).sum) ∧
        ((g.type = "not" ∨ g.type = "buf") →
          (c'.nets.get (g.inputs.getD i "")).so ≤ (c'.nets.get g.output).so)) ∧
      (∀ g ∈ c.gates, (g.type = "xor" ∨ g.type = "xnor") → ∀ i,
        soNew id c'.nets g (c'.nets.get g.output).so i = .ok INF) := by
  have hin : InputsExist c.gates c.nets := fun g hg => (hrefs g hg).2
  obtain ⟨r, hr⟩ := soLoop_terminates arithLB_id c (soMeasure 0 c.nets + 1) c.nets hin hlb
    (Nat.lt_succ_self _)
  obtain ⟨hkeys, hb⟩ := soLoop_stable hr
  obtain ⟨_, hffs, hgs⟩ := soBody_unchanged hb
  refine ⟨soMeasure 0 c.nets + 1, { c with nets := r }, ?_, hb, ?_, ?_, ?_⟩
  · intro fuel hf
    unfold calculateSequentialObservability
    have := soLoop_fuel_mono id c hr (fuel - (soMeasure 0 c.nets + 1))
    rw [Nat.add_sub_cancel' hf] at this
    rw [this]
  · intro ff hff hty hclk hd hq hinf
    exact (soFlipFlop_unchanged (hffs ff hff)).2 hty
      (by show ff.clk ∈ r.keys; rw [hkeys]; exact hclk)
      (by show ff.d ∈ r.keys; rw [hkeys]; exact hd)
      (by show ff.q ∈ r.keys; rw [hkeys]; exact hq) hinf
  · intro g hg hinf i hi
    have hout : g.output ∈ r.keys := by rw [hkeys]; exact (hrefs g hg).1
    have hins : ∀ x ∈ g.inputs, x ∈ r.keys := by
      intro x hx
      rw [hkeys]
      exact (hrefs g hg).2 x hx
    have hik : g.inputs.getD i "" ∈ r.keys := by
      apply hins
      rw [List.getD_eq_getElem _ _ hi]
      exact List.getElem_mem _
    obtain ⟨v, hv, hle⟩ := (soGate_unchanged (hgs g hg) rfl).2 hout hinf i hi hik
    obtain ⟨a1, a2, a3⟩ := soNew_id_value hins _ i hv
    refine ⟨fun hty => ?_, fun hty => ?_, fun hty => ?_⟩
    · rw [← a1 hty]; exact hle
    · rw [← a2 hty]; exact hle
    · rw [← a3 hty]; exact hle
  · intro g _ hty i
    exact soNew_xor id _ g hty _ i

theorem s4_outputs_refs : ∀ g ∈ (initOutputsSo s4).gates,
    g.output ∈ (initOutputsSo s4).nets.keys ∧ ∀ x ∈ g.inputs, x ∈ (initOutputsSo s4).nets.keys := by
  decide

theorem s4_outputs_nonneg : MetricsLB 0 (initOutputsSo s4).nets := by
  unfold MetricsLB
  decide

/-- A run on scenario S4 with the observability of its primary output set to 0:
the `not` gate and the `dff` both have outputs with `so ≠ INF`. -/
theorem sequential_observability_stable_witness :
    (∀ g ∈ (initOutputsSo s4).gates, g.output ∈ (initOutputsSo s4).nets.keys ∧
      ∀ x ∈ g.inputs, x ∈ (initOutputsSo s4).nets.keys) ∧
    MetricsLB 0 (initOutputsSo s4).nets ∧
    ∃ N c', (∀ fuel, N ≤ fuel →
        calculateSequentialObservability id fuel (initOutputsSo s4) = .ok c') ∧
      soBody id (initOutputsSo s4) c'.nets = .ok (c'.nets, false) ∧
      (∀ ff ∈ (initOutputsSo s4).flipflops, ff.type = "dff" →
        ff.clk ∈ (initOutputsSo s4).nets.keys → ff.d ∈ (initOutputsSo s4).nets.keys →
        ff.q ∈ (initOutputsSo s4).nets.keys → (c'.nets.get ff.q).so ≠ INF →
        (c'.nets.get ff.d).so ≤
          (c'.nets.get ff.q).so + (c'.nets.get ff.clk).sc0 + (c'.nets.get ff.clk).sc1 + 1) ∧
      (∀ g ∈ (initOutputsSo s4).gates, (c'.nets.get g.output).so ≠ INF →
        ∀ i, i < g.inputs.length →
        ((g.type = "and" ∨ g.type = "nand") →
          (c'.nets.get (g.inputs.getD i "")).so ≤ (c'.nets.get g.output).so +
            ((g.inputs.eraseIdx i).map (fun x => (c'.nets.get x).sc1)).sum) ∧
        ((g.type = "or" ∨ g.type = "nor") →
          (c'.nets.get (g.inputs.getD i "")).so ≤ (c'.nets.get g.output).so +
            ((g.inputs.eraseIdx i).map (fun x => (c'.nets.get x).sc0)).sum) ∧
        ((g.type = "not" ∨ g.type = "buf") →
          (c'.nets.get (g.inputs.getD i "")).so ≤ (c'.nets.get g.output).so)) ∧
      (∀ g ∈ (initOutputsSo s4).gates, (g.type = "xor" ∨ g.type = "xnor") → ∀ i,
        soNew id c'.nets g (c'.nets.get g.output).so i = .ok INF) :=
  ⟨s4_outputs_refs, s4_outputs_nonneg,
    sequential_observability_stable (initOutputsSo s4) s4_outputs_refs s4_outputs_nonneg⟩

/-- Claim C21. The `dff` inequality fails on return once an earlier sum has
overflowed. In `output q; wire c0, z0, d; dff ffA(c0, clk, z0);
dff ffB(clk, q, d);`, started from fresh nets in 32-bit arithmetic, every net
named by a flip-flop exists. The analysis returns, and
`calculateSequentialObservability` run on its result returns that result again.
The sum `INF + INF + INF + 1` of `ffA` has wrapped, so
`sc0(clk) = sc1(clk) = -1073741826`; `so(q) = 0` is not `INF` and `so(d) = INF`.
The 32-bit sum `so(q) + sc0(clk) + sc1(clk) + 1` of `ffB` wraps to `2147483645`,
which is not below `INF`, so nothing is stored, while the plain sum is
`-2147483651` and `so(d) ≤ so(q) + sc0(clk) + sc1(clk) + 1` is false. -/
theorem observability_bound_fails_after_overflow :
    FreshMetrics clockedByFloating.nets ∧
    (∀ ff ∈ clockedByFloating.flipflops, ff.type = "dff" ∧
      ff.clk ∈ clockedByFloating.nets.keys ∧ ff.d ∈ clockedByFloating.nets.keys ∧
      ff.q ∈ clockedByFloating.nets.keys) ∧
    ∃ c', calculateAllScoapMetrics wrap32 4 clockedByFloating = .ok c' ∧
      calculateSequentialObservability wrap32 1 c' = .ok c' ∧
      c'.flipflops = clockedByFloating.flipflops ∧
      (c'.nets.get "clk").sc0 = -1073741826 ∧ (c'.nets.get "clk").sc1 = -1073741826 ∧
      (c'.nets.get "q").so = 0 ∧ (c'.nets.get "q").so ≠ INF ∧ (c'.nets.get "d").so = INF ∧
      wrap32 (wrap32 (wrap32 ((c'.nets.get "q").so + (c'.nets.get "clk").sc0) +
        (c'.nets.get "clk").sc1) + 1) = 2147483645 ∧
      (c'.nets.get "q").so + (c'.nets.get "clk").sc0 + (c'.nets.get "clk").sc1 + 1 =
        -2147483651 ∧
      ¬ (c'.nets.get "d").so ≤
        (c'.nets.get "q").so + (c'.nets.get "clk").sc0 + (c'.nets.get "clk").sc1 + 1 :=
  ⟨by unfold FreshMetrics; decide, by decide,
    ⟨_, rfl, rfl, rfl, rfl, rfl, rfl, by decide, rfl, by decide, by decide, by decide⟩⟩

end Scoap
